import Mathlib

/-!
# Label propagation with pointer doubling (`conn::coloring::ccl`)

A shallow embedding of `src/coloring/labelProp.hpp`.  The distributed tuple array is embedded
as one `List T`; the per-rank bucket walks keep the rank, the communicator size and the two
boundary carries of the source as explicit arguments, and the engine (`ccl.compute`) runs them
on a communicator of one rank, where every collective is the identity on the local data.

Machine integers are natural numbers: `pIdtype` is `uint32_t` (values below `2 ^ 32`),
`nodeIdType` is the default `uint64_t`; a node id stored into a partition-id field is reduced
modulo `2 ^ 32`.
-/

namespace conn.coloring

/-- Modelled from the spec: the enumeration `opt_level` of `labelProp_utils.hpp` (not part of
the sources at hand), with the three levels of the table in section 4.5. -/
inductive opt_level where
  | naive
  | stable_partition_removed
  | loadbalanced
  deriving DecidableEq, Repr

/-- Modelled from the spec: the enumeration `cclTupleIds` of `labelProp_utils.hpp`, naming the
three layers of a tuple. -/
inductive cclTupleIds where
  | Pc
  | Pn
  | nId
  deriving DecidableEq, Repr

/-- The tuple `T = std::tuple<pIdtype, pIdtype, nodeIdType>`. -/
structure T where
  Pc : Nat
  Pn : Nat
  nId : Nat
  deriving DecidableEq, Repr, Inhabited

/-- Width of `pIdtype = uint32_t`. -/
def pIdBits : Nat := 32

/-- Width of the default `nodeIdType = uint64_t`. -/
def nIdBits : Nat := 64

/-- The sentinel `MAX_PID = std::numeric_limits<pIdtype>::max()`. -/
def MAX_PID : Nat := 2 ^ pIdBits - 1

/-- The sentinel `MAX_PID2 = std::numeric_limits<pIdtype>::max() - 1`. -/
def MAX_PID2 : Nat := 2 ^ pIdBits - 1 - 1

/-- The sentinel `MAX_NID = std::numeric_limits<nodeIdType>::max()`. -/
def MAX_NID : Nat := 2 ^ nIdBits - 1

/-- Conversion of a node id to `pIdtype` (narrowing to 32 bits). -/
def toPid (v : Nat) : Nat := v % 2 ^ pIdBits

/-- The layer access `std::get<layer>(e)`. -/
def T.get (layer : cclTupleIds) (e : T) : Nat :=
  match layer with
  | cclTupleIds.Pc => e.Pc
  | cclTupleIds.Pn => e.Pn
  | cclTupleIds.nId => e.nId

/-- Modelled from the spec: the comparator `TpleComp<layer>` of `tupleComp.hpp`, which orders
two tuples by one layer. -/
def TpleComp (layer : cclTupleIds) (a b : T) : Prop := a.get layer < b.get layer

instance (layer : cclTupleIds) : DecidableRel (TpleComp layer) :=
  fun a b => inferInstanceAs (Decidable (a.get layer < b.get layer))

/-- Modelled from the spec: the comparator `TpleComp2Layers<l1, l2>` of `tupleComp.hpp`, the
lexicographic order on two layers ("sort by `(nId asc, Pc asc)`"). -/
def TpleComp2Layers (l1 l2 : cclTupleIds) (a b : T) : Prop :=
  a.get l1 < b.get l1 ∨ (a.get l1 = b.get l1 ∧ a.get l2 < b.get l2)

instance (l1 l2 : cclTupleIds) : DecidableRel (TpleComp2Layers l1 l2) :=
  fun a b => inferInstanceAs
    (Decidable (a.get l1 < b.get l1 ∨ (a.get l1 = b.get l1 ∧ a.get l2 < b.get l2)))

/-- Modelled from the spec: the reducer `TpleReduce<layer, op>` of `tupleComp.hpp`; it keeps,
of two tuples, the one whose layer is preferred by `op` (`std::less` keeps the smaller). -/
def TpleReduce (layer : cclTupleIds) (op : Nat → Nat → Bool) (a b : T) : T :=
  if op (a.get layer) (b.get layer) then a else b

/-- Modelled from the spec: the reducer `TpleReduce2Layers<l1, l2, op1, op2>` of
`tupleComp.hpp`: keep the tuple preferred by `op1` on layer `l1`, on a tie the one preferred by
`op2` on layer `l2`. -/
def TpleReduce2Layers (l1 l2 : cclTupleIds) (op1 op2 : Nat → Nat → Bool) (a b : T) : T :=
  if op1 (a.get l1) (b.get l1) then a
  else if op1 (b.get l1) (a.get l1) then b
  else if op2 (a.get l2) (b.get l2) then a
  else b

/-- The functor `std::less`. -/
def less (a b : Nat) : Bool := decide (a < b)

/-- The functor `std::greater`. -/
def greater (a b : Nat) : Bool := decide (b < a)

/-- Modelled from the spec: `mxx::local_reduce(begin, end, f)`, the left fold of `f` over a
range; `d` stands for the value on an empty range, which the source never reads. -/
def local_reduce (f : T → T → T) (d : T) : List T → T
  | [] => d
  | x :: xs => xs.foldl f x

/-- Modelled from the spec: `mxx::sort(begin, end, comp, comm)`: the range comes back ordered
by `comp` (here, an insertion sort, which keeps equal keys in their order). -/
def sort (comp : T → T → Prop) [DecidableRel comp] (xs : List T) : List T :=
  xs.insertionSort (fun a b => ¬ comp b a)

/-- Modelled from the spec: `conn::utils::findRange(it, end, *it, comp)` of
`utils/commonfuncs.hpp`: the maximal run, starting at `it`, of elements equivalent to `val`
under `comp`, returned with the rest of the range. -/
def findRange {α : Type} (comp : α → α → Prop) [DecidableRel comp] (val : α) :
    List α → List α × List α
  | [] => ([], [])
  | y :: ys =>
    if ¬ comp y val ∧ ¬ comp val y then
      ((y :: (findRange comp val ys).1), (findRange comp val ys).2)
    else ([], y :: ys)

/-- The bucket loop shared by the walks of the source,
`for(auto it = begin; it != end;) { equalRange = findRange(it, end, *it, comp); ...;
it = equalRange.second; }`.  The body receives whether the bucket starts at `begin`, whether it
ends at `end`, and the bucket; it returns the tuples it leaves for the bucket and what it
emits.  The first argument bounds the number of buckets (the length of the range suffices). -/
def forEachBucket {α γ β : Type} (comp : α → α → Prop) [DecidableRel comp]
    (body : Bool → Bool → List α → List γ × List β) :
    Nat → Bool → List α → List γ × List β
  | 0, _, _ => ([], [])
  | _ + 1, _, [] => ([], [])
  | fuel + 1, atBegin, x :: xs =>
    let equalRange := findRange comp x (x :: xs)
    let out := body atBegin equalRange.2.isEmpty equalRange.1
    let tl := forEachBucket comp body fuel false equalRange.2
    (out.1 ++ tl.1, out.2 ++ tl.2)

/-- The body of the loop of `updatePn` for one bucket of equal node id. -/
def updatePnBucket (rank size : Nat) (prevMinPc nextMaxPc : T)
    (atBegin atEnd : Bool) (bucket : List T) : List T × List Unit :=
  let thisBucketsMinPcLocal :=
    local_reduce (TpleReduce cclTupleIds.Pc less) default bucket
  let thisBucketsMaxPcLocal :=
    local_reduce (TpleReduce cclTupleIds.Pc greater) default bucket
  let thisBucketsMinPcGlobal :=
    if atBegin then
      (if rank = 0 then thisBucketsMinPcLocal
       else TpleReduce2Layers cclTupleIds.nId cclTupleIds.Pc greater less
              prevMinPc thisBucketsMinPcLocal)
    else thisBucketsMinPcLocal
  let thisBucketsMaxPcGlobal :=
    if atEnd then
      (if rank = size - 1 then thisBucketsMaxPcLocal
       else TpleReduce2Layers cclTupleIds.nId cclTupleIds.Pc less greater
              nextMaxPc thisBucketsMaxPcLocal)
    else thisBucketsMaxPcLocal
  if TpleComp cclTupleIds.Pc thisBucketsMinPcGlobal thisBucketsMaxPcGlobal then
    (bucket.map (fun e => { e with Pn := thisBucketsMinPcGlobal.Pc }), [])
  else
    (bucket.map (fun e => { e with Pn := MAX_PID2 }), [])

/-- The function `ccl::updatePn(begin, end)` on the range of active tuples. -/
def updatePn (rank size : Nat) (prevMinPc nextMaxPc : T) (range : List T) : List T :=
  let sorted := sort (TpleComp2Layers cclTupleIds.nId cclTupleIds.Pc) range
  (forEachBucket (TpleComp cclTupleIds.nId)
    (updatePnBucket rank size prevMinPc nextMaxPc) sorted.length true sorted).1

/-- The body of the loop of `updatePc` for one bucket of equal `Pc`.  It emits `some r` for a
migrating bucket, with `r` the parent request when doubling is on, and nothing for a bucket it
marks stable. -/
def updatePcBucket (DOUBLING : Bool) (rank : Nat) (prevMinPn : T)
    (atBegin _atEnd : Bool) (bucket : List T) : List T × List (Option T) :=
  let thisBucketsMinPnLocal :=
    local_reduce (TpleReduce cclTupleIds.Pn less) default bucket
  let thisBucketsMinPnGlobal :=
    if atBegin then
      (if rank = 0 then thisBucketsMinPnLocal
       else TpleReduce2Layers cclTupleIds.Pc cclTupleIds.Pn greater less
              prevMinPn thisBucketsMinPnLocal)
    else thisBucketsMinPnLocal
  if thisBucketsMinPnGlobal.Pn < MAX_PID2 then
    (bucket.map (fun e => { e with Pc := thisBucketsMinPnGlobal.Pn }),
     [if DOUBLING then some ⟨MAX_PID, MAX_PID, thisBucketsMinPnGlobal.Pn⟩ else none])
  else
    (bucket.map (fun e => { e with Pn := MAX_PID }), [])

/-- What `ccl::updatePc` hands back: the rewritten range, the return value and the tuples it
appended to `parentRequestTupleVector`. -/
structure UpdatePcResult where
  range : List T
  converged : Bool
  parentRequestTupleVector : List T
  deriving DecidableEq, Repr

/-- The function `ccl::updatePc(begin, end, parentRequestTupleVector)`; the flag `converged`
is cleared by every migrating bucket. -/
def updatePc (DOUBLING : Bool) (rank : Nat) (prevMinPn : T) (range : List T) :
    UpdatePcResult :=
  let sorted := sort (TpleComp2Layers cclTupleIds.Pc cclTupleIds.Pn) range
  let walked := forEachBucket (TpleComp cclTupleIds.Pc)
    (updatePcBucket DOUBLING rank prevMinPn) sorted.length true sorted
  { range := walked.1
    converged := walked.2.isEmpty
    parentRequestTupleVector := walked.2.filterMap id }

/-- Step 1 of `doPointerDoubling` for one bucket of equal node id: the tuples with
`Pc = MAX_PID` receive the minimum `Pc` of the bucket as `Pn` and are flipped. -/
def doublingPnBucket (rank : Nat) (prevMinPc : T)
    (atBegin _atEnd : Bool) (bucket : List T) : List T × List Unit :=
  let thisBucketsMinPcLocal :=
    local_reduce (TpleReduce cclTupleIds.Pc less) default bucket
  let thisBucketsMinPcGlobal :=
    if atBegin then
      (if rank = 0 then thisBucketsMinPcLocal
       else TpleReduce2Layers cclTupleIds.nId cclTupleIds.Pc greater less
              prevMinPc thisBucketsMinPcLocal)
    else thisBucketsMinPcLocal
  (bucket.map (fun e =>
    if e.Pc = MAX_PID then
      { Pc := toPid e.nId, Pn := thisBucketsMinPcGlobal.Pc, nId := MAX_NID }
    else e), [])

/-- Step 2 of `doPointerDoubling` for one bucket of equal `Pc`: unless the first tuple of the
bucket is stable, every tuple of the bucket takes the minimum `Pn` as its `Pc`. -/
def doublingPcBucket (rank : Nat) (prevMinPn : T)
    (atBegin _atEnd : Bool) (bucket : List T) : List T × List Unit :=
  let thisBucketsMinPnLocal :=
    local_reduce (TpleReduce cclTupleIds.Pn less) default bucket
  let thisBucketsMinPnGlobal :=
    if atBegin then
      (if rank = 0 then thisBucketsMinPnLocal
       else TpleReduce2Layers cclTupleIds.Pc cclTupleIds.Pn greater less
              prevMinPn thisBucketsMinPnLocal)
    else thisBucketsMinPnLocal
  if (bucket.headD default).Pn ≠ MAX_PID then
    (bucket.map (fun e => { e with Pc := thisBucketsMinPnGlobal.Pn }), [])
  else (bucket, [])

/-- The function `ccl::partitionStableTuples<layer, op>(begin, end)`: `std::partition` by
`op(std::get<layer>(e), max)`; the two halves are returned, the first one is `[begin, mid)`. -/
def partitionStableTuples (layer : cclTupleIds) (op : Nat → Nat → Bool) (max : Nat)
    (range : List T) : List T × List T :=
  range.partition (fun e => op (e.get layer) max)

/-- The function `ccl::doPointerDoubling(beginOffset, parentRequestTupleVector)` on
`tupleVector`. -/
def doPointerDoubling (rank : Nat) (prevMinPc prevMinPn : T) (beginOffset : Nat)
    (parentRequestTupleVector : List T) (tupleVector : List T) : List T :=
  let tupleVector1 := tupleVector ++ parentRequestTupleVector
  let stable := tupleVector1.take beginOffset
  let range := tupleVector1.drop beginOffset
  let sorted1 := sort (TpleComp2Layers cclTupleIds.nId cclTupleIds.Pc) range
  let walked1 := (forEachBucket (TpleComp cclTupleIds.nId)
    (doublingPnBucket rank prevMinPc) sorted1.length true sorted1).1
  let sorted2 := sort (TpleComp2Layers cclTupleIds.Pc cclTupleIds.Pn) walked1
  let walked2 := (forEachBucket (TpleComp cclTupleIds.Pc)
    (doublingPcBucket rank prevMinPn) sorted2.length true sorted2).1
  let halves := partitionStableTuples cclTupleIds.nId (fun a b => decide (a ≠ b)) MAX_NID walked2
  stable ++ halves.1

/-- Modelled from the spec: the comparator `TpleComp<edgeListTIds::src>` on edges. -/
def EdgeCompSrc (a b : Nat × Nat) : Prop := a.1 < b.1

instance : DecidableRel EdgeCompSrc :=
  fun a b => inferInstanceAs (Decidable (a.1 < b.1))

/-- The body of the loop of `convertEdgeListforCCL` for one bucket of edges with the same
source: the self loop, then one tuple for each edge. -/
def convertBucket (_atBegin _atEnd : Bool) (bucket : List (Nat × Nat)) : List T × List Unit :=
  match bucket with
  | [] => ([], [])
  | it :: _ =>
    (({ Pc := toPid it.1, Pn := MAX_PID, nId := it.1 } : T) ::
      bucket.map (fun it2 => ({ Pc := toPid it2.1, Pn := MAX_PID, nId := it2.2 } : T)), [])

/-- The function `ccl::convertEdgeListforCCL(edgeList)`. -/
def convertEdgeListforCCL (edgeList : List (Nat × Nat)) : List T :=
  let sorted := edgeList.insertionSort (fun a b => ¬ EdgeCompSrc b a)
  (forEachBucket EdgeCompSrc convertBucket sorted.length true sorted).1

/-- The engine `ccl<nIdType, OPTIMIZATION, DOUBLING>`: its tuple array and component count. -/
structure ccl where
  tupleVector : List T
  componentCount : Nat
  deriving DecidableEq, Repr

/-- The constructor `ccl(edgeList, c)`; `mxx::distribute_inplace` leaves the array of a single
rank as it is. -/
def ccl.new (edgeList : List (Nat × Nat)) : ccl :=
  { tupleVector := convertEdgeListforCCL edgeList, componentCount := 0 }

/-- The local variables of `runConnectedComponentLabeling` together with `tupleVector`. -/
structure LoopState where
  tupleVector : List T
  distance_begin_mid : Nat
  converged : Bool
  iterCount : Nat
  deriving DecidableEq, Repr

/-- One pass through the body of the `while(!converged)` loop of
`runConnectedComponentLabeling`, on a communicator of one rank (rank `0`, where the carries of
`mxx::exscan` are not read and `mxx::block_decompose_partitions` moves nothing). -/
def iteration (OPTIMIZATION : opt_level) (DOUBLING : Bool) (s : LoopState) : LoopState :=
  let stable := s.tupleVector.take s.distance_begin_mid
  let active := s.tupleVector.drop s.distance_begin_mid
  let active1 := updatePn 0 1 default default active
  let r := updatePc DOUBLING 0 default active1
  let tupleVector2 := stable ++ r.range
  let tupleVector3 :=
    if DOUBLING then
      doPointerDoubling 0 default default s.distance_begin_mid r.parentRequestTupleVector
        tupleVector2
    else tupleVector2
  if ¬ r.converged ∧ (OPTIMIZATION = opt_level.stable_partition_removed ∨
      OPTIMIZATION = opt_level.loadbalanced) then
    let halves := partitionStableTuples cclTupleIds.Pn (fun a b => decide (a = b)) MAX_PID
      (tupleVector3.drop s.distance_begin_mid)
    { tupleVector := tupleVector3.take s.distance_begin_mid ++ halves.1 ++ halves.2
      distance_begin_mid := s.distance_begin_mid + halves.1.length
      converged := r.converged
      iterCount := s.iterCount + 1 }
  else
    { tupleVector := tupleVector3
      distance_begin_mid := s.distance_begin_mid
      converged := r.converged
      iterCount := s.iterCount + 1 }

/-- The loop `while(!converged)` of `runConnectedComponentLabeling`, bounded by a number of
iterations: `none` when the bound is reached before convergence. -/
def whileNotConverged (OPTIMIZATION : opt_level) (DOUBLING : Bool) :
    Nat → LoopState → Option LoopState
  | 0, s => if s.converged then some s else none
  | fuel + 1, s =>
    if s.converged then some s
    else whileNotConverged OPTIMIZATION DOUBLING fuel (iteration OPTIMIZATION DOUBLING s)

/-- The function `ccl::runConnectedComponentLabeling()`. -/
def runConnectedComponentLabeling (OPTIMIZATION : opt_level) (DOUBLING : Bool) (fuel : Nat)
    (tupleVector : List T) : Option LoopState :=
  whileNotConverged OPTIMIZATION DOUBLING fuel
    { tupleVector := tupleVector, distance_begin_mid := 0, converged := false, iterCount := 0 }

/-- Modelled from the spec: `mxx::is_sorted(begin, end, comp, comm)`. -/
def is_sorted (comp : T → T → Prop) [DecidableRel comp] (xs : List T) : Bool :=
  decide (xs.Sorted (fun a b => ¬ comp b a))

/-- Modelled from the spec: `mxx::uniqueCount(begin, end, comp, comm)` of `mxx_extra`: one for
the first element and one for each element that differs, under `comp`, from the one before
it. -/
def uniqueCount (comp : T → T → Prop) [DecidableRel comp] : List T → Nat
  | [] => 0
  | [_] => 1
  | x :: y :: ys => (if comp x y ∨ comp y x then 1 else 0) + uniqueCount comp (y :: ys)

/-- The function `ccl::computeComponentCount()`. -/
def computeComponentCount (c : ccl) : ccl :=
  let tupleVector :=
    if ¬ is_sorted (TpleComp cclTupleIds.Pc) c.tupleVector then
      sort (TpleComp cclTupleIds.Pc) c.tupleVector
    else c.tupleVector
  { tupleVector := tupleVector
    componentCount := uniqueCount (TpleComp cclTupleIds.Pc) tupleVector }

/-- The ways `compute` can fail to return. -/
inductive Failure where
  | assertionFailed
  | notConverged
  deriving DecidableEq, Repr

/-- The function `ccl::compute()`: the assertion on a non-empty array, the labelling loop
(bounded by `fuel` iterations) and the component count. -/
def compute (OPTIMIZATION : opt_level) (DOUBLING : Bool) (fuel : Nat) (c : ccl) :
    Except Failure ccl :=
  if c.tupleVector = [] then Except.error Failure.assertionFailed
  else
    match runConnectedComponentLabeling OPTIMIZATION DOUBLING fuel c.tupleVector with
    | none => Except.error Failure.notConverged
    | some s => Except.ok (computeComponentCount { c with tupleVector := s.tupleVector })

/-- The function `ccl::getComponentCount()`. -/
def getComponentCount (c : ccl) : Nat := c.componentCount

/-! ## Bucket statistics used to state what the walks compute -/

/-- Minimum of a list of numbers (`0` on the empty list). -/
def minOver : List Nat → Nat
  | [] => 0
  | x :: xs => xs.foldl min x

/-- Maximum of a list of numbers (`0` on the empty list). -/
def maxOver : List Nat → Nat
  | [] => 0
  | x :: xs => xs.foldl max x

/-- The tuples of `xs` whose layer `layer` equals `k`: the bucket of `k`. -/
def bucketOf (layer : cclTupleIds) (xs : List T) (k : Nat) : List T :=
  xs.filter (fun u => decide (u.get layer = k))

/-- The minimum `Pc` over the tuples of node `v`: the value `m(v)` of section 4.2. -/
def minPc (xs : List T) (v : Nat) : Nat :=
  minOver ((bucketOf cclTupleIds.nId xs v).map T.Pc)

/-- The maximum `Pc` over the tuples of node `v`. -/
def maxPc (xs : List T) (v : Nat) : Nat :=
  maxOver ((bucketOf cclTupleIds.nId xs v).map T.Pc)

/-- The minimum `Pn` over the tuples of partition `p`: the value `n(p)` of section 4.3. -/
def minPn (xs : List T) (p : Nat) : Nat :=
  minOver ((bucketOf cclTupleIds.Pc xs p).map T.Pn)

/-- What `updatePn` writes into a tuple, in terms of the whole range. -/
def setPn (xs : List T) (e : T) : T :=
  if minPc xs e.nId < maxPc xs e.nId then { e with Pn := minPc xs e.nId }
  else { e with Pn := MAX_PID2 }

/-- What `updatePc` writes into a tuple, in terms of the whole range. -/
def setPc (xs : List T) (e : T) : T :=
  if minPn xs e.Pc < MAX_PID2 then { e with Pc := minPn xs e.Pc }
  else { e with Pn := MAX_PID }

/-- What step 1 of `doPointerDoubling` writes into a tuple, in terms of the whole range. -/
def flipRequest (xs : List T) (e : T) : T :=
  if e.Pc = MAX_PID then { Pc := toPid e.nId, Pn := minPc xs e.nId, nId := MAX_NID }
  else e

/-- What step 2 of `doPointerDoubling` writes into a tuple, in terms of the whole range. -/
def setGrandParent (xs : List T) (e : T) : T :=
  if minPn xs e.Pc ≠ MAX_PID then { e with Pc := minPn xs e.Pc } else e

/-- Sum of the `Pc` fields of an array. -/
def sumPc (xs : List T) : Nat := (xs.map T.Pc).sum

/-- Number of distinct `Pc` values of an array. -/
def distinctPcCount (xs : List T) : Nat := (xs.map T.Pc).dedup.length

/-- The active range after the doubling, given the range `xs` handed to it (the rewritten
tuples followed by the parent requests). -/
def doubled (xs : List T) : List T :=
  ((sort (TpleComp2Layers cclTupleIds.Pc cclTupleIds.Pn)
      ((sort (TpleComp2Layers cclTupleIds.nId cclTupleIds.Pc) xs).map (flipRequest xs))).map
    (setGrandParent
      ((sort (TpleComp2Layers cclTupleIds.nId cclTupleIds.Pc) xs).map (flipRequest xs)))).filter
    (fun e => decide (e.nId ≠ MAX_NID))

/-- The active range after `updatePn`, `updatePc` and the optional doubling of one iteration. -/
def activeAfter (DOUBLING : Bool) (active : List T) : List T :=
  let r := updatePc DOUBLING 0 default (updatePn 0 1 default default active)
  if DOUBLING then doubled (r.range ++ r.parentRequestTupleVector) else r.range

/-- The stable part `[begin, mid)` of the array of a loop state. -/
def stableOf (s : LoopState) : List T := s.tupleVector.take s.distance_begin_mid

/-- The active part `[mid, end)` of the array of a loop state. -/
def activeOf (s : LoopState) : List T := s.tupleVector.drop s.distance_begin_mid

/-- The return value of `updatePc` in an iteration started on the active range `active`. -/
def convergedOn (D : Bool) (active : List T) : Bool :=
  (updatePc D 0 default (updatePn 0 1 default default active)).converged

/-- A tuple that the doubling neither flips nor erases: its `Pc` is not `MAX_PID` and its
`nId` is not `MAX_NID`. -/
def survives (e : T) : Bool := decide (e.Pc ≠ MAX_PID) && decide (e.nId ≠ MAX_NID)

/-- A tuple with its `Pn` field blanked: what `updatePn` reads of a tuple. -/
def blankPn (e : T) : T := { e with Pn := 0 }

/-! ## The graph of the edge list and the notions used to state the invariants -/

/-- Two vertices are adjacent when the edge list holds an edge between them, in either
direction. -/
def Adj (edgeList : List (Nat × Nat)) (a b : Nat) : Prop :=
  (a, b) ∈ edgeList ∨ (b, a) ∈ edgeList

/-- Two vertices are connected when a chain of edges leads from one to the other: they lie in
the same connected component. -/
def Connected (edgeList : List (Nat × Nat)) : Nat → Nat → Prop :=
  Relation.ReflTransGen (Adj edgeList)

/-- The number `p` is the minimum vertex id of the connected component of `v`. -/
def IsCompMin (edgeList : List (Nat × Nat)) (v p : Nat) : Prop :=
  Connected edgeList v p ∧ ∀ w, Connected edgeList v w → p ≤ w

/-- The edge list holds both directions of every edge. -/
def symmetricEdges (edgeList : List (Nat × Nat)) : Prop :=
  ∀ e ∈ edgeList, (e.2, e.1) ∈ edgeList

/-- Every vertex id of the edge list is at most `MAX_PID - 2`. -/
def boundedIds (edgeList : List (Nat × Nat)) : Prop :=
  ∀ e ∈ edgeList, e.1 < MAX_PID2 ∧ e.2 < MAX_PID2

/-- No vertex id of the edge list is `MAX_NID`, and none becomes `MAX_PID` or `MAX_PID2` when
it is stored as a partition id. -/
def avoidsSentinels (edgeList : List (Nat × Nat)) : Prop :=
  ∀ e ∈ edgeList, (toPid e.1 < MAX_PID2 ∧ e.1 ≠ MAX_NID) ∧ (toPid e.2 < MAX_PID2 ∧ e.2 ≠ MAX_NID)

instance (edgeList : List (Nat × Nat)) : Decidable (symmetricEdges edgeList) :=
  inferInstanceAs (Decidable (∀ e ∈ edgeList, (e.2, e.1) ∈ edgeList))

instance (edgeList : List (Nat × Nat)) : Decidable (boundedIds edgeList) :=
  inferInstanceAs (Decidable (∀ e ∈ edgeList, e.1 < MAX_PID2 ∧ e.2 < MAX_PID2))

instance (edgeList : List (Nat × Nat)) : Decidable (avoidsSentinels edgeList) :=
  inferInstanceAs (Decidable (∀ e ∈ edgeList,
    (toPid e.1 < MAX_PID2 ∧ e.1 ≠ MAX_NID) ∧ (toPid e.2 < MAX_PID2 ∧ e.2 ≠ MAX_NID)))

/-- All tuples of node `v` carry the same `Pc`. -/
def NodeAgrees (xs : List T) (v : Nat) : Prop :=
  ∀ u ∈ xs, ∀ u' ∈ xs, u.nId = v → u'.nId = v → u.Pc = u'.Pc

/-- Every node that has a tuple in partition `p` agrees: the partition shares no node with
another partition. -/
def BucketStable (xs : List T) (p : Nat) : Prop :=
  ∀ u ∈ xs, u.Pc = p → NodeAgrees xs u.nId

/-- No tuple of the range carries a sentinel: every `Pc` is below `MAX_PID2` and no `nId` is
`MAX_NID`. -/
def NoSentinel (xs : List T) : Prop :=
  ∀ t ∈ xs, t.Pc < MAX_PID2 ∧ t.nId ≠ MAX_NID

/-- The tuple that `updatePn` followed by `updatePc` makes of a tuple of the active range. -/
def img2 (active : List T) (t : T) : T :=
  setPc (updatePn 0 1 default default active) (setPn active t)

/-- The range on which step 2 of the doubling works: the result of `updatePc` followed by the
parent requests, after step 1. -/
def flipped (active : List T) : List T :=
  ((updatePc true 0 default (updatePn 0 1 default default active)).range ++
    (updatePc true 0 default
      (updatePn 0 1 default default active)).parentRequestTupleVector).map
  (flipRequest
    ((updatePc true 0 default (updatePn 0 1 default default active)).range ++
      (updatePc true 0 default
        (updatePn 0 1 default default active)).parentRequestTupleVector))

/-- The tuple that one iteration makes of a tuple of the active range. -/
def image (DOUBLING : Bool) (active : List T) (t : T) : T :=
  if DOUBLING then setGrandParent (flipped active) (img2 active t) else img2 active t

/-- The invariant of the main loop, for a stable part `S` and an active part `A`, relative to
a relation `C` between partition ids and nodes ("the partition id belongs to the class of the
node") and a relation `L` between nodes that generates the classes. -/
structure LoopInv (C L : Nat → Nat → Prop) (S A : List T) : Prop where
  noSentinel : NoSentinel (S ++ A)
  rel : ∀ t ∈ S ++ A, C t.Pc t.nId
  nodeLabel : ∀ t ∈ S ++ A, ∀ t' ∈ S ++ A, t'.Pc = t.nId → C t'.Pc t.nId
  witness : ∀ v v', L v v' → ∃ t1 t2, t1.Pc = t2.Pc ∧ t1.nId = v ∧ t2.nId = v' ∧
    ((t1 ∈ S ∧ t2 ∈ S) ∨ (t1 ∈ A ∧ t2 ∈ A))
  sepNodes : ∀ t ∈ S, ∀ t' ∈ A, t'.nId ≠ t.nId
  sepLabels : ∀ t ∈ S, ∀ t' ∈ S, t.nId = t'.nId → t.Pc = t'.Pc
  stablePn : ∀ t ∈ S, t.Pn = MAX_PID

/-- The part of the invariant of the main loop that needs no relation: no tuple carries a
sentinel, the stable part shares no node with the active part, a node of the stable part has
one `Pc` there, and every tuple of the stable part is stable. -/
structure SepInv (S A : List T) : Prop where
  noSentinel : NoSentinel (S ++ A)
  sepNodes : ∀ t ∈ S, ∀ t' ∈ A, t'.nId ≠ t.nId
  sepLabels : ∀ t ∈ S, ∀ t' ∈ S, t.nId = t'.nId → t.Pc = t'.Pc
  stablePn : ∀ t ∈ S, t.Pn = MAX_PID

/-- What is required of the two relations: the partition ids related to a node are the same
for all nodes of a class, and two nodes related to one partition id are linked by `L`. -/
structure ClassRel (C L : Nat → Nat → Prop) : Prop where
  coherent : ∀ p q v v', C p v → C p v' → C q v → C q v'
  linked : ∀ p v v', C p v → C p v' → Relation.ReflTransGen L v v'

/-- The stable tuples of an array are closed: a node with a stable tuple has only stable
tuples, all with the same `Pc`, and a partition with a stable tuple has only stable tuples. -/
def StableClosed (xs : List T) : Prop :=
  (∀ t ∈ xs, t.Pn = MAX_PID → ∀ t' ∈ xs, t'.nId = t.nId → t'.Pc = t.Pc ∧ t'.Pn = MAX_PID) ∧
  (∀ t ∈ xs, ∀ t' ∈ xs, t.Pc = t'.Pc → t.Pn = MAX_PID → t'.Pn = MAX_PID)

/-- The array `S ++ A` keeps track of the array `X` it came from: it has the same node ids,
with multiplicity, and for every tuple of `X` a tuple of the same node whose `Pc` is not
larger. -/
structure Tracks (X S A : List T) : Prop where
  nIdPerm : ((S ++ A).map T.nId).Perm (X.map T.nId)
  covered : ∀ t0 ∈ X, ∃ t ∈ S ++ A, t.nId = t0.nId ∧ t.Pc ≤ t0.Pc

/-- Two nodes are linked by the array `X` when `X` holds a tuple of each in one partition. -/
def tupleLink (X : List T) (v v' : Nat) : Prop :=
  ∃ t ∈ X, ∃ t' ∈ X, t.Pc = t'.Pc ∧ t.nId = v ∧ t'.nId = v'

/-- The partition id `p` belongs to the class of node `v` in the array `X`: a chain of links
leads from a node of partition `p` of `X` to `v`. -/
def tupleClass (X : List T) (p v : Nat) : Prop :=
  ∃ t0 ∈ X, t0.Pc = p ∧ Relation.ReflTransGen (tupleLink X) t0.nId v

/-- The number `v` is a vertex of the edge list: an endpoint of one of its edges. -/
def IsVertex (edgeList : List (Nat × Nat)) (v : Nat) : Prop :=
  ∃ e ∈ edgeList, e.1 = v ∨ e.2 = v

/-- The list `reps` holds exactly one vertex of every connected component of the graph of the
edge list. -/
def IsTransversal (edgeList : List (Nat × Nat)) (reps : List Nat) : Prop :=
  reps.Nodup ∧ (∀ r ∈ reps, IsVertex edgeList r) ∧
  (∀ v, IsVertex edgeList v → ∃ r ∈ reps, Connected edgeList v r) ∧
  (∀ r ∈ reps, ∀ r' ∈ reps, Connected edgeList r r' → r = r')

/-- The graph of the edge list has `n` connected components. -/
def HasComponentCount (edgeList : List (Nat × Nat)) (n : Nat) : Prop :=
  ∃ reps, IsTransversal edgeList reps ∧ reps.length = n

/-- One `union` of the sequential union-find, on the function that gives the representative
of every vertex: the class of `e.2` is merged into the class of `e.1`. -/
def unionStep (find : Nat → Nat) (e : Nat × Nat) : Nat → Nat :=
  if find e.1 = find e.2 then find
  else fun x => if find x = find e.2 then find e.1 else find x

/-- The reference sequential union-find of the testable properties: every vertex starts as
its own representative and the edges are united one after the other; the result gives the
representative of every vertex. -/
def unionFind (edgeList : List (Nat × Nat)) : Nat → Nat :=
  edgeList.foldl unionStep id

/-! ## The ingest in the words of the specification -/

/-- The edge list as `convertEdgeListforCCL` walks it: sorted by source vertex. -/
def sortedBySrc (edgeList : List (Nat × Nat)) : List (Nat × Nat) :=
  edgeList.insertionSort (fun a b => ¬ EdgeCompSrc b a)

/-- The source vertices of the edge list, each once, in ascending order: one for every maximal
run of edges with the same source in the sorted edge list. -/
def sources (edgeList : List (Nat × Nat)) : List Nat :=
  ((sortedBySrc edgeList).map Prod.fst).dedup

/-- The run of the edges with source `u` in the sorted edge list, in their order there. -/
def runOf (edgeList : List (Nat × Nat)) (u : Nat) : List (Nat × Nat) :=
  (sortedBySrc edgeList).filter (fun e => decide (e.1 = u))

/-- What the specification has the ingest emit for the run of source `u`: the self-loop triple
once, then one triple for every edge of the run, in order.  The function `narrow` is what a
vertex id becomes in the `Pc` field: the identity in the words of the specification. -/
def emitRun (narrow : Nat → Nat) (u : Nat) (run : List (Nat × Nat)) : List T :=
  ⟨narrow u, MAX_PID, u⟩ :: run.map (fun e => ⟨narrow u, MAX_PID, e.2⟩)

/-- The ingest in the words of the specification: the triples of the runs of the sorted edge
list, run after run. -/
def ingestByRuns (narrow : Nat → Nat) (edgeList : List (Nat × Nat)) : List T :=
  (sources edgeList).flatMap (fun u => emitRun narrow u (runOf edgeList u))

/-- The vertex ids of the edge list, each once. -/
def vertexIds (edgeList : List (Nat × Nat)) : List Nat :=
  (edgeList.map Prod.fst ++ edgeList.map Prod.snd).dedup

/-- The partition ids of a range, each once, in ascending order: one for every bucket of the
walk of `updatePc`. -/
def partitionIds (range : List T) : List Nat :=
  ((sort (TpleComp2Layers cclTupleIds.Pc cclTupleIds.Pn) range).map T.Pc).dedup

/-! ## The order relations handed to the sort are total and transitive -/

instance sortRel_total2 (l1 l2 : cclTupleIds) :
    IsTotal T (fun a b => ¬ TpleComp2Layers l1 l2 b a) :=
  ⟨fun a b => by
    unfold TpleComp2Layers
    by_cases h : b.get l1 < a.get l1 ∨ (b.get l1 = a.get l1 ∧ b.get l2 < a.get l2)
    · right
      rcases h with h | ⟨h1, h2⟩
      · intro h'
        rcases h' with h' | ⟨h3, _⟩ <;> omega
      · intro h'
        rcases h' with h' | ⟨_, h4⟩ <;> omega
    · left; exact h⟩

instance sortRel_trans2 (l1 l2 : cclTupleIds) :
    IsTrans T (fun a b => ¬ TpleComp2Layers l1 l2 b a) :=
  ⟨fun a b c hab hbc => by
    unfold TpleComp2Layers at *
    intro h
    apply hab
    by_cases hlt : b.get l1 < a.get l1
    · left; exact hlt
    · right
      have h1 : ¬ c.get l1 < b.get l1 := fun h' => hbc (Or.inl h')
      rcases h with h | ⟨h2, h3⟩
      · omega
      · have h4 : b.get l1 = a.get l1 := by omega
        refine ⟨h4, ?_⟩
        by_contra h5
        apply hbc
        right
        exact ⟨by omega, by omega⟩⟩

instance sortRel_total1 (l : cclTupleIds) : IsTotal T (fun a b => ¬ TpleComp l b a) :=
  ⟨fun a b => by unfold TpleComp; omega⟩

instance sortRel_trans1 (l : cclTupleIds) : IsTrans T (fun a b => ¬ TpleComp l b a) :=
  ⟨fun a b c hab hbc => by unfold TpleComp at *; omega⟩

instance edgeSortRel_total : IsTotal (Nat × Nat) (fun a b => ¬ EdgeCompSrc b a) :=
  ⟨fun a b => by unfold EdgeCompSrc; omega⟩

instance edgeSortRel_trans : IsTrans (Nat × Nat) (fun a b => ¬ EdgeCompSrc b a) :=
  ⟨fun a b c hab hbc => by unfold EdgeCompSrc at *; omega⟩

/-- The loop state in which `runConnectedComponentLabeling` enters its loop. -/
def initialState (tupleVector : List T) : LoopState :=
  { tupleVector := tupleVector, distance_begin_mid := 0, converged := false, iterCount := 0 }

/-! ## Edge lists used as examples -/

/-- Scenario 1 of the testable properties: the edges `{(1,2), (3,4)}`, both directions. -/
def twoIsolatedEdges : List (Nat × Nat) := [(1, 2), (3, 4), (2, 1), (4, 3)]

/-- Scenario 4 of the testable properties: two disconnected triangles, both directions. -/
def twoTriangles : List (Nat × Nat) :=
  [(1, 2), (2, 3), (3, 1), (10, 11), (11, 12), (12, 10),
   (2, 1), (3, 2), (1, 3), (11, 10), (12, 11), (10, 12)]

/-- Scenario 5 of the testable properties: the single self-loop edge `(7, 7)`. -/
def selfLoop : List (Nat × Nat) := [(7, 7)]

/-- Scenario 3 of the testable properties: the path `1-2-3-4-5-6-7-8`, both directions. -/
def path8 : List (Nat × Nat) :=
  [(1, 2), (2, 3), (3, 4), (4, 5), (5, 6), (6, 7), (7, 8),
   (2, 1), (3, 2), (4, 3), (5, 4), (6, 5), (7, 6), (8, 7)]

/-- The path `1-2-3-4`, both directions. -/
def path4 : List (Nat × Nat) := [(1, 2), (2, 3), (3, 4), (2, 1), (3, 2), (4, 3)]

/-- One edge, both directions. -/
def oneEdge : List (Nat × Nat) := [(1, 2), (2, 1)]

/-- One edge in one direction only. -/
def oneDirectedEdge : List (Nat × Nat) := [(2, 1)]

/-- One edge between the vertices `2 ^ 32` and `2 ^ 32 + 1`, both directions: the ids avoid the
sentinels and do not fit the 32 bits of a partition id. -/
def wideEdge : List (Nat × Nat) := [(4294967296, 4294967297), (4294967297, 4294967296)]

/-- The edge `0 - 1` and the edge `2 ^ 32 - (2 ^ 32 + 1)`, both directions: two components
whose vertex ids agree on their low 32 bits. -/
def collidingEdges : List (Nat × Nat) :=
  [(0, 1), (1, 0), (4294967296, 4294967297), (4294967297, 4294967296)]

/-- Edges, both directions, among the vertices `3`, `2 ^ 33 - 1`, `MAX_PID2` and `MAX_PID`:
two of the vertex ids are sentinels of the partition id type. -/
def sentinelEdges : List (Nat × Nat) :=
  [(3, 8589934591), (4294967294, 4294967295), (8589934591, 3), (4294967295, 4294967294)]

/-! ## The two passes of the doubling, and the bucket walk of `updatePn` on several ranks -/

/-- Step 1 of `ccl::doPointerDoubling` on the range of active tuples followed by the parent
requests: the sort by `(nId, Pc)` and the walk that flips the tuples with `Pc = MAX_PID`. -/
def doublingFirstPass (rank : Nat) (prevMinPc : T) (range : List T) : List T :=
  let sorted1 := sort (TpleComp2Layers cclTupleIds.nId cclTupleIds.Pc) range
  (forEachBucket (TpleComp cclTupleIds.nId)
    (doublingPnBucket rank prevMinPc) sorted1.length true sorted1).1

/-- Step 2 of `ccl::doPointerDoubling` on the range left by step 1: the sort by `(Pc, Pn)` and
the walk that rewrites the `Pc` of every bucket whose first tuple has `Pn != MAX_PID`. -/
def doublingSecondPass (rank : Nat) (prevMinPn : T) (range : List T) : List T :=
  let sorted2 := sort (TpleComp2Layers cclTupleIds.Pc cclTupleIds.Pn) range
  (forEachBucket (TpleComp cclTupleIds.Pc)
    (doublingPcBucket rank prevMinPn) sorted2.length true sorted2).1

/-- The range on which `doPointerDoubling` works in an iteration started on `active`: what
`updatePn` followed by `updatePc` left, followed by the parent requests of `updatePc`. -/
def doublingRange (active : List T) : List T :=
  (updatePc true 0 default (updatePn 0 1 default default active)).range ++
    (updatePc true 0 default (updatePn 0 1 default default active)).parentRequestTupleVector

/-- Modelled from the spec: `mxx::exscan(x, f, comm)` seen from rank `i`, where `values` lists
the argument `x` of every rank in rank order: the reduction by `f` of the values of the ranks
`0 .. i - 1`, in that order (`d` on rank `0`, where the source does not read it). -/
def exscan (f : T → T → T) (d : T) (values : List T) (i : Nat) : T :=
  local_reduce f d (values.take i)

/-- Modelled from the spec: `mxx::exscan(x, f, comm.reverse())` seen from rank `i`: on the
reversed communicator the ranks are numbered from the last one, so rank `i` receives the
reduction by `f` of the values of the ranks `size - 1, ..., i + 1`, in that order (`d` on the
last rank). -/
def exscanReverse (f : T → T → T) (d : T) (values : List T) (i : Nat) : T :=
  local_reduce f d ((values.drop (i + 1)).reverse)

/-- The value `minPcOfLastBucket` of `ccl::updatePn` on a rank that holds `block`. -/
def minPcOfLastBucket (block : List T) : T :=
  local_reduce (TpleReduce2Layers cclTupleIds.nId cclTupleIds.Pc greater less) default block

/-- The value `maxPcOfFirstBucket` of `ccl::updatePn` on a rank that holds `block`. -/
def maxPcOfFirstBucket (block : List T) : T :=
  local_reduce (TpleReduce2Layers cclTupleIds.nId cclTupleIds.Pc less greater) default block

/-- The left carry `prevMinPc` of `ccl::updatePn` on rank `i`, when rank `j` holds the block
`blocks[j]`. -/
def prevMinPcOf (blocks : List (List T)) (i : Nat) : T :=
  exscan (TpleReduce2Layers cclTupleIds.nId cclTupleIds.Pc greater less) default
    (blocks.map minPcOfLastBucket) i

/-- The right carry `nextMaxPc` of `ccl::updatePn` on rank `i`, when rank `j` holds the block
`blocks[j]`. -/
def nextMaxPcOf (blocks : List (List T)) (i : Nat) : T :=
  exscanReverse (TpleReduce2Layers cclTupleIds.nId cclTupleIds.Pc less greater) default
    (blocks.map maxPcOfFirstBucket) i

/-- The loop of `ccl::updatePn` on one rank, over the block that `mxx::sort` left there. -/
def updatePnWalk (rank size : Nat) (prevMinPc nextMaxPc : T) (block : List T) : List T :=
  (forEachBucket (TpleComp cclTupleIds.nId)
    (updatePnBucket rank size prevMinPc nextMaxPc) block.length true block).1

/-- The function `ccl::updatePn` on a communicator of `blocks.length` ranks, from the point
where `mxx::sort` has left the block `blocks[i]` of the sorted range on rank `i`: the two
carries by `mxx::exscan`, then the walk of every rank over its block. -/
def updatePnRanks (blocks : List (List T)) : List (List T) :=
  blocks.enum.map (fun ib =>
    updatePnWalk ib.1 blocks.length (prevMinPcOf blocks ib.1) (nextMaxPcOf blocks ib.1) ib.2)

/-- The tuple `p` is one of `xs` with the largest node id and, among those, the smallest `Pc`
("the element with max node id and min Pc"). -/
def IsMaxNodeMinPc (p : T) (xs : List T) : Prop :=
  p ∈ xs ∧ ∀ x ∈ xs, x.nId < p.nId ∨ (x.nId = p.nId ∧ p.Pc ≤ x.Pc)

/-- The tuple `q` is one of `xs` with the smallest node id and, among those, the largest `Pc`
("min nodeid and max Pc"). -/
def IsMinNodeMaxPc (q : T) (xs : List T) : Prop :=
  q ∈ xs ∧ ∀ x ∈ xs, q.nId < x.nId ∨ (x.nId = q.nId ∧ x.Pc ≤ q.Pc)

/-- Modelled from the spec: the mirror reducer in the words of section 4.2, which keeps of two
tuples the one with the larger `nId` and, on equal `nId`, the one with the larger `Pc`. -/
def mirrorReducerOfSpec (a b : T) : T :=
  if b.nId < a.nId then a
  else if a.nId < b.nId then b
  else if b.Pc < a.Pc then a
  else b

/-! ## Ranges used as examples -/

/-- Three active tuples: the partitions `5` and `8` share node `7`, and node `5` carries the
single label `9`. -/
def staleParentRange : List T :=
  [⟨5, 4294967295, 7⟩, ⟨8, 4294967295, 7⟩, ⟨9, 4294967295, 5⟩]

/-- Three edges, one direction each; the source `2 ^ 32 + 5` does not fit a partition id and
is narrowed to `5`, the id of a vertex that is never a source. -/
def narrowedParentEdges : List (Nat × Nat) := [(4294967301, 7), (8, 7), (9, 5)]

/-- Two tuples of partition `7`: one with `Pn = 3` and one with `Pn = MAX_PID`. -/
def mixedBucket : List T := [⟨7, 3, 1⟩, ⟨7, 4294967295, 2⟩]

/-- Three edges, one direction each, among the vertices `2 ^ 32`, `2 ^ 32 + 1`, `2 ^ 33 - 2`,
`MAX_NID` and `0`: the source `2 ^ 33 - 2` is narrowed to `MAX_PID2` and the source `MAX_NID`
to `MAX_PID`. -/
def sentinelDirectedEdges : List (Nat × Nat) :=
  [(4294967296, 4294967297), (8589934590, 0), (18446744073709551615, 0)]

/-- Two active tuples of one node whose id is the sentinel `MAX_NID`. -/
def sentinelNodeRange : List T :=
  [⟨5, 4294967295, 18446744073709551615⟩, ⟨8, 4294967295, 18446744073709551615⟩]

/-- A range sorted by `(nId, Pc)` and cut into three blocks: node `1` lies on rank `0`, node
`2` spans the ranks `0`, `1` and `2`, node `3` lies on rank `2`. -/
def threeBlocks : List (List T) :=
  [[⟨4, 0, 1⟩, ⟨6, 0, 1⟩, ⟨2, 0, 2⟩], [⟨3, 0, 2⟩, ⟨5, 0, 2⟩], [⟨7, 0, 2⟩, ⟨9, 0, 3⟩]]

/-- A range sorted by `(nId, Pc)` and cut into three blocks of one node each. -/
def threeNodeBlocks : List (List T) :=
  [[⟨4, 0, 1⟩, ⟨6, 0, 1⟩], [⟨3, 0, 2⟩, ⟨5, 0, 2⟩], [⟨9, 0, 3⟩]]

/-! ## The notions used for edge lists with arbitrary vertex ids -/

/-- The self-loop edge `(7, 7)` next to the path `1-2-3-4`, both directions: after the first
iteration the component of `7` is stable while the path is still active. -/
def loopAndPath4 : List (Nat × Nat) :=
  [(7, 7), (1, 2), (2, 3), (3, 4), (2, 1), (3, 2), (4, 3)]

/-- Every partition id of the range fits the partition id type: it is at most `MAX_PID`. -/
def PcBounded (xs : List T) : Prop := ∀ t ∈ xs, t.Pc ≤ MAX_PID

/-- The partition `p` migrates in the iteration started on the range `xs`: after `updatePn`
the least `Pn` of its bucket is below `MAX_PID2`, so `updatePc` rewrites its `Pc`. -/
def Migrates (xs : List T) (p : Nat) : Prop :=
  minPn (updatePn 0 1 default default xs) p < MAX_PID2

/-- Two nodes are linked in `xs` when `xs` holds a tuple of each in one partition, the
partition id is below `MAX_PID2` and neither node id is `MAX_NID`. -/
def safeLink (xs : List T) (v v' : Nat) : Prop :=
  ∃ a ∈ xs, ∃ b ∈ xs, a.Pc = b.Pc ∧ a.nId = v ∧ b.nId = v' ∧ a.Pc < MAX_PID2 ∧
    a.nId ≠ MAX_NID ∧ b.nId ≠ MAX_NID

/-- A partition id of `xs` that is also the id of a node of `xs` is carried by a tuple whose node
is joined to that node by a chain of links. -/
def NodeLabelLinked (xs : List T) : Prop :=
  ∀ t ∈ xs, ∀ t' ∈ xs, t'.Pc = t.nId →
    ∃ t0 ∈ xs, t0.Pc = t'.Pc ∧ Relation.ReflTransGen (safeLink xs) t0.nId t.nId

/-- The invariant of the active range under which the doubling never moves a tuple into a
stable partition: the partition ids fit their type; a tuple of the node `MAX_NID` has, for its
partition, a tuple at another node that also carries a tuple of partition `MAX_PID`; a node
with a tuple of partition `MAX_PID` has a tuple whose partition id is the narrowed node id;
and `NodeLabelLinked`. -/
structure DoublingInv (xs : List T) : Prop where
  bounded : PcBounded xs
  paired : ∀ w ∈ xs, w.nId = MAX_NID → w.Pc ≠ MAX_PID →
    ∃ s ∈ xs, ∃ r ∈ xs, s.Pc = w.Pc ∧ r.Pc = MAX_PID ∧ s.nId = r.nId ∧ s.nId ≠ MAX_NID
  anchored : ∀ e ∈ xs, e.Pc = MAX_PID → ∃ s ∈ xs, s.nId = e.nId ∧ s.Pc = toPid e.nId
  linked : NodeLabelLinked xs

/-- The tuples that are still active after an iteration with doubling started on `xs`. -/
def activeKept (xs : List T) : List T :=
  (activeAfter true xs).filter (fun e => ! decide (e.Pn = MAX_PID))

/-- The invariant of the loop state for edge lists with arbitrary vertex ids: the tuples of the
stable part are stable, no partition id is used both in the stable and in the active part, the
partition ids of the active part fit their type, and with doubling on the active part satisfies
`DoublingInv`. -/
structure SplitInv (D : Bool) (s : LoopState) : Prop where
  stablePn : ∀ t ∈ stableOf s, t.Pn = MAX_PID
  disjoint : ∀ t ∈ stableOf s, ∀ u ∈ activeOf s, t.Pc ≠ u.Pc
  bounded : PcBounded (activeOf s)
  doubling : D = true → DoublingInv (activeOf s)

end conn.coloring

namespace conn.coloring
theorem foldl_min_le_init (xs : List Nat) (a : Nat) : xs.foldl min a ≤ a := by
  induction xs generalizing a with
  | nil => simp
  | cons y ys ih => simp only [List.foldl_cons]; exact le_trans (ih _) (min_le_left _ _)

theorem foldl_min_le_mem (xs : List Nat) (a : Nat) : ∀ y ∈ xs, xs.foldl min a ≤ y := by
  induction xs generalizing a with
  | nil => simp
  | cons z zs ih =>
    intro y hy
    simp only [List.foldl_cons]
    rcases List.mem_cons.1 hy with h | h
    · subst h; exact le_trans (foldl_min_le_init _ _) (min_le_right _ _)
    · exact ih _ y h

theorem foldl_min_mem (xs : List Nat) (a : Nat) : xs.foldl min a = a ∨ xs.foldl min a ∈ xs := by
  induction xs generalizing a with
  | nil => simp
  | cons z zs ih =>
    simp only [List.foldl_cons]
    rcases ih (min a z) with h | h
    · rcases min_choice a z with h2 | h2
      · left; rw [h, h2]
      · right; rw [h, h2]; exact List.mem_cons_self _ _
    · right; exact List.mem_cons_of_mem _ h

theorem minOver_mem {l : List Nat} (h : l ≠ []) : minOver l ∈ l := by
  cases l with
  | nil => exact absurd rfl h
  | cons x xs =>
    rcases foldl_min_mem xs x with h1 | h1
    · simp [minOver, h1]
    · exact List.mem_cons_of_mem _ h1

theorem minOver_le {l : List Nat} {y : Nat} (hy : y ∈ l) : minOver l ≤ y := by
  cases l with
  | nil => simp at hy
  | cons x xs =>
    rcases List.mem_cons.1 hy with h | h
    · subst h; exact foldl_min_le_init _ _
    · exact foldl_min_le_mem _ _ _ h

theorem minOver_eq_of {l : List Nat} {m : Nat} (hm : m ∈ l) (hle : ∀ y ∈ l, m ≤ y) :
    minOver l = m :=
  le_antisymm (minOver_le hm) (hle _ (minOver_mem (List.ne_nil_of_mem hm)))

theorem minOver_perm {l l' : List Nat} (h : l.Perm l') : minOver l = minOver l' := by
  cases l with
  | nil => rw [List.nil_perm] at h; subst h; rfl
  | cons x xs =>
    have hne : l' ≠ [] := by
      intro h0; subst h0; simp at h
    exact minOver_eq_of (h.symm.subset (minOver_mem hne))
      (fun y hy => minOver_le (h.subset hy))

theorem foldl_max_ge_init (xs : List Nat) (a : Nat) : a ≤ xs.foldl max a := by
  induction xs generalizing a with
  | nil => simp
  | cons y ys ih => simp only [List.foldl_cons]; exact le_trans (le_max_left _ _) (ih _)

theorem foldl_max_ge_mem (xs : List Nat) (a : Nat) : ∀ y ∈ xs, y ≤ xs.foldl max a := by
  induction xs generalizing a with
  | nil => simp
  | cons z zs ih =>
    intro y hy
    simp only [List.foldl_cons]
    rcases List.mem_cons.1 hy with h | h
    · subst h; exact le_trans (le_max_right _ _) (foldl_max_ge_init _ _)
    · exact ih _ y h

theorem foldl_max_mem (xs : List Nat) (a : Nat) : xs.foldl max a = a ∨ xs.foldl max a ∈ xs := by
  induction xs generalizing a with
  | nil => simp
  | cons z zs ih =>
    simp only [List.foldl_cons]
    rcases ih (max a z) with h | h
    · rcases max_choice a z with h2 | h2
      · left; rw [h, h2]
      · right; rw [h, h2]; exact List.mem_cons_self _ _
    · right; exact List.mem_cons_of_mem _ h

theorem maxOver_mem {l : List Nat} (h : l ≠ []) : maxOver l ∈ l := by
  cases l with
  | nil => exact absurd rfl h
  | cons x xs =>
    rcases foldl_max_mem xs x with h1 | h1
    · simp [maxOver, h1]
    · exact List.mem_cons_of_mem _ h1

theorem le_maxOver {l : List Nat} {y : Nat} (hy : y ∈ l) : y ≤ maxOver l := by
  cases l with
  | nil => simp at hy
  | cons x xs =>
    rcases List.mem_cons.1 hy with h | h
    · subst h; exact foldl_max_ge_init _ _
    · exact foldl_max_ge_mem _ _ _ h

theorem maxOver_perm {l l' : List Nat} (h : l.Perm l') : maxOver l = maxOver l' := by
  cases l with
  | nil => rw [List.nil_perm] at h; subst h; rfl
  | cons x xs =>
    have hne : l' ≠ [] := by
      intro h0; subst h0; simp at h
    exact le_antisymm (le_maxOver (h.subset (maxOver_mem (List.cons_ne_nil _ _))))
      (le_maxOver (h.symm.subset (maxOver_mem hne)))


/-! ## Reducers -/

theorem TpleReduce_less_get (layer : cclTupleIds) (a b : T) :
    (TpleReduce layer less a b).get layer = min (a.get layer) (b.get layer) := by
  unfold TpleReduce less
  by_cases h : a.get layer < b.get layer
  · simp [h, Nat.min_eq_left (Nat.le_of_lt h)]
  · simp [h, Nat.min_eq_right (Nat.le_of_not_lt h)]

theorem TpleReduce_greater_get (layer : cclTupleIds) (a b : T) :
    (TpleReduce layer greater a b).get layer = max (a.get layer) (b.get layer) := by
  unfold TpleReduce greater
  by_cases h : b.get layer < a.get layer
  · simp [h, Nat.max_eq_left (Nat.le_of_lt h)]
  · simp [h, Nat.max_eq_right (Nat.le_of_not_lt h)]

theorem foldl_reduce_less_get (layer : cclTupleIds) (xs : List T) (a : T) :
    (xs.foldl (TpleReduce layer less) a).get layer
      = (xs.map (T.get layer)).foldl min (a.get layer) := by
  induction xs generalizing a with
  | nil => rfl
  | cons y ys ih => simp only [List.foldl_cons, List.map_cons, ih, TpleReduce_less_get]

theorem foldl_reduce_greater_get (layer : cclTupleIds) (xs : List T) (a : T) :
    (xs.foldl (TpleReduce layer greater) a).get layer
      = (xs.map (T.get layer)).foldl max (a.get layer) := by
  induction xs generalizing a with
  | nil => rfl
  | cons y ys ih => simp only [List.foldl_cons, List.map_cons, ih, TpleReduce_greater_get]

theorem local_reduce_less_get (layer : cclTupleIds) (d : T) (xs : List T) (h : xs ≠ []) :
    (local_reduce (TpleReduce layer less) d xs).get layer = minOver (xs.map (T.get layer)) := by
  cases xs with
  | nil => exact absurd rfl h
  | cons x xs => simp only [local_reduce, minOver, List.map_cons, foldl_reduce_less_get]

theorem local_reduce_greater_get (layer : cclTupleIds) (d : T) (xs : List T) (h : xs ≠ []) :
    (local_reduce (TpleReduce layer greater) d xs).get layer
      = maxOver (xs.map (T.get layer)) := by
  cases xs with
  | nil => exact absurd rfl h
  | cons x xs => simp only [local_reduce, maxOver, List.map_cons, foldl_reduce_greater_get]

/-! ## The sort -/

theorem sort_perm (comp : T → T → Prop) [DecidableRel comp] (xs : List T) :
    (sort comp xs).Perm xs :=
  List.perm_insertionSort _ xs

theorem sort_sorted2 (l1 l2 : cclTupleIds) (xs : List T) :
    (sort (TpleComp2Layers l1 l2) xs).Sorted (fun a b => ¬ TpleComp2Layers l1 l2 b a) :=
  List.sorted_insertionSort _ xs

theorem sort_sorted1 (l : cclTupleIds) (xs : List T) :
    (sort (TpleComp l) xs).Sorted (fun a b => ¬ TpleComp l b a) :=
  List.sorted_insertionSort _ xs

theorem sort_eq_self (comp : T → T → Prop) [DecidableRel comp] {xs : List T}
    (h : xs.Sorted (fun a b => ¬ comp b a)) : sort comp xs = xs :=
  List.Sorted.insertionSort_eq h

theorem sorted2_imp_le (l1 l2 : cclTupleIds) {xs : List T}
    (h : xs.Sorted (fun a b => ¬ TpleComp2Layers l1 l2 b a)) :
    xs.Pairwise (fun a b => a.get l1 ≤ b.get l1) := by
  refine List.Pairwise.imp ?_ h
  intro a b hab
  unfold TpleComp2Layers at hab
  by_contra hlt
  exact hab (Or.inl (by omega))

theorem sort_length (comp : T → T → Prop) [DecidableRel comp] (xs : List T) :
    (sort comp xs).length = xs.length :=
  List.length_insertionSort _ xs

end conn.coloring

namespace conn.coloring

/-! ## The bucket walk on a sorted range -/

section walk

variable {α γ β : Type} (comp : α → α → Prop) [DecidableRel comp] (k : α → Nat)

theorem findRange_eq (hcomp : ∀ a b, comp a b ↔ k a < k b) (val : α) (ys : List α) :
    findRange comp val ys
      = (ys.takeWhile (fun y => decide (k y = k val)),
         ys.dropWhile (fun y => decide (k y = k val))) := by
  induction ys with
  | nil => rfl
  | cons y ys ih =>
    unfold findRange
    by_cases h : k y = k val
    · have h1 : ¬ comp y val ∧ ¬ comp val y := by
        rw [hcomp, hcomp]; omega
      rw [if_pos h1, ih]
      simp [List.takeWhile_cons, List.dropWhile_cons, h]
    · have h1 : ¬ (¬ comp y val ∧ ¬ comp val y) := by
        rw [hcomp, hcomp]; omega
      rw [if_neg h1]
      simp [List.takeWhile_cons, List.dropWhile_cons, h]

theorem lt_of_mem_dropWhile (c : Nat) :
    ∀ l : List α, l.Pairwise (fun a b => k a ≤ k b) → (∀ y ∈ l, c ≤ k y) →
      ∀ y ∈ l.dropWhile (fun y => decide (k y = c)), c < k y := by
  intro l
  induction l with
  | nil => intro _ _ y hy; simp at hy
  | cons z zs ih =>
    intro hp hc y hy
    rw [List.pairwise_cons] at hp
    by_cases hz : k z = c
    · rw [List.dropWhile_cons_of_pos (by simpa using hz)] at hy
      exact ih hp.2 (fun y hy => hc y (List.mem_cons_of_mem _ hy)) y hy
    · rw [List.dropWhile_cons_of_neg (by simpa using hz)] at hy
      have hzc : c < k z := lt_of_le_of_ne (hc z (List.mem_cons_self _ _)) (Ne.symm hz)
      rcases List.mem_cons.1 hy with h | h
      · subst h; exact hzc
      · exact lt_of_lt_of_le hzc (hp.1 y h)

theorem eq_of_mem_takeWhile (c : Nat) (l : List α) :
    ∀ y ∈ l.takeWhile (fun y => decide (k y = c)), k y = c := by
  intro y hy
  have := List.mem_takeWhile_imp hy
  simpa using this

theorem filter_eq_self_of_forall {l : List α} {p : α → Bool} (h : ∀ y ∈ l, p y = true) :
    l.filter p = l :=
  List.filter_eq_self.2 h

theorem filter_eq_nil_of_forall {l : List α} {p : α → Bool} (h : ∀ y ∈ l, p y = false) :
    l.filter p = [] := by
  apply List.filter_eq_nil_iff.2
  intro a ha
  simp [h a ha]

/-- In a range sorted by its key the run found at the head is the bucket of the head, and the
bucket of every later tuple lies in the rest. -/
theorem bucket_split (x : α) (xs : List α)
    (hp : (x :: xs).Pairwise (fun a b => k a ≤ k b)) :
    let run := (x :: xs).takeWhile (fun y => decide (k y = k x))
    let rest := (x :: xs).dropWhile (fun y => decide (k y = k x))
    (∀ t ∈ run, (x :: xs).filter (fun u => decide (k u = k t)) = run) ∧
    (∀ t ∈ rest, (x :: xs).filter (fun u => decide (k u = k t))
        = rest.filter (fun u => decide (k u = k t))) := by
  intro run rest
  have hsplit : run ++ rest = x :: xs := List.takeWhile_append_dropWhile _ _
  have hrun : ∀ y ∈ run, k y = k x := eq_of_mem_takeWhile k (k x) (x :: xs)
  have hge : ∀ y ∈ x :: xs, k x ≤ k y := by
    intro y hy
    rcases List.mem_cons.1 hy with h | h
    · subst h; exact le_refl _
    · exact (List.pairwise_cons.1 hp).1 y h
  have hrest : ∀ y ∈ rest, k x < k y := lt_of_mem_dropWhile k (k x) (x :: xs) hp hge
  constructor
  · intro t ht
    rw [← hsplit, List.filter_append]
    have h1 : run.filter (fun u => decide (k u = k t)) = run :=
      filter_eq_self_of_forall (fun y hy => by simp [hrun y hy, hrun t ht])
    have h2 : rest.filter (fun u => decide (k u = k t)) = [] :=
      filter_eq_nil_of_forall (fun y hy => by
        have := hrest y hy
        have := hrun t ht
        simp; omega)
    rw [h1, h2, List.append_nil]
  · intro t ht
    rw [← hsplit, List.filter_append]
    have h1 : run.filter (fun u => decide (k u = k t)) = [] :=
      filter_eq_nil_of_forall (fun y hy => by
        have := hrest t ht
        have := hrun y hy
        simp; omega)
    rw [h1, List.nil_append]

theorem dropWhile_length_le (p : α → Bool) (l : List α) : (l.dropWhile p).length ≤ l.length := by
  induction l with
  | nil => simp
  | cons a l ih =>
    by_cases h : p a = true
    · rw [List.dropWhile_cons_of_pos h]; simp; omega
    · rw [List.dropWhile_cons_of_neg h]

theorem pairwise_dropWhile {r : α → α → Prop} (p : α → Bool) {l : List α}
    (h : l.Pairwise r) : (l.dropWhile p).Pairwise r :=
  h.sublist (List.dropWhile_sublist p)

/-- What the walk leaves, when the body rewrites each tuple of a bucket by a function of the
bucket and does not look at the boundary flags: every tuple is rewritten by that function of
its own bucket. -/
theorem forEachBucket_fst (hcomp : ∀ a b, comp a b ↔ k a < k b)
    (body : Bool → Bool → List α → List γ × List β) (g : List α → α → γ)
    (hbody : ∀ b1 b2 bucket, (body b1 b2 bucket).1 = bucket.map (g bucket)) :
    ∀ (n : Nat) (b : Bool) (xs : List α), xs.length ≤ n →
      xs.Pairwise (fun a b => k a ≤ k b) →
      (forEachBucket comp body n b xs).1
        = xs.map (fun t => g (xs.filter (fun u => decide (k u = k t))) t) := by
  intro n
  induction n with
  | zero =>
    intro b xs hlen _
    have : xs = [] := List.length_eq_zero.1 (Nat.le_zero.1 hlen)
    subst this; rfl
  | succ n ih =>
    intro b xs hlen hp
    cases xs with
    | nil => rfl
    | cons x xs =>
      simp only [forEachBucket]
      rw [findRange_eq comp k hcomp]
      simp only []
      have hs := bucket_split k x xs hp
      simp only [] at hs
      obtain ⟨hrun, hrest⟩ := hs
      have hsplit : (x :: xs).takeWhile (fun y => decide (k y = k x))
          ++ (x :: xs).dropWhile (fun y => decide (k y = k x)) = x :: xs :=
        List.takeWhile_append_dropWhile _ _
      have hlen2 : ((x :: xs).dropWhile (fun y => decide (k y = k x))).length ≤ n := by
        have h1 : (x :: xs).dropWhile (fun y => decide (k y = k x))
            = xs.dropWhile (fun y => decide (k y = k x)) :=
          List.dropWhile_cons_of_pos (by simp)
        rw [h1]
        have := dropWhile_length_le (fun y => decide (k y = k x)) xs
        simp only [List.length_cons] at hlen
        omega
      rw [ih false _ hlen2 (pairwise_dropWhile _ hp), hbody]
      conv_rhs => rw [← hsplit, List.map_append]
      congr 1
      · apply List.map_congr_left
        intro t ht
        rw [hsplit, hrun t ht]
      · apply List.map_congr_left
        intro t ht
        rw [hsplit, hrest t ht]

/-- What the walk emits, when the body does not look at the boundary flags: what the body
emits for the bucket of some tuple of the range. -/
theorem mem_forEachBucket_snd (hcomp : ∀ a b, comp a b ↔ k a < k b)
    (body : Bool → Bool → List α → List γ × List β) (e : List α → List β)
    (hbody : ∀ b1 b2 bucket, (body b1 b2 bucket).2 = e bucket) (y : β) :
    ∀ (n : Nat) (b : Bool) (xs : List α), xs.length ≤ n →
      xs.Pairwise (fun a b => k a ≤ k b) →
      (y ∈ (forEachBucket comp body n b xs).2
        ↔ ∃ t ∈ xs, y ∈ e (xs.filter (fun u => decide (k u = k t)))) := by
  intro n
  induction n with
  | zero =>
    intro b xs hlen _
    have : xs = [] := List.length_eq_zero.1 (Nat.le_zero.1 hlen)
    subst this; simp [forEachBucket]
  | succ n ih =>
    intro b xs hlen hp
    cases xs with
    | nil => simp [forEachBucket]
    | cons x xs =>
      simp only [forEachBucket]
      rw [findRange_eq comp k hcomp]
      simp only []
      have hs := bucket_split k x xs hp
      simp only [] at hs
      obtain ⟨hrun, hrest⟩ := hs
      have hsplit : (x :: xs).takeWhile (fun y => decide (k y = k x))
          ++ (x :: xs).dropWhile (fun y => decide (k y = k x)) = x :: xs :=
        List.takeWhile_append_dropWhile _ _
      have hlen2 : ((x :: xs).dropWhile (fun y => decide (k y = k x))).length ≤ n := by
        have h1 : (x :: xs).dropWhile (fun y => decide (k y = k x))
            = xs.dropWhile (fun y => decide (k y = k x)) :=
          List.dropWhile_cons_of_pos (by simp)
        rw [h1]
        have := dropWhile_length_le (fun y => decide (k y = k x)) xs
        simp only [List.length_cons] at hlen
        omega
      have hxrun : x ∈ (x :: xs).takeWhile (fun y => decide (k y = k x)) := by
        rw [List.takeWhile_cons_of_pos (by simp)]
        exact List.mem_cons_self _ _
      rw [List.mem_append, ih false _ hlen2 (pairwise_dropWhile _ hp), hbody]
      constructor
      · rintro (h | ⟨t, ht, h⟩)
        · refine ⟨x, List.mem_cons_self _ _, ?_⟩
          rw [hrun x hxrun]; exact h
        · refine ⟨t, ?_, ?_⟩
          · rw [← hsplit]; exact List.mem_append_right _ ht
          · rw [hrest t ht]; exact h
      · rintro ⟨t, ht, h⟩
        rw [← hsplit, List.mem_append] at ht
        rcases ht with ht | ht
        · left
          rw [hrun t ht] at h; exact h
        · right
          refine ⟨t, ht, ?_⟩
          rw [hrest t ht] at h; exact h

end walk

end conn.coloring

namespace conn.coloring

/-! ## What each walk computes on one rank -/

@[simp] theorem get_Pc (e : T) : e.get cclTupleIds.Pc = e.Pc := rfl
@[simp] theorem get_Pn (e : T) : e.get cclTupleIds.Pn = e.Pn := rfl
@[simp] theorem get_nId (e : T) : e.get cclTupleIds.nId = e.nId := rfl

theorem T_get_Pc_fun : T.get cclTupleIds.Pc = T.Pc := rfl
theorem T_get_Pn_fun : T.get cclTupleIds.Pn = T.Pn := rfl
theorem T_get_nId_fun : T.get cclTupleIds.nId = T.nId := rfl

theorem TpleComp_iff (layer : cclTupleIds) (a b : T) :
    TpleComp layer a b ↔ a.get layer < b.get layer := Iff.rfl

theorem bucketOf_perm (layer : cclTupleIds) {xs ys : List T} (h : xs.Perm ys) (c : Nat) :
    (bucketOf layer xs c).Perm (bucketOf layer ys c) :=
  h.filter _

theorem minPc_perm {xs ys : List T} (h : xs.Perm ys) (v : Nat) : minPc xs v = minPc ys v :=
  minOver_perm ((bucketOf_perm _ h v).map _)

theorem maxPc_perm {xs ys : List T} (h : xs.Perm ys) (v : Nat) : maxPc xs v = maxPc ys v :=
  maxOver_perm ((bucketOf_perm _ h v).map _)

theorem minPn_perm {xs ys : List T} (h : xs.Perm ys) (p : Nat) : minPn xs p = minPn ys p :=
  minOver_perm ((bucketOf_perm _ h p).map _)

theorem setPn_perm {xs ys : List T} (h : xs.Perm ys) : setPn xs = setPn ys := by
  funext e; unfold setPn; rw [minPc_perm h, maxPc_perm h]

theorem setPc_perm {xs ys : List T} (h : xs.Perm ys) : setPc xs = setPc ys := by
  funext e; unfold setPc; rw [minPn_perm h]

theorem flipRequest_perm {xs ys : List T} (h : xs.Perm ys) : flipRequest xs = flipRequest ys := by
  funext e; unfold flipRequest; rw [minPc_perm h]

theorem setGrandParent_perm {xs ys : List T} (h : xs.Perm ys) :
    setGrandParent xs = setGrandParent ys := by
  funext e; unfold setGrandParent; rw [minPn_perm h]

theorem mem_bucketOf {layer : cclTupleIds} {xs : List T} {c : Nat} {t : T} :
    t ∈ bucketOf layer xs c ↔ t ∈ xs ∧ t.get layer = c := by
  simp [bucketOf]

theorem updatePnBucket_fst (prevMinPc nextMaxPc : T) (b1 b2 : Bool) (bucket : List T) :
    (updatePnBucket 0 1 prevMinPc nextMaxPc b1 b2 bucket).1
      = bucket.map (fun e =>
          if minOver (bucket.map T.Pc) < maxOver (bucket.map T.Pc)
          then { e with Pn := minOver (bucket.map T.Pc) }
          else { e with Pn := MAX_PID2 }) := by
  by_cases hb : bucket = []
  · subst hb
    simp [updatePnBucket]
  · have hmin := local_reduce_less_get cclTupleIds.Pc default bucket hb
    have hmax := local_reduce_greater_get cclTupleIds.Pc default bucket hb
    simp only [get_Pc, T_get_Pc_fun] at hmin hmax
    unfold updatePnBucket
    simp only [if_true, Nat.sub_self, ite_self, TpleComp_iff, get_Pc, hmin, hmax]
    by_cases hlt : minOver (bucket.map T.Pc) < maxOver (bucket.map T.Pc)
    · simp [hlt]
    · simp [hlt]

/-- On one rank `updatePn` sorts the range by `(nId, Pc)` and writes into every tuple the
minimum `Pc` of its node, or `MAX_PID2` when the minimum is not below the maximum. -/
theorem updatePn_eq (prevMinPc nextMaxPc : T) (xs : List T) :
    updatePn 0 1 prevMinPc nextMaxPc xs
      = (sort (TpleComp2Layers cclTupleIds.nId cclTupleIds.Pc) xs).map (setPn xs) := by
  unfold updatePn
  simp only []
  have hs := sorted2_imp_le _ _ (sort_sorted2 cclTupleIds.nId cclTupleIds.Pc xs)
  rw [forEachBucket_fst (TpleComp cclTupleIds.nId) (T.get cclTupleIds.nId)
    (TpleComp_iff _) _ _ (updatePnBucket_fst prevMinPc nextMaxPc) _ true _ (le_refl _) hs]
  apply List.map_congr_left
  intro t _
  have hperm := sort_perm (TpleComp2Layers cclTupleIds.nId cclTupleIds.Pc) xs
  have h1 : minOver (((sort (TpleComp2Layers cclTupleIds.nId cclTupleIds.Pc) xs).filter
      (fun u => decide (u.get cclTupleIds.nId = t.get cclTupleIds.nId))).map T.Pc)
      = minPc xs t.nId := minPc_perm hperm t.nId
  have h2 : maxOver (((sort (TpleComp2Layers cclTupleIds.nId cclTupleIds.Pc) xs).filter
      (fun u => decide (u.get cclTupleIds.nId = t.get cclTupleIds.nId))).map T.Pc)
      = maxPc xs t.nId := maxPc_perm hperm t.nId
  simp only [h1, h2]
  rfl

theorem updatePcBucket_fst (DOUBLING : Bool) (prevMinPn : T) (b1 b2 : Bool) (bucket : List T) :
    (updatePcBucket DOUBLING 0 prevMinPn b1 b2 bucket).1
      = bucket.map (fun e =>
          if minOver (bucket.map T.Pn) < MAX_PID2
          then { e with Pc := minOver (bucket.map T.Pn) }
          else { e with Pn := MAX_PID }) := by
  by_cases hb : bucket = []
  · subst hb
    simp only [updatePcBucket, List.map_nil]
    split <;> rfl
  · have hmin := local_reduce_less_get cclTupleIds.Pn default bucket hb
    simp only [get_Pn, T_get_Pn_fun] at hmin
    unfold updatePcBucket
    simp only [if_true, ite_self, hmin]
    by_cases hlt : minOver (bucket.map T.Pn) < MAX_PID2
    · simp [hlt]
    · simp [hlt]

theorem updatePcBucket_snd (DOUBLING : Bool) (prevMinPn : T) (b1 b2 : Bool) (bucket : List T)
    (hb : bucket ≠ []) :
    (updatePcBucket DOUBLING 0 prevMinPn b1 b2 bucket).2
      = if minOver (bucket.map T.Pn) < MAX_PID2
        then [if DOUBLING then some ⟨MAX_PID, MAX_PID, minOver (bucket.map T.Pn)⟩ else none]
        else [] := by
  have hmin := local_reduce_less_get cclTupleIds.Pn default bucket hb
  simp only [get_Pn, T_get_Pn_fun] at hmin
  unfold updatePcBucket
  simp only [if_true, ite_self, hmin]
  by_cases hlt : minOver (bucket.map T.Pn) < MAX_PID2
  · simp [hlt]
  · simp [hlt]

theorem updatePcBucket_flags (DOUBLING : Bool) (prevMinPn : T) (b1 b2 : Bool)
    (bucket : List T) :
    updatePcBucket DOUBLING 0 prevMinPn b1 b2 bucket
      = updatePcBucket DOUBLING 0 prevMinPn true true bucket := by
  simp [updatePcBucket]

theorem sortedPcPn_le (xs : List T) :
    (sort (TpleComp2Layers cclTupleIds.Pc cclTupleIds.Pn) xs).Pairwise
      (fun a b => a.get cclTupleIds.Pc ≤ b.get cclTupleIds.Pc) :=
  sorted2_imp_le _ _ (sort_sorted2 cclTupleIds.Pc cclTupleIds.Pn xs)

/-- On one rank `updatePc` sorts the range by `(Pc, Pn)` and rewrites every tuple by the
minimum `Pn` of its partition. -/
theorem updatePc_range (DOUBLING : Bool) (prevMinPn : T) (xs : List T) :
    (updatePc DOUBLING 0 prevMinPn xs).range
      = (sort (TpleComp2Layers cclTupleIds.Pc cclTupleIds.Pn) xs).map (setPc xs) := by
  unfold updatePc
  simp only []
  rw [forEachBucket_fst (TpleComp cclTupleIds.Pc) (T.get cclTupleIds.Pc)
    (TpleComp_iff _) _ _ (updatePcBucket_fst DOUBLING prevMinPn) _ true _ (le_refl _)
    (sortedPcPn_le xs)]
  apply List.map_congr_left
  intro t _
  have hperm := sort_perm (TpleComp2Layers cclTupleIds.Pc cclTupleIds.Pn) xs
  have h1 : minOver (((sort (TpleComp2Layers cclTupleIds.Pc cclTupleIds.Pn) xs).filter
      (fun u => decide (u.get cclTupleIds.Pc = t.get cclTupleIds.Pc))).map T.Pn)
      = minPn xs t.Pc := minPn_perm hperm t.Pc
  simp only [h1]
  rfl

/-- What the walk of `updatePc` emits: one entry for every migrating bucket. -/
theorem mem_updatePc_emitted (DOUBLING : Bool) (prevMinPn : T) (xs : List T) (y : Option T) :
    y ∈ (forEachBucket (TpleComp cclTupleIds.Pc) (updatePcBucket DOUBLING 0 prevMinPn)
          (sort (TpleComp2Layers cclTupleIds.Pc cclTupleIds.Pn) xs).length true
          (sort (TpleComp2Layers cclTupleIds.Pc cclTupleIds.Pn) xs)).2
      ↔ ∃ t ∈ xs, minPn xs t.Pc < MAX_PID2 ∧
          y = (if DOUBLING then some ⟨MAX_PID, MAX_PID, minPn xs t.Pc⟩ else none) := by
  have hperm := sort_perm (TpleComp2Layers cclTupleIds.Pc cclTupleIds.Pn) xs
  rw [mem_forEachBucket_snd (TpleComp cclTupleIds.Pc) (T.get cclTupleIds.Pc)
    (TpleComp_iff _) _ (fun bucket => (updatePcBucket DOUBLING 0 prevMinPn true true bucket).2)
    (fun b1 b2 bucket => by rw [updatePcBucket_flags]) y _ true _ (le_refl _)
    (sortedPcPn_le xs)]
  have key : ∀ t ∈ sort (TpleComp2Layers cclTupleIds.Pc cclTupleIds.Pn) xs,
      (y ∈ (updatePcBucket DOUBLING 0 prevMinPn true true
              ((sort (TpleComp2Layers cclTupleIds.Pc cclTupleIds.Pn) xs).filter
                (fun u => decide (u.get cclTupleIds.Pc = t.get cclTupleIds.Pc)))).2
        ↔ (minPn xs t.Pc < MAX_PID2 ∧
            y = (if DOUBLING then some ⟨MAX_PID, MAX_PID, minPn xs t.Pc⟩ else none))) := by
    intro t ht
    have hne : (sort (TpleComp2Layers cclTupleIds.Pc cclTupleIds.Pn) xs).filter
        (fun u => decide (u.get cclTupleIds.Pc = t.get cclTupleIds.Pc)) ≠ [] := by
      apply List.ne_nil_of_mem (a := t)
      simp [ht]
    have h1 : minOver (((sort (TpleComp2Layers cclTupleIds.Pc cclTupleIds.Pn) xs).filter
        (fun u => decide (u.get cclTupleIds.Pc = t.get cclTupleIds.Pc))).map T.Pn)
        = minPn xs t.Pc := minPn_perm hperm t.Pc
    rw [updatePcBucket_snd _ _ _ _ _ hne, h1]
    by_cases hlt : minPn xs t.Pc < MAX_PID2
    · simp [hlt]
    · simp [hlt]
  constructor
  · rintro ⟨t, ht, h⟩
    exact ⟨t, hperm.subset ht, (key t ht).1 h⟩
  · rintro ⟨t, ht, h⟩
    exact ⟨t, hperm.symm.subset ht, (key t (hperm.symm.subset ht)).2 h⟩

/-- On one rank `updatePc` returns `true` exactly when no partition has a minimum `Pn` below
`MAX_PID2`. -/
theorem updatePc_converged (DOUBLING : Bool) (prevMinPn : T) (xs : List T) :
    (updatePc DOUBLING 0 prevMinPn xs).converged = true
      ↔ ∀ t ∈ xs, ¬ minPn xs t.Pc < MAX_PID2 := by
  unfold updatePc
  simp only [List.isEmpty_iff]
  rw [List.eq_nil_iff_forall_not_mem]
  constructor
  · intro h t ht hlt
    exact h _ ((mem_updatePc_emitted DOUBLING prevMinPn xs _).2 ⟨t, ht, hlt, rfl⟩)
  · intro h y hy
    obtain ⟨t, ht, hlt, _⟩ := (mem_updatePc_emitted DOUBLING prevMinPn xs y).1 hy
    exact h t ht hlt

/-- The parent requests of `updatePc`: with doubling on, the tuple
`(MAX_PID, MAX_PID, n(p))` for every migrating partition `p`; none with doubling off. -/
theorem mem_updatePc_requests (DOUBLING : Bool) (prevMinPn : T) (xs : List T) (r : T) :
    r ∈ (updatePc DOUBLING 0 prevMinPn xs).parentRequestTupleVector
      ↔ DOUBLING = true ∧ ∃ t ∈ xs, minPn xs t.Pc < MAX_PID2 ∧
          r = ⟨MAX_PID, MAX_PID, minPn xs t.Pc⟩ := by
  unfold updatePc
  simp only [List.mem_filterMap, id]
  constructor
  · rintro ⟨y, hy, hyr⟩
    obtain ⟨t, ht, hlt, hyt⟩ := (mem_updatePc_emitted DOUBLING prevMinPn xs y).1 hy
    subst hyr
    cases DOUBLING with
    | false => simp at hyt
    | true =>
      simp only [if_true, Option.some.injEq] at hyt
      exact ⟨rfl, t, ht, hlt, hyt⟩
  · rintro ⟨hD, t, ht, hlt, hr⟩
    subst hD
    refine ⟨some r, ?_, rfl⟩
    exact (mem_updatePc_emitted true prevMinPn xs _).2 ⟨t, ht, hlt, by simp [hr]⟩

end conn.coloring

namespace conn.coloring

/-! ## Pointer doubling on one rank -/

theorem doublingPnBucket_fst (prevMinPc : T) (b1 b2 : Bool) (bucket : List T) :
    (doublingPnBucket 0 prevMinPc b1 b2 bucket).1
      = bucket.map (fun e =>
          if e.Pc = MAX_PID then
            { Pc := toPid e.nId, Pn := minOver (bucket.map T.Pc), nId := MAX_NID }
          else e) := by
  by_cases hb : bucket = []
  · subst hb
    simp [doublingPnBucket]
  · have hmin := local_reduce_less_get cclTupleIds.Pc default bucket hb
    simp only [get_Pc, T_get_Pc_fun] at hmin
    unfold doublingPnBucket
    simp only [if_true, ite_self, hmin]

theorem doublingPcBucket_fst (prevMinPn : T) (b1 b2 : Bool) (bucket : List T) :
    (doublingPcBucket 0 prevMinPn b1 b2 bucket).1
      = bucket.map (fun e =>
          if (bucket.headD default).Pn ≠ MAX_PID then
            { e with Pc := minOver (bucket.map T.Pn) }
          else e) := by
  by_cases hb : bucket = []
  · subst hb
    simp only [doublingPcBucket, List.map_nil]
    split <;> rfl
  · have hmin := local_reduce_less_get cclTupleIds.Pn default bucket hb
    simp only [get_Pn, T_get_Pn_fun] at hmin
    unfold doublingPcBucket
    simp only [if_true, ite_self, hmin]
    by_cases hh : (bucket.headD default).Pn ≠ MAX_PID
    · rw [if_pos hh]
      simp only [if_pos hh]
    · rw [if_neg hh]
      simp only [if_neg hh]
      simp

theorem sortedNIdPc_le (xs : List T) :
    (sort (TpleComp2Layers cclTupleIds.nId cclTupleIds.Pc) xs).Pairwise
      (fun a b => a.get cclTupleIds.nId ≤ b.get cclTupleIds.nId) :=
  sorted2_imp_le _ _ (sort_sorted2 cclTupleIds.nId cclTupleIds.Pc xs)

/-- Step 1 of the doubling on one rank: the range sorted by `(nId, Pc)`, every tuple with
`Pc = MAX_PID` flipped. -/
theorem doublingStep1_eq (prevMinPc : T) (xs : List T) :
    (forEachBucket (TpleComp cclTupleIds.nId) (doublingPnBucket 0 prevMinPc)
        (sort (TpleComp2Layers cclTupleIds.nId cclTupleIds.Pc) xs).length true
        (sort (TpleComp2Layers cclTupleIds.nId cclTupleIds.Pc) xs)).1
      = (sort (TpleComp2Layers cclTupleIds.nId cclTupleIds.Pc) xs).map (flipRequest xs) := by
  rw [forEachBucket_fst (TpleComp cclTupleIds.nId) (T.get cclTupleIds.nId)
    (TpleComp_iff _) _ _ (doublingPnBucket_fst prevMinPc) _ true _ (le_refl _)
    (sortedNIdPc_le xs)]
  apply List.map_congr_left
  intro t _
  have hperm := sort_perm (TpleComp2Layers cclTupleIds.nId cclTupleIds.Pc) xs
  have h1 : minOver (((sort (TpleComp2Layers cclTupleIds.nId cclTupleIds.Pc) xs).filter
      (fun u => decide (u.get cclTupleIds.nId = t.get cclTupleIds.nId))).map T.Pc)
      = minPc xs t.nId := minPc_perm hperm t.nId
  simp only [h1]
  rfl

theorem head_eq_minOver_of_pairwise (x : T) (xs : List T)
    (h : (x :: xs).Pairwise (fun a b => a.Pn ≤ b.Pn)) :
    minOver ((x :: xs).map T.Pn) = x.Pn := by
  apply minOver_eq_of
  · simp
  · intro y hy
    rw [List.map_cons, List.mem_cons] at hy
    rcases hy with hy | hy
    · rw [hy]
    · obtain ⟨u, hu, rfl⟩ := List.mem_map.1 hy
      exact (List.pairwise_cons.1 h).1 u hu

theorem bucket_sortedPcPn_pairwise (xs : List T) (p : Nat) :
    ((sort (TpleComp2Layers cclTupleIds.Pc cclTupleIds.Pn) xs).filter
      (fun u => decide (u.get cclTupleIds.Pc = p))).Pairwise (fun a b => a.Pn ≤ b.Pn) := by
  have hs := sort_sorted2 cclTupleIds.Pc cclTupleIds.Pn xs
  have h1 : ((sort (TpleComp2Layers cclTupleIds.Pc cclTupleIds.Pn) xs).filter
      (fun u => decide (u.get cclTupleIds.Pc = p))).Pairwise
      (fun a b => ¬ TpleComp2Layers cclTupleIds.Pc cclTupleIds.Pn b a) :=
    List.Pairwise.sublist (List.filter_sublist _) hs
  rw [List.pairwise_iff_forall_sublist] at h1 ⊢
  intro a b hab
  have h2 := h1 hab
  have ha : a.Pc = p := by
    have := (hab.subset (List.mem_cons_self _ _))
    simpa using (List.mem_filter.1 this).2
  have hb : b.Pc = p := by
    have := (hab.subset (List.mem_cons_of_mem _ (List.mem_cons_self _ _)))
    simpa using (List.mem_filter.1 this).2
  unfold TpleComp2Layers at h2
  simp only [get_Pc, get_Pn] at h2
  by_contra hlt
  exact h2 (Or.inr ⟨by rw [ha, hb], by omega⟩)

/-- Step 2 of the doubling on one rank: the range sorted by `(Pc, Pn)`, every tuple of a
bucket whose minimum `Pn` is not `MAX_PID` moved to that minimum. -/
theorem doublingStep2_eq (prevMinPn : T) (xs : List T) :
    (forEachBucket (TpleComp cclTupleIds.Pc) (doublingPcBucket 0 prevMinPn)
        (sort (TpleComp2Layers cclTupleIds.Pc cclTupleIds.Pn) xs).length true
        (sort (TpleComp2Layers cclTupleIds.Pc cclTupleIds.Pn) xs)).1
      = (sort (TpleComp2Layers cclTupleIds.Pc cclTupleIds.Pn) xs).map (setGrandParent xs) := by
  rw [forEachBucket_fst (TpleComp cclTupleIds.Pc) (T.get cclTupleIds.Pc)
    (TpleComp_iff _) _ _ (doublingPcBucket_fst prevMinPn) _ true _ (le_refl _)
    (sortedPcPn_le xs)]
  apply List.map_congr_left
  intro t ht
  have hperm := sort_perm (TpleComp2Layers cclTupleIds.Pc cclTupleIds.Pn) xs
  have h1 : minOver (((sort (TpleComp2Layers cclTupleIds.Pc cclTupleIds.Pn) xs).filter
      (fun u => decide (u.get cclTupleIds.Pc = t.get cclTupleIds.Pc))).map T.Pn)
      = minPn xs t.Pc := minPn_perm hperm t.Pc
  have hpw := bucket_sortedPcPn_pairwise xs (t.get cclTupleIds.Pc)
  have hmem : t ∈ (sort (TpleComp2Layers cclTupleIds.Pc cclTupleIds.Pn) xs).filter
      (fun u => decide (u.get cclTupleIds.Pc = t.get cclTupleIds.Pc)) := by
    simp [ht]
  have h2 : (((sort (TpleComp2Layers cclTupleIds.Pc cclTupleIds.Pn) xs).filter
      (fun u => decide (u.get cclTupleIds.Pc = t.get cclTupleIds.Pc))).headD default).Pn
      = minPn xs t.Pc := by
    rw [← h1]
    cases hb : (sort (TpleComp2Layers cclTupleIds.Pc cclTupleIds.Pn) xs).filter
        (fun u => decide (u.get cclTupleIds.Pc = t.get cclTupleIds.Pc)) with
    | nil => rw [hb] at hmem; simp at hmem
    | cons y ys =>
      rw [hb] at hpw
      rw [head_eq_minOver_of_pairwise y ys hpw]
      rfl
  simp only [h1, h2]
  rfl

/-- The function `doPointerDoubling` on one rank, in terms of the two rewrites. -/
theorem doPointerDoubling_eq (prevMinPc prevMinPn : T) (beginOffset : Nat)
    (requests tupleVector : List T) :
    doPointerDoubling 0 prevMinPc prevMinPn beginOffset requests tupleVector
      = (tupleVector ++ requests).take beginOffset ++
        ((sort (TpleComp2Layers cclTupleIds.Pc cclTupleIds.Pn)
            ((sort (TpleComp2Layers cclTupleIds.nId cclTupleIds.Pc)
                ((tupleVector ++ requests).drop beginOffset)).map
              (flipRequest ((tupleVector ++ requests).drop beginOffset)))).map
          (setGrandParent
            ((sort (TpleComp2Layers cclTupleIds.nId cclTupleIds.Pc)
                ((tupleVector ++ requests).drop beginOffset)).map
              (flipRequest ((tupleVector ++ requests).drop beginOffset))))).filter
          (fun e => decide (e.nId ≠ MAX_NID)) := by
  unfold doPointerDoubling
  simp only []
  rw [doublingStep1_eq, doublingStep2_eq]
  simp [partitionStableTuples]

end conn.coloring

namespace conn.coloring

/-! ## One iteration of the main loop -/

theorem updatePn_nil (a b : T) : updatePn 0 1 a b [] = [] := by
  rw [updatePn_eq]; rfl

theorem updatePc_nil_range (D : Bool) (a : T) : (updatePc D 0 a []).range = [] := by
  rw [updatePc_range]; rfl

theorem updatePc_nil_requests (D : Bool) (a : T) :
    (updatePc D 0 a []).parentRequestTupleVector = [] := by
  rw [List.eq_nil_iff_forall_not_mem]
  intro r hr
  obtain ⟨_, t, ht, _⟩ := (mem_updatePc_requests D a [] r).1 hr
  simp at ht

theorem updatePc_nil_converged (D : Bool) (a : T) : (updatePc D 0 a []).converged = true := by
  rw [updatePc_converged]
  intro t ht
  simp at ht

theorem updatePn_length (a b : T) (xs : List T) : (updatePn 0 1 a b xs).length = xs.length := by
  rw [updatePn_eq, List.length_map, sort_length]

theorem updatePc_range_length (D : Bool) (a : T) (xs : List T) :
    (updatePc D 0 a xs).range.length = xs.length := by
  rw [updatePc_range, List.length_map, sort_length]

theorem take_append_of_length_or {S X : List T} {d : Nat}
    (h : S.length = d ∨ (S.length ≤ d ∧ X = [])) : (S ++ X).take d = S ∧ (S ++ X).drop d = X := by
  rcases h with h | ⟨h, hX⟩
  · subst h
    exact ⟨List.take_left' rfl, List.drop_left' rfl⟩
  · subst hX
    rw [List.append_nil]
    exact ⟨List.take_of_length_le h, List.drop_of_length_le h⟩

theorem stable_length_or (s : LoopState) (X : List T) (hX : activeOf s = [] → X = []) :
    (stableOf s).length = s.distance_begin_mid ∨
      ((stableOf s).length ≤ s.distance_begin_mid ∧ X = []) := by
  unfold stableOf activeOf at *
  by_cases h : s.distance_begin_mid ≤ s.tupleVector.length
  · left; simp [List.length_take, h]
  · right
    refine ⟨by simp [List.length_take], hX ?_⟩
    exact List.drop_of_length_le (by omega)

/-- The array after the first three steps of an iteration: the stable part untouched,
followed by the new active range. -/
theorem doubling_phase_eq (D : Bool) (s : LoopState) :
    (if D then
        doPointerDoubling 0 default default s.distance_begin_mid
          (updatePc D 0 default (updatePn 0 1 default default (activeOf s))).parentRequestTupleVector
          (stableOf s ++ (updatePc D 0 default (updatePn 0 1 default default (activeOf s))).range)
      else stableOf s ++ (updatePc D 0 default (updatePn 0 1 default default (activeOf s))).range)
      = stableOf s ++ activeAfter D (activeOf s) := by
  cases D with
  | false => simp [activeAfter]
  | true =>
    simp only [if_true, activeAfter]
    rw [doPointerDoubling_eq, List.append_assoc]
    have hX : activeOf s = [] →
        (updatePc true 0 default (updatePn 0 1 default default (activeOf s))).range ++
        (updatePc true 0 default
          (updatePn 0 1 default default (activeOf s))).parentRequestTupleVector = [] := by
      intro h
      rw [h, updatePn_nil, updatePc_nil_range, updatePc_nil_requests]; rfl
    obtain ⟨h1, h2⟩ := take_append_of_length_or (stable_length_or s _ hX)
    rw [h1, h2]
    rfl

theorem activeAfter_nil (D : Bool) : activeAfter D [] = [] := by
  unfold activeAfter
  simp only [updatePn_nil, updatePc_nil_range, updatePc_nil_requests]
  cases D <;> rfl

theorem iteration_converged (O : opt_level) (D : Bool) (s : LoopState) :
    (iteration O D s).converged = convergedOn D (activeOf s) := by
  unfold iteration convergedOn activeOf
  simp only []
  split <;> rfl

theorem iteration_iterCount (O : opt_level) (D : Bool) (s : LoopState) :
    (iteration O D s).iterCount = s.iterCount + 1 := by
  unfold iteration
  simp only []
  split <;> rfl

/-- The stable and the active part after an iteration that moves the stable tuples aside. -/
theorem iteration_parts_moved (O : opt_level) (D : Bool) (s : LoopState)
    (hc : convergedOn D (activeOf s) = false) (hO : O ≠ opt_level.naive) :
    stableOf (iteration O D s) = stableOf s ++
        (activeAfter D (activeOf s)).filter (fun e => decide (e.Pn = MAX_PID)) ∧
    activeOf (iteration O D s) =
        (activeAfter D (activeOf s)).filter (fun e => ! decide (e.Pn = MAX_PID)) ∧
    (iteration O D s).tupleVector = stableOf s ++
        ((activeAfter D (activeOf s)).filter (fun e => decide (e.Pn = MAX_PID)) ++
         (activeAfter D (activeOf s)).filter (fun e => ! decide (e.Pn = MAX_PID))) := by
  have hph := doubling_phase_eq D s
  have hcond : ¬ (updatePc D 0 default (updatePn 0 1 default default (activeOf s))).converged = true
      ∧ (O = opt_level.stable_partition_removed ∨ O = opt_level.loadbalanced) := by
    refine ⟨by simpa [convergedOn] using hc, ?_⟩
    cases O <;> simp at hO ⊢
  have hne : activeOf s ≠ [] := by
    intro h
    rw [h] at hc
    simp [convergedOn, updatePn_nil, updatePc_nil_converged] at hc
  have hlen : (stableOf s).length = s.distance_begin_mid := by
    rcases stable_length_or s (activeOf s) (fun h => h) with h | ⟨_, h⟩
    · exact h
    · exact absurd h hne
  have htake : (stableOf s ++ activeAfter D (activeOf s)).take s.distance_begin_mid
      = stableOf s := List.take_left' hlen
  have hdrop : (stableOf s ++ activeAfter D (activeOf s)).drop s.distance_begin_mid
      = activeAfter D (activeOf s) := List.drop_left' hlen
  have hit : iteration O D s =
      { tupleVector := stableOf s ++
          (activeAfter D (activeOf s)).filter (fun e => decide (e.Pn = MAX_PID)) ++
          (activeAfter D (activeOf s)).filter (fun e => ! decide (e.Pn = MAX_PID))
        distance_begin_mid := s.distance_begin_mid +
          ((activeAfter D (activeOf s)).filter (fun e => decide (e.Pn = MAX_PID))).length
        converged := (updatePc D 0 default (updatePn 0 1 default default (activeOf s))).converged
        iterCount := s.iterCount + 1 } := by
    unfold iteration
    simp only []
    unfold stableOf activeOf at hph hcond htake hdrop
    rw [if_pos hcond, hph, htake, hdrop]
    simp only [partitionStableTuples, List.partition_eq_filter_filter, get_Pn, stableOf,
      activeOf]
    rfl
  rw [hit]
  unfold stableOf activeOf
  simp only []
  have hl2 : (s.tupleVector.take s.distance_begin_mid ++
      (activeAfter D (s.tupleVector.drop s.distance_begin_mid)).filter
        (fun e => decide (e.Pn = MAX_PID))).length = s.distance_begin_mid +
      ((activeAfter D (s.tupleVector.drop s.distance_begin_mid)).filter
        (fun e => decide (e.Pn = MAX_PID))).length := by
    rw [List.length_append]
    unfold stableOf at hlen
    rw [hlen]
  refine ⟨List.take_left' hl2, List.drop_left' hl2, ?_⟩
  rw [List.append_assoc]

/-- The stable and the active part after an iteration that moves nothing aside. -/
theorem iteration_parts_kept (O : opt_level) (D : Bool) (s : LoopState)
    (h : convergedOn D (activeOf s) = true ∨ O = opt_level.naive) :
    stableOf (iteration O D s) = stableOf s ∧
    activeOf (iteration O D s) = activeAfter D (activeOf s) ∧
    (iteration O D s).tupleVector = stableOf s ++ activeAfter D (activeOf s) := by
  have hph := doubling_phase_eq D s
  have hcond : ¬ (¬ (updatePc D 0 default
      (updatePn 0 1 default default (activeOf s))).converged = true
      ∧ (O = opt_level.stable_partition_removed ∨ O = opt_level.loadbalanced)) := by
    rintro ⟨h1, h2⟩
    rcases h with h | h
    · exact h1 (by simpa [convergedOn] using h)
    · subst h; simp at h2
  have hit : iteration O D s =
      { tupleVector := stableOf s ++ activeAfter D (activeOf s)
        distance_begin_mid := s.distance_begin_mid
        converged := (updatePc D 0 default (updatePn 0 1 default default (activeOf s))).converged
        iterCount := s.iterCount + 1 } := by
    unfold iteration
    simp only []
    unfold stableOf activeOf at hph hcond
    rw [if_neg hcond, hph]
    rfl
  rw [hit]
  have hX : activeOf s = [] → activeAfter D (activeOf s) = [] := by
    intro h0; rw [h0, activeAfter_nil]
  obtain ⟨h1, h2⟩ := take_append_of_length_or (stable_length_or s _ hX)
  exact ⟨h1, h2, rfl⟩

end conn.coloring

namespace conn.coloring

/-! ## Facts about the bucket statistics -/

theorem minPc_le {xs : List T} {t : T} (ht : t ∈ xs) : minPc xs t.nId ≤ t.Pc := by
  unfold minPc
  apply minOver_le
  exact List.mem_map.2 ⟨t, mem_bucketOf.2 ⟨ht, rfl⟩, rfl⟩

theorem le_maxPc {xs : List T} {t : T} (ht : t ∈ xs) : t.Pc ≤ maxPc xs t.nId := by
  unfold maxPc
  apply le_maxOver
  exact List.mem_map.2 ⟨t, mem_bucketOf.2 ⟨ht, rfl⟩, rfl⟩

theorem minPn_le {xs : List T} {t : T} (ht : t ∈ xs) : minPn xs t.Pc ≤ t.Pn := by
  unfold minPn
  apply minOver_le
  exact List.mem_map.2 ⟨t, mem_bucketOf.2 ⟨ht, rfl⟩, rfl⟩

theorem minPc_mem {xs : List T} {t : T} (ht : t ∈ xs) :
    ∃ u ∈ xs, u.nId = t.nId ∧ u.Pc = minPc xs t.nId := by
  have hne : (bucketOf cclTupleIds.nId xs t.nId).map T.Pc ≠ [] := by
    apply List.ne_nil_of_mem (a := t.Pc)
    exact List.mem_map.2 ⟨t, mem_bucketOf.2 ⟨ht, rfl⟩, rfl⟩
  obtain ⟨u, hu, hup⟩ := List.mem_map.1 (minOver_mem hne)
  obtain ⟨hu1, hu2⟩ := mem_bucketOf.1 hu
  exact ⟨u, hu1, hu2, hup⟩

theorem maxPc_mem {xs : List T} {t : T} (ht : t ∈ xs) :
    ∃ u ∈ xs, u.nId = t.nId ∧ u.Pc = maxPc xs t.nId := by
  have hne : (bucketOf cclTupleIds.nId xs t.nId).map T.Pc ≠ [] := by
    apply List.ne_nil_of_mem (a := t.Pc)
    exact List.mem_map.2 ⟨t, mem_bucketOf.2 ⟨ht, rfl⟩, rfl⟩
  obtain ⟨u, hu, hup⟩ := List.mem_map.1 (maxOver_mem hne)
  obtain ⟨hu1, hu2⟩ := mem_bucketOf.1 hu
  exact ⟨u, hu1, hu2, hup⟩

theorem minPn_mem {xs : List T} {t : T} (ht : t ∈ xs) :
    ∃ w ∈ xs, w.Pc = t.Pc ∧ w.Pn = minPn xs t.Pc := by
  have hne : (bucketOf cclTupleIds.Pc xs t.Pc).map T.Pn ≠ [] := by
    apply List.ne_nil_of_mem (a := t.Pn)
    exact List.mem_map.2 ⟨t, mem_bucketOf.2 ⟨ht, rfl⟩, rfl⟩
  obtain ⟨u, hu, hup⟩ := List.mem_map.1 (minOver_mem hne)
  obtain ⟨hu1, hu2⟩ := mem_bucketOf.1 hu
  exact ⟨u, hu1, hu2, hup⟩

/-! ## The two updates as rewrites of every tuple -/

theorem updatePn_perm (a b : T) (xs : List T) :
    (updatePn 0 1 a b xs).Perm (xs.map (setPn xs)) := by
  rw [updatePn_eq]
  exact (sort_perm _ xs).map _

theorem updatePc_perm (D : Bool) (a : T) (xs : List T) :
    (updatePc D 0 a xs).range.Perm (xs.map (setPc xs)) := by
  rw [updatePc_range]
  exact (sort_perm _ xs).map _

theorem mem_updatePn {a b : T} {xs : List T} {t : T} :
    t ∈ updatePn 0 1 a b xs ↔ ∃ u ∈ xs, setPn xs u = t := by
  rw [(updatePn_perm a b xs).mem_iff, List.mem_map]

theorem mem_updatePc {D : Bool} {a : T} {xs : List T} {t : T} :
    t ∈ (updatePc D 0 a xs).range ↔ ∃ u ∈ xs, setPc xs u = t := by
  rw [(updatePc_perm D a xs).mem_iff, List.mem_map]

@[simp] theorem setPn_Pc (xs : List T) (e : T) : (setPn xs e).Pc = e.Pc := by
  unfold setPn; split <;> rfl

@[simp] theorem setPn_nId (xs : List T) (e : T) : (setPn xs e).nId = e.nId := by
  unfold setPn; split <;> rfl

@[simp] theorem setPc_nId (xs : List T) (e : T) : (setPc xs e).nId = e.nId := by
  unfold setPc; split <;> rfl

@[simp] theorem setGrandParent_nId (xs : List T) (e : T) : (setGrandParent xs e).nId = e.nId := by
  unfold setGrandParent; split <;> rfl

@[simp] theorem setGrandParent_Pn (xs : List T) (e : T) : (setGrandParent xs e).Pn = e.Pn := by
  unfold setGrandParent; split <;> rfl

theorem setPn_Pn_cases (xs : List T) (e : T) :
    ((setPn xs e).Pn = minPc xs e.nId ∧ minPc xs e.nId < maxPc xs e.nId) ∨
    ((setPn xs e).Pn = MAX_PID2 ∧ ¬ minPc xs e.nId < maxPc xs e.nId) := by
  unfold setPn
  by_cases h : minPc xs e.nId < maxPc xs e.nId
  · left; rw [if_pos h]; exact ⟨rfl, h⟩
  · right; rw [if_neg h]; exact ⟨rfl, h⟩

theorem sumPc_perm {xs ys : List T} (h : xs.Perm ys) : sumPc xs = sumPc ys :=
  (h.map _).sum_eq

theorem sumPc_append (xs ys : List T) : sumPc (xs ++ ys) = sumPc xs + sumPc ys := by
  simp [sumPc]

theorem sumPc_updatePn (a b : T) (xs : List T) : sumPc (updatePn 0 1 a b xs) = sumPc xs := by
  rw [sumPc_perm (updatePn_perm a b xs)]
  unfold sumPc
  rw [List.map_map]
  congr 1
  apply List.map_congr_left
  intro t _
  simp

/-- After `updatePn`, a proposal below `MAX_PID2` is at most the tuple's own `Pc`. -/
theorem Pn_le_Pc_of_updatePn {a b : T} {xs : List T} {t : T} (ht : t ∈ updatePn 0 1 a b xs)
    (hlt : t.Pn < MAX_PID2) : t.Pn ≤ t.Pc := by
  obtain ⟨u, hu, rfl⟩ := mem_updatePn.1 ht
  rcases setPn_Pn_cases xs u with ⟨h1, _⟩ | ⟨h1, _⟩
  · rw [h1, setPn_Pc]; exact minPc_le hu
  · rw [h1] at hlt; exact absurd hlt (lt_irrefl _)

/-- In `updatePc` after `updatePn` no partition id grows. -/
theorem setPc_Pc_le {a b : T} {xs : List T} {t : T} (ht : t ∈ updatePn 0 1 a b xs) :
    (setPc (updatePn 0 1 a b xs) t).Pc ≤ t.Pc := by
  unfold setPc
  by_cases h : minPn (updatePn 0 1 a b xs) t.Pc < MAX_PID2
  · rw [if_pos h]
    obtain ⟨w, hw, hwc, hwn⟩ := minPn_mem ht
    show minPn (updatePn 0 1 a b xs) t.Pc ≤ t.Pc
    rw [← hwn, ← hwc]
    exact Pn_le_Pc_of_updatePn hw (by rw [hwn]; exact h)
  · rw [if_neg h]

/-- In an iteration that does not converge some partition id strictly decreases in
`updatePc`. -/
theorem exists_setPc_Pc_lt {a b : T} {xs : List T} {t : T} (ht : t ∈ updatePn 0 1 a b xs)
    (hlt : minPn (updatePn 0 1 a b xs) t.Pc < MAX_PID2) :
    ∃ u ∈ updatePn 0 1 a b xs, (setPc (updatePn 0 1 a b xs) u).Pc < u.Pc := by
  obtain ⟨w, hw, hwc, hwn⟩ := minPn_mem ht
  obtain ⟨w0, hw0, hw0e⟩ := mem_updatePn.1 hw
  have hwPc : w.Pc = w0.Pc := by rw [← hw0e, setPn_Pc]
  have hwnId : w.nId = w0.nId := by rw [← hw0e, setPn_nId]
  rcases setPn_Pn_cases xs w0 with ⟨h1, h2⟩ | ⟨h1, _⟩
  · rw [hw0e] at h1
    by_cases hcase : minPc xs w0.nId < w0.Pc
    · refine ⟨t, ht, ?_⟩
      unfold setPc
      rw [if_pos hlt]
      show minPn (updatePn 0 1 a b xs) t.Pc < t.Pc
      rw [← hwn, h1, ← hwc, hwPc]
      exact hcase
    · have heq : minPc xs w0.nId = w0.Pc := le_antisymm (minPc_le hw0) (not_lt.1 hcase)
      obtain ⟨u0, hu0, hu0n, hu0c⟩ := maxPc_mem hw0
      have hu : setPn xs u0 ∈ updatePn 0 1 a b xs := mem_updatePn.2 ⟨u0, hu0, rfl⟩
      have huPn : (setPn xs u0).Pn = minPc xs w0.nId := by
        unfold setPn
        rw [hu0n, if_pos h2]
      have hmin : minPn (updatePn 0 1 a b xs) (setPn xs u0).Pc ≤ minPc xs w0.nId := by
        rw [← huPn]; exact minPn_le hu
      have hp : minPc xs w0.nId < MAX_PID2 := by
        rw [← h1, hwn]; exact hlt
      refine ⟨setPn xs u0, hu, ?_⟩
      unfold setPc
      rw [if_pos (lt_of_le_of_lt hmin hp)]
      show minPn (updatePn 0 1 a b xs) (setPn xs u0).Pc < (setPn xs u0).Pc
      rw [setPn_Pc] at hmin ⊢
      have h3 : minPc xs w0.nId < u0.Pc := by rw [hu0c]; exact h2
      exact lt_of_le_of_lt hmin h3
  · rw [hw0e] at h1
    rw [hwn] at h1
    rw [h1] at hlt
    exact absurd hlt (lt_irrefl _)

theorem sumPc_updatePc_le (D : Bool) (a b c : T) (xs : List T) :
    sumPc (updatePc D 0 c (updatePn 0 1 a b xs)).range ≤ sumPc xs := by
  rw [sumPc_perm (updatePc_perm D c _), ← sumPc_updatePn a b xs]
  unfold sumPc
  rw [List.map_map]
  exact List.sum_le_sum (fun t ht => setPc_Pc_le ht)

theorem sumPc_updatePc_lt (D : Bool) (a b c : T) (xs : List T)
    (h : (updatePc D 0 c (updatePn 0 1 a b xs)).converged = false) :
    sumPc (updatePc D 0 c (updatePn 0 1 a b xs)).range < sumPc xs := by
  rw [sumPc_perm (updatePc_perm D c _), ← sumPc_updatePn a b xs]
  unfold sumPc
  rw [List.map_map]
  have hnc : ¬ ∀ t ∈ updatePn 0 1 a b xs, ¬ minPn (updatePn 0 1 a b xs) t.Pc < MAX_PID2 := by
    intro hall
    have := (updatePc_converged D c (updatePn 0 1 a b xs)).2 hall
    rw [h] at this
    exact Bool.noConfusion this
  push_neg at hnc
  obtain ⟨t, ht, hlt⟩ := hnc
  exact List.sum_lt_sum _ _ (fun t ht => setPc_Pc_le ht) (exists_setPc_Pc_lt ht hlt)

end conn.coloring

namespace conn.coloring

/-! ## The doubling as a rewrite of the surviving tuples -/

theorem doubled_perm (xs : List T) :
    (doubled xs).Perm
      (((xs.map (flipRequest xs)).map (setGrandParent (xs.map (flipRequest xs)))).filter
        (fun e => decide (e.nId ≠ MAX_NID))) := by
  unfold doubled
  have h1 : ((sort (TpleComp2Layers cclTupleIds.nId cclTupleIds.Pc) xs).map
      (flipRequest xs)).Perm (xs.map (flipRequest xs)) := (sort_perm _ xs).map _
  rw [setGrandParent_perm h1]
  exact (((sort_perm _ _).trans h1).map _).filter _

theorem flipRequest_of_survives {xs : List T} {e : T} (h : survives e = true) :
    flipRequest xs e = e := by
  unfold survives at h
  simp only [Bool.and_eq_true, decide_eq_true_eq] at h
  unfold flipRequest
  rw [if_neg h.1]

theorem flipRequest_nId_ne_iff (xs : List T) (e : T) :
    (flipRequest xs e).nId ≠ MAX_NID ↔ survives e = true := by
  unfold flipRequest survives
  by_cases h : e.Pc = MAX_PID
  · simp [h]
  · simp [h]

theorem doubled_perm_survivors (xs : List T) :
    (doubled xs).Perm
      ((xs.filter survives).map (setGrandParent (xs.map (flipRequest xs)))) := by
  refine (doubled_perm xs).trans ?_
  rw [List.map_map, List.filter_map]
  have h1 : xs.filter ((fun e => decide (e.nId ≠ MAX_NID)) ∘
      (setGrandParent (xs.map (flipRequest xs)) ∘ flipRequest xs)) = xs.filter survives := by
    apply List.filter_congr
    intro e _
    simp only [Function.comp, setGrandParent_nId]
    by_cases hs : survives e = true
    · rw [hs]; exact decide_eq_true ((flipRequest_nId_ne_iff xs e).2 hs)
    · rw [Bool.not_eq_true] at hs
      rw [hs]
      apply decide_eq_false
      intro hne
      have := (flipRequest_nId_ne_iff xs e).1 hne
      rw [hs] at this
      exact Bool.noConfusion this
  rw [h1]
  apply List.Perm.of_eq
  apply List.map_congr_left
  intro e he
  simp only [Function.comp]
  rw [flipRequest_of_survives (List.mem_filter.1 he).2]

theorem request_not_survives {D : Bool} {a : T} {xs : List T} {r : T}
    (hr : r ∈ (updatePc D 0 a xs).parentRequestTupleVector) : survives r = false := by
  obtain ⟨_, t, _, _, rfl⟩ := (mem_updatePc_requests D a xs r).1 hr
  simp [survives]

/-- With doubling on, the new active range consists of the surviving tuples of `updatePc`,
each rewritten by the grandparent step. -/
theorem activeAfter_true_perm (active : List T) :
    (activeAfter true active).Perm
      (((updatePc true 0 default (updatePn 0 1 default default active)).range.filter
          survives).map
        (setGrandParent
          (((updatePc true 0 default (updatePn 0 1 default default active)).range ++
            (updatePc true 0 default
              (updatePn 0 1 default default active)).parentRequestTupleVector).map
            (flipRequest
              ((updatePc true 0 default (updatePn 0 1 default default active)).range ++
               (updatePc true 0 default
                (updatePn 0 1 default default active)).parentRequestTupleVector))))) := by
  unfold activeAfter
  simp only [if_true]
  refine (doubled_perm_survivors _).trans ?_
  rw [List.filter_append]
  have h2 : (updatePc true 0 default
      (updatePn 0 1 default default active)).parentRequestTupleVector.filter survives = [] := by
    apply filter_eq_nil_of_forall
    intro r hr
    exact request_not_survives hr
  rw [h2, List.append_nil]

theorem activeAfter_false (active : List T) :
    activeAfter false active
      = (updatePc false 0 default (updatePn 0 1 default default active)).range := by
  unfold activeAfter
  simp

/-- A partition that migrates leaves, after `updatePc`, a tuple whose `Pc` and `Pn` both equal
the new partition id. -/
theorem exists_witness_of_migrating {D : Bool} {a : T} {xs : List T} {t : T} (ht : t ∈ xs)
    (hlt : minPn xs t.Pc < MAX_PID2) :
    ∃ w ∈ (updatePc D 0 a xs).range, w.Pc = minPn xs t.Pc ∧ w.Pn = minPn xs t.Pc := by
  obtain ⟨w1, hw1, hw1c, hw1n⟩ := minPn_mem ht
  refine ⟨setPc xs w1, mem_updatePc.2 ⟨w1, hw1, rfl⟩, ?_, ?_⟩
  · unfold setPc
    rw [hw1c, if_pos hlt]
  · unfold setPc
    rw [hw1c, if_pos hlt]
    exact hw1n

theorem MAX_PID2_lt_pow : MAX_PID2 < 2 ^ pIdBits := by
  unfold MAX_PID2 pIdBits; norm_num

theorem MAX_PID2_lt_MAX_PID : MAX_PID2 < MAX_PID := by
  unfold MAX_PID2 MAX_PID pIdBits; norm_num

theorem toPid_of_lt {x : Nat} (h : x < MAX_PID2) : toPid x = x := by
  unfold toPid
  exact Nat.mod_eq_of_lt (lt_trans h MAX_PID2_lt_pow)

/-- When every tuple of `updatePc` survives the doubling, the grandparent step moves no tuple
to a larger partition id. -/
theorem setGrandParent_Pc_le {a : T} {xs : List T}
    (hall : ∀ t ∈ (updatePc true 0 a xs).range, survives t = true)
    {t : T} (ht : t ∈ (updatePc true 0 a xs).range) :
    (setGrandParent
      (((updatePc true 0 a xs).range ++ (updatePc true 0 a xs).parentRequestTupleVector).map
        (flipRequest
          ((updatePc true 0 a xs).range ++ (updatePc true 0 a xs).parentRequestTupleVector)))
      t).Pc ≤ t.Pc := by
  set X := (updatePc true 0 a xs).range ++ (updatePc true 0 a xs).parentRequestTupleVector
    with hX
  set F := X.map (flipRequest X) with hF
  have hmemF : ∀ w ∈ (updatePc true 0 a xs).range, w ∈ F := by
    intro w hw
    rw [hF]
    refine List.mem_map.2 ⟨w, ?_, flipRequest_of_survives (hall w hw)⟩
    rw [hX]; exact List.mem_append_left _ hw
  unfold setGrandParent
  by_cases hM : minPn F t.Pc ≠ MAX_PID
  · rw [if_pos hM]
    show minPn F t.Pc ≤ t.Pc
    obtain ⟨f0, hf0, hf0c, hf0n⟩ := minPn_mem (hmemF t ht)
    have hwit : ∃ w ∈ (updatePc true 0 a xs).range, w.Pc = t.Pc ∧ w.Pn = t.Pc := by
      rw [hF] at hf0
      obtain ⟨e0, he0, he0f⟩ := List.mem_map.1 hf0
      rw [hX] at he0
      rcases List.mem_append.1 he0 with he | he
      · have hfe : f0 = e0 := by rw [← he0f]; exact flipRequest_of_survives (hall e0 he)
        subst hfe
        obtain ⟨e1, he1, he1e⟩ := mem_updatePc.1 he
        by_cases hlt : minPn xs e1.Pc < MAX_PID2
        · obtain ⟨w, hw, hwc, hwn⟩ := exists_witness_of_migrating (D := true) (a := a) he1 hlt
          have hePc : f0.Pc = minPn xs e1.Pc := by
            rw [← he1e]; unfold setPc; rw [if_pos hlt]
          refine ⟨w, hw, ?_, ?_⟩
          · rw [hwc, ← hePc, hf0c]
          · rw [hwn, ← hePc, hf0c]
        · exfalso
          apply hM
          rw [← hf0n, ← he1e]
          unfold setPc
          rw [if_neg hlt]
      · obtain ⟨_, t', ht', hlt, hr⟩ := (mem_updatePc_requests true a xs e0).1 he
        obtain ⟨w, hw, hwc, hwn⟩ := exists_witness_of_migrating (D := true) (a := a) ht' hlt
        have hfPc : f0.Pc = minPn xs t'.Pc := by
          rw [← he0f, hr]
          unfold flipRequest
          simp only [if_true]
          exact toPid_of_lt hlt
        refine ⟨w, hw, ?_, ?_⟩
        · rw [hwc, ← hfPc, hf0c]
        · rw [hwn, ← hfPc, hf0c]
    obtain ⟨w, hw, hwc, hwn⟩ := hwit
    have := minPn_le (hmemF w hw)
    rw [hwc, hwn] at this
    exact this
  · rw [if_neg hM]

end conn.coloring

namespace conn.coloring

/-! ## Termination of the main loop -/

theorem filter_length_lt_or_eq (p : T → Bool) (l : List T) :
    (l.filter p).length < l.length ∨ l.filter p = l := by
  rcases Nat.lt_or_ge (l.filter p).length l.length with h | h
  · left; exact h
  · right
    have h2 : (l.filter p).length = l.length := le_antisymm (List.length_filter_le p l) h
    exact List.filter_eq_self.2 (List.filter_length_eq_length.1 h2)

/-- In an iteration that does not converge, the active range gets shorter, or keeps its
length while the sum of its partition ids decreases. -/
theorem activeAfter_decreases (D : Bool) (active : List T)
    (h : convergedOn D active = false) :
    (activeAfter D active).length < active.length ∨
      ((activeAfter D active).length = active.length ∧
        sumPc (activeAfter D active) < sumPc active) := by
  unfold convergedOn at h
  cases D with
  | false =>
    right
    rw [activeAfter_false]
    exact ⟨by rw [updatePc_range_length, updatePn_length], sumPc_updatePc_lt _ _ _ _ _ h⟩
  | true =>
    have hperm := activeAfter_true_perm active
    have hlen : (activeAfter true active).length
        = ((updatePc true 0 default (updatePn 0 1 default default active)).range.filter
            survives).length := by
      rw [hperm.length_eq, List.length_map]
    have hlenA : (updatePc true 0 default (updatePn 0 1 default default active)).range.length
        = active.length := by
      rw [updatePc_range_length, updatePn_length]
    rcases filter_length_lt_or_eq survives
      (updatePc true 0 default (updatePn 0 1 default default active)).range with hlt | heq
    · left; rw [hlen, ← hlenA]; exact hlt
    · right
      refine ⟨by rw [hlen, heq, hlenA], ?_⟩
      have hall : ∀ t ∈ (updatePc true 0 default (updatePn 0 1 default default active)).range,
          survives t = true := List.filter_eq_self.1 heq
      rw [heq] at hperm
      rw [sumPc_perm hperm]
      refine lt_of_le_of_lt ?_ (sumPc_updatePc_lt true default default default active h)
      unfold sumPc
      rw [List.map_map]
      exact List.sum_le_sum (fun t ht => setGrandParent_Pc_le hall ht)

/-- The same for the active part of the loop state, after the stable tuples were moved
aside. -/
theorem activeOf_iteration_decreases (O : opt_level) (D : Bool) (s : LoopState)
    (h : convergedOn D (activeOf s) = false) :
    (activeOf (iteration O D s)).length < (activeOf s).length ∨
      ((activeOf (iteration O D s)).length = (activeOf s).length ∧
        sumPc (activeOf (iteration O D s)) < sumPc (activeOf s)) := by
  have hdec := activeAfter_decreases D (activeOf s) h
  by_cases hO : O = opt_level.naive
  · rw [(iteration_parts_kept O D s (Or.inr hO)).2.1]
    exact hdec
  · rw [(iteration_parts_moved O D s h hO).2.1]
    rcases filter_length_lt_or_eq (fun e => ! decide (e.Pn = MAX_PID))
      (activeAfter D (activeOf s)) with hlt | heq
    · left
      rcases hdec with h1 | ⟨h1, _⟩
      · exact lt_trans hlt h1
      · rw [← h1]; exact hlt
    · rw [heq]; exact hdec

theorem whileNotConverged_of_converged (O : opt_level) (D : Bool) (fuel : Nat) (s : LoopState)
    (h : s.converged = true) : whileNotConverged O D fuel s = some s := by
  cases fuel <;> simp [whileNotConverged, h]

theorem whileNotConverged_succ (O : opt_level) (D : Bool) (fuel : Nat) (s : LoopState)
    (h : s.converged = false) :
    whileNotConverged O D (fuel + 1) s = whileNotConverged O D fuel (iteration O D s) := by
  simp [whileNotConverged, h]

/-- The loop `while(!converged)` ends from every state. -/
theorem whileNotConverged_terminates (O : opt_level) (D : Bool) :
    ∀ (n m : Nat) (s : LoopState), (activeOf s).length = n → sumPc (activeOf s) = m →
      ∃ fuel s', whileNotConverged O D fuel s = some s' := by
  intro n
  induction n using Nat.strong_induction_on with
  | _ n ihn =>
    intro m
    induction m using Nat.strong_induction_on with
    | _ m ihm =>
      intro s hn hm
      by_cases hc : s.converged = true
      · exact ⟨0, s, whileNotConverged_of_converged O D 0 s hc⟩
      · rw [Bool.not_eq_true] at hc
        by_cases hc1 : convergedOn D (activeOf s) = true
        · refine ⟨1, iteration O D s, ?_⟩
          rw [whileNotConverged_succ O D 0 s hc]
          exact whileNotConverged_of_converged O D 0 _
            (by rw [iteration_converged]; exact hc1)
        · rw [Bool.not_eq_true] at hc1
          have hdec := activeOf_iteration_decreases O D s hc1
          have hrec : ∃ fuel s', whileNotConverged O D fuel (iteration O D s) = some s' := by
            rcases hdec with h1 | ⟨h1, h2⟩
            · exact ihn _ (by rw [← hn]; exact h1) _ _ rfl rfl
            · exact ihm _ (by rw [← hm]; exact h2) _ (by rw [h1, hn]) rfl
          obtain ⟨fuel, s', hs'⟩ := hrec
          exact ⟨fuel + 1, s', by rw [whileNotConverged_succ O D fuel s hc]; exact hs'⟩

/-- What the loop returns is reached by iterating the loop body, and has converged. -/
theorem whileNotConverged_some (O : opt_level) (D : Bool) :
    ∀ (fuel : Nat) (s s' : LoopState), whileNotConverged O D fuel s = some s' →
      ∃ k, k ≤ fuel ∧ s' = (iteration O D)^[k] s ∧ s'.converged = true ∧
        ∀ j, j < k → ((iteration O D)^[j] s).converged = false := by
  intro fuel
  induction fuel with
  | zero =>
    intro s s' h
    by_cases hc : s.converged = true
    · rw [whileNotConverged_of_converged O D 0 s hc] at h
      cases h
      exact ⟨0, le_refl _, rfl, hc, fun j hj => absurd hj (Nat.not_lt_zero _)⟩
    · simp [whileNotConverged, hc] at h
  | succ fuel ih =>
    intro s s' h
    by_cases hc : s.converged = true
    · rw [whileNotConverged_of_converged O D _ s hc] at h
      cases h
      exact ⟨0, Nat.zero_le _, rfl, hc, fun j hj => absurd hj (Nat.not_lt_zero _)⟩
    · rw [Bool.not_eq_true] at hc
      rw [whileNotConverged_succ O D fuel s hc] at h
      obtain ⟨k, hk, hs', hconv, hbefore⟩ := ih _ _ h
      refine ⟨k + 1, Nat.succ_le_succ hk, ?_, hconv, ?_⟩
      · rw [Function.iterate_succ_apply]; exact hs'
      · intro j hj
        cases j with
        | zero => exact hc
        | succ j =>
          rw [Function.iterate_succ_apply]
          exact hbefore j (Nat.lt_of_succ_lt_succ hj)

end conn.coloring

namespace conn.coloring

/-! ## No iteration creates a partition id -/

/-- Every `Pc` left by `updatePc` after `updatePn` was a `Pc` of the range before. -/
theorem Pc_updatePc_mem {D : Bool} {a b c : T} {xs : List T} {t : T}
    (ht : t ∈ (updatePc D 0 c (updatePn 0 1 a b xs)).range) :
    ∃ u ∈ xs, u.Pc = t.Pc := by
  obtain ⟨t1, ht1, rfl⟩ := mem_updatePc.1 ht
  unfold setPc
  by_cases hlt : minPn (updatePn 0 1 a b xs) t1.Pc < MAX_PID2
  · rw [if_pos hlt]
    obtain ⟨w, hw, _, hwn⟩ := minPn_mem ht1
    obtain ⟨w0, hw0, rfl⟩ := mem_updatePn.1 hw
    rcases setPn_Pn_cases xs w0 with ⟨h1, _⟩ | ⟨h1, _⟩
    · obtain ⟨u, hu, _, huc⟩ := minPc_mem hw0
      refine ⟨u, hu, ?_⟩
      show u.Pc = minPn (updatePn 0 1 a b xs) t1.Pc
      rw [huc, ← hwn, h1]
    · rw [hwn] at h1
      rw [h1] at hlt
      exact absurd hlt (lt_irrefl _)
  · rw [if_neg hlt]
    obtain ⟨u, hu, rfl⟩ := mem_updatePn.1 ht1
    exact ⟨u, hu, by simp⟩

theorem request_Pc {D : Bool} {a : T} {xs : List T} {r : T}
    (hr : r ∈ (updatePc D 0 a xs).parentRequestTupleVector) : r.Pc = MAX_PID := by
  obtain ⟨_, t, _, _, rfl⟩ := (mem_updatePc_requests D a xs r).1 hr
  rfl

/-- Every `Pc` of the active range after an iteration was a `Pc` of the active range
before. -/
theorem Pc_activeAfter_mem (D : Bool) {active : List T} {t : T}
    (ht : t ∈ activeAfter D active) : ∃ u ∈ active, u.Pc = t.Pc := by
  cases D with
  | false =>
    rw [activeAfter_false] at ht
    exact Pc_updatePc_mem ht
  | true =>
    have hperm := activeAfter_true_perm active
    rw [hperm.mem_iff] at ht
    obtain ⟨t0, ht0, rfl⟩ := List.mem_map.1 ht
    obtain ⟨ht0r, ht0s⟩ := List.mem_filter.1 ht0
    set A1 := updatePn 0 1 default default active with hA1
    set X := (updatePc true 0 default A1).range ++
      (updatePc true 0 default A1).parentRequestTupleVector with hX
    set F := X.map (flipRequest X) with hF
    have ht0F : t0 ∈ F := by
      rw [hF]
      exact List.mem_map.2 ⟨t0, by rw [hX]; exact List.mem_append_left _ ht0r,
        flipRequest_of_survives ht0s⟩
    unfold setGrandParent
    by_cases hM : minPn F t0.Pc ≠ MAX_PID
    · rw [if_pos hM]
      show ∃ u ∈ active, u.Pc = minPn F t0.Pc
      obtain ⟨f0, hf0, hf0c, hf0n⟩ := minPn_mem ht0F
      rw [← hf0n] at hM ⊢
      rw [hF] at hf0
      obtain ⟨e0, he0, rfl⟩ := List.mem_map.1 hf0
      by_cases he0M : e0.Pc = MAX_PID
      · have hfn : (flipRequest X e0).Pn = minPc X e0.nId := by
          unfold flipRequest; rw [if_pos he0M]
        rw [hfn] at hM ⊢
        obtain ⟨u, hu, _, huc⟩ := minPc_mem he0
        rw [← huc] at hM ⊢
        rw [hX] at hu
        rcases List.mem_append.1 hu with hu | hu
        · exact Pc_updatePc_mem hu
        · exact absurd (request_Pc hu) hM
      · have hfe : flipRequest X e0 = e0 := by
          unfold flipRequest; rw [if_neg he0M]
        rw [hfe] at hM hf0c hf0n ⊢
        rw [hX] at he0
        rcases List.mem_append.1 he0 with he | he
        · obtain ⟨e1, he1, he1e⟩ := mem_updatePc.1 he
          by_cases hlt : minPn A1 e1.Pc < MAX_PID2
          · have hePn : e0.Pn = e1.Pn := by
              rw [← he1e]; unfold setPc; rw [if_pos hlt]
            have hePc : e0.Pc = minPn A1 e1.Pc := by
              rw [← he1e]; unfold setPc; rw [if_pos hlt]
            rw [hePn]
            obtain ⟨e2, he2, rfl⟩ := mem_updatePn.1 he1
            rcases setPn_Pn_cases active e2 with ⟨h1, _⟩ | ⟨h1, _⟩
            · obtain ⟨u, hu, _, huc⟩ := minPc_mem he2
              exact ⟨u, hu, by rw [huc, h1]⟩
            · exfalso
              obtain ⟨w, hw, hwc, hwn⟩ :=
                exists_witness_of_migrating (D := true) (a := default) he1 hlt
              have hwM : w.Pc ≠ MAX_PID := by
                rw [hwc]; exact ne_of_lt (lt_trans hlt MAX_PID2_lt_MAX_PID)
              have hwF : w ∈ F := by
                rw [hF]
                refine List.mem_map.2 ⟨w, ?_, ?_⟩
                · rw [hX]; exact List.mem_append_left _ hw
                · unfold flipRequest; rw [if_neg hwM]
              have hle := minPn_le hwF
              rw [hwc, ← hePc, hf0c, ← hf0n, hePn, h1, hwn] at hle
              exact absurd hlt (not_lt.2 hle)
          · exfalso
            apply hM
            rw [← he1e]; unfold setPc; rw [if_neg hlt]
        · exact absurd (request_Pc he) he0M
    · rw [if_neg hM]
      exact Pc_updatePc_mem ht0r

theorem stable_append_active (s : LoopState) : stableOf s ++ activeOf s = s.tupleVector :=
  List.take_append_drop _ _

theorem mem_tupleVector_iteration {O : opt_level} {D : Bool} {s : LoopState} {t : T} :
    t ∈ (iteration O D s).tupleVector ↔ t ∈ stableOf s ∨ t ∈ activeAfter D (activeOf s) := by
  by_cases h : convergedOn D (activeOf s) = true ∨ O = opt_level.naive
  · rw [(iteration_parts_kept O D s h).2.2, List.mem_append]
  · push_neg at h
    rw [(iteration_parts_moved O D s (by simpa using h.1) h.2).2.2]
    simp only [List.mem_append, List.mem_filter, Bool.not_eq_true', decide_eq_false_iff_not,
      decide_eq_true_eq]
    constructor
    · rintro (h1 | ⟨h1, _⟩ | ⟨h1, _⟩)
      · exact Or.inl h1
      · exact Or.inr h1
      · exact Or.inr h1
    · rintro (h1 | h1)
      · exact Or.inl h1
      · by_cases hp : t.Pn = MAX_PID
        · exact Or.inr (Or.inl ⟨h1, hp⟩)
        · exact Or.inr (Or.inr ⟨h1, hp⟩)

/-- Every `Pc` of the array after an iteration was a `Pc` of the array before it. -/
theorem Pc_iteration_mem (O : opt_level) (D : Bool) (s : LoopState) {t : T}
    (ht : t ∈ (iteration O D s).tupleVector) : ∃ u ∈ s.tupleVector, u.Pc = t.Pc := by
  rcases mem_tupleVector_iteration.1 ht with h | h
  · refine ⟨t, ?_, rfl⟩
    rw [← stable_append_active s]; exact List.mem_append_left _ h
  · obtain ⟨u, hu, huc⟩ := Pc_activeAfter_mem D h
    refine ⟨u, ?_, huc⟩
    rw [← stable_append_active s]; exact List.mem_append_right _ hu

theorem distinctPcCount_le_of_subset {xs ys : List T}
    (h : ∀ t ∈ xs, ∃ u ∈ ys, u.Pc = t.Pc) : distinctPcCount xs ≤ distinctPcCount ys := by
  unfold distinctPcCount
  apply List.Subperm.length_le
  apply List.subperm_of_subset (List.nodup_dedup _)
  intro p hp
  rw [List.mem_dedup] at hp ⊢
  obtain ⟨t, ht, rfl⟩ := List.mem_map.1 hp
  obtain ⟨u, hu, huc⟩ := h t ht
  exact List.mem_map.2 ⟨u, hu, huc⟩

end conn.coloring

namespace conn.coloring

/-! ## `updatePn` reads only `nId` and `Pc` -/

theorem findRange_map_blankPn (layer : cclTupleIds) (hl : layer ≠ cclTupleIds.Pn) (x : T)
    (ys : List T) :
    findRange (TpleComp layer) (blankPn x) (ys.map blankPn)
      = ((findRange (TpleComp layer) x ys).1.map blankPn,
         (findRange (TpleComp layer) x ys).2.map blankPn) := by
  have hget : ∀ e : T, (blankPn e).get layer = e.get layer := by
    intro e
    cases layer with
    | Pc => rfl
    | Pn => exact absurd rfl hl
    | nId => rfl
  induction ys with
  | nil => rfl
  | cons y ys ih =>
    simp only [List.map_cons, findRange, TpleComp, hget]
    by_cases h : ¬ y.get layer < x.get layer ∧ ¬ x.get layer < y.get layer
    · rw [if_pos h, if_pos h, ih]
      simp
    · rw [if_neg h, if_neg h]
      simp

theorem TpleReduce_blankPn (layer : cclTupleIds) (hl : layer ≠ cclTupleIds.Pn)
    (op : Nat → Nat → Bool) (a b : T) :
    TpleReduce layer op (blankPn a) (blankPn b) = blankPn (TpleReduce layer op a b) := by
  have hget : ∀ e : T, (blankPn e).get layer = e.get layer := by
    intro e
    cases layer with
    | Pc => rfl
    | Pn => exact absurd rfl hl
    | nId => rfl
  unfold TpleReduce
  rw [hget, hget]
  split <;> rfl

theorem foldl_reduce_blankPn (layer : cclTupleIds) (hl : layer ≠ cclTupleIds.Pn)
    (op : Nat → Nat → Bool) (xs : List T) (a : T) :
    (xs.map blankPn).foldl (TpleReduce layer op) (blankPn a)
      = blankPn (xs.foldl (TpleReduce layer op) a) := by
  induction xs generalizing a with
  | nil => rfl
  | cons y ys ih =>
    simp only [List.map_cons, List.foldl_cons]
    rw [TpleReduce_blankPn layer hl, ih]

theorem local_reduce_blankPn (layer : cclTupleIds) (hl : layer ≠ cclTupleIds.Pn)
    (op : Nat → Nat → Bool) (xs : List T) :
    local_reduce (TpleReduce layer op) default (xs.map blankPn)
      = blankPn (local_reduce (TpleReduce layer op) default xs) := by
  cases xs with
  | nil => rfl
  | cons x xs =>
    simp only [List.map_cons, local_reduce]
    exact foldl_reduce_blankPn layer hl op xs x

theorem TpleReduce2Layers_blankPn_right (op1 op2 : Nat → Nat → Bool) (p m : T) :
    (TpleReduce2Layers cclTupleIds.nId cclTupleIds.Pc op1 op2 p (blankPn m)).Pc
      = (TpleReduce2Layers cclTupleIds.nId cclTupleIds.Pc op1 op2 p m).Pc := by
  unfold TpleReduce2Layers
  show (if op1 p.nId m.nId = true then p
      else if op1 m.nId p.nId = true then blankPn m
      else if op2 p.Pc m.Pc = true then p else blankPn m).Pc
    = (if op1 p.nId m.nId = true then p
      else if op1 m.nId p.nId = true then m else if op2 p.Pc m.Pc = true then p else m).Pc
  by_cases h1 : op1 p.nId m.nId = true
  · rw [if_pos h1, if_pos h1]
  · rw [if_neg h1, if_neg h1]
    by_cases h2 : op1 m.nId p.nId = true
    · rw [if_pos h2, if_pos h2]; rfl
    · rw [if_neg h2, if_neg h2]
      by_cases h3 : op2 p.Pc m.Pc = true
      · rw [if_pos h3, if_pos h3]
      · rw [if_neg h3, if_neg h3]; rfl

theorem updatePnBucket_blankPn (rank size : Nat) (prevMinPc nextMaxPc : T) (b1 b2 : Bool)
    (bucket : List T) :
    updatePnBucket rank size prevMinPc nextMaxPc b1 b2 (bucket.map blankPn)
      = updatePnBucket rank size prevMinPc nextMaxPc b1 b2 bucket := by
  have hl : cclTupleIds.Pc ≠ cclTupleIds.Pn := by decide
  unfold updatePnBucket
  simp only [local_reduce_blankPn _ hl, TpleComp, get_Pc]
  have hb : ∀ e : T, (blankPn e).Pc = e.Pc := fun _ => rfl
  have hmin : (if b1 = true then
        if rank = 0 then blankPn (local_reduce (TpleReduce cclTupleIds.Pc less) default bucket)
        else TpleReduce2Layers cclTupleIds.nId cclTupleIds.Pc greater less prevMinPc
          (blankPn (local_reduce (TpleReduce cclTupleIds.Pc less) default bucket))
      else blankPn (local_reduce (TpleReduce cclTupleIds.Pc less) default bucket)).Pc
      = (if b1 = true then
        if rank = 0 then local_reduce (TpleReduce cclTupleIds.Pc less) default bucket
        else TpleReduce2Layers cclTupleIds.nId cclTupleIds.Pc greater less prevMinPc
          (local_reduce (TpleReduce cclTupleIds.Pc less) default bucket)
      else local_reduce (TpleReduce cclTupleIds.Pc less) default bucket).Pc := by
    split
    · split
      · rfl
      · exact TpleReduce2Layers_blankPn_right _ _ _ _
    · rfl
  have hmax : (if b2 = true then
        if rank = size - 1 then
          blankPn (local_reduce (TpleReduce cclTupleIds.Pc greater) default bucket)
        else TpleReduce2Layers cclTupleIds.nId cclTupleIds.Pc less greater nextMaxPc
          (blankPn (local_reduce (TpleReduce cclTupleIds.Pc greater) default bucket))
      else blankPn (local_reduce (TpleReduce cclTupleIds.Pc greater) default bucket)).Pc
      = (if b2 = true then
        if rank = size - 1 then local_reduce (TpleReduce cclTupleIds.Pc greater) default bucket
        else TpleReduce2Layers cclTupleIds.nId cclTupleIds.Pc less greater nextMaxPc
          (local_reduce (TpleReduce cclTupleIds.Pc greater) default bucket)
      else local_reduce (TpleReduce cclTupleIds.Pc greater) default bucket).Pc := by
    split
    · split
      · rfl
      · exact TpleReduce2Layers_blankPn_right _ _ _ _
    · rfl
  rw [hmin, hmax]
  simp only [List.map_map]
  rfl

theorem ite_map_fst_blankPn (c : Prop) [Decidable c] (f g : T → T) (bucket : List T)
    (hf : ∀ e, blankPn (f e) = blankPn e) (hg : ∀ e, blankPn (g e) = blankPn e) :
    (if c then (bucket.map f, ([] : List Unit)) else (bucket.map g, [])).1.map blankPn
      = bucket.map blankPn := by
  by_cases h : c
  · rw [if_pos h, List.map_map]
    exact List.map_congr_left (fun e _ => hf e)
  · rw [if_neg h, List.map_map]
    exact List.map_congr_left (fun e _ => hg e)

theorem updatePnBucket_fst_blankPn (rank size : Nat) (prevMinPc nextMaxPc : T) (b1 b2 : Bool)
    (bucket : List T) :
    (updatePnBucket rank size prevMinPc nextMaxPc b1 b2 bucket).1.map blankPn
      = bucket.map blankPn := by
  unfold updatePnBucket
  exact ite_map_fst_blankPn _ _ _ _ (fun _ => rfl) (fun _ => rfl)

/-- The walk of `updatePn` gives the same result on a range and on the range with every `Pn`
blanked. -/
theorem updatePn_walk_blankPn (rank size : Nat) (prevMinPc nextMaxPc : T) :
    ∀ (n : Nat) (b : Bool) (xs : List T),
      forEachBucket (TpleComp cclTupleIds.nId)
          (updatePnBucket rank size prevMinPc nextMaxPc) n b (xs.map blankPn)
        = forEachBucket (TpleComp cclTupleIds.nId)
          (updatePnBucket rank size prevMinPc nextMaxPc) n b xs := by
  intro n
  induction n with
  | zero => intro b xs; rfl
  | succ n ih =>
    intro b xs
    cases xs with
    | nil => rfl
    | cons x xs =>
      have hfr := findRange_map_blankPn cclTupleIds.nId (by decide) x (x :: xs)
      simp only [List.map_cons] at hfr
      have hemp : ∀ l : List T, (l.map blankPn).isEmpty = l.isEmpty := by
        intro l; cases l <;> rfl
      simp only [List.map_cons, forEachBucket, hfr, ih, updatePnBucket_blankPn, hemp]

theorem findRange_append (comp : T → T → Prop) [DecidableRel comp] (x : T) (ys : List T) :
    (findRange comp x ys).1 ++ (findRange comp x ys).2 = ys := by
  induction ys with
  | nil => rfl
  | cons y ys ih =>
    unfold findRange
    split
    · simp [ih]
    · rfl

theorem findRange_snd_length (comp : T → T → Prop) [DecidableRel comp] (x : T) (ys : List T) :
    (findRange comp x ys).2.length ≤ ys.length := by
  have := congrArg List.length (findRange_append comp x ys)
  rw [List.length_append] at this
  omega

theorem findRange_head_snd_length (layer : cclTupleIds) (x : T) (ys : List T) :
    (findRange (TpleComp layer) x (x :: ys)).2.length ≤ ys.length := by
  unfold findRange
  have h : ¬ TpleComp layer x x ∧ ¬ TpleComp layer x x := by
    unfold TpleComp; omega
  rw [if_pos h]
  exact findRange_snd_length _ _ _

/-- The walk of `updatePn` changes no `Pc` and no `nId`, and keeps the order. -/
theorem updatePn_walk_map_blankPn (rank size : Nat) (prevMinPc nextMaxPc : T) :
    ∀ (n : Nat) (b : Bool) (xs : List T), xs.length ≤ n →
      (forEachBucket (TpleComp cclTupleIds.nId)
          (updatePnBucket rank size prevMinPc nextMaxPc) n b xs).1.map blankPn
        = xs.map blankPn := by
  intro n
  induction n with
  | zero =>
    intro b xs hlen
    have : xs = [] := List.length_eq_zero.1 (Nat.le_zero.1 hlen)
    subst this; rfl
  | succ n ih =>
    intro b xs hlen
    cases xs with
    | nil => rfl
    | cons x xs =>
      simp only [forEachBucket, List.map_append]
      have hlen2 : (findRange (TpleComp cclTupleIds.nId) x (x :: xs)).2.length ≤ n := by
        have := findRange_head_snd_length cclTupleIds.nId x xs
        simp only [List.length_cons] at hlen
        omega
      rw [updatePnBucket_fst_blankPn, ih _ _ hlen2, ← List.map_append, findRange_append]

theorem sorted_of_map_blankPn {xs ys : List T} (h : xs.map blankPn = ys.map blankPn)
    (hs : ys.Sorted (fun a b => ¬ TpleComp2Layers cclTupleIds.nId cclTupleIds.Pc b a)) :
    xs.Sorted (fun a b => ¬ TpleComp2Layers cclTupleIds.nId cclTupleIds.Pc b a) := by
  have hrel : ∀ a b : T, (¬ TpleComp2Layers cclTupleIds.nId cclTupleIds.Pc b a)
      ↔ (¬ TpleComp2Layers cclTupleIds.nId cclTupleIds.Pc (blankPn b) (blankPn a)) :=
    fun a b => Iff.rfl
  have h1 : (ys.map blankPn).Pairwise
      (fun a b => ¬ TpleComp2Layers cclTupleIds.nId cclTupleIds.Pc b a) :=
    List.pairwise_map.2 (List.Pairwise.imp (fun {a b} hab => (hrel a b).1 hab) hs)
  rw [← h] at h1
  exact List.Pairwise.imp (fun {a b} hab => (hrel a b).2 hab) (List.pairwise_map.1 h1)

theorem updatePn_def (rank size : Nat) (prevMinPc nextMaxPc : T) (xs : List T) :
    updatePn rank size prevMinPc nextMaxPc xs
      = (forEachBucket (TpleComp cclTupleIds.nId)
          (updatePnBucket rank size prevMinPc nextMaxPc)
          (sort (TpleComp2Layers cclTupleIds.nId cclTupleIds.Pc) xs).length true
          (sort (TpleComp2Layers cclTupleIds.nId cclTupleIds.Pc) xs)).1 := rfl

/-- Running `updatePn` on its own result changes nothing, whatever the rank, the size of the
communicator and the carries. -/
theorem updatePn_updatePn (rank size : Nat) (prevMinPc nextMaxPc : T) (xs : List T) :
    updatePn rank size prevMinPc nextMaxPc (updatePn rank size prevMinPc nextMaxPc xs)
      = updatePn rank size prevMinPc nextMaxPc xs := by
  have hW : (updatePn rank size prevMinPc nextMaxPc xs).map blankPn
      = (sort (TpleComp2Layers cclTupleIds.nId cclTupleIds.Pc) xs).map blankPn :=
    updatePn_walk_map_blankPn rank size prevMinPc nextMaxPc
      (sort (TpleComp2Layers cclTupleIds.nId cclTupleIds.Pc) xs).length true
      (sort (TpleComp2Layers cclTupleIds.nId cclTupleIds.Pc) xs) (le_refl _)
  have hsorted := sorted_of_map_blankPn hW (sort_sorted2 _ _ xs)
  have hlen : (updatePn rank size prevMinPc nextMaxPc xs).length
      = (sort (TpleComp2Layers cclTupleIds.nId cclTupleIds.Pc) xs).length := by
    have := congrArg List.length hW
    simpa using this
  have hsort : sort (TpleComp2Layers cclTupleIds.nId cclTupleIds.Pc)
      (updatePn rank size prevMinPc nextMaxPc xs) = updatePn rank size prevMinPc nextMaxPc xs :=
    sort_eq_self _ hsorted
  conv_lhs => rw [updatePn_def, hsort, ← updatePn_walk_blankPn, hW, hlen, updatePn_walk_blankPn]
  rfl

end conn.coloring

namespace conn.coloring

/-! ## The component count -/

theorem uniqueCount_eq_dedup_length :
    ∀ l : List T, l.Pairwise (fun a b => a.Pc ≤ b.Pc) →
      uniqueCount (TpleComp cclTupleIds.Pc) l = (l.map T.Pc).dedup.length := by
  intro l
  induction l with
  | nil => intro _; rfl
  | cons x xs ih =>
    intro hp
    cases xs with
    | nil => rfl
    | cons y ys =>
      have hp2 := (List.pairwise_cons.1 hp).2
      have hx := (List.pairwise_cons.1 hp).1
      rw [uniqueCount, ih hp2]
      simp only [TpleComp, get_Pc]
      by_cases hne : x.Pc < y.Pc ∨ y.Pc < x.Pc
      · rw [if_pos hne]
        have hlt : x.Pc < y.Pc := by
          have := hx y (List.mem_cons_self _ _)
          omega
        have hnot : x.Pc ∉ (y :: ys).map T.Pc := by
          intro hmem
          obtain ⟨u, hu, hux⟩ := List.mem_map.1 hmem
          have h1 : y.Pc ≤ u.Pc := by
            rcases List.mem_cons.1 hu with h | h
            · rw [h]
            · exact (List.pairwise_cons.1 hp2).1 u h
          omega
        have hm : (x :: y :: ys).map T.Pc = x.Pc :: (y :: ys).map T.Pc := rfl
        rw [hm, List.dedup_cons_of_not_mem hnot, List.length_cons]
        omega
      · rw [if_neg hne]
        have heq : x.Pc = y.Pc := by omega
        have hmem : x.Pc ∈ (y :: ys).map T.Pc := by
          rw [heq]; exact List.mem_map.2 ⟨y, List.mem_cons_self _ _, rfl⟩
        have hm : (x :: y :: ys).map T.Pc = x.Pc :: (y :: ys).map T.Pc := rfl
        rw [hm, List.dedup_cons_of_mem hmem]
        omega

theorem distinctPcCount_perm {xs ys : List T} (h : xs.Perm ys) :
    distinctPcCount xs = distinctPcCount ys := by
  unfold distinctPcCount
  exact ((h.map T.Pc).dedup).length_eq

theorem sorted1_Pc_pairwise {l : List T}
    (h : l.Sorted (fun a b => ¬ TpleComp cclTupleIds.Pc b a)) :
    l.Pairwise (fun a b => a.Pc ≤ b.Pc) := by
  refine List.Pairwise.imp ?_ h
  intro a b hab
  unfold TpleComp at hab
  simp only [get_Pc] at hab
  omega

/-- The array that `computeComponentCount` counts on: ordered by `Pc`, with the tuples of the
array it was given. -/
theorem computeComponentCount_tupleVector (c : ccl) :
    (computeComponentCount c).tupleVector.Sorted (fun a b => ¬ TpleComp cclTupleIds.Pc b a) ∧
    (computeComponentCount c).tupleVector.Perm c.tupleVector := by
  unfold computeComponentCount
  simp only []
  by_cases h : is_sorted (TpleComp cclTupleIds.Pc) c.tupleVector = true
  · rw [if_neg (by simpa using h)]
    exact ⟨by simpa [is_sorted] using h, List.Perm.refl _⟩
  · rw [if_pos (by simpa using h)]
    exact ⟨sort_sorted1 _ _, sort_perm _ _⟩

theorem computeComponentCount_count (c : ccl) :
    (computeComponentCount c).componentCount = distinctPcCount c.tupleVector := by
  obtain ⟨hs, hp⟩ := computeComponentCount_tupleVector c
  rw [← distinctPcCount_perm hp]
  unfold distinctPcCount
  rw [← uniqueCount_eq_dedup_length _ (sorted1_Pc_pairwise hs)]
  rfl

theorem computeComponentCount_of_sorted (c : ccl)
    (h : is_sorted (TpleComp cclTupleIds.Pc) c.tupleVector = true) :
    computeComponentCount c
      = { tupleVector := c.tupleVector
          componentCount := uniqueCount (TpleComp cclTupleIds.Pc) c.tupleVector } := by
  unfold computeComponentCount
  simp only [h, not_true_eq_false, if_false]

theorem computeComponentCount_twice (c : ccl) :
    computeComponentCount (computeComponentCount c) = computeComponentCount c := by
  obtain ⟨hs, _⟩ := computeComponentCount_tupleVector c
  have h : is_sorted (TpleComp cclTupleIds.Pc) (computeComponentCount c).tupleVector = true := by
    simpa [is_sorted] using hs
  rw [computeComponentCount_of_sorted _ h]
  rfl

end conn.coloring

namespace conn.coloring

/-! ## Nodes that agree and partitions that are stable -/

theorem nodeAgrees_iff {xs : List T} {t : T} (ht : t ∈ xs) :
    ¬ minPc xs t.nId < maxPc xs t.nId ↔ NodeAgrees xs t.nId := by
  constructor
  · intro h u hu u' hu' hun hun'
    have h1 := minPc_le hu
    have h2 := le_maxPc hu
    have h3 := minPc_le hu'
    have h4 := le_maxPc hu'
    rw [hun] at h1 h2
    rw [hun'] at h3 h4
    omega
  · intro h hlt
    obtain ⟨u, hu, hun, huc⟩ := minPc_mem ht
    obtain ⟨u', hu', hun', huc'⟩ := maxPc_mem ht
    have := h u hu u' hu' hun hun'
    omega

theorem setPn_Pn_of_agrees {xs : List T} {t : T} (ht : t ∈ xs) (h : NodeAgrees xs t.nId) :
    (setPn xs t).Pn = MAX_PID2 := by
  unfold setPn
  rw [if_neg ((nodeAgrees_iff ht).2 h)]

theorem setPn_Pn_of_not_agrees {xs : List T} {t : T} (ht : t ∈ xs)
    (h : ¬ NodeAgrees xs t.nId) : (setPn xs t).Pn = minPc xs t.nId := by
  unfold setPn
  have : minPc xs t.nId < maxPc xs t.nId := by
    by_contra hc
    exact h ((nodeAgrees_iff ht).1 hc)
  rw [if_pos this]

theorem minPc_lt_of_noSentinel {xs : List T} (hb : NoSentinel xs) {t : T} (ht : t ∈ xs) :
    minPc xs t.nId < MAX_PID2 :=
  lt_of_le_of_lt (minPc_le ht) (hb t ht).1

theorem setPn_Pn_le {xs : List T} (hb : NoSentinel xs) {t : T} (ht : t ∈ xs) :
    (setPn xs t).Pn ≤ MAX_PID2 := by
  by_cases h : NodeAgrees xs t.nId
  · rw [setPn_Pn_of_agrees ht h]
  · rw [setPn_Pn_of_not_agrees ht h]
    exact le_of_lt (minPc_lt_of_noSentinel hb ht)

/-- After `updatePn`, the minimum `Pn` of a partition is not below `MAX_PID2` exactly when
every node of the partition agrees. -/
theorem bucketStable_iff {xs : List T} (hb : NoSentinel xs) {t : T} (ht : t ∈ xs) :
    ¬ minPn (updatePn 0 1 default default xs) t.Pc < MAX_PID2 ↔ BucketStable xs t.Pc := by
  have ht1 : setPn xs t ∈ updatePn 0 1 default default xs := mem_updatePn.2 ⟨t, ht, rfl⟩
  constructor
  · intro h u hu huc
    by_contra hna
    have hu1 : setPn xs u ∈ updatePn 0 1 default default xs := mem_updatePn.2 ⟨u, hu, rfl⟩
    have hle := minPn_le hu1
    rw [setPn_Pc, huc, setPn_Pn_of_not_agrees hu hna] at hle
    exact h (lt_of_le_of_lt hle (minPc_lt_of_noSentinel hb hu))
  · intro h hlt
    obtain ⟨w, hw, hwc, hwn⟩ := minPn_mem ht1
    obtain ⟨u, hu, rfl⟩ := mem_updatePn.1 hw
    rw [setPn_Pc, setPn_Pc] at hwc
    rw [setPn_Pc] at hwn
    have := setPn_Pn_of_agrees hu (h u hu hwc)
    rw [hwn] at this
    rw [this] at hlt
    exact lt_irrefl _ hlt

theorem img2_nId (xs : List T) (t : T) : (img2 xs t).nId = t.nId := by
  unfold img2; simp

theorem img2_of_stable {xs : List T} (hb : NoSentinel xs) {t : T} (ht : t ∈ xs)
    (h : BucketStable xs t.Pc) : img2 xs t = { t with Pn := MAX_PID } := by
  have h1 := (bucketStable_iff hb ht).2 h
  unfold img2 setPc
  rw [setPn_Pc, if_neg h1]
  cases t
  simp [setPn]
  split <;> rfl

/-- What `updatePn` and `updatePc` make of a tuple whose partition is not stable: the
partition moves to the minimum `Pc` of one of its nodes, a node that does not agree. -/
theorem img2_of_not_stable {xs : List T} (hb : NoSentinel xs) {t : T} (ht : t ∈ xs)
    (h : ¬ BucketStable xs t.Pc) :
    (img2 xs t).Pc = minPn (updatePn 0 1 default default xs) t.Pc ∧
    (img2 xs t).Pn = (setPn xs t).Pn ∧
    minPn (updatePn 0 1 default default xs) t.Pc < MAX_PID2 ∧
    ∃ w ∈ xs, w.Pc = t.Pc ∧ ¬ NodeAgrees xs w.nId ∧
      minPn (updatePn 0 1 default default xs) t.Pc = minPc xs w.nId := by
  have hlt : minPn (updatePn 0 1 default default xs) t.Pc < MAX_PID2 := by
    by_contra hc
    exact h ((bucketStable_iff hb ht).1 hc)
  have ht1 : setPn xs t ∈ updatePn 0 1 default default xs := mem_updatePn.2 ⟨t, ht, rfl⟩
  refine ⟨?_, ?_, hlt, ?_⟩
  · unfold img2 setPc
    rw [setPn_Pc, if_pos hlt]
  · unfold img2 setPc
    rw [setPn_Pc, if_pos hlt]
  · obtain ⟨w1, hw1, hw1c, hw1n⟩ := minPn_mem ht1
    obtain ⟨w, hw, rfl⟩ := mem_updatePn.1 hw1
    rw [setPn_Pc, setPn_Pc] at hw1c
    rw [setPn_Pc] at hw1n
    have hna : ¬ NodeAgrees xs w.nId := by
      intro ha
      rw [setPn_Pn_of_agrees hw ha] at hw1n
      rw [← hw1n] at hlt
      exact lt_irrefl _ hlt
    refine ⟨w, hw, hw1c, hna, ?_⟩
    rw [← hw1n, setPn_Pn_of_not_agrees hw hna]

theorem mem_updatePc_iff_img2 {D : Bool} {xs : List T} {t2 : T} :
    t2 ∈ (updatePc D 0 default (updatePn 0 1 default default xs)).range
      ↔ ∃ t ∈ xs, img2 xs t = t2 := by
  rw [mem_updatePc]
  constructor
  · rintro ⟨t1, ht1, rfl⟩
    obtain ⟨t, ht, rfl⟩ := mem_updatePn.1 ht1
    exact ⟨t, ht, rfl⟩
  · rintro ⟨t, ht, rfl⟩
    exact ⟨setPn xs t, mem_updatePn.2 ⟨t, ht, rfl⟩, rfl⟩

theorem updatePc_perm_img2 (D : Bool) (xs : List T) :
    (updatePc D 0 default (updatePn 0 1 default default xs)).range.Perm (xs.map (img2 xs)) := by
  refine (updatePc_perm D default _).trans ?_
  have h := (updatePn_perm default default xs).map (setPc (updatePn 0 1 default default xs))
  rw [List.map_map] at h
  exact h

theorem img2_Pc_le {xs : List T} {t : T} (ht : t ∈ xs) : (img2 xs t).Pc ≤ t.Pc := by
  have := setPc_Pc_le (a := default) (b := default) (mem_updatePn.2 ⟨t, ht, rfl⟩)
  rw [setPn_Pc] at this
  exact this

theorem img2_Pc_lt_MAX_PID2 {xs : List T} (hb : NoSentinel xs) {t : T} (ht : t ∈ xs) :
    (img2 xs t).Pc < MAX_PID2 :=
  lt_of_le_of_lt (img2_Pc_le ht) (hb t ht).1

theorem img2_Pn_eq_MAX_PID_iff {xs : List T} (hb : NoSentinel xs) {t : T} (ht : t ∈ xs) :
    (img2 xs t).Pn = MAX_PID ↔ BucketStable xs t.Pc := by
  constructor
  · intro h
    by_contra hns
    obtain ⟨_, h2, _, _⟩ := img2_of_not_stable hb ht hns
    rw [h2] at h
    have := setPn_Pn_le hb ht
    rw [h] at this
    exact absurd MAX_PID2_lt_MAX_PID (not_lt.2 this)
  · intro h
    rw [img2_of_stable hb ht h]

theorem img2_Pc_of_stable {xs : List T} (hb : NoSentinel xs) {t : T} (ht : t ∈ xs)
    (h : BucketStable xs t.Pc) : (img2 xs t).Pc = t.Pc := by
  rw [img2_of_stable hb ht h]

/-- The new `Pc` of a tuple depends on its old `Pc` only. -/
theorem img2_Pc_congr {xs : List T} {t t' : T} (h : t.Pc = t'.Pc) :
    (img2 xs t).Pc = (img2 xs t').Pc := by
  unfold img2 setPc
  rw [setPn_Pc, setPn_Pc, h]
  split <;> simp

end conn.coloring

namespace conn.coloring

/-! ## The tuple an iteration makes of a tuple -/

theorem noSentinel_survives {t : T} (h : t.Pc < MAX_PID2 ∧ t.nId ≠ MAX_NID) :
    survives t = true := by
  unfold survives
  simp only [Bool.and_eq_true, decide_eq_true_eq]
  exact ⟨ne_of_lt (lt_trans h.1 MAX_PID2_lt_MAX_PID), h.2⟩

theorem img2_survives {xs : List T} (hb : NoSentinel xs) {t : T} (ht : t ∈ xs) :
    survives (img2 xs t) = true :=
  noSentinel_survives ⟨img2_Pc_lt_MAX_PID2 hb ht, by rw [img2_nId]; exact (hb t ht).2⟩

/-- Without sentinels in the active range, the new active range consists of the images of
the tuples of the old one. -/
theorem activeAfter_perm_image (D : Bool) {xs : List T} (hb : NoSentinel xs) :
    (activeAfter D xs).Perm (xs.map (image D xs)) := by
  cases D with
  | false =>
    rw [activeAfter_false]
    have : image false xs = img2 xs := by funext t; simp [image]
    rw [this]
    exact updatePc_perm_img2 false xs
  | true =>
    refine (activeAfter_true_perm xs).trans ?_
    have hall : (updatePc true 0 default (updatePn 0 1 default default xs)).range.filter survives
        = (updatePc true 0 default (updatePn 0 1 default default xs)).range := by
      apply filter_eq_self_of_forall
      intro t2 ht2
      obtain ⟨t, ht, rfl⟩ := mem_updatePc_iff_img2.1 ht2
      exact img2_survives hb ht
    rw [hall]
    have h := (updatePc_perm_img2 true xs).map (setGrandParent (flipped xs))
    rw [List.map_map] at h
    have : image true xs = setGrandParent (flipped xs) ∘ img2 xs := by
      funext t; simp [image]
    rw [this]
    exact h

theorem mem_activeAfter_iff (D : Bool) {xs : List T} (hb : NoSentinel xs) {t' : T} :
    t' ∈ activeAfter D xs ↔ ∃ t ∈ xs, image D xs t = t' := by
  rw [(activeAfter_perm_image D hb).mem_iff, List.mem_map]

theorem image_nId (D : Bool) (xs : List T) (t : T) : (image D xs t).nId = t.nId := by
  unfold image
  cases D <;> simp [img2_nId]

theorem image_Pn (D : Bool) (xs : List T) (t : T) : (image D xs t).Pn = (img2 xs t).Pn := by
  unfold image
  cases D <;> simp

theorem image_Pn_eq_MAX_PID_iff (D : Bool) {xs : List T} (hb : NoSentinel xs) {t : T}
    (ht : t ∈ xs) : (image D xs t).Pn = MAX_PID ↔ BucketStable xs t.Pc := by
  rw [image_Pn, img2_Pn_eq_MAX_PID_iff hb ht]

theorem image_Pc_congr (D : Bool) {xs : List T} {t t' : T} (h : t.Pc = t'.Pc) :
    (image D xs t).Pc = (image D xs t').Pc := by
  unfold image
  cases D with
  | false => simp only [Bool.false_eq_true, if_false]; exact img2_Pc_congr h
  | true =>
    simp only [if_true]
    unfold setGrandParent
    rw [img2_Pc_congr h]
    split <;> simp [img2_Pc_congr h]

/-- A stable partition does not take in a partition that migrates in `updatePc`. -/
theorem bucketStable_of_img2_Pc_eq {xs : List T} (hb : NoSentinel xs) {t t' : T}
    (_ht : t ∈ xs) (ht' : t' ∈ xs) (hs : BucketStable xs t.Pc)
    (h : (img2 xs t').Pc = t.Pc) : BucketStable xs t'.Pc := by
  by_contra hns
  obtain ⟨h1, _, _, w, hw, _, hna, hmin⟩ := img2_of_not_stable hb ht' hns
  obtain ⟨u, hu, hun, huc⟩ := minPc_mem hw
  apply hna
  have : u.Pc = t.Pc := by rw [huc, ← hmin, ← h1, h]
  have := hs u hu this
  rw [hun] at this
  exact this

theorem mem_flipped_of_mem {xs : List T} (hb : NoSentinel xs) {t : T} (ht : t ∈ xs) :
    img2 xs t ∈ flipped xs := by
  unfold flipped
  refine List.mem_map.2 ⟨img2 xs t, ?_, flipRequest_of_survives (img2_survives hb ht)⟩
  exact List.mem_append_left _ (mem_updatePc_iff_img2.2 ⟨t, ht, rfl⟩)

/-- The members of the range of step 2: images of tuples of the active range, and flipped
parent requests of partitions that migrate. -/
theorem mem_flipped_cases {xs : List T} (hb : NoSentinel xs) {f : T} (hf : f ∈ flipped xs) :
    (∃ t ∈ xs, f = img2 xs t) ∨
    (∃ t ∈ xs, ¬ BucketStable xs t.Pc ∧ f.Pc = (img2 xs t).Pc ∧ f.nId = MAX_NID ∧
      (f.Pn = MAX_PID ∨ ∃ u ∈ xs, u.nId = (img2 xs t).Pc ∧ f.Pn = (img2 xs u).Pc)) := by
  unfold flipped at hf
  obtain ⟨e, he, rfl⟩ := List.mem_map.1 hf
  rcases List.mem_append.1 he with he2 | heR
  · left
    obtain ⟨t, ht, rfl⟩ := mem_updatePc_iff_img2.1 he2
    exact ⟨t, ht, flipRequest_of_survives (img2_survives hb ht)⟩
  · right
    obtain ⟨_, t1, ht1, hlt, hr⟩ := (mem_updatePc_requests true default _ e).1 heR
    obtain ⟨t, ht, rfl⟩ := mem_updatePn.1 ht1
    rw [setPn_Pc] at hlt hr
    have hns : ¬ BucketStable xs t.Pc := by
      intro hs
      exact (bucketStable_iff hb ht).2 hs hlt
    obtain ⟨h1, _, _, _⟩ := img2_of_not_stable hb ht hns
    refine ⟨t, ht, hns, ?_, ?_, ?_⟩
    · rw [hr, h1]
      unfold flipRequest
      simp only [if_true]
      exact toPid_of_lt hlt
    · rw [hr]
      unfold flipRequest
      simp only [if_true]
    · have hfn : (flipRequest
          ((updatePc true 0 default (updatePn 0 1 default default xs)).range ++
            (updatePc true 0 default
              (updatePn 0 1 default default xs)).parentRequestTupleVector) e).Pn
          = minPc ((updatePc true 0 default (updatePn 0 1 default default xs)).range ++
            (updatePc true 0 default
              (updatePn 0 1 default default xs)).parentRequestTupleVector) e.nId := by
        rw [hr]
        unfold flipRequest
        simp only [if_true]
      obtain ⟨u, hu, hun, huc⟩ := minPc_mem he
      rw [hfn, ← huc]
      rcases List.mem_append.1 hu with hu2 | huR
      · right
        obtain ⟨u', hu', rfl⟩ := mem_updatePc_iff_img2.1 hu2
        refine ⟨u', hu', ?_, rfl⟩
        rw [img2_nId] at hun
        rw [hun, hr, h1]
      · left
        exact request_Pc huR

/-- A partition that migrates leaves, in the range of step 2, a tuple whose `Pc` and `Pn`
both equal the new partition id. -/
theorem exists_witness_flipped {xs : List T} (hb : NoSentinel xs) {t : T} (ht : t ∈ xs)
    (hns : ¬ BucketStable xs t.Pc) :
    ∃ w ∈ flipped xs, w.Pc = (img2 xs t).Pc ∧ w.Pn = (img2 xs t).Pc := by
  obtain ⟨h1, _, hlt, _⟩ := img2_of_not_stable hb ht hns
  have ht1 : setPn xs t ∈ updatePn 0 1 default default xs := mem_updatePn.2 ⟨t, ht, rfl⟩
  have hlt' : minPn (updatePn 0 1 default default xs) (setPn xs t).Pc < MAX_PID2 := by
    rw [setPn_Pc]; exact hlt
  obtain ⟨w, hw, hwc, hwn⟩ := exists_witness_of_migrating (D := true) (a := default) ht1 hlt'
  rw [setPn_Pc] at hwc hwn
  obtain ⟨w', hw', rfl⟩ := mem_updatePc_iff_img2.1 hw
  exact ⟨img2 xs w', mem_flipped_of_mem hb hw', by rw [hwc, h1], by rw [hwn, h1]⟩

theorem minPn_flipped_le {xs : List T} (hb : NoSentinel xs) {t : T} (ht : t ∈ xs)
    (hns : ¬ BucketStable xs t.Pc) :
    minPn (flipped xs) (img2 xs t).Pc ≤ (img2 xs t).Pc := by
  obtain ⟨w, hw, hwc, hwn⟩ := exists_witness_flipped hb ht hns
  have := minPn_le hw
  rw [hwc, hwn] at this
  exact this

/-- The doubling leaves the tuples of a stable partition alone. -/
theorem minPn_flipped_of_stable {xs : List T} (hb : NoSentinel xs) {t : T} (ht : t ∈ xs)
    (hs : BucketStable xs t.Pc) : minPn (flipped xs) t.Pc = MAX_PID := by
  have hmem : img2 xs t ∈ flipped xs := mem_flipped_of_mem hb ht
  have hPc : (img2 xs t).Pc = t.Pc := img2_Pc_of_stable hb ht hs
  obtain ⟨f, hf, hfc, hfn⟩ := minPn_mem hmem
  rw [hPc] at hfc hfn
  rw [← hfn]
  rcases mem_flipped_cases hb hf with ⟨t', ht', rfl⟩ | ⟨t', ht', hns, hfc', _, _⟩
  · exact (img2_Pn_eq_MAX_PID_iff hb ht').2 (bucketStable_of_img2_Pc_eq hb ht ht' hs hfc)
  · exact absurd (bucketStable_of_img2_Pc_eq hb ht ht' hs (by rw [← hfc', hfc])) hns

theorem image_of_stable (D : Bool) {xs : List T} (hb : NoSentinel xs) {t : T} (ht : t ∈ xs)
    (hs : BucketStable xs t.Pc) : image D xs t = { t with Pn := MAX_PID } := by
  unfold image
  cases D with
  | false => simp only [Bool.false_eq_true, if_false]; exact img2_of_stable hb ht hs
  | true =>
    simp only [if_true]
    rw [img2_of_stable hb ht hs]
    unfold setGrandParent
    simp only []
    rw [minPn_flipped_of_stable hb ht hs]
    simp

theorem image_Pc_of_stable (D : Bool) {xs : List T} (hb : NoSentinel xs) {t : T}
    (ht : t ∈ xs) (hs : BucketStable xs t.Pc) : (image D xs t).Pc = t.Pc := by
  rw [image_of_stable D hb ht hs]

/-- With doubling on, the tuples of a partition that migrates move to the minimum `Pn` of
their new partition in the range of step 2. -/
theorem image_true_of_not_stable {xs : List T} (hb : NoSentinel xs) {t : T} (ht : t ∈ xs)
    (hns : ¬ BucketStable xs t.Pc) :
    (image true xs t).Pc = minPn (flipped xs) (img2 xs t).Pc := by
  have hle := minPn_flipped_le hb ht hns
  have hlt := img2_Pc_lt_MAX_PID2 hb ht
  have hne : minPn (flipped xs) (img2 xs t).Pc ≠ MAX_PID :=
    ne_of_lt (lt_of_le_of_lt hle (lt_trans hlt MAX_PID2_lt_MAX_PID))
  unfold image setGrandParent
  simp only [if_true]
  rw [if_pos hne]

theorem image_Pc_le (D : Bool) {xs : List T} (hb : NoSentinel xs) {t : T} (ht : t ∈ xs) :
    (image D xs t).Pc ≤ t.Pc := by
  by_cases hs : BucketStable xs t.Pc
  · rw [image_Pc_of_stable D hb ht hs]
  · cases D with
    | false =>
      have : image false xs t = img2 xs t := by simp [image]
      rw [this]; exact img2_Pc_le ht
    | true =>
      rw [image_true_of_not_stable hb ht hs]
      exact le_trans (minPn_flipped_le hb ht hs) (img2_Pc_le ht)

theorem image_Pc_mem (D : Bool) {xs : List T} (hb : NoSentinel xs) {t : T} (ht : t ∈ xs) :
    ∃ u ∈ xs, u.Pc = (image D xs t).Pc :=
  Pc_activeAfter_mem D ((mem_activeAfter_iff D hb).2 ⟨t, ht, rfl⟩)

theorem image_noSentinel (D : Bool) {xs : List T} (hb : NoSentinel xs) {t : T} (ht : t ∈ xs) :
    (image D xs t).Pc < MAX_PID2 ∧ (image D xs t).nId ≠ MAX_NID := by
  refine ⟨lt_of_le_of_lt (image_Pc_le D hb ht) (hb t ht).1, ?_⟩
  rw [image_nId]; exact (hb t ht).2

end conn.coloring

namespace conn.coloring

/-! ## The invariant of the main loop -/

section invariant

variable {C L : Nat → Nat → Prop} {S A : List T}

theorem LoopInv.noSentinel_active (hI : LoopInv C L S A) : NoSentinel A :=
  fun t ht => hI.noSentinel t (List.mem_append_right _ ht)

/-- Stability spreads along the links: a node linked to a node of a stable partition lies in
a stable partition too. -/
theorem stable_propagates (hI : LoopInv C L S A) {v v' : Nat}
    (h : Relation.ReflTransGen L v v') :
    (∃ u ∈ A, u.nId = v ∧ BucketStable A u.Pc) → ∃ u' ∈ A, u'.nId = v' ∧ BucketStable A u'.Pc := by
  induction h with
  | refl => exact fun h => h
  | tail _ hab ih =>
    intro h0
    obtain ⟨u, hu, hun, hus⟩ := ih h0
    obtain ⟨t1, t2, hpc, h1, h2, hside⟩ := hI.witness _ _ hab
    rcases hside with ⟨h1S, _⟩ | ⟨h1A, h2A⟩
    · exact absurd (by rw [hun, h1]) (hI.sepNodes t1 h1S u hu)
    · refine ⟨t2, h2A, h2, ?_⟩
      have hag : NodeAgrees A u.nId := hus u hu rfl
      have : t1.Pc = u.Pc := hag t1 h1A u hu (by rw [h1, hun]) rfl
      rw [← hpc, this]
      exact hus

/-- After `updatePn` and `updatePc` the partition id of a tuple still belongs to the class of
its node. -/
theorem rel_img2 (hCL : ClassRel C L) (hI : LoopInv C L S A) {t : T} (ht : t ∈ A) :
    C (img2 A t).Pc t.nId := by
  have hb := hI.noSentinel_active
  have hrel : ∀ u ∈ A, C u.Pc u.nId := fun u hu => hI.rel u (List.mem_append_right _ hu)
  by_cases hs : BucketStable A t.Pc
  · rw [img2_Pc_of_stable hb ht hs]; exact hrel t ht
  · obtain ⟨h1, _, _, w, hw, hwc, _, hmin⟩ := img2_of_not_stable hb ht hs
    obtain ⟨u, hu, hun, huc⟩ := minPc_mem hw
    rw [h1, hmin, ← huc]
    have h3 : C u.Pc w.nId := by rw [← hun]; exact hrel u hu
    have h4 : C t.Pc w.nId := by rw [← hwc]; exact hrel w hw
    exact hCL.coherent t.Pc u.Pc w.nId t.nId h4 (hrel t ht) h3

theorem label_img2_mem (hI : LoopInv C L S A) {t : T} (ht : t ∈ A) :
    ∃ u ∈ A, u.Pc = (img2 A t).Pc := by
  have := image_Pc_mem false hI.noSentinel_active ht
  simpa [image] using this

/-- The name of a node that is also a partition id in use belongs to the class of the node. -/
theorem rel_self_of_node_label (hI : LoopInv C L S A) {u u0 : T} (hu : u ∈ A) (hu0 : u0 ∈ A)
    (h : u0.Pc = u.nId) : C u.nId u.nId := by
  have := hI.nodeLabel u (List.mem_append_right _ hu) u0 (List.mem_append_right _ hu0) h
  rw [h] at this
  exact this

/-- What the doubling reads for a partition that migrates: a `Pn` that belongs to the class
of the nodes of the partition, and that is not the id of a stable partition. -/
theorem minPn_flipped_spec (hCL : ClassRel C L) (hI : LoopInv C L S A) {t : T} (ht : t ∈ A)
    (hns : ¬ BucketStable A t.Pc) :
    C (minPn (flipped A) (img2 A t).Pc) t.nId ∧
    ∀ s ∈ A, BucketStable A s.Pc → minPn (flipped A) (img2 A t).Pc ≠ s.Pc := by
  have hb := hI.noSentinel_active
  have hrel : ∀ u ∈ A, C u.Pc u.nId := fun u hu => hI.rel u (List.mem_append_right _ hu)
  have hle := minPn_flipped_le hb ht hns
  have hq := img2_Pc_lt_MAX_PID2 hb ht
  have hqt : C (img2 A t).Pc t.nId := rel_img2 hCL hI ht
  obtain ⟨f, hf, hfc, hfn⟩ := minPn_mem (mem_flipped_of_mem hb ht)
  rw [← hfn]
  have hfn_lt : f.Pn < MAX_PID2 := by rw [hfn]; exact lt_of_le_of_lt hle hq
  rcases mem_flipped_cases hb hf with ⟨e, he, rfl⟩ | ⟨t'', ht'', hns'', hfc'', _, hPn⟩
  · -- an image of a tuple of the active range, with a stale proposal
    have hens : ¬ BucketStable A e.Pc := by
      intro hs
      have := (img2_Pn_eq_MAX_PID_iff hb he).2 hs
      rw [this] at hfn_lt
      exact absurd (lt_trans hfn_lt MAX_PID2_lt_MAX_PID) (lt_irrefl _)
    obtain ⟨_, h2, _, _⟩ := img2_of_not_stable hb he hens
    have hena : ¬ NodeAgrees A e.nId := by
      intro ha
      rw [h2, setPn_Pn_of_agrees he ha] at hfn_lt
      exact lt_irrefl _ hfn_lt
    obtain ⟨u, hu, hun, huc⟩ := minPc_mem he
    have hPn : (img2 A e).Pn = u.Pc := by
      rw [h2, setPn_Pn_of_not_agrees he hena, huc]
    rw [hPn]
    constructor
    · have h3 : C u.Pc e.nId := by rw [← hun]; exact hrel u hu
      have h4 : C (img2 A t).Pc e.nId := by rw [← hfc]; exact rel_img2 hCL hI he
      exact hCL.coherent _ _ _ _ h4 hqt h3
    · intro s hs hss heq
      apply hena
      have := hss u hu heq
      rw [hun] at this
      exact this
  · -- a flipped parent request
    rcases hPn with hM | ⟨u, hu, hun, hPn⟩
    · rw [hM] at hfn_lt
      exact absurd (lt_trans hfn_lt MAX_PID2_lt_MAX_PID) (lt_irrefl _)
    · have hqq : (img2 A t'').Pc = (img2 A t).Pc := by rw [← hfc'', hfc]
      rw [hqq] at hun
      obtain ⟨u0, hu0, hu0c⟩ := label_img2_mem hI ht
      have hself : C (img2 A t).Pc (img2 A t).Pc := by
        have := rel_self_of_node_label hI hu hu0 (by rw [hu0c, hun])
        rw [hun] at this
        exact this
      rw [hPn]
      constructor
      · have h3 : C (img2 A u).Pc (img2 A t).Pc := by
          have := rel_img2 hCL hI hu
          rw [hun] at this
          exact this
        exact hCL.coherent _ _ _ _ hself hqt h3
      · intro s hs hss heq
        have hus : BucketStable A u.Pc := bucketStable_of_img2_Pc_eq hb hs hu hss heq
        obtain ⟨_, _, _, w, hw, _, hwna, hmin⟩ := img2_of_not_stable hb ht hns
        obtain ⟨u1, hu1, hu1n, hu1c⟩ := minPc_mem hw
        have h5 : C (img2 A t).Pc w.nId := by
          have := hrel u1 hu1
          rw [hu1n, hu1c, ← hmin] at this
          obtain ⟨h1, _⟩ := img2_of_not_stable hb ht hns
          rw [h1]
          exact this
        have hlink := hCL.linked _ _ _ hself h5
        obtain ⟨u', hu', hu'n, hu's⟩ := stable_propagates hI hlink ⟨u, hu, hun, hus⟩
        apply hwna
        have := hu's u' hu' rfl
        rw [hu'n] at this
        exact this

/-- After an iteration the partition id of a tuple still belongs to the class of its node. -/
theorem rel_image (hCL : ClassRel C L) (hI : LoopInv C L S A) (D : Bool) {t : T} (ht : t ∈ A) :
    C (image D A t).Pc t.nId := by
  have hb := hI.noSentinel_active
  by_cases hs : BucketStable A t.Pc
  · rw [image_Pc_of_stable D hb ht hs]
    exact hI.rel t (List.mem_append_right _ ht)
  · cases D with
    | false =>
      have : image false A t = img2 A t := by simp [image]
      rw [this]
      exact rel_img2 hCL hI ht
    | true =>
      rw [image_true_of_not_stable hb ht hs]
      exact (minPn_flipped_spec hCL hI ht hs).1

/-- No partition that migrates ends, after the iteration, under the id of a stable
partition. -/
theorem bucketStable_of_image_Pc_eq (hCL : ClassRel C L) (hI : LoopInv C L S A) (D : Bool)
    {t t' : T} (ht : t ∈ A) (ht' : t' ∈ A) (hs : BucketStable A t.Pc)
    (h : (image D A t').Pc = t.Pc) : BucketStable A t'.Pc := by
  have hb := hI.noSentinel_active
  cases D with
  | false =>
    have h' : (img2 A t').Pc = t.Pc := by simpa [image] using h
    exact bucketStable_of_img2_Pc_eq hb ht ht' hs h'
  | true =>
    by_contra hns
    rw [image_true_of_not_stable hb ht' hns] at h
    exact (minPn_flipped_spec hCL hI ht' hns).2 t ht hs h

end invariant

end conn.coloring

namespace conn.coloring

/-! ## The invariant is kept by an iteration -/

section preservation

variable {C L : Nat → Nat → Prop} {S A : List T}

/-- After an iteration the stable tuples of the active range are closed. -/
theorem stableClosed_activeAfter (hCL : ClassRel C L) (hI : LoopInv C L S A) (D : Bool) :
    StableClosed (activeAfter D A) := by
  have hb := hI.noSentinel_active
  constructor
  · intro t3 ht3 hPn t3' ht3' hn
    obtain ⟨t, ht, rfl⟩ := (mem_activeAfter_iff D hb).1 ht3
    obtain ⟨t', ht', rfl⟩ := (mem_activeAfter_iff D hb).1 ht3'
    rw [image_nId, image_nId] at hn
    have hs : BucketStable A t.Pc := (image_Pn_eq_MAX_PID_iff D hb ht).1 hPn
    have hpc : t'.Pc = t.Pc := hs t ht rfl t' ht' t ht hn rfl
    constructor
    · exact image_Pc_congr D hpc
    · exact (image_Pn_eq_MAX_PID_iff D hb ht').2 (by rw [hpc]; exact hs)
  · intro t3 ht3 t3' ht3' hpc hPn
    obtain ⟨t, ht, rfl⟩ := (mem_activeAfter_iff D hb).1 ht3
    obtain ⟨t', ht', rfl⟩ := (mem_activeAfter_iff D hb).1 ht3'
    have hs : BucketStable A t.Pc := (image_Pn_eq_MAX_PID_iff D hb ht).1 hPn
    rw [image_Pc_of_stable D hb ht hs] at hpc
    exact (image_Pn_eq_MAX_PID_iff D hb ht').2
      (bucketStable_of_image_Pc_eq hCL hI D ht ht' hs hpc.symm)

/-- The invariant holds again after `updatePn`, `updatePc` and the optional doubling, with
the stable part as it was. -/
theorem LoopInv_kept (hCL : ClassRel C L) (hI : LoopInv C L S A) (D : Bool) :
    LoopInv C L S (activeAfter D A) := by
  have hb := hI.noSentinel_active
  have hmem : ∀ t3 ∈ S ++ activeAfter D A,
      t3 ∈ S ∨ ∃ t ∈ A, image D A t = t3 := by
    intro t3 h3
    rcases List.mem_append.1 h3 with h | h
    · exact Or.inl h
    · exact Or.inr ((mem_activeAfter_iff D hb).1 h)
  have hnode : ∀ t3 ∈ S ++ activeAfter D A, ∃ t ∈ S ++ A, t.nId = t3.nId := by
    intro t3 h3
    rcases hmem t3 h3 with h | ⟨t, ht, rfl⟩
    · exact ⟨t3, List.mem_append_left _ h, rfl⟩
    · exact ⟨t, List.mem_append_right _ ht, (image_nId D A t).symm⟩
  have hlabel : ∀ t3 ∈ S ++ activeAfter D A, ∃ t ∈ S ++ A, t.Pc = t3.Pc := by
    intro t3 h3
    rcases hmem t3 h3 with h | ⟨t, ht, rfl⟩
    · exact ⟨t3, List.mem_append_left _ h, rfl⟩
    · obtain ⟨u, hu, huc⟩ := image_Pc_mem D hb ht
      exact ⟨u, List.mem_append_right _ hu, huc⟩
  refine ⟨?_, ?_, ?_, ?_, ?_, hI.sepLabels, hI.stablePn⟩
  · intro t3 h3
    rcases hmem t3 h3 with h | ⟨t, ht, rfl⟩
    · exact hI.noSentinel t3 (List.mem_append_left _ h)
    · exact image_noSentinel D hb ht
  · intro t3 h3
    rcases hmem t3 h3 with h | ⟨t, ht, rfl⟩
    · exact hI.rel t3 (List.mem_append_left _ h)
    · rw [image_nId]; exact rel_image hCL hI D ht
  · intro t3 h3 t3' h3' heq
    obtain ⟨t, ht, htn⟩ := hnode t3 h3
    obtain ⟨t', ht', htc⟩ := hlabel t3' h3'
    have := hI.nodeLabel t ht t' ht' (by rw [htc, heq, htn])
    rw [htc, htn] at this
    exact this
  · intro v v' hl
    obtain ⟨t1, t2, hpc, h1, h2, hside⟩ := hI.witness v v' hl
    rcases hside with ⟨h1S, h2S⟩ | ⟨h1A, h2A⟩
    · exact ⟨t1, t2, hpc, h1, h2, Or.inl ⟨h1S, h2S⟩⟩
    · refine ⟨image D A t1, image D A t2, image_Pc_congr D hpc, ?_, ?_, Or.inr ⟨?_, ?_⟩⟩
      · rw [image_nId]; exact h1
      · rw [image_nId]; exact h2
      · exact (mem_activeAfter_iff D hb).2 ⟨t1, h1A, rfl⟩
      · exact (mem_activeAfter_iff D hb).2 ⟨t2, h2A, rfl⟩
  · intro t ht t3' h3'
    obtain ⟨t', ht', rfl⟩ := (mem_activeAfter_iff D hb).1 h3'
    rw [image_nId]
    exact hI.sepNodes t ht t' ht'

end preservation

/-- Moving the stable tuples of a closed active range to the stable part keeps the
invariant. -/
theorem LoopInv_moved {C L : Nat → Nat → Prop} {S A : List T} (hI : LoopInv C L S A)
    (hc : StableClosed A) :
    LoopInv C L (S ++ A.filter (fun e => decide (e.Pn = MAX_PID)))
      (A.filter (fun e => ! decide (e.Pn = MAX_PID))) := by
  have hmem : ∀ t, t ∈ (S ++ A.filter (fun e => decide (e.Pn = MAX_PID))) ++
      A.filter (fun e => ! decide (e.Pn = MAX_PID)) → t ∈ S ++ A := by
    intro t ht
    simp only [List.mem_append, List.mem_filter] at ht ⊢
    rcases ht with (h | h) | h
    · exact Or.inl h
    · exact Or.inr h.1
    · exact Or.inr h.1
  have hst : ∀ t, t ∈ A.filter (fun e => decide (e.Pn = MAX_PID)) ↔ t ∈ A ∧ t.Pn = MAX_PID := by
    intro t; simp [List.mem_filter]
  have hac : ∀ t, t ∈ A.filter (fun e => ! decide (e.Pn = MAX_PID)) ↔ t ∈ A ∧ t.Pn ≠ MAX_PID := by
    intro t; simp [List.mem_filter]
  refine ⟨?_, ?_, ?_, ?_, ?_, ?_, ?_⟩
  · intro t ht; exact hI.noSentinel t (hmem t ht)
  · intro t ht; exact hI.rel t (hmem t ht)
  · intro t ht t' ht' h; exact hI.nodeLabel t (hmem t ht) t' (hmem t' ht') h
  · intro v v' hl
    obtain ⟨t1, t2, hpc, h1, h2, hside⟩ := hI.witness v v' hl
    refine ⟨t1, t2, hpc, h1, h2, ?_⟩
    rcases hside with ⟨h1S, h2S⟩ | ⟨h1A, h2A⟩
    · exact Or.inl ⟨List.mem_append_left _ h1S, List.mem_append_left _ h2S⟩
    · by_cases hp : t1.Pn = MAX_PID
      · left
        exact ⟨List.mem_append_right _ ((hst t1).2 ⟨h1A, hp⟩),
          List.mem_append_right _ ((hst t2).2 ⟨h2A, hc.2 t1 h1A t2 h2A hpc hp⟩)⟩
      · right
        refine ⟨(hac t1).2 ⟨h1A, hp⟩, (hac t2).2 ⟨h2A, ?_⟩⟩
        intro hp2
        exact hp (hc.2 t2 h2A t1 h1A hpc.symm hp2)
  · intro t ht t' ht'
    obtain ⟨ht'A, ht'P⟩ := (hac t').1 ht'
    rcases List.mem_append.1 ht with h | h
    · exact hI.sepNodes t h t' ht'A
    · obtain ⟨htA, htP⟩ := (hst t).1 h
      intro hn
      exact ht'P (hc.1 t htA htP t' ht'A hn).2
  · intro t ht t' ht' hn
    rcases List.mem_append.1 ht with h | h
    · rcases List.mem_append.1 ht' with h' | h'
      · exact hI.sepLabels t h t' h' hn
      · exact absurd hn.symm (hI.sepNodes t h t' ((hst t').1 h').1)
    · obtain ⟨htA, htP⟩ := (hst t).1 h
      rcases List.mem_append.1 ht' with h' | h'
      · exact absurd hn (hI.sepNodes t' h' t htA)
      · exact ((hc.1 t htA htP t' ((hst t').1 h').1 hn.symm).1).symm
  · intro t ht
    rcases List.mem_append.1 ht with h | h
    · exact hI.stablePn t h
    · exact ((hst t).1 h).2

/-- The invariant of the main loop holds after every iteration, at every optimization
level. -/
theorem LoopInv_iteration {C L : Nat → Nat → Prop} (hCL : ClassRel C L) (O : opt_level)
    (D : Bool) (s : LoopState) (hI : LoopInv C L (stableOf s) (activeOf s)) :
    LoopInv C L (stableOf (iteration O D s)) (activeOf (iteration O D s)) := by
  by_cases h : convergedOn D (activeOf s) = true ∨ O = opt_level.naive
  · obtain ⟨h1, h2, _⟩ := iteration_parts_kept O D s h
    rw [h1, h2]
    exact LoopInv_kept hCL hI D
  · push_neg at h
    obtain ⟨h1, h2, _⟩ := iteration_parts_moved O D s (by simpa using h.1) h.2
    rw [h1, h2]
    exact LoopInv_moved (LoopInv_kept hCL hI D) (stableClosed_activeAfter hCL hI D)

theorem LoopInv_iterate {C L : Nat → Nat → Prop} (hCL : ClassRel C L) (O : opt_level)
    (D : Bool) (s : LoopState) (hI : LoopInv C L (stableOf s) (activeOf s)) (k : Nat) :
    LoopInv C L (stableOf ((iteration O D)^[k] s)) (activeOf ((iteration O D)^[k] s)) := by
  induction k with
  | zero => exact hI
  | succ k ih =>
    rw [Function.iterate_succ_apply']
    exact LoopInv_iteration hCL O D _ ih

end conn.coloring

namespace conn.coloring

/-! ## What holds for the whole array after an iteration -/

section whole

variable {C L : Nat → Nat → Prop} {S A : List T}

/-- The nodes of the stable part are closed under the links. -/
theorem stablePart_propagates (hI : LoopInv C L S A) {v v' : Nat}
    (h : Relation.ReflTransGen L v v') :
    (∃ t ∈ S, t.nId = v) → ∃ t' ∈ S, t'.nId = v' := by
  induction h with
  | refl => exact fun h => h
  | tail _ hab ih =>
    intro h0
    obtain ⟨u, hu, hun⟩ := ih h0
    obtain ⟨t1, t2, _, h1, h2, hside⟩ := hI.witness _ _ hab
    rcases hside with ⟨_, h2S⟩ | ⟨h1A, _⟩
    · exact ⟨t2, h2S, h2⟩
    · exact absurd (by rw [h1, hun]) (hI.sepNodes u hu t1 h1A)

/-- No partition id is used both in the stable part and in the active part. -/
theorem label_disjoint (hCL : ClassRel C L) (hI : LoopInv C L S A) {t t' : T} (ht : t ∈ S)
    (ht' : t' ∈ A) : t.Pc ≠ t'.Pc := by
  intro heq
  have h1 : C t.Pc t.nId := hI.rel t (List.mem_append_left _ ht)
  have h2 : C t.Pc t'.nId := by rw [heq]; exact hI.rel t' (List.mem_append_right _ ht')
  obtain ⟨u, hu, hun⟩ := stablePart_propagates hI (hCL.linked _ _ _ h1 h2) ⟨t, ht, rfl⟩
  exact hI.sepNodes u hu t' ht' hun.symm

/-- With the invariant, an array whose active part is closed is closed as a whole. -/
theorem stableClosed_whole (hCL : ClassRel C L) (hI : LoopInv C L S A) (hc : StableClosed A) :
    StableClosed (S ++ A) := by
  constructor
  · intro t ht hPn t' ht' hn
    rcases List.mem_append.1 ht with h | h
    · rcases List.mem_append.1 ht' with h' | h'
      · exact ⟨hI.sepLabels t' h' t h hn, hI.stablePn t' h'⟩
      · exact absurd hn (hI.sepNodes t h t' h')
    · rcases List.mem_append.1 ht' with h' | h'
      · exact absurd hn.symm (hI.sepNodes t' h' t h)
      · exact hc.1 t h hPn t' h' hn
  · intro t ht t' ht' hpc hPn
    rcases List.mem_append.1 ht with h | h
    · rcases List.mem_append.1 ht' with h' | h'
      · exact hI.stablePn t' h'
      · exact absurd hpc (label_disjoint hCL hI h h')
    · rcases List.mem_append.1 ht' with h' | h'
      · exact hI.stablePn t' h'
      · exact hc.2 t h t' h' hpc hPn

end whole

theorem stableClosed_of_mem_iff {xs ys : List T} (h : ∀ t, t ∈ xs ↔ t ∈ ys)
    (hc : StableClosed ys) : StableClosed xs := by
  constructor
  · intro t ht hPn t' ht' hn
    exact hc.1 t ((h t).1 ht) hPn t' ((h t').1 ht') hn
  · intro t ht t' ht' hpc hPn
    exact hc.2 t ((h t).1 ht) t' ((h t').1 ht') hpc hPn

/-- After every iteration the stable tuples of the whole array are closed. -/
theorem stableClosed_iteration {C L : Nat → Nat → Prop} (hCL : ClassRel C L) (O : opt_level)
    (D : Bool) (s : LoopState) (hI : LoopInv C L (stableOf s) (activeOf s)) :
    StableClosed (iteration O D s).tupleVector := by
  refine @stableClosed_of_mem_iff _ (stableOf s ++ activeAfter D (activeOf s)) ?_
    (stableClosed_whole hCL (LoopInv_kept hCL hI D) (stableClosed_activeAfter hCL hI D))
  intro t
  rw [mem_tupleVector_iteration, List.mem_append]

/-- When `updatePc` reports convergence, every tuple of the new active range is stable. -/
theorem all_stable_of_converged {xs : List T} (hb : NoSentinel xs) (D : Bool)
    (hc : convergedOn D xs = true) : ∀ t ∈ activeAfter D xs, t.Pn = MAX_PID := by
  intro t3 ht3
  obtain ⟨t, ht, rfl⟩ := (mem_activeAfter_iff D hb).1 ht3
  rw [image_Pn_eq_MAX_PID_iff D hb ht]
  apply (bucketStable_iff hb ht).1
  have := (updatePc_converged D default _).1 hc (setPn xs t) (mem_updatePn.2 ⟨t, ht, rfl⟩)
  rw [setPn_Pc] at this
  exact this

/-- An iteration that converges leaves every tuple of the array stable. -/
theorem all_stable_iteration {C L : Nat → Nat → Prop} (O : opt_level) (D : Bool)
    (s : LoopState) (hI : LoopInv C L (stableOf s) (activeOf s))
    (hc : (iteration O D s).converged = true) :
    ∀ t ∈ (iteration O D s).tupleVector, t.Pn = MAX_PID := by
  rw [iteration_converged] at hc
  intro t ht
  rcases mem_tupleVector_iteration.1 ht with h | h
  · exact hI.stablePn t h
  · exact all_stable_of_converged hI.noSentinel_active D hc t h

/-! ## The array keeps the node ids it started with -/

theorem tracks_kept {X S A : List T} (hb : NoSentinel A) (hT : Tracks X S A) (D : Bool) :
    Tracks X S (activeAfter D A) := by
  have hperm := activeAfter_perm_image D hb
  constructor
  · refine List.Perm.trans ?_ hT.nIdPerm
    rw [List.map_append, List.map_append]
    refine List.Perm.append_left _ ?_
    refine (hperm.map T.nId).trans ?_
    rw [List.map_map]
    apply List.Perm.of_eq
    apply List.map_congr_left
    intro t _
    exact image_nId D A t
  · intro t0 ht0
    obtain ⟨t, ht, hn, hp⟩ := hT.covered t0 ht0
    rcases List.mem_append.1 ht with h | h
    · exact ⟨t, List.mem_append_left _ h, hn, hp⟩
    · refine ⟨image D A t, List.mem_append_right _ ((mem_activeAfter_iff D hb).2 ⟨t, h, rfl⟩),
        ?_, ?_⟩
      · rw [image_nId]; exact hn
      · exact le_trans (image_Pc_le D hb h) hp

theorem filter_append_filter_not_perm (p : T → Bool) (xs : List T) :
    (xs.filter p ++ xs.filter (fun e => ! p e)).Perm xs := by
  induction xs with
  | nil => exact List.Perm.refl _
  | cons x xs ih =>
    by_cases h : p x = true
    · simp only [List.filter_cons, h, if_true, Bool.not_true, Bool.false_eq_true, if_false,
        List.cons_append]
      exact List.Perm.cons _ ih
    · rw [Bool.not_eq_true] at h
      simp only [List.filter_cons, h, Bool.false_eq_true, if_false, Bool.not_false, if_true]
      exact (List.perm_middle).trans (List.Perm.cons _ ih)

theorem tracks_moved {X S A : List T} (hT : Tracks X S A) :
    Tracks X (S ++ A.filter (fun e => decide (e.Pn = MAX_PID)))
      (A.filter (fun e => ! decide (e.Pn = MAX_PID))) := by
  have hperm : ((S ++ A.filter (fun e => decide (e.Pn = MAX_PID))) ++
      A.filter (fun e => ! decide (e.Pn = MAX_PID))).Perm (S ++ A) := by
    rw [List.append_assoc]
    exact List.Perm.append_left _ (filter_append_filter_not_perm _ A)
  constructor
  · exact (hperm.map T.nId).trans hT.nIdPerm
  · intro t0 ht0
    obtain ⟨t, ht, hn, hp⟩ := hT.covered t0 ht0
    exact ⟨t, hperm.symm.subset ht, hn, hp⟩

theorem tracks_iteration {X : List T} (O : opt_level) (D : Bool) (s : LoopState)
    (hb : NoSentinel (activeOf s)) (hT : Tracks X (stableOf s) (activeOf s)) :
    Tracks X (stableOf (iteration O D s)) (activeOf (iteration O D s)) := by
  by_cases h : convergedOn D (activeOf s) = true ∨ O = opt_level.naive
  · obtain ⟨h1, h2, _⟩ := iteration_parts_kept O D s h
    rw [h1, h2]
    exact tracks_kept hb hT D
  · push_neg at h
    obtain ⟨h1, h2, _⟩ := iteration_parts_moved O D s (by simpa using h.1) h.2
    rw [h1, h2]
    exact tracks_moved (tracks_kept hb hT D)

theorem tracks_iterate {C L : Nat → Nat → Prop} (hCL : ClassRel C L) {X : List T}
    (O : opt_level) (D : Bool) (s : LoopState)
    (hI : LoopInv C L (stableOf s) (activeOf s)) (hT : Tracks X (stableOf s) (activeOf s))
    (k : Nat) :
    Tracks X (stableOf ((iteration O D)^[k] s)) (activeOf ((iteration O D)^[k] s)) := by
  induction k with
  | zero => exact hT
  | succ k ih =>
    rw [Function.iterate_succ_apply']
    exact tracks_iteration O D _ (LoopInv_iterate hCL O D s hI k).noSentinel_active ih

end conn.coloring

namespace conn.coloring

/-! ## The array built by the ingest -/

section walkfst

variable {α γ β : Type} (comp : α → α → Prop) [DecidableRel comp] (k : α → Nat)

/-- What the walk leaves, when the body does not look at the boundary flags: what the body
leaves for the bucket of some element of the range. -/
theorem mem_forEachBucket_fst (hcomp : ∀ a b, comp a b ↔ k a < k b)
    (body : Bool → Bool → List α → List γ × List β) (e : List α → List γ)
    (hbody : ∀ b1 b2 bucket, (body b1 b2 bucket).1 = e bucket) (y : γ) :
    ∀ (n : Nat) (b : Bool) (xs : List α), xs.length ≤ n →
      xs.Pairwise (fun a b => k a ≤ k b) →
      (y ∈ (forEachBucket comp body n b xs).1
        ↔ ∃ t ∈ xs, y ∈ e (xs.filter (fun u => decide (k u = k t)))) := by
  intro n
  induction n with
  | zero =>
    intro b xs hlen _
    have : xs = [] := List.length_eq_zero.1 (Nat.le_zero.1 hlen)
    subst this; simp [forEachBucket]
  | succ n ih =>
    intro b xs hlen hp
    cases xs with
    | nil => simp [forEachBucket]
    | cons x xs =>
      simp only [forEachBucket]
      rw [findRange_eq comp k hcomp]
      simp only []
      have hs := bucket_split k x xs hp
      simp only [] at hs
      obtain ⟨hrun, hrest⟩ := hs
      have hsplit : (x :: xs).takeWhile (fun y => decide (k y = k x))
          ++ (x :: xs).dropWhile (fun y => decide (k y = k x)) = x :: xs :=
        List.takeWhile_append_dropWhile _ _
      have hlen2 : ((x :: xs).dropWhile (fun y => decide (k y = k x))).length ≤ n := by
        have h1 : (x :: xs).dropWhile (fun y => decide (k y = k x))
            = xs.dropWhile (fun y => decide (k y = k x)) :=
          List.dropWhile_cons_of_pos (by simp)
        rw [h1]
        have := dropWhile_length_le (fun y => decide (k y = k x)) xs
        simp only [List.length_cons] at hlen
        omega
      have hxrun : x ∈ (x :: xs).takeWhile (fun y => decide (k y = k x)) := by
        rw [List.takeWhile_cons_of_pos (by simp)]
        exact List.mem_cons_self _ _
      rw [List.mem_append, ih false _ hlen2 (pairwise_dropWhile _ hp), hbody]
      constructor
      · rintro (h | ⟨t, ht, h⟩)
        · refine ⟨x, List.mem_cons_self _ _, ?_⟩
          rw [hrun x hxrun]; exact h
        · refine ⟨t, ?_, ?_⟩
          · rw [← hsplit]; exact List.mem_append_right _ ht
          · rw [hrest t ht]; exact h
      · rintro ⟨t, ht, h⟩
        rw [← hsplit, List.mem_append] at ht
        rcases ht with ht | ht
        · left
          rw [hrun t ht] at h; exact h
        · right
          refine ⟨t, ht, ?_⟩
          rw [hrest t ht] at h; exact h

end walkfst

theorem mem_convertBucket {b1 b2 : Bool} {bucket : List (Nat × Nat)} {c : Nat}
    (hne : bucket ≠ []) (hc : ∀ e ∈ bucket, e.1 = c) {y : T} :
    y ∈ (convertBucket b1 b2 bucket).1 ↔
      y = ⟨toPid c, MAX_PID, c⟩ ∨ ∃ e ∈ bucket, y = ⟨toPid e.1, MAX_PID, e.2⟩ := by
  cases bucket with
  | nil => exact absurd rfl hne
  | cons h tl =>
    have hh : h.1 = c := hc h (List.mem_cons_self _ _)
    simp only [convertBucket, List.mem_cons, List.mem_map, hh]
    constructor
    · rintro (h1 | ⟨e, he, rfl⟩)
      · exact Or.inl h1
      · exact Or.inr ⟨e, he, rfl⟩
    · rintro (h1 | ⟨e, he, rfl⟩)
      · exact Or.inl h1
      · exact Or.inr ⟨e, he, rfl⟩

/-- The tuples of the ingest: for every edge `(u, v)` the self loop `(u, MAX_PID, u)` and the
tuple `(u, MAX_PID, v)`, with `u` narrowed to a partition id in the first field. -/
theorem mem_convertEdgeListforCCL {edgeList : List (Nat × Nat)} {y : T} :
    y ∈ convertEdgeListforCCL edgeList ↔
      ∃ e ∈ edgeList, y = ⟨toPid e.1, MAX_PID, e.1⟩ ∨ y = ⟨toPid e.1, MAX_PID, e.2⟩ := by
  unfold convertEdgeListforCCL
  simp only []
  have hperm : (edgeList.insertionSort (fun a b => ¬ EdgeCompSrc b a)).Perm edgeList :=
    List.perm_insertionSort _ _
  have hsorted : (edgeList.insertionSort (fun a b => ¬ EdgeCompSrc b a)).Pairwise
      (fun a b => a.1 ≤ b.1) := by
    have := List.sorted_insertionSort (fun a b => ¬ EdgeCompSrc b a) edgeList
    refine List.Pairwise.imp ?_ this
    intro a b hab
    unfold EdgeCompSrc at hab
    omega
  rw [mem_forEachBucket_fst EdgeCompSrc Prod.fst (fun a b => Iff.rfl) convertBucket
    (fun bucket => (convertBucket true true bucket).1) (fun b1 b2 bucket => rfl) y _ true _
    (le_refl _) hsorted]
  constructor
  · rintro ⟨t, ht, hy⟩
    have hne : (edgeList.insertionSort (fun a b => ¬ EdgeCompSrc b a)).filter
        (fun u => decide (u.1 = t.1)) ≠ [] := by
      apply List.ne_nil_of_mem (a := t)
      simp [ht]
    have hc : ∀ e ∈ (edgeList.insertionSort (fun a b => ¬ EdgeCompSrc b a)).filter
        (fun u => decide (u.1 = t.1)), e.1 = t.1 := by
      intro e he
      simpa using (List.mem_filter.1 he).2
    rcases (mem_convertBucket hne hc).1 hy with h | ⟨e, he, h⟩
    · exact ⟨t, hperm.subset ht, Or.inl h⟩
    · exact ⟨e, hperm.subset (List.mem_filter.1 he).1, Or.inr h⟩
  · rintro ⟨e, he, hy⟩
    have he' : e ∈ edgeList.insertionSort (fun a b => ¬ EdgeCompSrc b a) :=
      hperm.symm.subset he
    have hmem : e ∈ (edgeList.insertionSort (fun a b => ¬ EdgeCompSrc b a)).filter
        (fun u => decide (u.1 = e.1)) := by
      simp [he']
    have hc : ∀ e' ∈ (edgeList.insertionSort (fun a b => ¬ EdgeCompSrc b a)).filter
        (fun u => decide (u.1 = e.1)), e'.1 = e.1 := by
      intro e' he'
      simpa using (List.mem_filter.1 he').2
    refine ⟨e, he', (mem_convertBucket (List.ne_nil_of_mem hmem) hc).2 ?_⟩
    rcases hy with h | h
    · exact Or.inl h
    · exact Or.inr ⟨e, hmem, h⟩

theorem convertEdgeListforCCL_ne_nil {edgeList : List (Nat × Nat)} (h : edgeList ≠ []) :
    convertEdgeListforCCL edgeList ≠ [] := by
  cases edgeList with
  | nil => exact absurd rfl h
  | cons e es =>
    apply List.ne_nil_of_mem (a := ⟨toPid e.1, MAX_PID, e.1⟩)
    exact mem_convertEdgeListforCCL.2 ⟨e, List.mem_cons_self _ _, Or.inl rfl⟩

theorem stableOf_initialState (tv : List T) : stableOf (initialState tv) = [] := rfl

theorem activeOf_initialState (tv : List T) : activeOf (initialState tv) = tv := rfl

theorem tracks_initial (tv : List T) : Tracks tv [] tv :=
  ⟨List.Perm.refl _, fun t0 ht0 => ⟨t0, ht0, rfl, le_refl _⟩⟩

end conn.coloring

namespace conn.coloring

/-! ## The invariant for the graph of the edge list -/

theorem Adj_symm {edgeList : List (Nat × Nat)} {a b : Nat} (h : Adj edgeList a b) :
    Adj edgeList b a := by
  unfold Adj at *
  exact h.symm

theorem Connected_symm {edgeList : List (Nat × Nat)} {a b : Nat}
    (h : Connected edgeList a b) : Connected edgeList b a := by
  unfold Connected at *
  induction h with
  | refl => exact Relation.ReflTransGen.refl
  | tail _ hbc ih => exact Relation.ReflTransGen.head (Adj_symm hbc) ih

theorem Connected_trans {edgeList : List (Nat × Nat)} {a b c : Nat}
    (h1 : Connected edgeList a b) (h2 : Connected edgeList b c) : Connected edgeList a c :=
  Relation.ReflTransGen.trans h1 h2

theorem classRel_connected (edgeList : List (Nat × Nat)) :
    ClassRel (fun p v => Connected edgeList v p) (Adj edgeList) := by
  constructor
  · intro p q v v' h1 h2 h3
    exact Connected_trans h2 (Connected_trans (Connected_symm h1) h3)
  · intro p v v' h1 h2
    exact Connected_trans h1 (Connected_symm h2)

theorem toPid_of_lt_MAX_PID2 {x : Nat} (h : x < MAX_PID2) : toPid x = x := toPid_of_lt h

theorem MAX_PID2_lt_MAX_NID : MAX_PID2 < MAX_NID := by
  unfold MAX_PID2 MAX_NID pIdBits nIdBits; norm_num

/-- The array of the ingest satisfies the invariant of the loop, when the edge list holds both
directions of every edge and every vertex id is at most `MAX_PID - 2`. -/
theorem loopInv_initial {edgeList : List (Nat × Nat)} (hsym : symmetricEdges edgeList)
    (hbd : boundedIds edgeList) :
    LoopInv (fun p v => Connected edgeList v p) (Adj edgeList) []
      (convertEdgeListforCCL edgeList) := by
  refine ⟨?_, ?_, ?_, ?_, ?_, ?_, ?_⟩
  · intro t ht
    rw [List.nil_append] at ht
    obtain ⟨e, he, h | h⟩ := mem_convertEdgeListforCCL.1 ht
    · rw [h]
      exact ⟨by rw [toPid_of_lt (hbd e he).1]; exact (hbd e he).1,
        ne_of_lt (lt_trans (hbd e he).1 MAX_PID2_lt_MAX_NID)⟩
    · rw [h]
      exact ⟨by rw [toPid_of_lt (hbd e he).1]; exact (hbd e he).1,
        ne_of_lt (lt_trans (hbd e he).2 MAX_PID2_lt_MAX_NID)⟩
  · intro t ht
    rw [List.nil_append] at ht
    obtain ⟨e, he, h | h⟩ := mem_convertEdgeListforCCL.1 ht
    · rw [h]
      show Connected edgeList e.1 (toPid e.1)
      rw [toPid_of_lt (hbd e he).1]
      exact Relation.ReflTransGen.refl
    · rw [h]
      show Connected edgeList e.2 (toPid e.1)
      rw [toPid_of_lt (hbd e he).1]
      exact Relation.ReflTransGen.single (Or.inr he)
  · intro t _ t' _ h
    show Connected edgeList t.nId t'.Pc
    rw [h]
    exact Relation.ReflTransGen.refl
  · intro v v' hl
    have hmem : (v, v') ∈ edgeList := by
      rcases hl with h | h
      · exact h
      · exact hsym _ h
    refine ⟨⟨toPid v, MAX_PID, v⟩, ⟨toPid v, MAX_PID, v'⟩, rfl, rfl, rfl, Or.inr ⟨?_, ?_⟩⟩
    · exact mem_convertEdgeListforCCL.2 ⟨(v, v'), hmem, Or.inl rfl⟩
    · exact mem_convertEdgeListforCCL.2 ⟨(v, v'), hmem, Or.inr rfl⟩
  · intro t ht; simp at ht
  · intro t ht; simp at ht
  · intro t ht; simp at ht

/-- In a closed array that satisfies the invariant and tracks the array of the ingest, every
stable tuple carries the minimum vertex id of the connected component of its node. -/
theorem isCompMin_of_stable {edgeList : List (Nat × Nat)} (hsym : symmetricEdges edgeList)
    (hbd : boundedIds edgeList) {S A : List T}
    (hI : LoopInv (fun p v => Connected edgeList v p) (Adj edgeList) S A)
    (hc : StableClosed (S ++ A)) (hT : Tracks (convertEdgeListforCCL edgeList) S A)
    {t : T} (ht : t ∈ S ++ A) (hPn : t.Pn = MAX_PID) : IsCompMin edgeList t.nId t.Pc := by
  refine ⟨hI.rel t ht, ?_⟩
  intro w hw
  have hP : ∃ t' ∈ S ++ A, t'.nId = w ∧ t'.Pn = MAX_PID ∧ t'.Pc = t.Pc := by
    unfold Connected at hw
    induction hw with
    | refl => exact ⟨t, ht, rfl, hPn, rfl⟩
    | tail _ hab ih =>
      obtain ⟨t', ht', hn', hPn', hPc'⟩ := ih
      obtain ⟨t1, t2, hpc, h1, h2, hside⟩ := hI.witness _ _ hab
      have hmem : t1 ∈ S ++ A ∧ t2 ∈ S ++ A := by
        rcases hside with ⟨a, b⟩ | ⟨a, b⟩
        · exact ⟨List.mem_append_left _ a, List.mem_append_left _ b⟩
        · exact ⟨List.mem_append_right _ a, List.mem_append_right _ b⟩
      obtain ⟨h1c, h1p⟩ := hc.1 t' ht' hPn' t1 hmem.1 (by rw [h1, hn'])
      refine ⟨t2, hmem.2, h2, hc.2 t1 hmem.1 t2 hmem.2 hpc h1p, ?_⟩
      rw [← hpc, h1c, hPc']
  obtain ⟨t', ht', hn', hPn', hPc'⟩ := hP
  have hwnode : w ∈ (convertEdgeListforCCL edgeList).map T.nId :=
    hT.nIdPerm.subset (List.mem_map.2 ⟨t', ht', hn'⟩)
  obtain ⟨t0, ht0, ht0n⟩ := List.mem_map.1 hwnode
  have hsrc : ∃ e ∈ edgeList, e.1 = w := by
    obtain ⟨e, he, h | h⟩ := mem_convertEdgeListforCCL.1 ht0
    · exact ⟨e, he, by rw [← ht0n, h]⟩
    · exact ⟨(e.2, e.1), hsym e he, by rw [← ht0n, h]⟩
  obtain ⟨e, he, hew⟩ := hsrc
  have hloop : (⟨toPid w, MAX_PID, w⟩ : T) ∈ convertEdgeListforCCL edgeList := by
    rw [← hew]
    exact mem_convertEdgeListforCCL.2 ⟨e, he, Or.inl rfl⟩
  obtain ⟨t'', ht'', hn'', hp''⟩ := hT.covered _ hloop
  have hwlt : w < MAX_PID2 := by rw [← hew]; exact (hbd e he).1
  have hpw : t''.Pc ≤ w := by
    have : toPid w = w := toPid_of_lt hwlt
    simpa [this] using hp''
  have := (hc.1 t' ht' hPn' t'' ht'' (by rw [hn'', hn'])).1
  rw [← hPc', ← this]
  exact hpw

/-- After at least one iteration from the array of the ingest, every stable tuple of the
array carries the minimum vertex id of the connected component of its node, and the stable
tuples are closed. -/
theorem iterate_succ_spec {edgeList : List (Nat × Nat)} (hsym : symmetricEdges edgeList)
    (hbd : boundedIds edgeList) (O : opt_level) (D : Bool) (k : Nat) :
    StableClosed ((iteration O D)^[k + 1]
      (initialState (convertEdgeListforCCL edgeList))).tupleVector ∧
    ∀ t ∈ ((iteration O D)^[k + 1]
        (initialState (convertEdgeListforCCL edgeList))).tupleVector,
      t.Pn = MAX_PID → IsCompMin edgeList t.nId t.Pc := by
  have hCL := classRel_connected edgeList
  have hI0 : LoopInv (fun p v => Connected edgeList v p) (Adj edgeList)
      (stableOf (initialState (convertEdgeListforCCL edgeList)))
      (activeOf (initialState (convertEdgeListforCCL edgeList))) := loopInv_initial hsym hbd
  have hT0 : Tracks (convertEdgeListforCCL edgeList)
      (stableOf (initialState (convertEdgeListforCCL edgeList)))
      (activeOf (initialState (convertEdgeListforCCL edgeList))) := tracks_initial _
  have hIk := LoopInv_iterate hCL O D _ hI0 k
  have hIk1 := LoopInv_iterate hCL O D _ hI0 (k + 1)
  have hTk1 := tracks_iterate hCL O D _ hI0 hT0 (k + 1)
  have hc : StableClosed ((iteration O D)^[k + 1]
      (initialState (convertEdgeListforCCL edgeList))).tupleVector := by
    rw [Function.iterate_succ_apply']
    exact stableClosed_iteration hCL O D _ hIk
  refine ⟨hc, ?_⟩
  intro t ht hPn
  rw [← stable_append_active] at ht hc
  exact isCompMin_of_stable hsym hbd hIk1 hc hTk1 ht hPn

end conn.coloring

namespace conn.coloring

/-! ## The invariant for the classes of the array of the ingest -/

theorem tupleLink_symm {X : List T} {v v' : Nat} (h : tupleLink X v v') : tupleLink X v' v := by
  obtain ⟨t, ht, t', ht', hpc, h1, h2⟩ := h
  exact ⟨t', ht', t, ht, hpc.symm, h2, h1⟩

theorem tupleLink_chain_symm {X : List T} {v v' : Nat}
    (h : Relation.ReflTransGen (tupleLink X) v v') :
    Relation.ReflTransGen (tupleLink X) v' v := by
  induction h with
  | refl => exact Relation.ReflTransGen.refl
  | tail _ hbc ih => exact Relation.ReflTransGen.head (tupleLink_symm hbc) ih

theorem classRel_tuple (X : List T) : ClassRel (tupleClass X) (tupleLink X) := by
  have hlinked : ∀ p v v', tupleClass X p v → tupleClass X p v' →
      Relation.ReflTransGen (tupleLink X) v v' := by
    intro p v v' h1 h2
    obtain ⟨t, ht, htp, hv⟩ := h1
    obtain ⟨t', ht', htp', hv'⟩ := h2
    have hl : tupleLink X t.nId t'.nId := ⟨t, ht, t', ht', by rw [htp, htp'], rfl, rfl⟩
    exact (tupleLink_chain_symm hv).trans (Relation.ReflTransGen.head hl hv')
  refine ⟨?_, hlinked⟩
  intro p q v v' h1 h2 h3
  obtain ⟨t, ht, htq, hv⟩ := h3
  exact ⟨t, ht, htq, hv.trans (hlinked p v v' h1 h2)⟩

/-- The array of the ingest satisfies the invariant of the loop for its own classes, when the
edge list holds both directions of every edge and its vertex ids avoid the sentinels. -/
theorem loopInv_initial_tuple {edgeList : List (Nat × Nat)} (hsym : symmetricEdges edgeList)
    (hav : avoidsSentinels edgeList) :
    LoopInv (tupleClass (convertEdgeListforCCL edgeList))
      (tupleLink (convertEdgeListforCCL edgeList)) [] (convertEdgeListforCCL edgeList) := by
  have hns : NoSentinel (convertEdgeListforCCL edgeList) := by
    intro t ht
    obtain ⟨e, he, h | h⟩ := mem_convertEdgeListforCCL.1 ht
    · rw [h]; exact ⟨(hav e he).1.1, (hav e he).1.2⟩
    · rw [h]; exact ⟨(hav e he).1.1, (hav e he).2.2⟩
  refine ⟨?_, ?_, ?_, ?_, ?_, ?_, ?_⟩
  · rw [List.nil_append]; exact hns
  · intro t ht
    rw [List.nil_append] at ht
    exact ⟨t, ht, rfl, Relation.ReflTransGen.refl⟩
  · intro t ht t' ht' h
    rw [List.nil_append] at ht ht'
    have hsrc : ∃ e ∈ edgeList, e.1 = t.nId := by
      obtain ⟨e, he, h1 | h1⟩ := mem_convertEdgeListforCCL.1 ht
      · exact ⟨e, he, by rw [h1]⟩
      · exact ⟨(e.2, e.1), hsym e he, by rw [h1]⟩
    obtain ⟨e, he, hen⟩ := hsrc
    have hlt : t.nId < MAX_PID2 := by rw [← h]; exact (hns t' ht').1
    refine ⟨⟨toPid e.1, MAX_PID, e.1⟩, mem_convertEdgeListforCCL.2 ⟨e, he, Or.inl rfl⟩, ?_, ?_⟩
    · show toPid e.1 = t'.Pc
      rw [hen, toPid_of_lt hlt, h]
    · show Relation.ReflTransGen _ e.1 t.nId
      rw [hen]
  · intro v v' hl
    obtain ⟨t, ht, t', ht', hpc, h1, h2⟩ := hl
    exact ⟨t, t', hpc, h1, h2, Or.inr ⟨ht, ht'⟩⟩
  · intro t ht; simp at ht
  · intro t ht; simp at ht
  · intro t ht; simp at ht

/-- After at least one iteration from the array of the ingest, the stable tuples of the
array are closed, when the vertex ids avoid the sentinels. -/
theorem iterate_succ_stableClosed {edgeList : List (Nat × Nat)}
    (hsym : symmetricEdges edgeList) (hav : avoidsSentinels edgeList) (O : opt_level)
    (D : Bool) (k : Nat) :
    StableClosed ((iteration O D)^[k + 1]
      (initialState (convertEdgeListforCCL edgeList))).tupleVector := by
  have hCL := classRel_tuple (convertEdgeListforCCL edgeList)
  have hI0 : LoopInv (tupleClass (convertEdgeListforCCL edgeList))
      (tupleLink (convertEdgeListforCCL edgeList))
      (stableOf (initialState (convertEdgeListforCCL edgeList)))
      (activeOf (initialState (convertEdgeListforCCL edgeList))) :=
    loopInv_initial_tuple hsym hav
  rw [Function.iterate_succ_apply']
  exact stableClosed_iteration hCL O D _ (LoopInv_iterate hCL O D _ hI0 k)

/-- What the loop returns, in terms of the iterates of its body. -/
theorem run_some_iterate {O : opt_level} {D : Bool} {fuel : Nat} {tv : List T} {s : LoopState}
    (h : runConnectedComponentLabeling O D fuel tv = some s) :
    ∃ k, s = (iteration O D)^[k + 1] (initialState tv) ∧ s.converged = true ∧
      ∀ j, j < k + 1 → ((iteration O D)^[j] (initialState tv)).converged = false := by
  obtain ⟨k, _, hs, hc, hbefore⟩ := whileNotConverged_some O D fuel _ s h
  cases k with
  | zero =>
    exfalso
    have : s.converged = false := by rw [hs]; rfl
    rw [hc] at this
    exact Bool.noConfusion this
  | succ k => exact ⟨k, hs, hc, hbefore⟩

/-- The array the loop returns: every tuple stable, the stable tuples closed, the node ids
those of the array it started from. -/
theorem run_spec_of_loopInv {C L : Nat → Nat → Prop} (hCL : ClassRel C L) {O : opt_level}
    {D : Bool} {fuel : Nat} {tv : List T} {s : LoopState}
    (hI : LoopInv C L [] tv)
    (h : runConnectedComponentLabeling O D fuel tv = some s) :
    (∀ t ∈ s.tupleVector, t.Pn = MAX_PID) ∧ StableClosed s.tupleVector ∧
    LoopInv C L (stableOf s) (activeOf s) ∧ Tracks tv (stableOf s) (activeOf s) := by
  obtain ⟨k, hs, hc, _⟩ := run_some_iterate h
  have hI0 : LoopInv C L (stableOf (initialState tv)) (activeOf (initialState tv)) := hI
  have hT0 : Tracks tv (stableOf (initialState tv)) (activeOf (initialState tv)) :=
    tracks_initial tv
  have hIk := LoopInv_iterate hCL O D _ hI0 k
  subst hs
  refine ⟨?_, ?_, LoopInv_iterate hCL O D _ hI0 (k + 1), tracks_iterate hCL O D _ hI0 hT0 (k + 1)⟩
  · rw [Function.iterate_succ_apply'] at hc ⊢
    exact all_stable_iteration O D _ hIk hc
  · rw [Function.iterate_succ_apply']
    exact stableClosed_iteration hCL O D _ hIk

end conn.coloring

namespace conn.coloring

/-! ## The result of `compute` -/

theorem compute_ok_iff {O : opt_level} {D : Bool} {fuel : Nat} {c0 c : ccl}
    (hne : c0.tupleVector ≠ []) :
    compute O D fuel c0 = Except.ok c ↔
      ∃ s, runConnectedComponentLabeling O D fuel c0.tupleVector = some s ∧
        c = computeComponentCount { c0 with tupleVector := s.tupleVector } := by
  unfold compute
  rw [if_neg hne]
  cases h : runConnectedComponentLabeling O D fuel c0.tupleVector with
  | none => simp
  | some s =>
    simp only [Except.ok.injEq, Option.some.injEq]
    constructor
    · intro hc; exact ⟨s, rfl, hc.symm⟩
    · rintro ⟨s', hs', hc⟩; rw [hs']; exact hc.symm

theorem run_terminates (O : opt_level) (D : Bool) (tv : List T) :
    ∃ fuel s, runConnectedComponentLabeling O D fuel tv = some s :=
  whileNotConverged_terminates O D _ _ (initialState tv) rfl rfl

theorem compute_terminates (O : opt_level) (D : Bool) {c0 : ccl} (hne : c0.tupleVector ≠ []) :
    ∃ fuel c, compute O D fuel c0 = Except.ok c := by
  obtain ⟨fuel, s, hs⟩ := run_terminates O D c0.tupleVector
  exact ⟨fuel, _, (compute_ok_iff hne).2 ⟨s, hs, rfl⟩⟩

theorem ccl_new_tupleVector (edgeList : List (Nat × Nat)) :
    (ccl.new edgeList).tupleVector = convertEdgeListforCCL edgeList := rfl

/-- The array the loop returns on the array of the ingest: every tuple carries the minimum
vertex id of the component of its node, and the node ids are those of the ingest. -/
theorem run_isCompMin {edgeList : List (Nat × Nat)} (hsym : symmetricEdges edgeList)
    (hbd : boundedIds edgeList) {O : opt_level} {D : Bool} {fuel : Nat} {s : LoopState}
    (h : runConnectedComponentLabeling O D fuel (convertEdgeListforCCL edgeList) = some s) :
    (∀ t ∈ s.tupleVector, IsCompMin edgeList t.nId t.Pc) ∧
    (s.tupleVector.map T.nId).Perm ((convertEdgeListforCCL edgeList).map T.nId) := by
  obtain ⟨hall, hc, hI, hT⟩ :=
    run_spec_of_loopInv (classRel_connected edgeList) (loopInv_initial hsym hbd) h
  constructor
  · intro t ht
    rw [← stable_append_active] at ht hc
    exact isCompMin_of_stable hsym hbd hI hc hT ht (hall t (by
      rw [← stable_append_active]; exact ht))
  · have := hT.nIdPerm
    rw [stable_append_active] at this
    exact this

/-- The same for the engine after `compute`. -/
theorem compute_isCompMin {edgeList : List (Nat × Nat)} (hne : edgeList ≠ [])
    (hsym : symmetricEdges edgeList) (hbd : boundedIds edgeList) {O : opt_level} {D : Bool}
    {fuel : Nat} {c : ccl} (h : compute O D fuel (ccl.new edgeList) = Except.ok c) :
    (∀ t ∈ c.tupleVector, IsCompMin edgeList t.nId t.Pc) ∧
    (c.tupleVector.map T.nId).Perm ((convertEdgeListforCCL edgeList).map T.nId) ∧
    c.componentCount = distinctPcCount c.tupleVector := by
  obtain ⟨s, hs, hc⟩ := (compute_ok_iff (convertEdgeListforCCL_ne_nil hne)).1 h
  obtain ⟨h1, h2⟩ := run_isCompMin hsym hbd hs
  have hperm : c.tupleVector.Perm s.tupleVector := by
    rw [hc]; exact (computeComponentCount_tupleVector _).2
  refine ⟨fun t ht => h1 t (hperm.subset ht), (hperm.map _).trans h2, ?_⟩
  rw [hc, computeComponentCount_count]
  exact (distinctPcCount_perm (computeComponentCount_tupleVector _).2).symm

theorem IsCompMin_unique {edgeList : List (Nat × Nat)} {v v' p p' : Nat}
    (h : IsCompMin edgeList v p) (h' : IsCompMin edgeList v' p')
    (hc : Connected edgeList v v') : p = p' := by
  have h1 : p ≤ p' := h.2 p' (Connected_trans hc h'.1)
  have h2 : p' ≤ p := h'.2 p (Connected_trans (Connected_symm hc) h.1)
  omega

theorem isVertex_of_connected {edgeList : List (Nat × Nat)} {v w : Nat}
    (hv : IsVertex edgeList v) (h : Connected edgeList v w) : IsVertex edgeList w := by
  unfold Connected at h
  induction h with
  | refl => exact hv
  | tail _ hbc _ =>
    rcases hbc with h1 | h1
    · exact ⟨_, h1, Or.inr rfl⟩
    · exact ⟨_, h1, Or.inl rfl⟩

theorem isVertex_of_mem_convert {edgeList : List (Nat × Nat)} {t : T}
    (ht : t ∈ convertEdgeListforCCL edgeList) : IsVertex edgeList t.nId := by
  obtain ⟨e, he, h | h⟩ := mem_convertEdgeListforCCL.1 ht
  · exact ⟨e, he, Or.inl (by rw [h])⟩
  · exact ⟨e, he, Or.inr (by rw [h])⟩

theorem exists_mem_convert_of_isVertex {edgeList : List (Nat × Nat)} {v : Nat}
    (hv : IsVertex edgeList v) : ∃ t ∈ convertEdgeListforCCL edgeList, t.nId = v := by
  obtain ⟨e, he, h | h⟩ := hv
  · exact ⟨_, mem_convertEdgeListforCCL.2 ⟨e, he, Or.inl rfl⟩, h⟩
  · exact ⟨_, mem_convertEdgeListforCCL.2 ⟨e, he, Or.inr rfl⟩, h⟩

/-- An array that labels every vertex with the minimum of its component has as many distinct
labels as the graph has components. -/
theorem hasComponentCount_of_labels {edgeList : List (Nat × Nat)} {tv : List T}
    (hmin : ∀ t ∈ tv, IsCompMin edgeList t.nId t.Pc)
    (hperm : (tv.map T.nId).Perm ((convertEdgeListforCCL edgeList).map T.nId)) :
    HasComponentCount edgeList (distinctPcCount tv) := by
  refine ⟨(tv.map T.Pc).dedup, ⟨List.nodup_dedup _, ?_, ?_, ?_⟩, rfl⟩
  · intro r hr
    obtain ⟨t, ht, rfl⟩ := List.mem_map.1 (List.mem_dedup.1 hr)
    have hn : t.nId ∈ (convertEdgeListforCCL edgeList).map T.nId :=
      hperm.subset (List.mem_map.2 ⟨t, ht, rfl⟩)
    obtain ⟨t0, ht0, h0⟩ := List.mem_map.1 hn
    have hv : IsVertex edgeList t.nId := by rw [← h0]; exact isVertex_of_mem_convert ht0
    exact isVertex_of_connected hv (hmin t ht).1
  · intro v hv
    obtain ⟨t0, ht0, h0⟩ := exists_mem_convert_of_isVertex hv
    have hn : v ∈ tv.map T.nId :=
      hperm.symm.subset (List.mem_map.2 ⟨t0, ht0, h0⟩)
    obtain ⟨t, ht, htn⟩ := List.mem_map.1 hn
    refine ⟨t.Pc, List.mem_dedup.2 (List.mem_map.2 ⟨t, ht, rfl⟩), ?_⟩
    rw [← htn]
    exact (hmin t ht).1
  · intro r hr r' hr' hc
    obtain ⟨t, ht, rfl⟩ := List.mem_map.1 (List.mem_dedup.1 hr)
    obtain ⟨t', ht', rfl⟩ := List.mem_map.1 (List.mem_dedup.1 hr')
    apply IsCompMin_unique (hmin t ht) (hmin t' ht')
    exact Connected_trans (hmin t ht).1 (Connected_trans hc (Connected_symm (hmin t' ht').1))

end conn.coloring

namespace conn.coloring

/-! ## The sequential union-find -/

theorem Connected_mono {P Q : List (Nat × Nat)} (h : ∀ e, e ∈ P → e ∈ Q) {x y : Nat}
    (hc : Connected P x y) : Connected Q x y := by
  unfold Connected at *
  refine Relation.ReflTransGen.mono ?_ hc
  intro a b hab
  rcases hab with h1 | h1
  · exact Or.inl (h _ h1)
  · exact Or.inr (h _ h1)

theorem Connected_nil {x y : Nat} : Connected [] x y ↔ x = y := by
  constructor
  · intro h
    unfold Connected at h
    induction h with
    | refl => rfl
    | tail _ hbc _ =>
      rcases hbc with h1 | h1 <;> simp at h1
  · rintro rfl
    exact Relation.ReflTransGen.refl

/-- Connectedness after one more edge `(a, b)`. -/
theorem Connected_snoc {P : List (Nat × Nat)} {a b x y : Nat} :
    Connected (P ++ [(a, b)]) x y ↔
      Connected P x y ∨ (Connected P x a ∧ Connected P b y) ∨
        (Connected P x b ∧ Connected P a y) := by
  have hmono : ∀ {u v}, Connected P u v → Connected (P ++ [(a, b)]) u v :=
    fun h => Connected_mono (fun e he => List.mem_append_left _ he) h
  have hab : Connected (P ++ [(a, b)]) a b :=
    Relation.ReflTransGen.single (Or.inl (by simp))
  constructor
  · intro h
    unfold Connected at h
    induction h with
    | refl => exact Or.inl Relation.ReflTransGen.refl
    | @tail z y _ hzy ih =>
      have hstep : Adj P z y ∨ (z = a ∧ y = b) ∨ (z = b ∧ y = a) := by
        rcases hzy with h1 | h1
        · rcases List.mem_append.1 h1 with h2 | h2
          · exact Or.inl (Or.inl h2)
          · simp at h2
            exact Or.inr (Or.inl h2)
        · rcases List.mem_append.1 h1 with h2 | h2
          · exact Or.inl (Or.inr h2)
          · simp at h2
            exact Or.inr (Or.inr ⟨h2.2, h2.1⟩)
      rcases hstep with hP | ⟨rfl, rfl⟩ | ⟨rfl, rfl⟩
      · have hs : Connected P z y := Relation.ReflTransGen.single hP
        rcases ih with h1 | ⟨h1, h2⟩ | ⟨h1, h2⟩
        · exact Or.inl (Connected_trans h1 hs)
        · exact Or.inr (Or.inl ⟨h1, Connected_trans h2 hs⟩)
        · exact Or.inr (Or.inr ⟨h1, Connected_trans h2 hs⟩)
      · rcases ih with h1 | ⟨h1, _⟩ | ⟨h1, _⟩
        · exact Or.inr (Or.inl ⟨h1, Relation.ReflTransGen.refl⟩)
        · exact Or.inr (Or.inl ⟨h1, Relation.ReflTransGen.refl⟩)
        · exact Or.inl h1
      · rcases ih with h1 | ⟨h1, _⟩ | ⟨h1, _⟩
        · exact Or.inr (Or.inr ⟨h1, Relation.ReflTransGen.refl⟩)
        · exact Or.inl h1
        · exact Or.inr (Or.inr ⟨h1, Relation.ReflTransGen.refl⟩)
  · rintro (h | ⟨h1, h2⟩ | ⟨h1, h2⟩)
    · exact hmono h
    · exact Connected_trans (hmono h1) (Connected_trans hab (hmono h2))
    · exact Connected_trans (hmono h1) (Connected_trans (Connected_symm hab) (hmono h2))

theorem unionStep_spec {find : Nat → Nat} {P : List (Nat × Nat)}
    (h : ∀ x y, find x = find y ↔ Connected P x y) (e : Nat × Nat) :
    ∀ x y, unionStep find e x = unionStep find e y ↔ Connected (P ++ [e]) x y := by
  intro x y
  obtain ⟨a, b⟩ := e
  rw [Connected_snoc, ← h x y, ← h x a, ← h b y, ← h x b, ← h a y]
  unfold unionStep
  simp only []
  by_cases hab : find a = find b
  · rw [if_pos hab]
    constructor
    · intro h1; exact Or.inl h1
    · rintro (h1 | ⟨h1, h2⟩ | ⟨h1, h2⟩)
      · exact h1
      · rw [h1, hab, h2]
      · rw [h1, ← hab, h2]
  · rw [if_neg hab]
    by_cases hx : find x = find b <;> by_cases hy : find y = find b
    · rw [if_pos hx, if_pos hy]
      simp only [true_iff]
      exact Or.inl (by rw [hx, hy])
    · rw [if_pos hx, if_neg hy]
      constructor
      · intro h1; exact Or.inr (Or.inr ⟨hx, h1⟩)
      · rintro (h1 | ⟨h1, h2⟩ | ⟨_, h2⟩)
        · exact absurd (by rw [← h1, hx]) hy
        · exact absurd h2.symm hy
        · exact h2
    · rw [if_neg hx, if_pos hy]
      constructor
      · intro h1; exact Or.inr (Or.inl ⟨h1, hy.symm⟩)
      · rintro (h1 | ⟨h1, _⟩ | ⟨h1, _⟩)
        · exact absurd (by rw [h1, hy]) hx
        · exact h1
        · exact absurd h1 hx
    · rw [if_neg hx, if_neg hy]
      constructor
      · intro h1; exact Or.inl h1
      · rintro (h1 | ⟨_, h2⟩ | ⟨h1, _⟩)
        · exact h1
        · exact absurd h2.symm hy
        · exact absurd h1 hx

theorem foldl_unionStep_spec (es : List (Nat × Nat)) :
    ∀ (find : Nat → Nat) (P : List (Nat × Nat)),
      (∀ x y, find x = find y ↔ Connected P x y) →
      ∀ x y, es.foldl unionStep find x = es.foldl unionStep find y ↔ Connected (P ++ es) x y := by
  induction es with
  | nil => intro find P h x y; rw [List.append_nil]; exact h x y
  | cons e es ih =>
    intro find P h x y
    rw [List.foldl_cons]
    have := ih (unionStep find e) (P ++ [e]) (unionStep_spec h e) x y
    rw [List.append_assoc] at this
    exact this

/-- The sequential union-find gives two vertices the same representative exactly when they
lie in the same connected component. -/
theorem unionFind_spec (edgeList : List (Nat × Nat)) (x y : Nat) :
    unionFind edgeList x = unionFind edgeList y ↔ Connected edgeList x y := by
  have := foldl_unionStep_spec edgeList id [] (fun x y => Connected_nil.symm) x y
  simpa [unionFind] using this

/-! ## Arrays with the same labelling -/

/-- Two arrays with the same node ids, whose `Pc` is determined by the node id in the same way,
hold the same pairs `(Pc, nId)`. -/
theorem pairs_perm_of_functional {P : Nat → Nat → Prop}
    (hfun : ∀ v p p', P v p → P v p' → p = p') {l1 l2 : List T}
    (h1 : ∀ t ∈ l1, P t.nId t.Pc) (h2 : ∀ t ∈ l2, P t.nId t.Pc)
    (hperm : (l1.map T.nId).Perm (l2.map T.nId)) :
    (l1.map (fun t => (t.Pc, t.nId))).Perm (l2.map (fun t => (t.Pc, t.nId))) := by
  have hG : ∀ t ∈ l1, ∀ t' ∈ l1, t.nId = t'.nId → t.Pc = t'.Pc := by
    intro t ht t' ht' hn
    exact hfun t.nId _ _ (h1 t ht) (by rw [hn]; exact h1 t' ht')
  have key : ∀ l : List T, (∀ t ∈ l, P t.nId t.Pc) → (∀ t ∈ l, t.nId ∈ l1.map T.nId) →
      l.map (fun t => (t.Pc, t.nId))
        = (l.map T.nId).map
            (fun v => (((l1.find? (fun u => decide (u.nId = v))).map T.Pc).getD 0, v)) := by
    intro l hl hn
    rw [List.map_map]
    apply List.map_congr_left
    intro t ht
    obtain ⟨u, hu, hun⟩ := List.mem_map.1 (hn t ht)
    cases hf : l1.find? (fun u => decide (u.nId = t.nId)) with
    | none =>
      have := List.find?_eq_none.1 hf u hu
      simp [hun] at this
    | some w =>
      have hw1 : w ∈ l1 := List.mem_of_find?_eq_some hf
      have hw2 : w.nId = t.nId := by
        have := List.find?_some hf
        simpa using this
      have : w.Pc = t.Pc :=
        hfun t.nId _ _ (by rw [← hw2]; exact h1 w hw1) (hl t ht)
      simp [Function.comp, hf, this]
  rw [key l1 h1 (fun t ht => List.mem_map.2 ⟨t, ht, rfl⟩),
    key l2 h2 (fun t ht => hperm.symm.subset (List.mem_map.2 ⟨t, ht, rfl⟩))]
  exact hperm.map _

end conn.coloring

namespace conn.coloring

/-! ## The stable part and the active part stay apart, whatever the edge list -/

/-- In the active range after an iteration, a node with a stable tuple has only stable tuples,
all with the same `Pc`. -/
theorem nodeClosed_activeAfter {A : List T} (hb : NoSentinel A) (D : Bool) :
    ∀ t ∈ activeAfter D A, t.Pn = MAX_PID → ∀ t' ∈ activeAfter D A, t'.nId = t.nId →
      t'.Pc = t.Pc ∧ t'.Pn = MAX_PID := by
  intro t3 ht3 hPn t3' ht3' hn
  obtain ⟨t, ht, rfl⟩ := (mem_activeAfter_iff D hb).1 ht3
  obtain ⟨t', ht', rfl⟩ := (mem_activeAfter_iff D hb).1 ht3'
  rw [image_nId, image_nId] at hn
  have hs : BucketStable A t.Pc := (image_Pn_eq_MAX_PID_iff D hb ht).1 hPn
  have hpc : t'.Pc = t.Pc := hs t ht rfl t' ht' t ht hn rfl
  exact ⟨image_Pc_congr D hpc, (image_Pn_eq_MAX_PID_iff D hb ht').2 (by rw [hpc]; exact hs)⟩

theorem sepInv_noSentinel_active {S A : List T} (hI : SepInv S A) : NoSentinel A :=
  fun t ht => hI.noSentinel t (List.mem_append_right _ ht)

theorem SepInv_kept {S A : List T} (hI : SepInv S A) (D : Bool) :
    SepInv S (activeAfter D A) := by
  have hb := sepInv_noSentinel_active hI
  refine ⟨?_, ?_, hI.sepLabels, hI.stablePn⟩
  · intro t3 h3
    rcases List.mem_append.1 h3 with h | h
    · exact hI.noSentinel t3 (List.mem_append_left _ h)
    · obtain ⟨t, ht, rfl⟩ := (mem_activeAfter_iff D hb).1 h
      exact image_noSentinel D hb ht
  · intro t ht t3' h3'
    obtain ⟨t', ht', rfl⟩ := (mem_activeAfter_iff D hb).1 h3'
    rw [image_nId]
    exact hI.sepNodes t ht t' ht'

theorem SepInv_moved {S A : List T} (hI : SepInv S A)
    (hc : ∀ t ∈ A, t.Pn = MAX_PID → ∀ t' ∈ A, t'.nId = t.nId → t'.Pc = t.Pc ∧ t'.Pn = MAX_PID) :
    SepInv (S ++ A.filter (fun e => decide (e.Pn = MAX_PID)))
      (A.filter (fun e => ! decide (e.Pn = MAX_PID))) := by
  have hmem : ∀ t, t ∈ (S ++ A.filter (fun e => decide (e.Pn = MAX_PID))) ++
      A.filter (fun e => ! decide (e.Pn = MAX_PID)) → t ∈ S ++ A := by
    intro t ht
    simp only [List.mem_append, List.mem_filter] at ht ⊢
    rcases ht with (h | h) | h
    · exact Or.inl h
    · exact Or.inr h.1
    · exact Or.inr h.1
  have hst : ∀ t, t ∈ A.filter (fun e => decide (e.Pn = MAX_PID)) ↔ t ∈ A ∧ t.Pn = MAX_PID := by
    intro t; simp [List.mem_filter]
  have hac : ∀ t, t ∈ A.filter (fun e => ! decide (e.Pn = MAX_PID)) ↔ t ∈ A ∧ t.Pn ≠ MAX_PID := by
    intro t; simp [List.mem_filter]
  refine ⟨?_, ?_, ?_, ?_⟩
  · intro t ht; exact hI.noSentinel t (hmem t ht)
  · intro t ht t' ht'
    obtain ⟨ht'A, ht'P⟩ := (hac t').1 ht'
    rcases List.mem_append.1 ht with h | h
    · exact hI.sepNodes t h t' ht'A
    · obtain ⟨htA, htP⟩ := (hst t).1 h
      intro hn
      exact ht'P (hc t htA htP t' ht'A hn).2
  · intro t ht t' ht' hn
    rcases List.mem_append.1 ht with h | h
    · rcases List.mem_append.1 ht' with h' | h'
      · exact hI.sepLabels t h t' h' hn
      · exact absurd hn.symm (hI.sepNodes t h t' ((hst t').1 h').1)
    · obtain ⟨htA, htP⟩ := (hst t).1 h
      rcases List.mem_append.1 ht' with h' | h'
      · exact absurd hn (hI.sepNodes t' h' t htA)
      · exact ((hc t htA htP t' ((hst t').1 h').1 hn.symm).1).symm
  · intro t ht
    rcases List.mem_append.1 ht with h | h
    · exact hI.stablePn t h
    · exact ((hst t).1 h).2

theorem SepInv_iteration (O : opt_level) (D : Bool) (s : LoopState)
    (hI : SepInv (stableOf s) (activeOf s)) :
    SepInv (stableOf (iteration O D s)) (activeOf (iteration O D s)) := by
  by_cases h : convergedOn D (activeOf s) = true ∨ O = opt_level.naive
  · obtain ⟨h1, h2, _⟩ := iteration_parts_kept O D s h
    rw [h1, h2]
    exact SepInv_kept hI D
  · push_neg at h
    obtain ⟨h1, h2, _⟩ := iteration_parts_moved O D s (by simpa using h.1) h.2
    rw [h1, h2]
    exact SepInv_moved (SepInv_kept hI D) (nodeClosed_activeAfter (sepInv_noSentinel_active hI) D)

theorem SepInv_iterate (O : opt_level) (D : Bool) (s : LoopState)
    (hI : SepInv (stableOf s) (activeOf s)) (k : Nat) :
    SepInv (stableOf ((iteration O D)^[k] s)) (activeOf ((iteration O D)^[k] s)) := by
  induction k with
  | zero => exact hI
  | succ k ih =>
    rw [Function.iterate_succ_apply']
    exact SepInv_iteration O D _ ih

/-- After an iteration, every node of the array that has a stable tuple has only stable
tuples, all with the same `Pc`. -/
theorem nodeClosed_iteration (O : opt_level) (D : Bool) (s : LoopState)
    (hI : SepInv (stableOf s) (activeOf s)) :
    ∀ t ∈ (iteration O D s).tupleVector, t.Pn = MAX_PID →
      ∀ t' ∈ (iteration O D s).tupleVector, t'.nId = t.nId → t'.Pc = t.Pc ∧ t'.Pn = MAX_PID := by
  have hK := SepInv_kept hI D
  have hc := nodeClosed_activeAfter (sepInv_noSentinel_active hI) D
  intro t ht hPn t' ht' hn
  rcases mem_tupleVector_iteration.1 ht with h | h
  · rcases mem_tupleVector_iteration.1 ht' with h' | h'
    · exact ⟨hK.sepLabels t' h' t h hn, hK.stablePn t' h'⟩
    · exact absurd hn (hK.sepNodes t h t' h')
  · rcases mem_tupleVector_iteration.1 ht' with h' | h'
    · exact absurd hn.symm (hK.sepNodes t' h' t h)
    · exact hc t h hPn t' h' hn

/-- The array of the ingest has no sentinel when the vertex ids avoid them. -/
theorem noSentinel_convert {edgeList : List (Nat × Nat)} (hav : avoidsSentinels edgeList) :
    NoSentinel (convertEdgeListforCCL edgeList) := by
  intro t ht
  obtain ⟨e, he, h | h⟩ := mem_convertEdgeListforCCL.1 ht
  · rw [h]; exact ⟨(hav e he).1.1, (hav e he).1.2⟩
  · rw [h]; exact ⟨(hav e he).1.1, (hav e he).2.2⟩

theorem sepInv_initial {tv : List T} (hb : NoSentinel tv) :
    SepInv (stableOf (initialState tv)) (activeOf (initialState tv)) := by
  have h1 : stableOf (initialState tv) = [] := rfl
  have h2 : activeOf (initialState tv) = tv := rfl
  rw [h1, h2]
  refine ⟨by rw [List.nil_append]; exact hb, ?_, ?_, ?_⟩ <;> intro t ht <;> simp at ht

/-- What the loop returns on an array without sentinels: every tuple is stable, every node
carries one `Pc`, and no tuple carries a sentinel. -/
theorem run_spec_of_noSentinel {O : opt_level} {D : Bool} {fuel : Nat} {tv : List T}
    {s : LoopState} (hb : NoSentinel tv)
    (h : runConnectedComponentLabeling O D fuel tv = some s) :
    (∀ t ∈ s.tupleVector, t.Pn = MAX_PID) ∧ (∀ v, NodeAgrees s.tupleVector v) ∧
    NoSentinel s.tupleVector := by
  obtain ⟨k, hs, hc, _⟩ := run_some_iterate h
  have hIk := SepInv_iterate O D _ (sepInv_initial hb) k
  have hI1 := SepInv_iterate O D _ (sepInv_initial hb) (k + 1)
  subst hs
  have hall : ∀ t ∈ ((iteration O D)^[k + 1] (initialState tv)).tupleVector,
      t.Pn = MAX_PID := by
    rw [Function.iterate_succ_apply'] at hc ⊢
    rw [iteration_converged] at hc
    intro t ht
    rcases mem_tupleVector_iteration.1 ht with h | h
    · exact hIk.stablePn t h
    · exact all_stable_of_converged (sepInv_noSentinel_active hIk) D hc t h
  refine ⟨hall, ?_, ?_⟩
  · intro v u hu u' hu' hn hn'
    have hcl := nodeClosed_iteration O D _ hIk
    rw [← Function.iterate_succ_apply' (iteration O D)] at hcl
    exact (hcl u' hu' (hall u' hu') u hu (by rw [hn, hn'])).1
  · have := hI1.noSentinel
    rw [stable_append_active] at this
    exact this

/-! ## Running the loop on a converged array -/

section rerun

variable {W : List T}

theorem image_of_all_stable (hb : NoSentinel W) (hall : ∀ t ∈ W, t.Pn = MAX_PID)
    (hag : ∀ v, NodeAgrees W v) (D : Bool) {t : T} (ht : t ∈ W) : image D W t = t := by
  have hs : BucketStable W t.Pc := fun u _ _ => hag u.nId
  rw [image_of_stable D hb ht hs]
  have := hall t ht
  cases t
  simp only [T.mk.injEq, true_and, and_true]
  exact this.symm

theorem activeAfter_of_all_stable (hb : NoSentinel W) (hall : ∀ t ∈ W, t.Pn = MAX_PID)
    (hag : ∀ v, NodeAgrees W v) (D : Bool) : (activeAfter D W).Perm W := by
  refine (activeAfter_perm_image D hb).trans ?_
  apply List.Perm.of_eq
  conv_rhs => rw [← List.map_id W]
  apply List.map_congr_left
  intro t ht
  exact image_of_all_stable hb hall hag D ht

theorem convergedOn_of_all_stable (hb : NoSentinel W) (hag : ∀ v, NodeAgrees W v) (D : Bool) :
    convergedOn D W = true := by
  unfold convergedOn
  rw [updatePc_converged]
  intro t1 ht1
  obtain ⟨t, ht, rfl⟩ := mem_updatePn.1 ht1
  rw [setPn_Pc]
  exact (bucketStable_iff hb ht).2 (fun u _ _ => hag u.nId)

/-- On an array without sentinels whose tuples are all stable and whose nodes carry one `Pc`
each, the loop reports convergence in its first iteration and returns the same tuples. -/
theorem run_of_all_stable (hb : NoSentinel W) (hall : ∀ t ∈ W, t.Pn = MAX_PID)
    (hag : ∀ v, NodeAgrees W v) (O : opt_level) (D : Bool) :
    ∃ s', runConnectedComponentLabeling O D 1 W = some s' ∧ s'.iterCount = 1 ∧
      s'.converged = true ∧ s'.tupleVector.Perm W := by
  have hconv : (iteration O D (initialState W)).converged = true := by
    rw [iteration_converged]
    exact convergedOn_of_all_stable hb hag D
  refine ⟨iteration O D (initialState W), ?_, ?_, hconv, ?_⟩
  · show whileNotConverged O D 1 (initialState W) = _
    rw [whileNotConverged_succ O D 0 _ rfl]
    exact whileNotConverged_of_converged O D 0 _ hconv
  · rw [iteration_iterCount]; rfl
  · have h := (iteration_parts_kept O D (initialState W)
      (Or.inl (convergedOn_of_all_stable hb hag D))).2.2
    rw [h]
    exact activeAfter_of_all_stable hb hall hag D

end rerun

/-- The array the loop returns on an array without sentinels is one on which a second run is
a fixpoint. -/
theorem rerun_fixpoint {O : opt_level} {D : Bool} {fuel : Nat} {tv : List T} {s : LoopState}
    (hb : NoSentinel tv) (h : runConnectedComponentLabeling O D fuel tv = some s) :
    ∃ s', runConnectedComponentLabeling O D 1 s.tupleVector = some s' ∧ s'.iterCount = 1 ∧
      s'.converged = true ∧ s'.tupleVector.Perm s.tupleVector := by
  obtain ⟨hall, hag, hb'⟩ := run_spec_of_noSentinel hb h
  exact run_of_all_stable hb' hall hag O D

end conn.coloring

namespace conn.coloring

/-! ## Facts about the graph of an edge list used by the examples -/

/-- A vertex connected to another one is that vertex or an endpoint of an edge. -/
theorem connected_eq_or_isVertex {edgeList : List (Nat × Nat)} {v w : Nat}
    (h : Connected edgeList v w) : v = w ∨ IsVertex edgeList w := by
  induction h with
  | refl => exact Or.inl rfl
  | @tail b c _ hbc _ =>
    right
    rcases hbc with h | h
    · exact ⟨(b, c), h, Or.inr rfl⟩
    · exact ⟨(c, b), h, Or.inl rfl⟩

/-- The vertices of the array the engine holds are the vertices of the edge list. -/
theorem isVertex_iff_mem_nId {edgeList : List (Nat × Nat)} {tv : List T}
    (hperm : (tv.map T.nId).Perm ((convertEdgeListforCCL edgeList).map T.nId)) (v : Nat) :
    IsVertex edgeList v ↔ ∃ t ∈ tv, t.nId = v := by
  constructor
  · intro hv
    obtain ⟨t, ht, htv⟩ := exists_mem_convert_of_isVertex hv
    have : v ∈ tv.map T.nId := hperm.mem_iff.2 (List.mem_map.2 ⟨t, ht, htv⟩)
    exact List.mem_map.1 this
  · rintro ⟨t, ht, rfl⟩
    have : t.nId ∈ (convertEdgeListforCCL edgeList).map T.nId :=
      hperm.mem_iff.1 (List.mem_map.2 ⟨t, ht, rfl⟩)
    obtain ⟨t0, ht0, h0⟩ := List.mem_map.1 this
    rw [← h0]
    exact isVertex_of_mem_convert ht0

/-- A graph with two vertices that are not connected does not have one component. -/
theorem not_hasComponentCount_one {edgeList : List (Nat × Nat)} {a b : Nat}
    (ha : IsVertex edgeList a) (hb : IsVertex edgeList b) (h : ¬ Connected edgeList a b) :
    ¬ HasComponentCount edgeList 1 := by
  rintro ⟨reps, ⟨_, _, hcov, _⟩, hlen⟩
  obtain ⟨r, rfl⟩ := List.length_eq_one.1 hlen
  obtain ⟨r1, hr1, h1⟩ := hcov a ha
  obtain ⟨r2, hr2, h2⟩ := hcov b hb
  rw [List.mem_singleton] at hr1 hr2
  subst hr1 hr2
  exact h (Connected_trans h1 (Connected_symm h2))

/-- In the graph of `collidingEdges` no edge joins a vertex below `2 ^ 32` to one above. -/
theorem collidingEdges_connected {a b : Nat} (h : Connected collidingEdges a b) :
    a < 4294967296 ↔ b < 4294967296 := by
  induction h with
  | refl => exact Iff.rfl
  | @tail b c _ hbc ih =>
    rw [ih]
    have hmem : ∀ x y : Nat, (x, y) ∈ collidingEdges → (x < 4294967296 ↔ y < 4294967296) := by
      intro x y hxy
      simp only [collidingEdges, List.mem_cons, Prod.mk.injEq, List.mem_singleton,
        List.not_mem_nil, or_false] at hxy
      rcases hxy with ⟨rfl, rfl⟩ | ⟨rfl, rfl⟩ | ⟨rfl, rfl⟩ | ⟨rfl, rfl⟩ <;> simp
    rcases hbc with h | h
    · exact hmem b c h
    · exact (hmem c b h).symm

end conn.coloring

namespace conn.coloring

/-! ## The bucket walk, bucket by bucket -/

section walkbind

variable {α γ β : Type} (comp : α → α → Prop) [DecidableRel comp] (k : α → Nat)

theorem dedup_run_append (c : Nat) :
    ∀ (run rest : List Nat), (∀ y ∈ run, y = c) → c ∉ rest →
      (c :: (run ++ rest)).dedup = c :: rest.dedup := by
  intro run
  induction run with
  | nil =>
    intro rest _ hc
    rw [List.nil_append, List.dedup_cons_of_not_mem hc]
  | cons y run ih =>
    intro rest hy hc
    have hyc : y = c := hy y (List.mem_cons_self _ _)
    subst hyc
    rw [List.cons_append, List.dedup_cons_of_mem (List.mem_cons_self _ _)]
    exact ih rest (fun z hz => hy z (List.mem_cons_of_mem _ hz)) hc

/-- The distinct keys of a range sorted by its key: the key of the head, then the distinct
keys of what follows the run of the head. -/
theorem dedup_keys_cons (x : α) (xs : List α)
    (hp : (x :: xs).Pairwise (fun a b => k a ≤ k b)) :
    ((x :: xs).map k).dedup
      = k x :: (((x :: xs).dropWhile (fun y => decide (k y = k x))).map k).dedup := by
  have hsplit : (x :: xs).takeWhile (fun y => decide (k y = k x))
      ++ (x :: xs).dropWhile (fun y => decide (k y = k x)) = x :: xs :=
    List.takeWhile_append_dropWhile _ _
  have hge : ∀ y ∈ x :: xs, k x ≤ k y := by
    intro y hy
    rcases List.mem_cons.1 hy with h | h
    · subst h; exact le_refl _
    · exact (List.pairwise_cons.1 hp).1 y h
  have hrest := lt_of_mem_dropWhile k (k x) (x :: xs) hp hge
  have htw : (x :: xs).takeWhile (fun y => decide (k y = k x))
      = x :: xs.takeWhile (fun y => decide (k y = k x)) :=
    List.takeWhile_cons_of_pos (by simp)
  have hrun : ∀ y ∈ (xs.takeWhile (fun y => decide (k y = k x))).map k, y = k x := by
    intro y hy
    obtain ⟨z, hz, rfl⟩ := List.mem_map.1 hy
    exact eq_of_mem_takeWhile k (k x) xs z hz
  have hnot : k x ∉ ((x :: xs).dropWhile (fun y => decide (k y = k x))).map k := by
    intro h
    obtain ⟨z, hz, hzk⟩ := List.mem_map.1 h
    have := hrest z hz
    omega
  conv_lhs => rw [← hsplit, htw, List.map_append, List.map_cons, List.cons_append]
  exact dedup_run_append (k x) _ _ hrun hnot

/-- The walk, when the body does not look at the boundary flags: it runs the body once on the
bucket of every key of the range, the keys taken in ascending order, and concatenates what the
body leaves and what it emits. -/
theorem forEachBucket_eq_bind (hcomp : ∀ a b, comp a b ↔ k a < k b)
    (body : Bool → Bool → List α → List γ × List β)
    (hbody : ∀ b1 b2 bucket, body b1 b2 bucket = body true true bucket) :
    ∀ (n : Nat) (b : Bool) (xs : List α), xs.length ≤ n →
      xs.Pairwise (fun a b => k a ≤ k b) →
      (forEachBucket comp body n b xs).1
        = ((xs.map k).dedup).flatMap
            (fun c => (body true true (xs.filter (fun u => decide (k u = c)))).1) ∧
      (forEachBucket comp body n b xs).2
        = ((xs.map k).dedup).flatMap
            (fun c => (body true true (xs.filter (fun u => decide (k u = c)))).2) := by
  intro n
  induction n with
  | zero =>
    intro b xs hlen _
    have : xs = [] := List.length_eq_zero.1 (Nat.le_zero.1 hlen)
    subst this
    exact ⟨rfl, rfl⟩
  | succ n ih =>
    intro b xs hlen hp
    cases xs with
    | nil => exact ⟨rfl, rfl⟩
    | cons x xs =>
      simp only [forEachBucket]
      rw [findRange_eq comp k hcomp]
      simp only []
      have hs := bucket_split k x xs hp
      simp only [] at hs
      obtain ⟨hrun, hrest⟩ := hs
      have hlen2 : ((x :: xs).dropWhile (fun y => decide (k y = k x))).length ≤ n := by
        have h1 : (x :: xs).dropWhile (fun y => decide (k y = k x))
            = xs.dropWhile (fun y => decide (k y = k x)) :=
          List.dropWhile_cons_of_pos (by simp)
        rw [h1]
        have := dropWhile_length_le (fun y => decide (k y = k x)) xs
        simp only [List.length_cons] at hlen
        omega
      have hxrun : x ∈ (x :: xs).takeWhile (fun y => decide (k y = k x)) := by
        rw [List.takeWhile_cons_of_pos (by simp)]
        exact List.mem_cons_self _ _
      obtain ⟨ih1, ih2⟩ := ih false _ hlen2 (pairwise_dropWhile _ hp)
      have hkeys : ∀ c ∈ (((x :: xs).dropWhile (fun y => decide (k y = k x))).map k).dedup,
          ((x :: xs).dropWhile (fun y => decide (k y = k x))).filter (fun u => decide (k u = c))
            = (x :: xs).filter (fun u => decide (k u = c)) := by
        intro c hc
        obtain ⟨t, ht, rfl⟩ := List.mem_map.1 (List.mem_dedup.1 hc)
        exact (hrest t ht).symm
      have hcongr : ∀ (δ : Type) (f : List α → List δ),
          ((((x :: xs).dropWhile (fun y => decide (k y = k x))).map k).dedup).flatMap
              (fun c => f (((x :: xs).dropWhile (fun y => decide (k y = k x))).filter
                (fun u => decide (k u = c))))
            = ((((x :: xs).dropWhile (fun y => decide (k y = k x))).map k).dedup).flatMap
              (fun c => f ((x :: xs).filter (fun u => decide (k u = c)))) := by
        intro δ f
        apply List.flatMap_congr
        intro c hc
        rw [hkeys c hc]
      rw [ih1, ih2, dedup_keys_cons k x xs hp, hbody, ← hrun x hxrun]
      simp only [List.flatMap_cons]
      exact ⟨by rw [hcongr γ (fun l => (body true true l).1)],
        by rw [hcongr β (fun l => (body true true l).2)]⟩

end walkbind

end conn.coloring

namespace conn.coloring

/-! ## The ingest, run by run -/

theorem sortedBySrc_perm (edgeList : List (Nat × Nat)) : (sortedBySrc edgeList).Perm edgeList :=
  List.perm_insertionSort _ _

theorem sortedBySrc_sorted (edgeList : List (Nat × Nat)) :
    (sortedBySrc edgeList).Pairwise (fun a b => a.1 ≤ b.1) := by
  have := List.sorted_insertionSort (fun a b => ¬ EdgeCompSrc b a) edgeList
  refine List.Pairwise.imp ?_ this
  intro a b hab
  unfold EdgeCompSrc at hab
  omega

theorem sortedBySrc_length (edgeList : List (Nat × Nat)) :
    (sortedBySrc edgeList).length = edgeList.length :=
  (sortedBySrc_perm edgeList).length_eq

theorem sources_nodup (edgeList : List (Nat × Nat)) : (sources edgeList).Nodup :=
  List.nodup_dedup _

theorem mem_sources {edgeList : List (Nat × Nat)} {u : Nat} :
    u ∈ sources edgeList ↔ ∃ e ∈ edgeList, e.1 = u := by
  unfold sources
  rw [List.mem_dedup, List.mem_map]
  constructor
  · rintro ⟨e, he, h⟩
    exact ⟨e, (sortedBySrc_perm edgeList).subset he, h⟩
  · rintro ⟨e, he, h⟩
    exact ⟨e, (sortedBySrc_perm edgeList).symm.subset he, h⟩

theorem mem_runOf {edgeList : List (Nat × Nat)} {u : Nat} {e : Nat × Nat} :
    e ∈ runOf edgeList u ↔ e ∈ edgeList ∧ e.1 = u := by
  unfold runOf
  rw [List.mem_filter, (sortedBySrc_perm edgeList).mem_iff]
  simp

/-- The ingest walks the sorted edge list bucket by bucket, one bucket for every source. -/
theorem convertEdgeListforCCL_eq_flatMap (edgeList : List (Nat × Nat)) :
    convertEdgeListforCCL edgeList
      = (sources edgeList).flatMap (fun u => (convertBucket true true (runOf edgeList u)).1) :=
  (forEachBucket_eq_bind EdgeCompSrc Prod.fst (fun _ _ => Iff.rfl) convertBucket
    (fun _ _ _ => rfl) _ true (sortedBySrc edgeList) (le_refl _)
    (sortedBySrc_sorted edgeList)).1

/-- The runs of the sources, one after the other, make up the sorted edge list. -/
theorem flatMap_runOf (edgeList : List (Nat × Nat)) :
    (sources edgeList).flatMap (runOf edgeList) = sortedBySrc edgeList := by
  have h1 := (forEachBucket_eq_bind EdgeCompSrc Prod.fst (fun _ _ => Iff.rfl)
    (fun (_ _ : Bool) (bucket : List (Nat × Nat)) => (bucket, ([] : List Unit)))
    (fun _ _ _ => rfl) _ true (sortedBySrc edgeList) (le_refl _)
    (sortedBySrc_sorted edgeList)).1
  have h2 := forEachBucket_fst EdgeCompSrc Prod.fst (fun _ _ => Iff.rfl)
    (fun (_ _ : Bool) (bucket : List (Nat × Nat)) => (bucket, ([] : List Unit)))
    (fun _ t => t) (fun _ _ bucket => (List.map_id _).symm) _ true (sortedBySrc edgeList)
    (le_refl _) (sortedBySrc_sorted edgeList)
  rw [List.map_id'] at h2
  exact h1.symm.trans h2

/-- What the body of the ingest emits for the run of a source. -/
theorem convertBucket_runOf {edgeList : List (Nat × Nat)} {u : Nat}
    (hu : u ∈ sources edgeList) :
    (convertBucket true true (runOf edgeList u)).1 = emitRun toPid u (runOf edgeList u) := by
  obtain ⟨e, he, heu⟩ := mem_sources.1 hu
  have hmem : e ∈ runOf edgeList u := mem_runOf.2 ⟨he, heu⟩
  have hall : ∀ e' ∈ runOf edgeList u, e'.1 = u := fun e' he' => (mem_runOf.1 he').2
  cases hr : runOf edgeList u with
  | nil => rw [hr] at hmem; simp at hmem
  | cons h tl =>
    rw [hr] at hall
    have hh : h.1 = u := hall h (List.mem_cons_self _ _)
    simp only [convertBucket, emitRun, hh]
    congr 1
    apply List.map_congr_left
    intro e' he'
    rw [hall e' he']

/-- The ingest emits, run after run, the self-loop triple of the source and one triple for
every edge of the run; the `Pc` field holds the source narrowed to a partition id. -/
theorem convertEdgeListforCCL_eq_ingestByRuns (edgeList : List (Nat × Nat)) :
    convertEdgeListforCCL edgeList = ingestByRuns toPid edgeList := by
  rw [convertEdgeListforCCL_eq_flatMap]
  unfold ingestByRuns
  apply List.flatMap_congr
  intro u hu
  exact convertBucket_runOf hu

theorem emitRun_length (narrow : Nat → Nat) (u : Nat) (run : List (Nat × Nat)) :
    (emitRun narrow u run).length = run.length + 1 := by
  simp [emitRun]

theorem length_flatMap_succ {α β γ : Type} (f : α → List β) (g : α → List γ)
    (h : ∀ a, (g a).length = (f a).length + 1) :
    ∀ l : List α, (l.flatMap g).length = (l.flatMap f).length + l.length := by
  intro l
  induction l with
  | nil => rfl
  | cons a l ih =>
    simp only [List.flatMap_cons, List.length_append, List.length_cons, ih, h]
    omega

theorem ingestByRuns_length (narrow : Nat → Nat) (edgeList : List (Nat × Nat)) :
    (ingestByRuns narrow edgeList).length = edgeList.length + (sources edgeList).length := by
  unfold ingestByRuns
  rw [length_flatMap_succ (runOf edgeList) _ (fun u => emitRun_length narrow u _),
    flatMap_runOf, sortedBySrc_length]

theorem ingestByRuns_congr {f g : Nat → Nat} {edgeList : List (Nat × Nat)}
    (h : ∀ e ∈ edgeList, f e.1 = g e.1) : ingestByRuns f edgeList = ingestByRuns g edgeList := by
  unfold ingestByRuns
  apply List.flatMap_congr
  intro u hu
  obtain ⟨e, he, rfl⟩ := mem_sources.1 hu
  unfold emitRun
  rw [h e he]

/-! ## The loop does not depend on the bound on its iterations -/

theorem whileNotConverged_fuel (O : opt_level) (D : Bool) :
    ∀ (fuel fuel' : Nat) (s a b : LoopState),
      whileNotConverged O D fuel s = some a → whileNotConverged O D fuel' s = some b → a = b := by
  intro fuel
  induction fuel with
  | zero =>
    intro fuel' s a b ha hb
    by_cases hc : s.converged = true
    · rw [whileNotConverged_of_converged O D 0 s hc] at ha
      rw [whileNotConverged_of_converged O D fuel' s hc] at hb
      exact (Option.some.inj ha).symm.trans (Option.some.inj hb)
    · simp [whileNotConverged, hc] at ha
  | succ fuel ih =>
    intro fuel' s a b ha hb
    by_cases hc : s.converged = true
    · rw [whileNotConverged_of_converged O D _ s hc] at ha
      rw [whileNotConverged_of_converged O D fuel' s hc] at hb
      exact (Option.some.inj ha).symm.trans (Option.some.inj hb)
    · have hc' : s.converged = false := by simpa using hc
      rw [whileNotConverged_succ O D fuel s hc'] at ha
      cases fuel' with
      | zero => simp [whileNotConverged, hc] at hb
      | succ fuel' =>
        rw [whileNotConverged_succ O D fuel' s hc'] at hb
        exact ih fuel' _ a b ha hb

theorem run_fuel {O : opt_level} {D : Bool} {fuel fuel' : Nat} {tv : List T} {a b : LoopState}
    (ha : runConnectedComponentLabeling O D fuel tv = some a)
    (hb : runConnectedComponentLabeling O D fuel' tv = some b) : a = b :=
  whileNotConverged_fuel O D fuel fuel' _ a b ha hb

/-! ## The parent requests of `updatePc`, bucket by bucket -/

theorem updatePc_emitted_eq (DOUBLING : Bool) (prevMinPn : T) (xs : List T) :
    (forEachBucket (TpleComp cclTupleIds.Pc) (updatePcBucket DOUBLING 0 prevMinPn)
          (sort (TpleComp2Layers cclTupleIds.Pc cclTupleIds.Pn) xs).length true
          (sort (TpleComp2Layers cclTupleIds.Pc cclTupleIds.Pn) xs)).2
      = (partitionIds xs).flatMap (fun p =>
          if minPn xs p < MAX_PID2
          then [if DOUBLING then some ⟨MAX_PID, MAX_PID, minPn xs p⟩ else none]
          else []) := by
  have hperm := sort_perm (TpleComp2Layers cclTupleIds.Pc cclTupleIds.Pn) xs
  rw [(forEachBucket_eq_bind (TpleComp cclTupleIds.Pc) (T.get cclTupleIds.Pc)
    (TpleComp_iff _) _ (updatePcBucket_flags DOUBLING prevMinPn) _ true _ (le_refl _)
    (sortedPcPn_le xs)).2]
  unfold partitionIds
  rw [T_get_Pc_fun]
  apply List.flatMap_congr
  intro p hp
  obtain ⟨t, ht, htp⟩ := List.mem_map.1 (List.mem_dedup.1 hp)
  have hne : (sort (TpleComp2Layers cclTupleIds.Pc cclTupleIds.Pn) xs).filter
      (fun u => decide (u.Pc = p)) ≠ [] := by
    apply List.ne_nil_of_mem (a := t)
    simp [ht, htp]
  rw [updatePcBucket_snd DOUBLING prevMinPn true true _ hne]
  have hmin : minOver (((sort (TpleComp2Layers cclTupleIds.Pc cclTupleIds.Pn) xs).filter
      (fun u => decide (u.Pc = p))).map T.Pn) = minPn xs p := by
    rw [← minPn_perm hperm p]
    rfl
  rw [hmin]

/-- With doubling on, `updatePc` leaves one parent request for every partition id of the
range whose bucket migrates, in ascending order of the partition ids. -/
theorem updatePc_requests_eq (prevMinPn : T) (xs : List T) :
    (updatePc true 0 prevMinPn xs).parentRequestTupleVector
      = ((partitionIds xs).filter (fun p => decide (minPn xs p < MAX_PID2))).map
          (fun p => ⟨MAX_PID, MAX_PID, minPn xs p⟩) := by
  unfold updatePc
  simp only []
  rw [updatePc_emitted_eq]
  generalize partitionIds xs = l
  induction l with
  | nil => rfl
  | cons p l ih =>
    rw [List.flatMap_cons, List.filterMap_append, ih]
    by_cases h : minPn xs p < MAX_PID2
    · simp [h]
    · simp [h]

theorem updatePc_requests_off (prevMinPn : T) (xs : List T) :
    (updatePc false 0 prevMinPn xs).parentRequestTupleVector = [] := by
  apply List.eq_nil_iff_forall_not_mem.2
  intro r hr
  have := ((mem_updatePc_requests false prevMinPn xs r).1 hr).1
  exact absurd this (by decide)

end conn.coloring

namespace conn.coloring

/-! ## The partition ids stay in range -/

theorem avoidsSentinels_of_boundedIds {edgeList : List (Nat × Nat)}
    (hbd : boundedIds edgeList) : avoidsSentinels edgeList := by
  intro e he
  obtain ⟨h1, h2⟩ := hbd e he
  refine ⟨⟨?_, ?_⟩, ⟨?_, ?_⟩⟩
  · rw [toPid_of_lt h1]; exact h1
  · exact ne_of_lt (lt_trans h1 MAX_PID2_lt_MAX_NID)
  · rw [toPid_of_lt h2]; exact h2
  · exact ne_of_lt (lt_trans h2 MAX_PID2_lt_MAX_NID)

/-- At every iteration boundary from an array without sentinels, no tuple carries one. -/
theorem noSentinel_iterate (O : opt_level) (D : Bool) {tv : List T} (hb : NoSentinel tv)
    (k : Nat) : NoSentinel ((iteration O D)^[k] (initialState tv)).tupleVector := by
  have := (SepInv_iterate O D _ (sepInv_initial hb) k).noSentinel
  rw [stable_append_active] at this
  exact this

/-! ## The labels of a converged array and the members of their partitions -/

/-- In an array that holds the node ids of the ingest and labels every node with the least
vertex id of its component, the label of a partition is the least node id of its members. -/
theorem label_least_member {edgeList : List (Nat × Nat)} {tv : List T}
    (hmin : ∀ t ∈ tv, IsCompMin edgeList t.nId t.Pc)
    (hperm : (tv.map T.nId).Perm ((convertEdgeListforCCL edgeList).map T.nId))
    {t : T} (ht : t ∈ tv) :
    (∃ u ∈ tv, u.Pc = t.Pc ∧ u.nId = t.Pc) ∧ ∀ u ∈ tv, u.Pc = t.Pc → t.Pc ≤ u.nId := by
  constructor
  · have hv : IsVertex edgeList t.nId := (isVertex_iff_mem_nId hperm _).2 ⟨t, ht, rfl⟩
    have hp : IsVertex edgeList t.Pc := isVertex_of_connected hv (hmin t ht).1
    obtain ⟨u, hu, hun⟩ := (isVertex_iff_mem_nId hperm _).1 hp
    refine ⟨u, hu, ?_, hun⟩
    have hc : Connected edgeList t.nId u.nId := by rw [hun]; exact (hmin t ht).1
    exact (IsCompMin_unique (hmin t ht) (hmin u hu) hc).symm
  · intro u hu hup
    have := (hmin u hu).2 u.nId Relation.ReflTransGen.refl
    rw [hup] at this
    exact this

/-! ## The order in which `updatePn` leaves the range -/

theorem updatePn_sorted (a b : T) (xs : List T) :
    (updatePn 0 1 a b xs).Sorted
      (fun x y => ¬ TpleComp2Layers cclTupleIds.nId cclTupleIds.Pc y x) := by
  rw [updatePn_eq]
  have h := sort_sorted2 cclTupleIds.nId cclTupleIds.Pc xs
  unfold List.Sorted at h ⊢
  rw [List.pairwise_map]
  refine List.Pairwise.imp ?_ h
  intro x y hxy
  unfold TpleComp2Layers at hxy ⊢
  simp only [get_nId, get_Pc, setPn_nId, setPn_Pc] at hxy ⊢
  exact hxy

theorem updatePn_map_Pc_nId (a b : T) (xs : List T) :
    (updatePn 0 1 a b xs).map (fun t => (t.Pc, t.nId))
      = (sort (TpleComp2Layers cclTupleIds.nId cclTupleIds.Pc) xs).map
          (fun t => (t.Pc, t.nId)) := by
  rw [updatePn_eq, List.map_map]
  apply List.map_congr_left
  intro t _
  simp

end conn.coloring

namespace conn.coloring

/-! ## The reducers of the boundary carries -/

theorem TpleReduce_choice (layer : cclTupleIds) (op : Nat → Nat → Bool) (a b : T) :
    TpleReduce layer op a b = a ∨ TpleReduce layer op a b = b := by
  unfold TpleReduce
  split
  · exact Or.inl rfl
  · exact Or.inr rfl

theorem TpleReduce2Layers_choice (l1 l2 : cclTupleIds) (op1 op2 : Nat → Nat → Bool) (a b : T) :
    TpleReduce2Layers l1 l2 op1 op2 a b = a ∨ TpleReduce2Layers l1 l2 op1 op2 a b = b := by
  unfold TpleReduce2Layers
  split
  · exact Or.inl rfl
  · split
    · exact Or.inr rfl
    · split
      · exact Or.inl rfl
      · exact Or.inr rfl

/-- A fold of a reducer that returns one of its arguments, the one that dominates the other,
returns an element of the range that dominates every element. -/
theorem foldl_best {r : T → T → Prop} (hrefl : ∀ a, r a a)
    (htrans : ∀ a b c, r a b → r b c → r a c) {f : T → T → T}
    (hf : ∀ a b, (f a b = a ∨ f a b = b) ∧ r a (f a b) ∧ r b (f a b)) :
    ∀ (xs : List T) (a : T), xs.foldl f a ∈ a :: xs ∧ ∀ x ∈ a :: xs, r x (xs.foldl f a) := by
  intro xs
  induction xs with
  | nil =>
    intro a
    refine ⟨List.mem_cons_self _ _, ?_⟩
    intro x hx
    rcases List.mem_cons.1 hx with h | h
    · subst h; exact hrefl _
    · simp at h
  | cons y ys ih =>
    intro a
    obtain ⟨hmem, hdom⟩ := ih (f a y)
    obtain ⟨hch, hda, hdy⟩ := hf a y
    rw [List.foldl_cons]
    constructor
    · rcases List.mem_cons.1 hmem with h | h
      · rcases hch with h2 | h2
        · rw [h, h2]; exact List.mem_cons_self _ _
        · rw [h, h2]; exact List.mem_cons_of_mem _ (List.mem_cons_self _ _)
      · exact List.mem_cons_of_mem _ (List.mem_cons_of_mem _ h)
    · intro x hx
      have hc := hdom (f a y) (List.mem_cons_self _ _)
      rcases List.mem_cons.1 hx with h | h
      · subst h; exact htrans _ _ _ hda hc
      · rcases List.mem_cons.1 h with h | h
        · subst h; exact htrans _ _ _ hdy hc
        · exact hdom x (List.mem_cons_of_mem _ h)

theorem local_reduce_best {r : T → T → Prop} (hrefl : ∀ a, r a a)
    (htrans : ∀ a b c, r a b → r b c → r a c) {f : T → T → T}
    (hf : ∀ a b, (f a b = a ∨ f a b = b) ∧ r a (f a b) ∧ r b (f a b))
    (d : T) {xs : List T} (h : xs ≠ []) :
    local_reduce f d xs ∈ xs ∧ ∀ x ∈ xs, r x (local_reduce f d xs) := by
  cases xs with
  | nil => exact absurd rfl h
  | cons x xs => exact foldl_best hrefl htrans hf xs x

theorem local_reduce_mem {f : T → T → T} (hf : ∀ a b, f a b = a ∨ f a b = b)
    (d : T) {xs : List T} (h : xs ≠ []) : local_reduce f d xs ∈ xs :=
  (local_reduce_best (r := fun _ _ => True) (fun _ => trivial) (fun _ _ _ _ _ => trivial)
    (fun a b => ⟨hf a b, trivial, trivial⟩) d h).1

/-- The order in which the left carry is the greatest element: larger node id, then smaller
`Pc`. -/
theorem reduceLeft_spec (a b : T) :
    (TpleReduce2Layers cclTupleIds.nId cclTupleIds.Pc greater less a b = a ∨
      TpleReduce2Layers cclTupleIds.nId cclTupleIds.Pc greater less a b = b) ∧
    (a.nId < (TpleReduce2Layers cclTupleIds.nId cclTupleIds.Pc greater less a b).nId ∨
      (a.nId = (TpleReduce2Layers cclTupleIds.nId cclTupleIds.Pc greater less a b).nId ∧
        (TpleReduce2Layers cclTupleIds.nId cclTupleIds.Pc greater less a b).Pc ≤ a.Pc)) ∧
    (b.nId < (TpleReduce2Layers cclTupleIds.nId cclTupleIds.Pc greater less a b).nId ∨
      (b.nId = (TpleReduce2Layers cclTupleIds.nId cclTupleIds.Pc greater less a b).nId ∧
        (TpleReduce2Layers cclTupleIds.nId cclTupleIds.Pc greater less a b).Pc ≤ b.Pc)) := by
  by_cases h1 : b.nId < a.nId
  · have hr : TpleReduce2Layers cclTupleIds.nId cclTupleIds.Pc greater less a b = a := by
      simp [TpleReduce2Layers, greater, less, T.get, h1]
    rw [hr]
    exact ⟨Or.inl rfl, by omega, by omega⟩
  · by_cases h2 : a.nId < b.nId
    · have hr : TpleReduce2Layers cclTupleIds.nId cclTupleIds.Pc greater less a b = b := by
        simp [TpleReduce2Layers, greater, less, T.get, h1, h2]
      rw [hr]
      exact ⟨Or.inr rfl, by omega, by omega⟩
    · by_cases h3 : a.Pc < b.Pc
      · have hr : TpleReduce2Layers cclTupleIds.nId cclTupleIds.Pc greater less a b = a := by
          simp [TpleReduce2Layers, greater, less, T.get, h1, h2, h3]
        rw [hr]
        exact ⟨Or.inl rfl, by omega, by omega⟩
      · have hr : TpleReduce2Layers cclTupleIds.nId cclTupleIds.Pc greater less a b = b := by
          simp [TpleReduce2Layers, greater, less, T.get, h1, h2, h3]
        rw [hr]
        exact ⟨Or.inr rfl, by omega, by omega⟩

/-- The order in which the right carry is the greatest element: smaller node id, then larger
`Pc`. -/
theorem reduceRight_spec (a b : T) :
    (TpleReduce2Layers cclTupleIds.nId cclTupleIds.Pc less greater a b = a ∨
      TpleReduce2Layers cclTupleIds.nId cclTupleIds.Pc less greater a b = b) ∧
    ((TpleReduce2Layers cclTupleIds.nId cclTupleIds.Pc less greater a b).nId < a.nId ∨
      (a.nId = (TpleReduce2Layers cclTupleIds.nId cclTupleIds.Pc less greater a b).nId ∧
        a.Pc ≤ (TpleReduce2Layers cclTupleIds.nId cclTupleIds.Pc less greater a b).Pc)) ∧
    ((TpleReduce2Layers cclTupleIds.nId cclTupleIds.Pc less greater a b).nId < b.nId ∨
      (b.nId = (TpleReduce2Layers cclTupleIds.nId cclTupleIds.Pc less greater a b).nId ∧
        b.Pc ≤ (TpleReduce2Layers cclTupleIds.nId cclTupleIds.Pc less greater a b).Pc)) := by
  by_cases h1 : a.nId < b.nId
  · have hr : TpleReduce2Layers cclTupleIds.nId cclTupleIds.Pc less greater a b = a := by
      simp [TpleReduce2Layers, greater, less, T.get, h1]
    rw [hr]
    exact ⟨Or.inl rfl, by omega, by omega⟩
  · by_cases h2 : b.nId < a.nId
    · have hr : TpleReduce2Layers cclTupleIds.nId cclTupleIds.Pc less greater a b = b := by
        simp [TpleReduce2Layers, greater, less, T.get, h1, h2]
      rw [hr]
      exact ⟨Or.inr rfl, by omega, by omega⟩
    · by_cases h3 : b.Pc < a.Pc
      · have hr : TpleReduce2Layers cclTupleIds.nId cclTupleIds.Pc less greater a b = a := by
          simp [TpleReduce2Layers, greater, less, T.get, h1, h2, h3]
        rw [hr]
        exact ⟨Or.inl rfl, by omega, by omega⟩
      · have hr : TpleReduce2Layers cclTupleIds.nId cclTupleIds.Pc less greater a b = b := by
          simp [TpleReduce2Layers, greater, less, T.get, h1, h2, h3]
        rw [hr]
        exact ⟨Or.inr rfl, by omega, by omega⟩

theorem minPcOfLastBucket_spec {block : List T} (h : block ≠ []) :
    IsMaxNodeMinPc (minPcOfLastBucket block) block :=
  local_reduce_best
    (r := fun x p => x.nId < p.nId ∨ (x.nId = p.nId ∧ p.Pc ≤ x.Pc))
    (fun a => Or.inr ⟨rfl, le_refl _⟩)
    (fun a b c hab hbc => by omega)
    reduceLeft_spec default h

theorem maxPcOfFirstBucket_spec {block : List T} (h : block ≠ []) :
    IsMinNodeMaxPc (maxPcOfFirstBucket block) block :=
  local_reduce_best
    (r := fun x q => q.nId < x.nId ∨ (x.nId = q.nId ∧ x.Pc ≤ q.Pc))
    (fun a => Or.inr ⟨rfl, le_refl _⟩)
    (fun a b c hab hbc => by omega)
    reduceRight_spec default h

/-- A reduction over one value for each block, each value the greatest element of its block,
is the greatest element of the blocks together. -/
theorem reduce_blocks_best {r : T → T → Prop} (hrefl : ∀ a, r a a)
    (htrans : ∀ a b c, r a b → r b c → r a c) {f : T → T → T}
    (hf : ∀ a b, (f a b = a ∨ f a b = b) ∧ r a (f a b) ∧ r b (f a b))
    (d : T) (pick : List T → T) {bs : List (List T)} {vals : List T}
    (hpick : ∀ b ∈ bs, pick b ∈ b ∧ ∀ x ∈ b, r x (pick b))
    (hvals : ∀ v, v ∈ vals ↔ ∃ b ∈ bs, v = pick b) (hne : bs ≠ []) :
    local_reduce f d vals ∈ bs.flatten ∧ ∀ x ∈ bs.flatten, r x (local_reduce f d vals) := by
  have hvne : vals ≠ [] := by
    cases bs with
    | nil => exact absurd rfl hne
    | cons b bs =>
      intro h
      have : pick b ∈ vals := (hvals _).2 ⟨b, List.mem_cons_self _ _, rfl⟩
      rw [h] at this
      simp at this
  obtain ⟨hmem, hdom⟩ := local_reduce_best hrefl htrans hf d hvne
  constructor
  · obtain ⟨b, hb, hv⟩ := (hvals _).1 hmem
    rw [hv]
    exact List.mem_flatten.2 ⟨b, hb, (hpick b hb).1⟩
  · intro x hx
    obtain ⟨b, hb, hxb⟩ := List.mem_flatten.1 hx
    exact htrans _ _ _ ((hpick b hb).2 x hxb) (hdom _ ((hvals _).2 ⟨b, hb, rfl⟩))

/-- The left carry of a rank other than rank `0`: the tuple with the largest node id and the
smallest `Pc` among the tuples of the previous ranks. -/
theorem prevMinPcOf_spec {blocks : List (List T)} (hne : ∀ b ∈ blocks, b ≠ []) {i : Nat}
    (hi : 0 < i) (hlen : 0 < blocks.length) :
    IsMaxNodeMinPc (prevMinPcOf blocks i) (blocks.take i).flatten := by
  unfold prevMinPcOf exscan
  have hsub : ∀ b ∈ blocks.take i, b ∈ blocks := fun b hb => List.mem_of_mem_take hb
  refine reduce_blocks_best
    (r := fun x p => x.nId < p.nId ∨ (x.nId = p.nId ∧ p.Pc ≤ x.Pc))
    (fun a => Or.inr ⟨rfl, le_refl _⟩) (fun a b c hab hbc => by omega)
    reduceLeft_spec default minPcOfLastBucket
    (fun b hb => minPcOfLastBucket_spec (hne b (hsub b hb))) ?_ ?_
  · intro v
    rw [← List.map_take, List.mem_map]
    constructor
    · rintro ⟨b, hb, rfl⟩; exact ⟨b, hb, rfl⟩
    · rintro ⟨b, hb, rfl⟩; exact ⟨b, hb, rfl⟩
  · intro h
    have := congrArg List.length h
    simp only [List.length_take, List.length_nil] at this
    omega

/-- The right carry of a rank other than the last: the tuple with the smallest node id and
the largest `Pc` among the tuples of the following ranks. -/
theorem nextMaxPcOf_spec {blocks : List (List T)} (hne : ∀ b ∈ blocks, b ≠ []) {i : Nat}
    (hi : i + 1 < blocks.length) :
    IsMinNodeMaxPc (nextMaxPcOf blocks i) (blocks.drop (i + 1)).flatten := by
  unfold nextMaxPcOf exscanReverse
  have hsub : ∀ b ∈ blocks.drop (i + 1), b ∈ blocks := fun b hb => List.mem_of_mem_drop hb
  refine reduce_blocks_best
    (r := fun x q => q.nId < x.nId ∨ (x.nId = q.nId ∧ x.Pc ≤ q.Pc))
    (fun a => Or.inr ⟨rfl, le_refl _⟩) (fun a b c hab hbc => by omega)
    reduceRight_spec default maxPcOfFirstBucket
    (fun b hb => maxPcOfFirstBucket_spec (hne b (hsub b hb))) ?_ ?_
  · intro v
    rw [List.mem_reverse, ← List.map_drop, List.mem_map]
    constructor
    · rintro ⟨b, hb, rfl⟩; exact ⟨b, hb, rfl⟩
    · rintro ⟨b, hb, rfl⟩; exact ⟨b, hb, rfl⟩
  · intro h
    have := congrArg List.length h
    simp only [List.length_drop, List.length_nil] at this
    omega

end conn.coloring

namespace conn.coloring

/-! ## The bucket walk with its boundary flags -/

section walkFlags

variable {α γ β : Type} (comp : α → α → Prop) [DecidableRel comp] (k : α → Nat)

/-- What the walk leaves when the body looks at the boundary flags: a bucket is handed over
as starting at `begin` when the walk started there and its key is the least of the range, and
as ending at `end` when its key is the greatest of the range. -/
theorem forEachBucket_fst_flags (hcomp : ∀ a b, comp a b ↔ k a < k b)
    (body : Bool → Bool → List α → List γ × List β) (g : Bool → Bool → List α → α → γ)
    (hbody : ∀ b1 b2 bucket, (body b1 b2 bucket).1 = bucket.map (g b1 b2 bucket)) :
    ∀ (n : Nat) (b : Bool) (xs : List α), xs.length ≤ n →
      xs.Pairwise (fun a b => k a ≤ k b) →
      (forEachBucket comp body n b xs).1
        = xs.map (fun t =>
            g (b && decide (∀ u ∈ xs, k t ≤ k u)) (decide (∀ u ∈ xs, k u ≤ k t))
              (xs.filter (fun u => decide (k u = k t))) t) := by
  intro n
  induction n with
  | zero =>
    intro b xs hlen _
    have : xs = [] := List.length_eq_zero.1 (Nat.le_zero.1 hlen)
    subst this; rfl
  | succ n ih =>
    intro b xs hlen hp
    cases xs with
    | nil => rfl
    | cons x xs =>
      simp only [forEachBucket]
      rw [findRange_eq comp k hcomp]
      simp only []
      have hs := bucket_split k x xs hp
      simp only [] at hs
      obtain ⟨hrun, hrest⟩ := hs
      have hsplit : (x :: xs).takeWhile (fun y => decide (k y = k x))
          ++ (x :: xs).dropWhile (fun y => decide (k y = k x)) = x :: xs :=
        List.takeWhile_append_dropWhile _ _
      have hlen2 : ((x :: xs).dropWhile (fun y => decide (k y = k x))).length ≤ n := by
        have h1 : (x :: xs).dropWhile (fun y => decide (k y = k x))
            = xs.dropWhile (fun y => decide (k y = k x)) :=
          List.dropWhile_cons_of_pos (by simp)
        rw [h1]
        have := dropWhile_length_le (fun y => decide (k y = k x)) xs
        simp only [List.length_cons] at hlen
        omega
      have hrunk : ∀ y ∈ (x :: xs).takeWhile (fun y => decide (k y = k x)), k y = k x :=
        eq_of_mem_takeWhile k (k x) (x :: xs)
      have hge : ∀ y ∈ x :: xs, k x ≤ k y := by
        intro y hy
        rcases List.mem_cons.1 hy with h | h
        · subst h; exact le_refl _
        · exact (List.pairwise_cons.1 hp).1 y h
      have hrestk : ∀ y ∈ (x :: xs).dropWhile (fun y => decide (k y = k x)), k x < k y :=
        lt_of_mem_dropWhile k (k x) (x :: xs) hp hge
      have hmem : ∀ u, u ∈ x :: xs ↔
          u ∈ (x :: xs).takeWhile (fun y => decide (k y = k x)) ∨
          u ∈ (x :: xs).dropWhile (fun y => decide (k y = k x)) := by
        intro u
        rw [← List.mem_append, hsplit]
      rw [ih false _ hlen2 (pairwise_dropWhile _ hp), hbody]
      conv_rhs => rw [← hsplit, List.map_append]
      congr 1
      · apply List.map_congr_left
        intro t ht
        rw [hsplit, hrun t ht]
        have e1 : (b && decide (∀ u ∈ x :: xs, k t ≤ k u)) = b := by
          have : ∀ u ∈ x :: xs, k t ≤ k u := by
            intro u hu
            rw [hrunk t ht]; exact hge u hu
          rw [decide_eq_true this, Bool.and_true]
        have e2 : decide (∀ u ∈ x :: xs, k u ≤ k t)
            = ((x :: xs).dropWhile (fun y => decide (k y = k x))).isEmpty := by
          cases hd : (x :: xs).dropWhile (fun y => decide (k y = k x)) with
          | nil =>
            have : ∀ u ∈ x :: xs, k u ≤ k t := by
              intro u hu
              rcases (hmem u).1 hu with h | h
              · rw [hrunk u h, hrunk t ht]
              · rw [hd] at h; simp at h
            rw [decide_eq_true this]; rfl
          | cons z zs =>
            have hz : z ∈ (x :: xs).dropWhile (fun y => decide (k y = k x)) := by
              rw [hd]; exact List.mem_cons_self _ _
            have hzx := hrestk z hz
            have : ¬ ∀ u ∈ x :: xs, k u ≤ k t := by
              intro h
              have := h z ((hmem z).2 (Or.inr hz))
              rw [hrunk t ht] at this
              omega
            simp only [List.isEmpty_cons]
            exact decide_eq_false this
        rw [e1, e2]
      · apply List.map_congr_left
        intro t ht
        rw [hsplit, hrest t ht]
        have e1 : (b && decide (∀ u ∈ x :: xs, k t ≤ k u)) = false := by
          have : ¬ ∀ u ∈ x :: xs, k t ≤ k u := by
            intro h
            have := h x (List.mem_cons_self _ _)
            have := hrestk t ht
            omega
          rw [decide_eq_false this, Bool.and_false]
        have e2 : decide (∀ u ∈ x :: xs, k u ≤ k t)
            = decide (∀ u ∈ (x :: xs).dropWhile (fun y => decide (k y = k x)),
                k u ≤ k t) := by
          apply decide_eq_decide.2
          constructor
          · intro h u hu
            exact h u ((hmem u).2 (Or.inr hu))
          · intro h u hu
            rcases (hmem u).1 hu with h1 | h1
            · rw [hrunk u h1]; exact Nat.le_of_lt (hrestk t ht)
            · exact h u h1
        rw [e1, e2, Bool.false_and]

end walkFlags

/-! ## The walk of `updatePn` on one rank of several -/

theorem maxOver_eq_of {l : List Nat} {m : Nat} (hm : m ∈ l) (hle : ∀ y ∈ l, y ≤ m) :
    maxOver l = m :=
  le_antisymm (hle _ (maxOver_mem (List.ne_nil_of_mem hm))) (le_maxOver hm)

theorem ite_pair_fst (c : Prop) [Decidable c] (f g : T → T) (l : List T) :
    (if c then (l.map f, ([] : List Unit)) else (l.map g, [])).1
      = l.map (fun e => if c then f e else g e) := by
  by_cases h : c
  · simp only [if_pos h]
  · simp only [if_neg h]

theorem updatePnBucket_fst_flags (rank size : Nat) (p q : T) (b1 b2 : Bool) (bucket : List T) :
    (updatePnBucket rank size p q b1 b2 bucket).1
      = bucket.map (fun e =>
          if (if b1 then
                (if rank = 0 then local_reduce (TpleReduce cclTupleIds.Pc less) default bucket
                 else TpleReduce2Layers cclTupleIds.nId cclTupleIds.Pc greater less p
                   (local_reduce (TpleReduce cclTupleIds.Pc less) default bucket))
              else local_reduce (TpleReduce cclTupleIds.Pc less) default bucket).Pc
            < (if b2 then
                (if rank = size - 1 then
                  local_reduce (TpleReduce cclTupleIds.Pc greater) default bucket
                 else TpleReduce2Layers cclTupleIds.nId cclTupleIds.Pc less greater q
                   (local_reduce (TpleReduce cclTupleIds.Pc greater) default bucket))
              else local_reduce (TpleReduce cclTupleIds.Pc greater) default bucket).Pc
          then { e with Pn :=
            (if b1 then
                (if rank = 0 then local_reduce (TpleReduce cclTupleIds.Pc less) default bucket
                 else TpleReduce2Layers cclTupleIds.nId cclTupleIds.Pc greater less p
                   (local_reduce (TpleReduce cclTupleIds.Pc less) default bucket))
              else local_reduce (TpleReduce cclTupleIds.Pc less) default bucket).Pc }
          else { e with Pn := MAX_PID2 }) := by
  unfold updatePnBucket
  simp only [TpleComp_iff, get_Pc]
  exact ite_pair_fst _ _ _ _

/-- The order of a range sorted by `(nId, Pc)`, between two of its tuples. -/
theorem sorted_nId_Pc_le {a b : T}
    (h : ¬ TpleComp2Layers cclTupleIds.nId cclTupleIds.Pc b a) :
    a.nId ≤ b.nId ∧ (a.nId = b.nId → a.Pc ≤ b.Pc) := by
  unfold TpleComp2Layers at h
  simp only [T.get] at h
  constructor
  · omega
  · intro he
    by_contra hlt
    exact h (Or.inr ⟨he.symm, by omega⟩)

/-- On a rank that holds the block `B` of a range sorted by `(nId, Pc)`, between the tuples
`P` of the previous ranks and the tuples `N` of the following ranks, the walk of `updatePn`
with the carries of the source writes what the walk over the whole range writes. -/
theorem updatePnWalk_local {P B N : List T}
    (hs : (P ++ B ++ N).Sorted
      (fun a b => ¬ TpleComp2Layers cclTupleIds.nId cclTupleIds.Pc b a))
    {rank size : Nat} {p q : T}
    (hp : if rank = 0 then P = [] else IsMaxNodeMinPc p P)
    (hq : if rank = size - 1 then N = [] else IsMinNodeMaxPc q N) :
    updatePnWalk rank size p q B = B.map (setPn (P ++ B ++ N)) := by
  have hpw : (P ++ B ++ N).Pairwise
      (fun a b => ¬ TpleComp2Layers cclTupleIds.nId cclTupleIds.Pc b a) := hs
  rw [List.pairwise_append] at hpw
  obtain ⟨hPBp, _, hPBN⟩ := hpw
  rw [List.pairwise_append] at hPBp
  obtain ⟨_, hBp, hPB0⟩ := hPBp
  have hPB : ∀ x ∈ P, ∀ y ∈ B, x.nId ≤ y.nId ∧ (x.nId = y.nId → x.Pc ≤ y.Pc) :=
    fun x hx y hy => sorted_nId_Pc_le (hPB0 x hx y hy)
  have hBN : ∀ y ∈ B, ∀ z ∈ N, y.nId ≤ z.nId ∧ (y.nId = z.nId → y.Pc ≤ z.Pc) :=
    fun y hy z hz => sorted_nId_Pc_le (hPBN y (List.mem_append_right _ hy) z hz)
  have hBle : B.Pairwise (fun a b => a.get cclTupleIds.nId ≤ b.get cclTupleIds.nId) :=
    sorted2_imp_le cclTupleIds.nId cclTupleIds.Pc hBp
  unfold updatePnWalk
  rw [forEachBucket_fst_flags (TpleComp cclTupleIds.nId) (T.get cclTupleIds.nId)
    (TpleComp_iff _) _ _ (updatePnBucket_fst_flags rank size p q) _ true _ (le_refl _) hBle]
  apply List.map_congr_left
  intro t ht
  simp only [Bool.true_and, T.get]
  -- the local bucket and its two local extremes
  have hBv : B.filter (fun u => decide (u.nId = t.nId)) ≠ [] := by
    intro h
    have : t ∈ B.filter (fun u => decide (u.nId = t.nId)) := by
      rw [List.mem_filter]; exact ⟨ht, by simp⟩
    rw [h] at this
    simp at this
  have hlm_mem := local_reduce_mem (TpleReduce_choice cclTupleIds.Pc less) default hBv
  have hlM_mem := local_reduce_mem (TpleReduce_choice cclTupleIds.Pc greater) default hBv
  have hlm_get := local_reduce_less_get cclTupleIds.Pc default _ hBv
  have hlM_get := local_reduce_greater_get cclTupleIds.Pc default _ hBv
  simp only [get_Pc, T_get_Pc_fun] at hlm_get hlM_get
  generalize local_reduce (TpleReduce cclTupleIds.Pc less) default
    (B.filter (fun u => decide (u.nId = t.nId))) = lm at *
  generalize local_reduce (TpleReduce cclTupleIds.Pc greater) default
    (B.filter (fun u => decide (u.nId = t.nId))) = lM at *
  rw [List.mem_filter] at hlm_mem hlM_mem
  have hlmB : lm ∈ B := hlm_mem.1
  have hlMB : lM ∈ B := hlM_mem.1
  have hlmv : lm.nId = t.nId := by simpa using hlm_mem.2
  have hlMv : lM.nId = t.nId := by simpa using hlM_mem.2
  have hlm_le : ∀ y ∈ B, y.nId = t.nId → lm.Pc ≤ y.Pc := by
    intro y hy hv
    rw [hlm_get]
    apply minOver_le
    exact List.mem_map.2 ⟨y, List.mem_filter.2 ⟨hy, by simpa using hv⟩, rfl⟩
  have hlM_le : ∀ y ∈ B, y.nId = t.nId → y.Pc ≤ lM.Pc := by
    intro y hy hv
    rw [hlM_get]
    apply le_maxOver
    exact List.mem_map.2 ⟨y, List.mem_filter.2 ⟨hy, by simpa using hv⟩, rfl⟩
  -- the global minimum
  have hmin : ∀ m : T,
      m = (if decide (∀ u ∈ B, t.nId ≤ u.nId) = true then
            (if rank = 0 then lm
             else TpleReduce2Layers cclTupleIds.nId cclTupleIds.Pc greater less p lm)
           else lm) →
      m ∈ P ++ B ++ N ∧ m.nId = t.nId ∧ ∀ y ∈ P ++ B ++ N, y.nId = t.nId → m.Pc ≤ y.Pc := by
    intro m hm
    have hlocal : (∀ y ∈ P, y.nId ≠ t.nId) →
        lm ∈ P ++ B ++ N ∧ lm.nId = t.nId ∧
          ∀ y ∈ P ++ B ++ N, y.nId = t.nId → lm.Pc ≤ y.Pc := by
      intro hno
      refine ⟨List.mem_append_left _ (List.mem_append_right _ hlmB), hlmv, ?_⟩
      intro y hy hv
      rcases List.mem_append.1 hy with h | h
      · rcases List.mem_append.1 h with h | h
        · exact absurd hv (hno y h)
        · exact hlm_le y h hv
      · exact (hBN lm hlmB y h).2 (by omega)
    by_cases hfb : ∀ u ∈ B, t.nId ≤ u.nId
    · by_cases hr : rank = 0
      · rw [decide_eq_true hfb, if_pos rfl, if_pos hr] at hm
        rw [if_pos hr] at hp
        subst hm
        apply hlocal
        intro y hy
        rw [hp] at hy
        simp at hy
      · rw [decide_eq_true hfb, if_pos rfl, if_neg hr] at hm
        rw [if_neg hr] at hp
        obtain ⟨hpP, hpbest⟩ := hp
        obtain ⟨hch, hdp, hdl⟩ := reduceLeft_spec p lm
        rw [← hm] at hch hdp hdl
        have hple := hPB p hpP lm hlmB
        rcases hch with h | h
        · -- the carry is kept
          rw [h] at hdl
          have hpv : p.nId = t.nId := by omega
          have hpl : p.Pc ≤ lm.Pc := by omega
          rw [h]
          refine ⟨List.mem_append_left _ (List.mem_append_left _ hpP), hpv, ?_⟩
          intro y hy hv
          rcases List.mem_append.1 hy with h1 | h1
          · rcases List.mem_append.1 h1 with h1 | h1
            · have := hpbest y h1
              omega
            · have := hlm_le y h1 hv
              omega
          · have := (hBN lm hlmB y h1).2 (by omega)
            omega
        · -- the local minimum is kept
          rw [h] at hdp
          rw [h]
          refine ⟨List.mem_append_left _ (List.mem_append_right _ hlmB), hlmv, ?_⟩
          intro y hy hv
          rcases List.mem_append.1 hy with h1 | h1
          · rcases List.mem_append.1 h1 with h1 | h1
            · have := hpbest y h1
              omega
            · exact hlm_le y h1 hv
          · exact (hBN lm hlmB y h1).2 (by omega)
    · rw [decide_eq_false hfb, if_neg (by simp)] at hm
      subst hm
      apply hlocal
      intro y hy hv
      apply hfb
      intro u hu
      have h1 := (hPB y hy u hu).1
      omega
  -- the global maximum
  have hmax : ∀ m : T,
      m = (if decide (∀ u ∈ B, u.nId ≤ t.nId) = true then
            (if rank = size - 1 then lM
             else TpleReduce2Layers cclTupleIds.nId cclTupleIds.Pc less greater q lM)
           else lM) →
      m ∈ P ++ B ++ N ∧ m.nId = t.nId ∧ ∀ y ∈ P ++ B ++ N, y.nId = t.nId → y.Pc ≤ m.Pc := by
    intro m hm
    have hlocal : (∀ y ∈ N, y.nId ≠ t.nId) →
        lM ∈ P ++ B ++ N ∧ lM.nId = t.nId ∧
          ∀ y ∈ P ++ B ++ N, y.nId = t.nId → y.Pc ≤ lM.Pc := by
      intro hno
      refine ⟨List.mem_append_left _ (List.mem_append_right _ hlMB), hlMv, ?_⟩
      intro y hy hv
      rcases List.mem_append.1 hy with h | h
      · rcases List.mem_append.1 h with h | h
        · exact (hPB y h lM hlMB).2 (by omega)
        · exact hlM_le y h hv
      · exact absurd hv (hno y h)
    by_cases hfe : ∀ u ∈ B, u.nId ≤ t.nId
    · by_cases hr : rank = size - 1
      · rw [decide_eq_true hfe, if_pos rfl, if_pos hr] at hm
        rw [if_pos hr] at hq
        subst hm
        apply hlocal
        intro y hy
        rw [hq] at hy
        simp at hy
      · rw [decide_eq_true hfe, if_pos rfl, if_neg hr] at hm
        rw [if_neg hr] at hq
        obtain ⟨hqN, hqbest⟩ := hq
        obtain ⟨hch, hdq, hdl⟩ := reduceRight_spec q lM
        rw [← hm] at hch hdq hdl
        have hqle := hBN lM hlMB q hqN
        rcases hch with h | h
        · rw [h] at hdl
          have hqv : q.nId = t.nId := by omega
          have hql : lM.Pc ≤ q.Pc := by omega
          rw [h]
          refine ⟨List.mem_append_right _ hqN, hqv, ?_⟩
          intro y hy hv
          rcases List.mem_append.1 hy with h1 | h1
          · rcases List.mem_append.1 h1 with h1 | h1
            · have := (hPB y h1 lM hlMB).2 (by omega)
              omega
            · have := hlM_le y h1 hv
              omega
          · have := hqbest y h1
            omega
        · rw [h] at hdq
          rw [h]
          refine ⟨List.mem_append_left _ (List.mem_append_right _ hlMB), hlMv, ?_⟩
          intro y hy hv
          rcases List.mem_append.1 hy with h1 | h1
          · rcases List.mem_append.1 h1 with h1 | h1
            · exact (hPB y h1 lM hlMB).2 (by omega)
            · exact hlM_le y h1 hv
          · have := hqbest y h1
            omega
    · rw [decide_eq_false hfe, if_neg (by simp)] at hm
      subst hm
      apply hlocal
      intro y hy hv
      apply hfe
      intro u hu
      have h1 := (hBN u hu y hy).1
      omega
  obtain ⟨hm1, hm2, hm3⟩ := hmin _ rfl
  obtain ⟨hM1, hM2, hM3⟩ := hmax _ rfl
  have e1 : minPc (P ++ B ++ N) t.nId = _ :=
    minOver_eq_of
      (List.mem_map.2 ⟨_, mem_bucketOf.2 ⟨hm1, hm2⟩, rfl⟩)
      (by
        intro y hy
        obtain ⟨u, hu, rfl⟩ := List.mem_map.1 hy
        obtain ⟨hu1, hu2⟩ := mem_bucketOf.1 hu
        exact hm3 u hu1 hu2)
  have e2 : maxPc (P ++ B ++ N) t.nId = _ :=
    maxOver_eq_of
      (List.mem_map.2 ⟨_, mem_bucketOf.2 ⟨hM1, hM2⟩, rfl⟩)
      (by
        intro y hy
        obtain ⟨u, hu, rfl⟩ := List.mem_map.1 hy
        obtain ⟨hu1, hu2⟩ := mem_bucketOf.1 hu
        exact hM3 u hu1 hu2)
  unfold setPn
  rw [e1, e2]

/-- On every rank the walk of `updatePn` writes what the walk over the whole range writes. -/
theorem updatePnRanks_eq {blocks : List (List T)} (hne : ∀ b ∈ blocks, b ≠ [])
    (hs : blocks.flatten.Sorted
      (fun a b => ¬ TpleComp2Layers cclTupleIds.nId cclTupleIds.Pc b a)) :
    updatePnRanks blocks = blocks.map (fun b => b.map (setPn blocks.flatten)) := by
  unfold updatePnRanks
  apply List.ext_getElem
  · simp
  · intro i h1 h2
    have hi : i < blocks.length := by simpa using h1
    rw [List.getElem_map, List.getElem_map, List.getElem_enum]
    simp only []
    have hsplit : (blocks.take i).flatten ++ blocks[i] ++ (blocks.drop (i + 1)).flatten
        = blocks.flatten := by
      have e : blocks.take i ++ blocks[i] :: blocks.drop (i + 1) = blocks := by
        rw [← List.drop_eq_getElem_cons hi, List.take_append_drop]
      have e2 := congrArg List.flatten e
      rw [List.flatten_append, List.flatten_cons, ← List.append_assoc] at e2
      exact e2
    have hs2 := hs
    rw [← hsplit] at hs2
    have key := @updatePnWalk_local _ _ _ hs2 i blocks.length (prevMinPcOf blocks i)
      (nextMaxPcOf blocks i) ?_ ?_
    · rw [key, hsplit]
    · by_cases h0 : i = 0
      · rw [if_pos h0, h0]; rfl
      · rw [if_neg h0]
        exact prevMinPcOf_spec hne (Nat.pos_of_ne_zero h0) (by omega)
    · by_cases hl : i = blocks.length - 1
      · rw [if_pos hl]
        have : blocks.drop (i + 1) = [] := List.drop_of_length_le (by omega)
        rw [this]; rfl
      · rw [if_neg hl]
        exact nextMaxPcOf_spec hne (by omega)

/-- The ranks together leave the range that one rank leaves. -/
theorem updatePnRanks_flatten {blocks : List (List T)} (hne : ∀ b ∈ blocks, b ≠ [])
    (hs : blocks.flatten.Sorted
      (fun a b => ¬ TpleComp2Layers cclTupleIds.nId cclTupleIds.Pc b a)) :
    (updatePnRanks blocks).flatten = updatePn 0 1 default default blocks.flatten := by
  rw [updatePnRanks_eq hne hs, updatePn_eq, sort_eq_self _ hs, List.map_flatten]

end conn.coloring

namespace conn.coloring

/-! ## The two passes of the doubling -/

theorem doublingFirstPass_eq (a : T) (xs : List T) :
    doublingFirstPass 0 a xs
      = (sort (TpleComp2Layers cclTupleIds.nId cclTupleIds.Pc) xs).map (flipRequest xs) :=
  doublingStep1_eq a xs

theorem doublingSecondPass_eq (a : T) (xs : List T) :
    doublingSecondPass 0 a xs
      = (sort (TpleComp2Layers cclTupleIds.Pc cclTupleIds.Pn) xs).map (setGrandParent xs) :=
  doublingStep2_eq a xs

/-- The function `doPointerDoubling` is its first pass, its second pass and the erasure of the
tuples with `nId = MAX_NID`, on the active range followed by the parent requests. -/
theorem doPointerDoubling_passes (rank : Nat) (a b : T) (beginOffset : Nat)
    (requests tupleVector : List T) :
    doPointerDoubling rank a b beginOffset requests tupleVector
      = (tupleVector ++ requests).take beginOffset ++
        (partitionStableTuples cclTupleIds.nId (fun a b => decide (a ≠ b)) MAX_NID
          (doublingSecondPass rank b
            (doublingFirstPass rank a ((tupleVector ++ requests).drop beginOffset)))).1 :=
  rfl

theorem flipped_eq (A : List T) :
    flipped A = (doublingRange A).map (flipRequest (doublingRange A)) := rfl

theorem flipRequest_of_request (xs : List T) {e : T} (h : e.Pc = MAX_PID) :
    flipRequest xs e = ⟨toPid e.nId, minPc xs e.nId, MAX_NID⟩ := by
  unfold flipRequest
  rw [if_pos h]

theorem flipRequest_of_ordinary (xs : List T) {e : T} (h : e.Pc ≠ MAX_PID) :
    flipRequest xs e = e := by
  unfold flipRequest
  rw [if_neg h]

theorem toPid_of_lt_pow {x : Nat} (h : x < 2 ^ pIdBits) : toPid x = x :=
  Nat.mod_eq_of_lt h

theorem setGrandParent_of_all_stable {xs : List T} {e : T} (he : e ∈ xs)
    (h : ∀ u ∈ xs, u.Pc = e.Pc → u.Pn = MAX_PID) : setGrandParent xs e = e := by
  obtain ⟨w, hw, hwc, hwn⟩ := minPn_mem he
  have : minPn xs e.Pc = MAX_PID := by rw [← hwn]; exact h w hw hwc
  unfold setGrandParent
  rw [if_neg (by simp [this])]

theorem setGrandParent_of_some_active {xs : List T} {e : T}
    (h : ∃ u ∈ xs, u.Pc = e.Pc ∧ u.Pn < MAX_PID) :
    setGrandParent xs e = { e with Pc := minPn xs e.Pc } := by
  obtain ⟨u, hu, huc, hun⟩ := h
  have h1 := minPn_le hu
  rw [huc] at h1
  unfold setGrandParent
  rw [if_pos (by omega)]

/-! ## The doubling on the result of `updatePn` and `updatePc` -/

theorem mem_requests_iff {A : List T} (hb : NoSentinel A) {q : T} :
    q ∈ (updatePc true 0 default (updatePn 0 1 default default A)).parentRequestTupleVector
      ↔ ∃ t ∈ A, ¬ BucketStable A t.Pc ∧ q = ⟨MAX_PID, MAX_PID, (img2 A t).Pc⟩ := by
  rw [mem_updatePc_requests]
  constructor
  · rintro ⟨_, t1, ht1, hlt, hq⟩
    obtain ⟨t, ht, rfl⟩ := mem_updatePn.1 ht1
    rw [setPn_Pc] at hlt hq
    have hns : ¬ BucketStable A t.Pc := fun hs => (bucketStable_iff hb ht).2 hs hlt
    exact ⟨t, ht, hns, by rw [hq, (img2_of_not_stable hb ht hns).1]⟩
  · rintro ⟨t, ht, hns, hq⟩
    obtain ⟨h1, _, hlt, _⟩ := img2_of_not_stable hb ht hns
    refine ⟨rfl, setPn A t, mem_updatePn.2 ⟨t, ht, rfl⟩, ?_, ?_⟩
    · rw [setPn_Pc]; exact hlt
    · rw [setPn_Pc, hq, h1]

theorem mem_doublingRange {A : List T} {e : T} :
    e ∈ doublingRange A ↔
      e ∈ (updatePc true 0 default (updatePn 0 1 default default A)).range ∨
      e ∈ (updatePc true 0 default
        (updatePn 0 1 default default A)).parentRequestTupleVector := by
  unfold doublingRange
  exact List.mem_append

/-- The grandparent of a new partition id `c`, when a tuple of node `c` exists: the least `Pc`
among the tuples of node `c` after `updatePc`. -/
theorem minPc_doublingRange_of_node {A : List T} (hb : NoSentinel A) {c : Nat}
    (h : ∃ u ∈ (updatePc true 0 default (updatePn 0 1 default default A)).range, u.nId = c) :
    minPc (doublingRange A) c
      = minPc (updatePc true 0 default (updatePn 0 1 default default A)).range c := by
  obtain ⟨u, hu, huc⟩ := h
  obtain ⟨m, hm, hmn, hmc⟩ := minPc_mem hu
  rw [huc] at hmn hmc
  unfold minPc
  apply minOver_eq_of
  · exact List.mem_map.2 ⟨m, mem_bucketOf.2 ⟨mem_doublingRange.2 (Or.inl hm), hmn⟩, hmc⟩
  · intro y hy
    obtain ⟨e, he, rfl⟩ := List.mem_map.1 hy
    obtain ⟨he1, he2⟩ := mem_bucketOf.1 he
    rcases mem_doublingRange.1 he1 with h1 | h1
    · exact minOver_le (List.mem_map.2 ⟨e, mem_bucketOf.2 ⟨h1, he2⟩, rfl⟩)
    · rw [request_Pc h1]
      obtain ⟨t, ht, rfl⟩ := mem_updatePc_iff_img2.1 hm
      have := img2_Pc_lt_MAX_PID2 hb ht
      have h2 := MAX_PID2_lt_MAX_PID
      unfold minPc at hmc
      rw [← hmc]
      omega

/-- The grandparent of a new partition id `c`, when no tuple of node `c` exists: the sentinel
`MAX_PID` of the requests themselves. -/
theorem minPc_doublingRange_of_no_node {A : List T} {c : Nat}
    (hno : ∀ u ∈ (updatePc true 0 default (updatePn 0 1 default default A)).range, u.nId ≠ c)
    (hq : ∃ q ∈ (updatePc true 0 default
      (updatePn 0 1 default default A)).parentRequestTupleVector, q.nId = c) :
    minPc (doublingRange A) c = MAX_PID := by
  obtain ⟨q, hq, hqc⟩ := hq
  unfold minPc
  apply minOver_eq_of
  · exact List.mem_map.2
      ⟨q, mem_bucketOf.2 ⟨mem_doublingRange.2 (Or.inr hq), hqc⟩, request_Pc hq⟩
  · intro y hy
    obtain ⟨e, he, rfl⟩ := List.mem_map.1 hy
    obtain ⟨he1, he2⟩ := mem_bucketOf.1 he
    rcases mem_doublingRange.1 he1 with h1 | h1
    · exact absurd he2 (hno e h1)
    · rw [request_Pc h1]

/-- After step 1 of the doubling the least `Pn` of the bucket of a new partition id `c` is the
smaller of `c` and of the grandparent of `c`. -/
theorem minPn_flipped_eq {A : List T} (hb : NoSentinel A) {t : T} (ht : t ∈ A)
    (hns : ¬ BucketStable A t.Pc) :
    minPn (flipped A) (img2 A t).Pc
      = min (img2 A t).Pc (minPc (doublingRange A) (img2 A t).Pc) := by
  have hlt := img2_Pc_lt_MAX_PID2 hb ht
  have hreq : (⟨MAX_PID, MAX_PID, (img2 A t).Pc⟩ : T) ∈ doublingRange A :=
    mem_doublingRange.2 (Or.inr ((mem_requests_iff hb).2 ⟨t, ht, hns, rfl⟩))
  have hfl : (⟨(img2 A t).Pc, minPc (doublingRange A) (img2 A t).Pc, MAX_NID⟩ : T)
      ∈ flipped A := by
    rw [flipped_eq]
    refine List.mem_map.2 ⟨_, hreq, ?_⟩
    rw [flipRequest_of_request _ rfl]
    simp only [toPid_of_lt hlt]
  unfold minPn
  apply minOver_eq_of
  · by_cases hle : (img2 A t).Pc ≤ minPc (doublingRange A) (img2 A t).Pc
    · rw [Nat.min_eq_left hle]
      obtain ⟨w, hw, hwc, hwn⟩ := exists_witness_flipped hb ht hns
      exact List.mem_map.2 ⟨w, mem_bucketOf.2 ⟨hw, hwc⟩, hwn⟩
    · rw [Nat.min_eq_right (Nat.le_of_lt (Nat.lt_of_not_le hle))]
      exact List.mem_map.2 ⟨_, mem_bucketOf.2 ⟨hfl, rfl⟩, rfl⟩
  · intro y hy
    obtain ⟨f, hf, rfl⟩ := List.mem_map.1 hy
    obtain ⟨hf1, hf2⟩ := mem_bucketOf.1 hf
    simp only [T.get] at hf2
    rw [flipped_eq] at hf1
    obtain ⟨e, he, rfl⟩ := List.mem_map.1 hf1
    rcases mem_doublingRange.1 he with h1 | h1
    · obtain ⟨t', ht', rfl⟩ := mem_updatePc_iff_img2.1 h1
      rw [flipRequest_of_survives (img2_survives hb ht')] at hf2 ⊢
      apply le_trans (Nat.min_le_left _ _)
      by_cases hs : BucketStable A t'.Pc
      · rw [(img2_Pn_eq_MAX_PID_iff hb ht').2 hs]
        have := MAX_PID2_lt_MAX_PID
        omega
      · obtain ⟨h1', h2', _, _⟩ := img2_of_not_stable hb ht' hs
        rw [← hf2, h1', h2']
        have := minPn_le (mem_updatePn.2 ⟨t', ht', rfl⟩ :
          setPn A t' ∈ updatePn 0 1 default default A)
        rw [setPn_Pc] at this
        exact this
    · obtain ⟨t', ht', hns', rfl⟩ := (mem_requests_iff hb).1 h1
      rw [flipRequest_of_request _ rfl] at hf2 ⊢
      simp only [toPid_of_lt (img2_Pc_lt_MAX_PID2 hb ht')] at hf2 ⊢
      rw [hf2]
      exact Nat.min_le_right _ _

/-- Step 2 of the doubling on a tuple of a partition that migrated. -/
theorem setGrandParent_migrated {A : List T} (hb : NoSentinel A) {w : T}
    (hw : w ∈ (updatePc true 0 default (updatePn 0 1 default default A)).range)
    (hPn : w.Pn ≠ MAX_PID) :
    setGrandParent (flipped A) w
      = { w with Pc := min w.Pc (minPc (doublingRange A) w.Pc) } := by
  obtain ⟨t, ht, rfl⟩ := mem_updatePc_iff_img2.1 hw
  have hns : ¬ BucketStable A t.Pc := fun hs => hPn ((img2_Pn_eq_MAX_PID_iff hb ht).2 hs)
  have hlt := img2_Pc_lt_MAX_PID2 hb ht
  have h2 := MAX_PID2_lt_MAX_PID
  unfold setGrandParent
  rw [minPn_flipped_eq hb ht hns]
  rw [if_pos]
  have := Nat.min_le_left (img2 A t).Pc (minPc (doublingRange A) (img2 A t).Pc)
  omega

/-- Step 2 of the doubling on a tuple that `updatePc` marked stable. -/
theorem setGrandParent_stable {A : List T} (hb : NoSentinel A) {w : T}
    (hw : w ∈ (updatePc true 0 default (updatePn 0 1 default default A)).range)
    (hPn : w.Pn = MAX_PID) : setGrandParent (flipped A) w = w := by
  obtain ⟨t, ht, rfl⟩ := mem_updatePc_iff_img2.1 hw
  have hs : BucketStable A t.Pc := (img2_Pn_eq_MAX_PID_iff hb ht).1 hPn
  unfold setGrandParent
  rw [img2_Pc_of_stable hb ht hs, minPn_flipped_of_stable hb ht hs]
  simp

/-- The doubling without a stable prefix, on any range followed by requests. -/
theorem doPointerDoubling_generic (a b : T) {beginOffset : Nat} {requests tupleVector : List T}
    (hoff : beginOffset ≤ tupleVector.length)
    (hreq : ∀ q ∈ requests, q.Pc = MAX_PID)
    (hord : ∀ t ∈ tupleVector.drop beginOffset, t.nId ≠ MAX_NID ∧ t.Pc ≠ MAX_PID) :
    ∃ rest, doPointerDoubling 0 a b beginOffset requests tupleVector
        = tupleVector.take beginOffset ++ rest ∧
      rest.Perm ((tupleVector.drop beginOffset).map
        (setGrandParent ((tupleVector.drop beginOffset ++ requests).map
          (flipRequest (tupleVector.drop beginOffset ++ requests))))) := by
  refine ⟨doubled (tupleVector.drop beginOffset ++ requests), ?_, ?_⟩
  · rw [doPointerDoubling_eq, List.take_append_of_le_length hoff,
      List.drop_append_of_le_length hoff]
    rfl
  · refine (doubled_perm_survivors _).trans ?_
    have hf : (tupleVector.drop beginOffset ++ requests).filter survives
        = tupleVector.drop beginOffset := by
      rw [List.filter_append]
      have h1 : (tupleVector.drop beginOffset).filter survives
          = tupleVector.drop beginOffset :=
        filter_eq_self_of_forall (fun t ht => by
          have := hord t ht
          simp [survives, this.1, this.2])
      have h2 : requests.filter survives = [] :=
        filter_eq_nil_of_forall (fun q hq => by simp [survives, hreq q hq])
      rw [h1, h2, List.append_nil]
    rw [hf]

end conn.coloring

namespace conn.coloring

/-! ## The stable prefix of the array -/

theorem iteration_mid_ge (O : opt_level) (D : Bool) (s : LoopState) :
    s.distance_begin_mid ≤ (iteration O D s).distance_begin_mid := by
  unfold iteration
  simp only []
  split
  · exact Nat.le_add_right _ _
  · exact le_refl _

theorem iterate_mid_ge (O : opt_level) (D : Bool) :
    ∀ (j : Nat) (s : LoopState),
      s.distance_begin_mid ≤ ((iteration O D)^[j] s).distance_begin_mid := by
  intro j
  induction j with
  | zero => intro s; exact le_refl _
  | succ j ih =>
    intro s
    rw [Function.iterate_succ_apply]
    exact le_trans (iteration_mid_ge O D s) (ih (iteration O D s))

/-- An iteration leaves the tuples left of `mid` where they are. -/
theorem iteration_take_mid (O : opt_level) (D : Bool) (s : LoopState) :
    (iteration O D s).tupleVector.take s.distance_begin_mid = stableOf s := by
  by_cases hc : convergedOn D (activeOf s) = false ∧ O ≠ opt_level.naive
  · obtain ⟨_, _, h3⟩ := iteration_parts_moved O D s hc.1 hc.2
    rw [h3]
    have hX : activeOf s = [] →
        (activeAfter D (activeOf s)).filter (fun e => decide (e.Pn = MAX_PID)) ++
          (activeAfter D (activeOf s)).filter (fun e => ! decide (e.Pn = MAX_PID)) = [] := by
      intro h0
      rw [h0, activeAfter_nil]
      rfl
    exact (take_append_of_length_or (stable_length_or s _ hX)).1
  · have hk : convergedOn D (activeOf s) = true ∨ O = opt_level.naive := by
      by_cases h1 : convergedOn D (activeOf s) = true
      · exact Or.inl h1
      · right
        by_contra h2
        exact hc ⟨by simpa using h1, h2⟩
    obtain ⟨_, _, h3⟩ := iteration_parts_kept O D s hk
    rw [h3]
    have hX : activeOf s = [] → activeAfter D (activeOf s) = [] := by
      intro h0; rw [h0, activeAfter_nil]
    exact (take_append_of_length_or (stable_length_or s _ hX)).1

/-- No later iteration changes the tuples left of `mid`. -/
theorem iterate_take_mid (O : opt_level) (D : Bool) :
    ∀ (j : Nat) (s : LoopState),
      ((iteration O D)^[j] s).tupleVector.take s.distance_begin_mid
        = s.tupleVector.take s.distance_begin_mid := by
  intro j
  induction j with
  | zero => intro s; rfl
  | succ j ih =>
    intro s
    rw [Function.iterate_succ_apply]
    have h1 := ih (iteration O D s)
    have h2 := congrArg (List.take s.distance_begin_mid) h1
    rw [List.take_take, List.take_take, Nat.min_eq_left (iteration_mid_ge O D s)] at h2
    rw [h2]
    exact iteration_take_mid O D s

theorem stablePart_iteration (O : opt_level) (D : Bool) (s : LoopState)
    (h : ∀ t ∈ stableOf s, t.Pn = MAX_PID) :
    ∀ t ∈ stableOf (iteration O D s), t.Pn = MAX_PID := by
  by_cases hc : convergedOn D (activeOf s) = false ∧ O ≠ opt_level.naive
  · obtain ⟨h1, _, _⟩ := iteration_parts_moved O D s hc.1 hc.2
    rw [h1]
    intro t ht
    rcases List.mem_append.1 ht with h2 | h2
    · exact h t h2
    · simpa using (List.mem_filter.1 h2).2
  · have hk : convergedOn D (activeOf s) = true ∨ O = opt_level.naive := by
      by_cases h1 : convergedOn D (activeOf s) = true
      · exact Or.inl h1
      · right
        by_contra h2
        exact hc ⟨by simpa using h1, h2⟩
    obtain ⟨h1, _, _⟩ := iteration_parts_kept O D s hk
    rw [h1]
    exact h

theorem stablePart_iterate (O : opt_level) (D : Bool) (tv : List T) (k : Nat) :
    ∀ t ∈ stableOf ((iteration O D)^[k] (initialState tv)), t.Pn = MAX_PID := by
  induction k with
  | zero =>
    intro t ht
    rw [Function.iterate_zero_apply, stableOf_initialState] at ht
    simp at ht
  | succ k ih =>
    rw [Function.iterate_succ_apply']
    exact stablePart_iteration O D _ ih

/-- After an iteration that did not converge, at a level that moves the stable tuples aside,
no tuple right of `mid` is stable. -/
theorem active_after_moved (O : opt_level) (D : Bool) (s : LoopState)
    (hO : O ≠ opt_level.naive) (hc : (iteration O D s).converged = false) :
    ∀ t ∈ activeOf (iteration O D s), t.Pn ≠ MAX_PID := by
  rw [iteration_converged] at hc
  obtain ⟨_, h2, _⟩ := iteration_parts_moved O D s hc hO
  rw [h2]
  intro t ht
  simpa using (List.mem_filter.1 ht).2

/-- What an iteration leaves right of `mid`, and whether it converged, depends on the tuples
right of `mid` only. -/
theorem iteration_active_congr (O : opt_level) (D : Bool) {s1 s2 : LoopState}
    (h : activeOf s1 = activeOf s2) :
    activeOf (iteration O D s1) = activeOf (iteration O D s2) ∧
    (iteration O D s1).converged = (iteration O D s2).converged := by
  refine ⟨?_, by rw [iteration_converged, iteration_converged, h]⟩
  by_cases hc : convergedOn D (activeOf s1) = false ∧ O ≠ opt_level.naive
  · have hc2 : convergedOn D (activeOf s2) = false := by rw [← h]; exact hc.1
    rw [(iteration_parts_moved O D s1 hc.1 hc.2).2.1,
      (iteration_parts_moved O D s2 hc2 hc.2).2.1, h]
  · have hk : convergedOn D (activeOf s1) = true ∨ O = opt_level.naive := by
      by_cases h1 : convergedOn D (activeOf s1) = true
      · exact Or.inl h1
      · right
        by_contra h2
        exact hc ⟨by simpa using h1, h2⟩
    have hk2 : convergedOn D (activeOf s2) = true ∨ O = opt_level.naive := by
      rw [← h]; exact hk
    rw [(iteration_parts_kept O D s1 hk).2.1, (iteration_parts_kept O D s2 hk2).2.1, h]

/-! ## Associativity of the carry reducers -/

theorem TpleReduce2Layers_eq_ite (l1 l2 : cclTupleIds) (op1 op2 : Nat → Nat → Bool) (a b : T) :
    TpleReduce2Layers l1 l2 op1 op2 a b
      = if (op1 (a.get l1) (b.get l1) = true ∨
            (op1 (b.get l1) (a.get l1) = false ∧ op2 (a.get l2) (b.get l2) = true))
        then a else b := by
  unfold TpleReduce2Layers
  cases h1 : op1 (a.get l1) (b.get l1) <;> cases h2 : op1 (b.get l1) (a.get l1) <;>
    cases h3 : op2 (a.get l2) (b.get l2) <;> simp

/-- The preference of a two-layer reducer is transitive, and so is its negation. -/
theorem prefer_trans (op1 op2 : Nat → Nat → Bool)
    (h1 : op1 = less ∨ op1 = greater) (h2 : op2 = less ∨ op2 = greater)
    (a1 a2 b1 b2 c1 c2 : Nat) :
    ((op1 a1 b1 = true ∨ (op1 b1 a1 = false ∧ op2 a2 b2 = true)) →
      (op1 b1 c1 = true ∨ (op1 c1 b1 = false ∧ op2 b2 c2 = true)) →
      (op1 a1 c1 = true ∨ (op1 c1 a1 = false ∧ op2 a2 c2 = true))) ∧
    (¬ (op1 a1 b1 = true ∨ (op1 b1 a1 = false ∧ op2 a2 b2 = true)) →
      ¬ (op1 b1 c1 = true ∨ (op1 c1 b1 = false ∧ op2 b2 c2 = true)) →
      ¬ (op1 a1 c1 = true ∨ (op1 c1 a1 = false ∧ op2 a2 c2 = true))) := by
  rcases h1 with rfl | rfl <;> rcases h2 with rfl | rfl <;>
  · simp only [less, greater, decide_eq_true_eq, decide_eq_false_iff_not]
    constructor <;> omega

theorem TpleReduce2Layers_assoc (l1 l2 : cclTupleIds) (op1 op2 : Nat → Nat → Bool)
    (h1 : op1 = less ∨ op1 = greater) (h2 : op2 = less ∨ op2 = greater) (a b c : T) :
    TpleReduce2Layers l1 l2 op1 op2 (TpleReduce2Layers l1 l2 op1 op2 a b) c
      = TpleReduce2Layers l1 l2 op1 op2 a (TpleReduce2Layers l1 l2 op1 op2 b c) := by
  have e := TpleReduce2Layers_eq_ite l1 l2 op1 op2
  obtain ⟨hT, hN⟩ := prefer_trans op1 op2 h1 h2 (a.get l1) (a.get l2) (b.get l1) (b.get l2)
    (c.get l1) (c.get l2)
  by_cases hab : (op1 (a.get l1) (b.get l1) = true ∨
      (op1 (b.get l1) (a.get l1) = false ∧ op2 (a.get l2) (b.get l2) = true))
  · have rab : TpleReduce2Layers l1 l2 op1 op2 a b = a := by rw [e, if_pos hab]
    by_cases hbc : (op1 (b.get l1) (c.get l1) = true ∨
        (op1 (c.get l1) (b.get l1) = false ∧ op2 (b.get l2) (c.get l2) = true))
    · have rbc : TpleReduce2Layers l1 l2 op1 op2 b c = b := by rw [e, if_pos hbc]
      rw [rab, rbc, rab, e, if_pos (hT hab hbc)]
    · have rbc : TpleReduce2Layers l1 l2 op1 op2 b c = c := by rw [e, if_neg hbc]
      rw [rab, rbc]
  · have rab : TpleReduce2Layers l1 l2 op1 op2 a b = b := by rw [e, if_neg hab]
    by_cases hbc : (op1 (b.get l1) (c.get l1) = true ∨
        (op1 (c.get l1) (b.get l1) = false ∧ op2 (b.get l2) (c.get l2) = true))
    · have rbc : TpleReduce2Layers l1 l2 op1 op2 b c = b := by rw [e, if_pos hbc]
      rw [rab, rbc, rab]
    · have rbc : TpleReduce2Layers l1 l2 op1 op2 b c = c := by rw [e, if_neg hbc]
      rw [rab, rbc, e, if_neg (hN hab hbc)]

theorem mirrorReducerOfSpec_eq (a b : T) :
    mirrorReducerOfSpec a b
      = TpleReduce2Layers cclTupleIds.nId cclTupleIds.Pc greater greater a b := by
  simp only [mirrorReducerOfSpec, TpleReduce2Layers, greater, T.get, decide_eq_true_eq]

theorem mirrorReducerOfSpec_assoc (a b c : T) :
    mirrorReducerOfSpec (mirrorReducerOfSpec a b) c
      = mirrorReducerOfSpec a (mirrorReducerOfSpec b c) := by
  simp only [mirrorReducerOfSpec_eq]
  exact TpleReduce2Layers_assoc cclTupleIds.nId cclTupleIds.Pc greater greater
    (Or.inr rfl) (Or.inr rfl) a b c

/-! ## Labels stay inside the component -/

theorem label_in_component {edgeList : List (Nat × Nat)} (hsym : symmetricEdges edgeList)
    (hbd : boundedIds edgeList) (O : opt_level) (D : Bool) (k : Nat) :
    ∀ t ∈ ((iteration O D)^[k] (initialState (convertEdgeListforCCL edgeList))).tupleVector,
      IsVertex edgeList t.nId ∧ IsVertex edgeList t.Pc ∧ Connected edgeList t.nId t.Pc := by
  have h0 : LoopInv (fun p v => Connected edgeList v p) (Adj edgeList)
      (stableOf (initialState (convertEdgeListforCCL edgeList)))
      (activeOf (initialState (convertEdgeListforCCL edgeList))) := by
    rw [stableOf_initialState, activeOf_initialState]
    exact loopInv_initial hsym hbd
  have hI := LoopInv_iterate (classRel_connected edgeList) O D _ h0 k
  have hT := tracks_iterate (classRel_connected edgeList) O D _ h0
    (by rw [stableOf_initialState, activeOf_initialState]; exact tracks_initial _) k
  intro t ht
  rw [← stable_append_active] at ht
  have hrel : Connected edgeList t.nId t.Pc := hI.rel t ht
  have hv : IsVertex edgeList t.nId :=
    (isVertex_iff_mem_nId hT.nIdPerm t.nId).2 ⟨t, ht, rfl⟩
  exact ⟨hv, isVertex_of_connected hv hrel, hrel⟩

end conn.coloring

namespace conn.coloring

/-! ## Step 2 of the doubling in the engine -/

/-- In an iteration on a range without sentinels, a bucket of step 2 that holds a tuple with
`Pn = MAX_PID` keeps the `Pc` of all its tuples. -/
theorem setGrandParent_flipped_of_stable_mark {A : List T} (hb : NoSentinel A) {e u : T}
    (hu : u ∈ flipped A) (huc : u.Pc = e.Pc) (hun : u.Pn = MAX_PID) :
    setGrandParent (flipped A) e = e := by
  rw [flipped_eq] at hu
  obtain ⟨x, hx, rfl⟩ := List.mem_map.1 hu
  rcases mem_doublingRange.1 hx with h1 | h1
  · obtain ⟨t, ht, rfl⟩ := mem_updatePc_iff_img2.1 h1
    rw [flipRequest_of_survives (img2_survives hb ht)] at huc hun
    have hs : BucketStable A t.Pc := (img2_Pn_eq_MAX_PID_iff hb ht).1 hun
    rw [img2_Pc_of_stable hb ht hs] at huc
    unfold setGrandParent
    rw [← huc, minPn_flipped_of_stable hb ht hs]
    simp
  · obtain ⟨t, ht, hns, rfl⟩ := (mem_requests_iff hb).1 h1
    rw [flipRequest_of_request _ rfl] at huc hun
    have hlt := img2_Pc_lt_MAX_PID2 hb ht
    have h2 := MAX_PID2_lt_MAX_PID
    simp only [toPid_of_lt hlt] at huc hun
    have hmin := minPn_flipped_eq hb ht hns
    rw [hun, huc] at hmin
    have hc : minPn (flipped A) e.Pc = e.Pc := by
      rw [hmin]
      apply Nat.min_eq_left
      rw [← huc]
      omega
    unfold setGrandParent
    rw [hc, if_pos (by rw [← huc]; omega)]

/-- The doubling on the result of `updatePn` and `updatePc` of a range without sentinels. -/
theorem doPointerDoubling_perm_range {A : List T} (hb : NoSentinel A) :
    (doPointerDoubling 0 default default 0
        (updatePc true 0 default (updatePn 0 1 default default A)).parentRequestTupleVector
        (updatePc true 0 default (updatePn 0 1 default default A)).range).Perm
      ((updatePc true 0 default (updatePn 0 1 default default A)).range.map
        (fun w => if w.Pn = MAX_PID then w
          else { w with Pc := min w.Pc (minPc (doublingRange A) w.Pc) })) := by
  obtain ⟨rest, h1, h2⟩ := @doPointerDoubling_generic default default 0
    (updatePc true 0 default (updatePn 0 1 default default A)).parentRequestTupleVector
    (updatePc true 0 default (updatePn 0 1 default default A)).range
    (Nat.zero_le _) (fun q hq => request_Pc hq)
    (fun t ht => by
      rw [List.drop_zero] at ht
      obtain ⟨t0, ht0, rfl⟩ := mem_updatePc_iff_img2.1 ht
      have hs := img2_survives hb ht0
      simp only [survives, Bool.and_eq_true, decide_eq_true_eq] at hs
      exact ⟨hs.2, hs.1⟩)
  rw [h1, List.take_zero, List.nil_append]
  refine h2.trans ?_
  rw [List.drop_zero]
  apply List.Perm.of_eq
  apply List.map_congr_left
  intro w hw
  by_cases hPn : w.Pn = MAX_PID
  · rw [if_pos hPn]
    exact setGrandParent_stable hb hw hPn
  · rw [if_neg hPn]
    exact setGrandParent_migrated hb hw hPn

end conn.coloring

namespace conn.coloring

/-! ## An iteration on a range with arbitrary partition ids and node ids -/

theorem survives_iff {e : T} : survives e = true ↔ e.Pc ≠ MAX_PID ∧ e.nId ≠ MAX_NID := by
  unfold survives
  simp

theorem image_true_eq (A : List T) (t : T) :
    image true A t = setGrandParent (flipped A) (img2 A t) := by
  simp [image]

/-- With doubling on, the new active range consists of the tuples of `updatePc` that the
doubling neither flips nor erases, each rewritten by the grandparent step. -/
theorem mem_activeAfter_true {A : List T} {t' : T} :
    t' ∈ activeAfter true A ↔ ∃ t ∈ A, survives (img2 A t) = true ∧ image true A t = t' := by
  rw [(activeAfter_true_perm A).mem_iff, List.mem_map]
  constructor
  · rintro ⟨e, he, rfl⟩
    obtain ⟨he1, he2⟩ := List.mem_filter.1 he
    obtain ⟨t, ht, rfl⟩ := mem_updatePc_iff_img2.1 he1
    exact ⟨t, ht, he2, image_true_eq A t⟩
  · rintro ⟨t, ht, hs, rfl⟩
    exact ⟨img2 A t, List.mem_filter.2 ⟨mem_updatePc_iff_img2.2 ⟨t, ht, rfl⟩, hs⟩,
      (image_true_eq A t).symm⟩

/-- What `updatePn` and `updatePc` make of a tuple whose partition migrates: the partition moves
to the least `Pc` of one of its nodes, a node that does not agree. -/
theorem img2_of_migrates {A : List T} {t : T} (ht : t ∈ A) (h : Migrates A t.Pc) :
    (img2 A t).Pc = minPn (updatePn 0 1 default default A) t.Pc ∧
    (img2 A t).Pn = (setPn A t).Pn ∧
    ∃ w ∈ A, w.Pc = t.Pc ∧ ¬ NodeAgrees A w.nId ∧
      minPn (updatePn 0 1 default default A) t.Pc = minPc A w.nId := by
  have hlt : minPn (updatePn 0 1 default default A) t.Pc < MAX_PID2 := h
  have ht1 : setPn A t ∈ updatePn 0 1 default default A := mem_updatePn.2 ⟨t, ht, rfl⟩
  refine ⟨?_, ?_, ?_⟩
  · unfold img2 setPc
    rw [setPn_Pc, if_pos hlt]
  · unfold img2 setPc
    rw [setPn_Pc, if_pos hlt]
  · obtain ⟨w1, hw1, hw1c, hw1n⟩ := minPn_mem ht1
    obtain ⟨w, hw, rfl⟩ := mem_updatePn.1 hw1
    rw [setPn_Pc, setPn_Pc] at hw1c
    rw [setPn_Pc] at hw1n
    have hna : ¬ NodeAgrees A w.nId := by
      intro ha
      rw [setPn_Pn_of_agrees hw ha] at hw1n
      rw [← hw1n] at hlt
      exact lt_irrefl _ hlt
    refine ⟨w, hw, hw1c, hna, ?_⟩
    rw [← hw1n, setPn_Pn_of_not_agrees hw hna]

/-- What `updatePn` and `updatePc` make of a tuple whose partition does not migrate: the tuple
with `Pn = MAX_PID`. -/
theorem img2_of_not_migrates {A : List T} {t : T} (h : ¬ Migrates A t.Pc) :
    img2 A t = { t with Pn := MAX_PID } := by
  have h1 : ¬ minPn (updatePn 0 1 default default A) t.Pc < MAX_PID2 := h
  unfold img2 setPc
  rw [setPn_Pc, if_neg h1]
  cases t
  simp [setPn]
  split <;> rfl

theorem setPn_Pn_ne_MAX_PID {A : List T} (hb : PcBounded A) {t : T} (ht : t ∈ A) :
    (setPn A t).Pn ≠ MAX_PID := by
  by_cases h : NodeAgrees A t.nId
  · rw [setPn_Pn_of_agrees ht h]
    exact ne_of_lt MAX_PID2_lt_MAX_PID
  · rw [setPn_Pn_of_not_agrees ht h]
    have hlt : minPc A t.nId < maxPc A t.nId := by
      by_contra hc
      exact h ((nodeAgrees_iff ht).1 hc)
    obtain ⟨u, hu, _, huc⟩ := maxPc_mem ht
    have := hb u hu
    omega

/-- When the partition ids fit their type, the tuples that `updatePc` marks stable are those of
the partitions that do not migrate. -/
theorem img2_Pn_eq_MAX_PID_iff_not_migrates {A : List T} (hb : PcBounded A) {t : T}
    (ht : t ∈ A) : (img2 A t).Pn = MAX_PID ↔ ¬ Migrates A t.Pc := by
  constructor
  · intro h hm
    rw [(img2_of_migrates ht hm).2.1] at h
    exact setPn_Pn_ne_MAX_PID hb ht h
  · intro h
    rw [img2_of_not_migrates h]

/-- A tuple at a node that does not agree and whose least partition id is below `MAX_PID2`
lies in a partition that migrates. -/
theorem migrates_of_node {A : List T} {d : T} (hd : d ∈ A) (hna : ¬ NodeAgrees A d.nId)
    (hmin : minPc A d.nId < MAX_PID2) : Migrates A d.Pc := by
  unfold Migrates
  have hd1 : setPn A d ∈ updatePn 0 1 default default A := mem_updatePn.2 ⟨d, hd, rfl⟩
  have hle := minPn_le hd1
  rw [setPn_Pc, setPn_Pn_of_not_agrees hd hna] at hle
  exact lt_of_le_of_lt hle hmin

/-- Two tuples of one node in different partitions, one of them with a partition id below
`MAX_PID2`: both partitions migrate. -/
theorem migrates_of_node_pair {A : List T} {a d : T} (ha : a ∈ A) (hd : d ∈ A)
    (hn : a.nId = d.nId) (hne : a.Pc ≠ d.Pc) (hlt : a.Pc < MAX_PID2 ∨ d.Pc < MAX_PID2) :
    Migrates A a.Pc ∧ Migrates A d.Pc := by
  have hna : ¬ NodeAgrees A d.nId := fun h => hne (h a ha d hd hn rfl)
  have h1 : minPc A d.nId ≤ a.Pc := by rw [← hn]; exact minPc_le ha
  have h2 : minPc A d.nId ≤ d.Pc := minPc_le hd
  have hmin : minPc A d.nId < MAX_PID2 := by
    rcases hlt with h | h <;> omega
  refine ⟨?_, migrates_of_node hd hna hmin⟩
  exact migrates_of_node ha (by rw [hn]; exact hna) (by rw [hn]; exact hmin)

/-- A partition that shares a node with a partition that migrates migrates too, when one of the
two partition ids is below `MAX_PID2`. -/
theorem migrates_at_node {A : List T} {a d : T} (ha : a ∈ A) (hd : d ∈ A)
    (hn : a.nId = d.nId) (hm : Migrates A a.Pc) (hlt : a.Pc < MAX_PID2 ∨ d.Pc < MAX_PID2) :
    Migrates A d.Pc := by
  by_cases he : a.Pc = d.Pc
  · rw [← he]; exact hm
  · exact (migrates_of_node_pair ha hd hn he hlt).2

/-- The partition id to which a partition migrates is below `MAX_PID2` and is the id of a
partition that migrates as well. -/
theorem migrates_img2 {A : List T} {t : T} (ht : t ∈ A) (hm : Migrates A t.Pc) :
    Migrates A (img2 A t).Pc ∧ (img2 A t).Pc < MAX_PID2 := by
  obtain ⟨h1, _, w, hw, _, hna, hmin⟩ := img2_of_migrates ht hm
  obtain ⟨u, hu, hun, huc⟩ := minPc_mem hw
  have hlt : minPc A w.nId < MAX_PID2 := by rw [← hmin]; exact hm
  have h := migrates_of_node hu (by rw [hun]; exact hna) (by rw [hun]; exact hlt)
  rw [huc, ← hmin, ← h1] at h
  exact ⟨h, by rw [h1]; exact hm⟩

theorem survives_img2_of_migrates {A : List T} {t : T} (ht : t ∈ A) (hm : Migrates A t.Pc)
    (hn : t.nId ≠ MAX_NID) : survives (img2 A t) = true := by
  rw [survives_iff, img2_nId]
  exact ⟨ne_of_lt (lt_trans (migrates_img2 ht hm).2 MAX_PID2_lt_MAX_PID), hn⟩

theorem survives_img2_of_not_migrates {A : List T} {t : T} (hm : ¬ Migrates A t.Pc)
    (hc : t.Pc ≠ MAX_PID) (hn : t.nId ≠ MAX_NID) : survives (img2 A t) = true := by
  rw [survives_iff, img2_of_not_migrates hm]
  exact ⟨hc, hn⟩

/-- A tuple that survives the doubling was not at the node `MAX_NID`, and if its partition does
not migrate, its partition id is not `MAX_PID`. -/
theorem of_survives_img2 {A : List T} {t : T} (hs : survives (img2 A t) = true) :
    t.nId ≠ MAX_NID ∧ (¬ Migrates A t.Pc → t.Pc ≠ MAX_PID) := by
  rw [survives_iff, img2_nId] at hs
  refine ⟨hs.2, ?_⟩
  intro hm hc
  have := hs.1
  rw [img2_of_not_migrates hm] at this
  exact this hc

theorem mem_flipped_of_ne {A : List T} {t : T} (ht : t ∈ A) (h : (img2 A t).Pc ≠ MAX_PID) :
    img2 A t ∈ flipped A := by
  rw [flipped_eq]
  refine List.mem_map.2 ⟨img2 A t, ?_, flipRequest_of_ordinary _ h⟩
  exact mem_doublingRange.2 (Or.inl (mem_updatePc_iff_img2.2 ⟨t, ht, rfl⟩))

/-- A partition that migrates leaves, in the range of step 2 of the doubling, a tuple whose
`Pn` is the new partition id: the least `Pn` of the new partition is at most its id. -/
theorem minPn_flipped_le_of_migrates {A : List T} {t : T} (ht : t ∈ A)
    (hm : Migrates A t.Pc) : minPn (flipped A) (img2 A t).Pc ≤ (img2 A t).Pc := by
  obtain ⟨h1, _, _⟩ := img2_of_migrates ht hm
  have ht1 : setPn A t ∈ updatePn 0 1 default default A := mem_updatePn.2 ⟨t, ht, rfl⟩
  have hlt' : minPn (updatePn 0 1 default default A) (setPn A t).Pc < MAX_PID2 := by
    rw [setPn_Pc]; exact hm
  obtain ⟨w, hw, hwc, hwn⟩ := exists_witness_of_migrating (D := true) (a := default) ht1 hlt'
  rw [setPn_Pc] at hwc hwn
  obtain ⟨w', hw', rfl⟩ := mem_updatePc_iff_img2.1 hw
  have hne : (img2 A w').Pc ≠ MAX_PID := by
    rw [hwc]
    exact ne_of_lt (lt_trans hm MAX_PID2_lt_MAX_PID)
  have hle := minPn_le (mem_flipped_of_ne hw' hne)
  rw [hwc, hwn, ← h1] at hle
  exact hle

/-- With doubling on, the tuples of a partition that migrates move to the least `Pn` of their
new partition in the range of step 2. -/
theorem image_true_Pc_of_migrates {A : List T} {t : T} (ht : t ∈ A) (hm : Migrates A t.Pc) :
    (image true A t).Pc = minPn (flipped A) (img2 A t).Pc := by
  have hle := minPn_flipped_le_of_migrates ht hm
  have hlt := (migrates_img2 ht hm).2
  have hne : minPn (flipped A) (img2 A t).Pc ≠ MAX_PID :=
    ne_of_lt (lt_of_le_of_lt hle (lt_trans hlt MAX_PID2_lt_MAX_PID))
  rw [image_true_eq]
  unfold setGrandParent
  rw [if_pos hne]

theorem image_true_Pc_lt_of_migrates {A : List T} {t : T} (ht : t ∈ A)
    (hm : Migrates A t.Pc) : (image true A t).Pc < MAX_PID2 ∧ (image true A t).Pc ≤ t.Pc := by
  rw [image_true_Pc_of_migrates ht hm]
  have hle := minPn_flipped_le_of_migrates ht hm
  exact ⟨lt_of_le_of_lt hle (migrates_img2 ht hm).2, le_trans hle (img2_Pc_le ht)⟩

/-- The new partition id of a tuple depends only on the partition id `updatePc` gave it. -/
theorem image_true_Pc_congr {A : List T} {t t' : T} (h : (img2 A t).Pc = (img2 A t').Pc) :
    (image true A t).Pc = (image true A t').Pc := by
  rw [image_true_eq, image_true_eq]
  unfold setGrandParent
  rw [h]
  split <;> simp [h]

/-- The members of the range of step 2: tuples of `updatePc` that are not flipped, flipped
parent requests of partitions that migrate, and flipped tuples of a partition `MAX_PID` that
does not migrate.  The `Pn` of a flipped tuple is the `Pc` of a tuple of the doubling range at
the node it names. -/
theorem mem_flipped_cases_gen {A : List T} {f : T} (hf : f ∈ flipped A) :
    (∃ t ∈ A, (img2 A t).Pc ≠ MAX_PID ∧ f = img2 A t) ∨
    (∃ t ∈ A, Migrates A t.Pc ∧ f.Pc = (img2 A t).Pc ∧
      ∃ d ∈ doublingRange A, d.nId = (img2 A t).Pc ∧ f.Pn = d.Pc) ∨
    (∃ e ∈ A, e.Pc = MAX_PID ∧ ¬ Migrates A MAX_PID ∧ f.Pc = toPid e.nId ∧
      ∃ d ∈ doublingRange A, d.nId = e.nId ∧ f.Pn = d.Pc) := by
  rw [flipped_eq] at hf
  obtain ⟨e, he, rfl⟩ := List.mem_map.1 hf
  rcases mem_doublingRange.1 he with he2 | heR
  · obtain ⟨t, ht, rfl⟩ := mem_updatePc_iff_img2.1 he2
    by_cases hc : (img2 A t).Pc = MAX_PID
    · right; right
      have hnm : ¬ Migrates A t.Pc := by
        intro hm
        have := (migrates_img2 ht hm).2
        rw [hc] at this
        exact absurd (lt_trans this MAX_PID2_lt_MAX_PID) (lt_irrefl _)
      have htc : t.Pc = MAX_PID := by
        rw [img2_of_not_migrates hnm] at hc
        exact hc
      obtain ⟨d, hd, hdn, hdc⟩ := minPc_mem he
      rw [img2_nId] at hdn
      refine ⟨t, ht, htc, by rw [← htc]; exact hnm, ?_, d, hd, hdn, ?_⟩
      · rw [flipRequest_of_request _ hc, img2_nId]
      · rw [flipRequest_of_request _ hc, hdc]
    · left
      exact ⟨t, ht, hc, flipRequest_of_ordinary _ hc⟩
  · right; left
    obtain ⟨_, t1, ht1, hlt, hr⟩ := (mem_updatePc_requests true default _ e).1 heR
    obtain ⟨t, ht, rfl⟩ := mem_updatePn.1 ht1
    rw [setPn_Pc] at hlt hr
    have hm : Migrates A t.Pc := hlt
    obtain ⟨h1, _, _⟩ := img2_of_migrates ht hm
    have hec : e.Pc = MAX_PID := by rw [hr]
    have hen : e.nId = (img2 A t).Pc := by rw [hr, h1]
    obtain ⟨d, hd, hdn, hdc⟩ := minPc_mem he
    refine ⟨t, ht, hm, ?_, d, hd, by rw [hdn, hen], ?_⟩
    · rw [flipRequest_of_request _ hec, hen]
      exact toPid_of_lt (migrates_img2 ht hm).2
    · rw [flipRequest_of_request _ hec, hdc]

/-- A member of the doubling range with a `Pc` other than `MAX_PID` is a tuple that `updatePc`
left. -/
theorem mem_doublingRange_of_ne {A : List T} {d : T} (hd : d ∈ doublingRange A)
    (hc : d.Pc ≠ MAX_PID) : ∃ d0 ∈ A, d = img2 A d0 := by
  rcases mem_doublingRange.1 hd with h | h
  · obtain ⟨d0, hd0, rfl⟩ := mem_updatePc_iff_img2.1 h
    exact ⟨d0, hd0, rfl⟩
  · exact absurd (request_Pc h) hc

end conn.coloring

namespace conn.coloring

/-! ## The doubling under the invariant of the active range -/

theorem MAX_PID_eq_succ : MAX_PID = MAX_PID2 + 1 := by
  unfold MAX_PID MAX_PID2 pIdBits; norm_num

section doubling

variable {A : List T}

/-- With doubling on, the tuples of a partition that does not migrate, other than the
partition `MAX_PID`, are marked stable and keep their partition id. -/
theorem image_true_of_not_migrates (hI : DoublingInv A) {u : T} (hu : u ∈ A)
    (hm : ¬ Migrates A u.Pc) (hc : u.Pc ≠ MAX_PID) :
    image true A u = { u with Pn := MAX_PID } := by
  have himg := img2_of_not_migrates hm
  have hPc : (img2 A u).Pc = u.Pc := by rw [himg]
  have hmem : img2 A u ∈ flipped A := mem_flipped_of_ne hu (by rw [hPc]; exact hc)
  obtain ⟨f, hf, hfc, hfn⟩ := minPn_mem hmem
  rw [hPc] at hfc hfn
  have hkey : f.Pn = MAX_PID ∨ f.Pn = u.Pc := by
    rcases mem_flipped_cases_gen hf with ⟨e, he, _, rfl⟩ | ⟨t, ht, htm, hft, _⟩ |
      ⟨e, he, hec, hnm, hfe, d, hd, hdn, hfd⟩
    · by_cases hem : Migrates A e.Pc
      · exfalso
        have := (migrates_img2 he hem).1
        rw [hfc] at this
        exact hm this
      · left
        rw [img2_of_not_migrates hem]
    · exfalso
      have := (migrates_img2 ht htm).1
      rw [← hft, hfc] at this
      exact hm this
    · obtain ⟨s, hs, hsn, hsc⟩ := hI.anchored e he hec
      have hsu : s.Pc = u.Pc := by rw [hsc, ← hfe, hfc]
      have hne : s.Pc ≠ e.Pc := by rw [hsu, hec]; exact hc
      have hmin : ¬ minPc A e.nId < MAX_PID2 := by
        intro hlt
        have hna : ¬ NodeAgrees A e.nId := fun h => hne (h s hs e he hsn rfl)
        have := migrates_of_node he hna hlt
        rw [hec] at this
        exact hnm this
      have h1 : minPc A e.nId ≤ s.Pc := by rw [← hsn]; exact minPc_le hs
      have hub := hI.bounded u hu
      have hsucc := MAX_PID_eq_succ
      have huPc : u.Pc = MAX_PID2 := by omega
      by_cases hdc : d.Pc = MAX_PID
      · left; rw [hfd, hdc]
      · right
        obtain ⟨d0, hd0, rfl⟩ := mem_doublingRange_of_ne hd hdc
        rw [img2_nId] at hdn
        have h2 : minPc A e.nId ≤ d0.Pc := by rw [← hdn]; exact minPc_le hd0
        have hdb := hI.bounded d0 hd0
        have hd0m : ¬ Migrates A d0.Pc := by
          intro hd0m
          by_cases hd0c : d0.Pc = MAX_PID
          · rw [hd0c] at hd0m; exact hnm hd0m
          · have : d0.Pc = u.Pc := by omega
            rw [this] at hd0m
            exact hm hd0m
        rw [img2_of_not_migrates hd0m] at hdc hfd
        simp only [] at hdc hfd
        rw [hfd]
        omega
  rw [image_true_eq, himg]
  unfold setGrandParent
  simp only []
  rw [← hfn]
  rcases hkey with h | h
  · rw [if_neg (by rw [h]; exact fun hh => hh rfl)]
  · rw [if_pos (by rw [h]; exact hc), h]

theorem image_mem_activeAfter_of_not_migrates (hI : DoublingInv A) {u : T} (hu : u ∈ A)
    (hm : ¬ Migrates A u.Pc) (hc : u.Pc ≠ MAX_PID) (hn : u.nId ≠ MAX_NID) :
    ({ u with Pn := MAX_PID } : T) ∈ activeAfter true A :=
  mem_activeAfter_true.2 ⟨u, hu, survives_img2_of_not_migrates hm hc hn,
    image_true_of_not_migrates hI hu hm hc⟩

/-- The image of a tuple of a partition that migrates, at a node other than `MAX_NID`, is one
of the tuples that are still active after the iteration. -/
theorem image_mem_activeKept (hI : DoublingInv A) {a : T} (ha : a ∈ A)
    (hm : Migrates A a.Pc) (hn : a.nId ≠ MAX_NID) : image true A a ∈ activeKept A := by
  unfold activeKept
  refine List.mem_filter.2
    ⟨mem_activeAfter_true.2 ⟨a, ha, survives_img2_of_migrates ha hm hn, rfl⟩, ?_⟩
  have : (image true A a).Pn ≠ MAX_PID := by
    rw [image_Pn, (img2_of_migrates ha hm).2.1]
    exact setPn_Pn_ne_MAX_PID hI.bounded ha
  simp [this]

/-- Two tuples of partitions that migrate to the same partition link their nodes after the
iteration. -/
theorem safeLink_of_image (hI : DoublingInv A) {a b : T} (ha : a ∈ A) (hb : b ∈ A)
    (h : (img2 A a).Pc = (img2 A b).Pc) (hma : Migrates A a.Pc) (hmb : Migrates A b.Pc)
    (hna : a.nId ≠ MAX_NID) (hnb : b.nId ≠ MAX_NID) :
    safeLink (activeKept A) a.nId b.nId :=
  ⟨image true A a, image_mem_activeKept hI ha hma hna,
    image true A b, image_mem_activeKept hI hb hmb hnb,
    image_true_Pc_congr h, image_nId _ _ _, image_nId _ _ _,
    (image_true_Pc_lt_of_migrates ha hma).1,
    by rw [image_nId]; exact hna, by rw [image_nId]; exact hnb⟩

theorem safeLink_of_same_Pc (hI : DoublingInv A) {a b : T} (ha : a ∈ A) (hb : b ∈ A)
    (h : a.Pc = b.Pc) (hma : Migrates A a.Pc) (hna : a.nId ≠ MAX_NID)
    (hnb : b.nId ≠ MAX_NID) : safeLink (activeKept A) a.nId b.nId :=
  safeLink_of_image hI ha hb (img2_Pc_congr h) hma (by rw [← h]; exact hma) hna hnb

/-- A tuple of a partition that migrates is joined, after the iteration, to a tuple that
carried a given partition id below `MAX_PID2` at a node of a partition with the same new id;
when that node is `MAX_NID`, whose tuples the doubling erases, the chain runs through the
tuples of partition `MAX_PID` instead. -/
theorem chain_via_node (hI : DoublingInv A) {u e w' : T} (hu : u ∈ A) (he : e ∈ A)
    (hw' : w' ∈ A) (hn : u.nId ≠ MAX_NID) (hm : Migrates A u.Pc) (hem : Migrates A e.Pc)
    (hue : (img2 A u).Pc = (img2 A e).Pc) (hen : w'.nId = e.nId) (hlt : w'.Pc < MAX_PID2) :
    ∃ s ∈ A, s.Pc = w'.Pc ∧ s.nId ≠ MAX_NID ∧ Migrates A s.Pc ∧
      Relation.ReflTransGen (safeLink (activeKept A)) u.nId s.nId := by
  have hw'm : Migrates A w'.Pc := migrates_at_node he hw' hen.symm hem (Or.inr hlt)
  have hw'c : w'.Pc ≠ MAX_PID := ne_of_lt (lt_trans hlt MAX_PID2_lt_MAX_PID)
  by_cases hE : e.nId = MAX_NID
  · obtain ⟨s2, hs2, r2, hr2, hs2c, hr2c, hs2r2, hs2n⟩ :=
      hI.paired w' hw' (by rw [hen]; exact hE) hw'c
    have hs2m : Migrates A s2.Pc := by rw [hs2c]; exact hw'm
    have hMP : Migrates A MAX_PID := by
      have := (migrates_of_node_pair hs2 hr2 hs2r2 (by rw [hs2c, hr2c]; exact hw'c)
        (Or.inl (by rw [hs2c]; exact hlt))).2
      rw [hr2c] at this
      exact this
    have hr2n : r2.nId ≠ MAX_NID := by rw [← hs2r2]; exact hs2n
    refine ⟨s2, hs2, hs2c, hs2n, hs2m, ?_⟩
    rw [hs2r2]
    by_cases hec : e.Pc = MAX_PID
    · have h2 : (img2 A u).Pc = (img2 A r2).Pc :=
        hue.trans (img2_Pc_congr (hec.trans hr2c.symm))
      exact Relation.ReflTransGen.single
        (safeLink_of_image hI hu hr2 h2 hm (by rw [hr2c]; exact hMP) hn hr2n)
    · obtain ⟨s, hs, r, hr, hsc, hrc, hsr, hsn⟩ := hI.paired e he hE hec
      have h2 : (img2 A u).Pc = (img2 A s).Pc := hue.trans (img2_Pc_congr hsc.symm)
      have hl1 : safeLink (activeKept A) u.nId s.nId :=
        safeLink_of_image hI hu hs h2 hm (by rw [hsc]; exact hem) hn hsn
      have hl2 : safeLink (activeKept A) r.nId r2.nId :=
        safeLink_of_same_Pc hI hr hr2 (hrc.trans hr2c.symm) (by rw [hrc]; exact hMP)
          (by rw [← hsr]; exact hsn) hr2n
      rw [hsr] at hl1
      exact Relation.ReflTransGen.tail (Relation.ReflTransGen.single hl1) hl2
  · refine ⟨w', hw', rfl, by rw [hen]; exact hE, hw'm, ?_⟩
    rw [hen]
    exact Relation.ReflTransGen.single (safeLink_of_image hI hu he hue hm hem hn hE)

/-- A tuple of a partition that migrates is joined, after the iteration, to a tuple that
carried the partition id which `updatePc` gives it. -/
theorem chain_to_parent (hI : DoublingInv A) {u : T} (hu : u ∈ A) (hn : u.nId ≠ MAX_NID)
    (hm : Migrates A u.Pc) :
    ∃ s ∈ A, s.Pc = (img2 A u).Pc ∧ s.nId ≠ MAX_NID ∧ Migrates A s.Pc ∧
      Relation.ReflTransGen (safeLink (activeKept A)) u.nId s.nId := by
  obtain ⟨h1, _, w, hw, hwc, _, hmin⟩ := img2_of_migrates hu hm
  obtain ⟨w', hw', hw'n, hw'c⟩ := minPc_mem hw
  have heq : w'.Pc = (img2 A u).Pc := by rw [h1, hmin, hw'c]
  have hlt : w'.Pc < MAX_PID2 := by rw [heq]; exact (migrates_img2 hu hm).2
  rw [← heq]
  exact chain_via_node hI hu hw hw' hn hm (by rw [hwc]; exact hm) (img2_Pc_congr hwc.symm)
    hw'n hlt

theorem ne_MAX_NID_of_chain {v v' : Nat} (h : Relation.ReflTransGen (safeLink A) v v')
    (hv' : v' ≠ MAX_NID) : v ≠ MAX_NID := by
  rcases Relation.ReflTransGen.cases_head h with rfl | ⟨m, hl, _⟩
  · exact hv'
  · obtain ⟨a, _, b, _, _, han, _, _, hna, _⟩ := hl
    rw [← han]; exact hna

/-- A chain of links that starts at a node of a partition that migrates, with an id below
`MAX_PID2`, is a chain of links after the iteration, and it ends at such a node. -/
theorem chain_maps (hI : DoublingInv A) {v v' : Nat}
    (h : Relation.ReflTransGen (safeLink A) v v') :
    (∃ c ∈ A, c.nId = v ∧ Migrates A c.Pc ∧ c.Pc < MAX_PID2) →
    Relation.ReflTransGen (safeLink (activeKept A)) v v' ∧
      ∃ c' ∈ A, c'.nId = v' ∧ Migrates A c'.Pc ∧ c'.Pc < MAX_PID2 := by
  induction h with
  | refl => exact fun h0 => ⟨Relation.ReflTransGen.refl, h0⟩
  | tail _ hl ih =>
    intro h0
    obtain ⟨hch, c, hc, hcn, hcm, hclt⟩ := ih h0
    obtain ⟨a, ha, b, hb, hab, han, hbn, halt, hna, hnb⟩ := hl
    have ham : Migrates A a.Pc := migrates_at_node hc ha (by rw [hcn, han]) hcm (Or.inl hclt)
    have hlink := safeLink_of_same_Pc hI ha hb hab ham hna hnb
    rw [han, hbn] at hlink
    exact ⟨Relation.ReflTransGen.tail hch hlink,
      b, hb, hbn, by rw [← hab]; exact ham, by rw [← hab]; exact halt⟩

/-- A tuple of a partition that migrates is joined, after the iteration, to a tuple that
carried the partition id it ends with. -/
theorem chain_to_label (hI : DoublingInv A) {u : T} (hu : u ∈ A) (hn : u.nId ≠ MAX_NID)
    (hm : Migrates A u.Pc) :
    ∃ s ∈ A, s.Pc = (image true A u).Pc ∧ s.nId ≠ MAX_NID ∧ Migrates A s.Pc ∧
      Relation.ReflTransGen (safeLink (activeKept A)) u.nId s.nId := by
  have hl1 := migrates_img2 hu hm
  have hPc := image_true_Pc_of_migrates hu hm
  have hle := minPn_flipped_le_of_migrates hu hm
  have hmem : img2 A u ∈ flipped A :=
    mem_flipped_of_ne hu (ne_of_lt (lt_trans hl1.2 MAX_PID2_lt_MAX_PID))
  obtain ⟨f, hf, hfc, hfn⟩ := minPn_mem hmem
  have hfl : f.Pn < MAX_PID2 := by rw [hfn]; exact lt_of_le_of_lt hle hl1.2
  rw [hPc, ← hfn]
  rcases mem_flipped_cases_gen hf with ⟨e, he, _, rfl⟩ | ⟨t, ht, htm, hft, d, hd, hdn, hfd⟩ |
    ⟨e, he, hec, hnm, hfe, _⟩
  · have hem : Migrates A e.Pc := by
      by_contra hnm
      rw [img2_of_not_migrates hnm] at hfl
      exact absurd (lt_trans hfl MAX_PID2_lt_MAX_PID) (lt_irrefl _)
    have hPn := (img2_of_migrates he hem).2.1
    have hena : ¬ NodeAgrees A e.nId := by
      intro ha
      rw [hPn, setPn_Pn_of_agrees he ha] at hfl
      exact lt_irrefl _ hfl
    obtain ⟨w', hw', hw'n, hw'c⟩ := minPc_mem he
    have hfw : (img2 A e).Pn = w'.Pc := by
      rw [hPn, setPn_Pn_of_not_agrees he hena, hw'c]
    rw [hfw]
    exact chain_via_node hI hu he hw' hn hm hem hfc.symm hw'n (by rw [← hfw]; exact hfl)
  · have hdc : d.Pc ≠ MAX_PID := by
      rw [← hfd]; exact ne_of_lt (lt_trans hfl MAX_PID2_lt_MAX_PID)
    obtain ⟨d0, hd0, rfl⟩ := mem_doublingRange_of_ne hd hdc
    rw [img2_nId] at hdn
    have hd0n : d0.nId = (img2 A u).Pc := by rw [hdn, ← hft, hfc]
    have hd0M : d0.nId ≠ MAX_NID := by
      rw [hd0n]; exact ne_of_lt (lt_trans hl1.2 MAX_PID2_lt_MAX_NID)
    obtain ⟨s1, hs1, hs1c, hs1n, hs1m, hch1⟩ := chain_to_parent hI hu hn hm
    obtain ⟨t0, ht0, ht0c, hchA⟩ := hI.linked d0 hd0 s1 hs1 (by rw [hs1c, hd0n])
    have ht0n : t0.nId ≠ MAX_NID := ne_MAX_NID_of_chain hchA hd0M
    have ht0m : Migrates A t0.Pc := by rw [ht0c]; exact hs1m
    have ht0lt : t0.Pc < MAX_PID2 := by rw [ht0c, hs1c]; exact hl1.2
    obtain ⟨hch2, c', hc', hc'n, hc'm, hc'lt⟩ :=
      chain_maps hI hchA ⟨t0, ht0, rfl, ht0m, ht0lt⟩
    have hd0m : Migrates A d0.Pc := migrates_at_node hc' hd0 hc'n hc'm (Or.inl hc'lt)
    have hlink : safeLink (activeKept A) s1.nId t0.nId :=
      safeLink_of_same_Pc hI hs1 ht0 ht0c.symm hs1m hs1n ht0n
    obtain ⟨s, hs, hsc, hsn, hsm, hch3⟩ := chain_to_parent hI hd0 hd0M hd0m
    refine ⟨s, hs, by rw [hsc, hfd], hsn, hsm, ?_⟩
    exact ((hch1.tail hlink).trans hch2).trans hch3
  · exfalso
    obtain ⟨s, hs, hsn, hsc⟩ := hI.anchored e he hec
    have hslt : s.Pc < MAX_PID2 := by rw [hsc, ← hfe, hfc]; exact hl1.2
    have hne : s.Pc ≠ e.Pc := by
      rw [hec]; exact ne_of_lt (lt_trans hslt MAX_PID2_lt_MAX_PID)
    have := (migrates_of_node_pair hs he hsn hne (Or.inl hslt)).2
    rw [hec] at this
    exact hnm this

/-- After an iteration with doubling, a partition id never names both a stable and an active
tuple of the new active range. -/
theorem activeAfter_true_no_mix (hI : DoublingInv A) :
    ∀ t' ∈ activeAfter true A, ∀ u' ∈ activeAfter true A,
      t'.Pc = u'.Pc → t'.Pn = MAX_PID → u'.Pn = MAX_PID := by
  intro t' ht' u' hu' hpc hPn
  obtain ⟨t, ht, hts, rfl⟩ := mem_activeAfter_true.1 ht'
  obtain ⟨u, hu, hus, rfl⟩ := mem_activeAfter_true.1 hu'
  rw [image_Pn] at hPn ⊢
  have htm : ¬ Migrates A t.Pc := (img2_Pn_eq_MAX_PID_iff_not_migrates hI.bounded ht).1 hPn
  have htc := (of_survives_img2 hts).2 htm
  rw [image_true_of_not_migrates hI ht htm htc] at hpc
  rw [img2_Pn_eq_MAX_PID_iff_not_migrates hI.bounded hu]
  intro hum
  obtain ⟨s, _, hsc, _, hsm, _⟩ := chain_to_label hI hu (of_survives_img2 hus).1 hum
  rw [hsc, ← hpc] at hsm
  exact htm hsm

/-- After an iteration with doubling no tuple of the new active range has the partition id
`MAX_PID` or the node id `MAX_NID`. -/
theorem activeAfter_true_regular (hI : DoublingInv A) :
    ∀ t' ∈ activeAfter true A, t'.Pc < MAX_PID ∧ t'.nId ≠ MAX_NID := by
  intro t' ht'
  obtain ⟨t, ht, hts, rfl⟩ := mem_activeAfter_true.1 ht'
  have hn := (of_survives_img2 hts).1
  refine ⟨?_, by rw [image_nId]; exact hn⟩
  by_cases hm : Migrates A t.Pc
  · exact lt_trans (image_true_Pc_lt_of_migrates ht hm).1 MAX_PID2_lt_MAX_PID
  · have hc := (of_survives_img2 hts).2 hm
    rw [image_true_of_not_migrates hI ht hm hc]
    exact lt_of_le_of_ne (hI.bounded t ht) hc

/-- After the iteration, a tuple whose new partition id is the id of a node is joined to that
node, when its partition migrates. -/
theorem linked_after (hI : DoublingInv A) {t u : T} (ht : t ∈ A) (hu : u ∈ A)
    (htn : t.nId ≠ MAX_NID) (hun : u.nId ≠ MAX_NID) (hm : Migrates A u.Pc)
    (hx : (image true A u).Pc = t.nId) :
    Relation.ReflTransGen (safeLink (activeKept A)) u.nId t.nId := by
  obtain ⟨s, hs, hsc, hsn, hsm, hch1⟩ := chain_to_label hI hu hun hm
  obtain ⟨t0, ht0, ht0c, hchA⟩ := hI.linked t ht s hs (by rw [hsc, hx])
  have ht0n : t0.nId ≠ MAX_NID := ne_MAX_NID_of_chain hchA htn
  have ht0m : Migrates A t0.Pc := by rw [ht0c]; exact hsm
  have ht0lt : t0.Pc < MAX_PID2 := by
    rw [ht0c, hsc]; exact (image_true_Pc_lt_of_migrates hu hm).1
  obtain ⟨hch2, _⟩ := chain_maps hI hchA ⟨t0, ht0, rfl, ht0m, ht0lt⟩
  have hlink : safeLink (activeKept A) s.nId t0.nId :=
    safeLink_of_same_Pc hI hs ht0 ht0c.symm hsm hsn ht0n
  exact (hch1.tail hlink).trans hch2

end doubling

end conn.coloring

namespace conn.coloring

/-! ## The invariant of the active range is kept, and holds for the array of the ingest -/

theorem mem_activeKept {A : List T} {t' : T} :
    t' ∈ activeKept A ↔ t' ∈ activeAfter true A ∧ t'.Pn ≠ MAX_PID := by
  unfold activeKept
  simp [List.mem_filter]

theorem safeLink_mono {X Y : List T} (h : ∀ t, t ∈ X → t ∈ Y) {v v' : Nat}
    (hl : safeLink X v v') : safeLink Y v v' := by
  obtain ⟨a, ha, b, hb, hrest⟩ := hl
  exact ⟨a, h a ha, b, h b hb, hrest⟩

section kept

variable {A : List T}

/-- A link of the active range is a link of the new active range. -/
theorem safeLink_image (hI : DoublingInv A) {v v' : Nat} (hl : safeLink A v v') :
    safeLink (activeAfter true A) v v' := by
  obtain ⟨a, ha, b, hb, hab, han, hbn, halt, hna, hnb⟩ := hl
  have hsv : ∀ c ∈ A, c.Pc < MAX_PID2 → c.nId ≠ MAX_NID → survives (img2 A c) = true := by
    intro c hc hclt hcn
    rw [survives_iff, img2_nId]
    exact ⟨ne_of_lt (lt_of_le_of_lt (img2_Pc_le hc) (lt_trans hclt MAX_PID2_lt_MAX_PID)), hcn⟩
  have hblt : b.Pc < MAX_PID2 := by rw [← hab]; exact halt
  refine ⟨image true A a, mem_activeAfter_true.2 ⟨a, ha, hsv a ha halt hna, rfl⟩,
    image true A b, mem_activeAfter_true.2 ⟨b, hb, hsv b hb hblt hnb, rfl⟩,
    image_Pc_congr true hab, by rw [image_nId, han], by rw [image_nId, hbn], ?_,
    by rw [image_nId]; exact hna, by rw [image_nId]; exact hnb⟩
  by_cases hm : Migrates A a.Pc
  · exact (image_true_Pc_lt_of_migrates ha hm).1
  · rw [image_true_of_not_migrates hI ha hm (ne_of_lt (lt_trans halt MAX_PID2_lt_MAX_PID))]
    exact halt

/-- The tuples that stay active after an iteration with doubling satisfy the invariant. -/
theorem doublingInv_activeKept (hI : DoublingInv A) : DoublingInv (activeKept A) := by
  have hreg := activeAfter_true_regular hI
  refine ⟨?_, ?_, ?_, ?_⟩
  · intro t ht
    exact le_of_lt (hreg t (mem_activeKept.1 ht).1).1
  · intro w hw hwn
    exact absurd hwn (hreg w (mem_activeKept.1 hw).1).2
  · intro e he hec
    exact absurd hec (ne_of_lt (hreg e (mem_activeKept.1 he).1).1)
  · intro t' ht' u' hu' hx
    obtain ⟨ht'a, _⟩ := mem_activeKept.1 ht'
    obtain ⟨hu'a, hu'P⟩ := mem_activeKept.1 hu'
    obtain ⟨t, ht, hts, rfl⟩ := mem_activeAfter_true.1 ht'a
    obtain ⟨u, hu, hus, rfl⟩ := mem_activeAfter_true.1 hu'a
    rw [image_nId] at hx
    have hum : Migrates A u.Pc := by
      by_contra hnm
      apply hu'P
      rw [image_Pn]
      exact (img2_Pn_eq_MAX_PID_iff_not_migrates hI.bounded hu).2 hnm
    refine ⟨image true A u, hu', rfl, ?_⟩
    rw [image_nId, image_nId]
    exact linked_after hI ht hu (of_survives_img2 hts).1 (of_survives_img2 hus).1 hum hx

/-- The whole new active range of an iteration with doubling satisfies the invariant. -/
theorem doublingInv_activeAfter (hI : DoublingInv A) : DoublingInv (activeAfter true A) := by
  have hreg := activeAfter_true_regular hI
  refine ⟨?_, ?_, ?_, ?_⟩
  · intro t ht
    exact le_of_lt (hreg t ht).1
  · intro w hw hwn
    exact absurd hwn (hreg w hw).2
  · intro e he hec
    exact absurd hec (ne_of_lt (hreg e he).1)
  · intro t' ht' u' hu' hx
    obtain ⟨t, ht, hts, rfl⟩ := mem_activeAfter_true.1 ht'
    obtain ⟨u, hu, hus, rfl⟩ := mem_activeAfter_true.1 hu'
    rw [image_nId] at hx
    have htn := (of_survives_img2 hts).1
    by_cases hum : Migrates A u.Pc
    · refine ⟨image true A u, hu', rfl, ?_⟩
      rw [image_nId, image_nId]
      exact Relation.ReflTransGen.mono
        (fun _ _ hl => safeLink_mono (fun c hc => (mem_activeKept.1 hc).1) hl)
        (linked_after hI ht hu htn (of_survives_img2 hus).1 hum hx)
    · have huc := (of_survives_img2 hus).2 hum
      rw [image_true_of_not_migrates hI hu hum huc] at hx ⊢
      simp only [] at hx ⊢
      obtain ⟨t0, ht0, ht0c, hchA⟩ := hI.linked t ht u hu hx
      have ht0n : t0.nId ≠ MAX_NID := ne_MAX_NID_of_chain hchA htn
      have ht0m : ¬ Migrates A t0.Pc := by rw [ht0c]; exact hum
      have ht0P : t0.Pc ≠ MAX_PID := by rw [ht0c]; exact huc
      refine ⟨{ t0 with Pn := MAX_PID },
        image_mem_activeAfter_of_not_migrates hI ht0 ht0m ht0P ht0n, ht0c, ?_⟩
      rw [image_nId]
      exact Relation.ReflTransGen.mono (fun _ _ hl => safeLink_image hI hl) hchA

end kept

/-! ### The array of the ingest -/

theorem toPid_le (v : Nat) : toPid v ≤ MAX_PID := by
  unfold toPid MAX_PID
  have : v % 2 ^ pIdBits < 2 ^ pIdBits := Nat.mod_lt _ (by unfold pIdBits; norm_num)
  omega

theorem toPid_MAX_NID : toPid MAX_NID = MAX_PID := by
  unfold toPid MAX_NID MAX_PID nIdBits pIdBits; norm_num

theorem toPid_toPid (v : Nat) : toPid (toPid v) = toPid v := by
  unfold toPid
  exact Nat.mod_mod _ _

/-- In the array built from an edge list with both directions of every edge, every node has the
tuple of its self loop. -/
theorem selfLoop_mem_convert {edgeList : List (Nat × Nat)} (hsym : symmetricEdges edgeList)
    {t : T} (ht : t ∈ convertEdgeListforCCL edgeList) :
    (⟨toPid t.nId, MAX_PID, t.nId⟩ : T) ∈ convertEdgeListforCCL edgeList := by
  obtain ⟨e, he, h | h⟩ := mem_convertEdgeListforCCL.1 ht
  · rw [h]
    exact mem_convertEdgeListforCCL.2 ⟨e, he, Or.inl rfl⟩
  · rw [h]
    exact mem_convertEdgeListforCCL.2 ⟨(e.2, e.1), hsym e he, Or.inl rfl⟩

/-- The array built from an edge list with both directions of every edge, whatever its vertex
ids, satisfies the invariant of the active range. -/
theorem doublingInv_convert {edgeList : List (Nat × Nat)} (hsym : symmetricEdges edgeList) :
    DoublingInv (convertEdgeListforCCL edgeList) := by
  refine ⟨?_, ?_, ?_, ?_⟩
  · intro t ht
    obtain ⟨e, _, h | h⟩ := mem_convertEdgeListforCCL.1 ht <;> rw [h] <;> exact toPid_le _
  · intro w hw hwn hwc
    obtain ⟨e, he, h | h⟩ := mem_convertEdgeListforCCL.1 hw
    · exfalso
      rw [h] at hwn hwc
      simp only [] at hwn hwc
      rw [hwn] at hwc
      exact hwc toPid_MAX_NID
    · rw [h] at hwn hwc
      simp only [] at hwn hwc
      refine ⟨⟨toPid e.1, MAX_PID, e.1⟩, mem_convertEdgeListforCCL.2 ⟨e, he, Or.inl rfl⟩,
        ⟨toPid e.2, MAX_PID, e.1⟩,
        mem_convertEdgeListforCCL.2 ⟨(e.2, e.1), hsym e he, Or.inr rfl⟩, ?_, ?_, rfl, ?_⟩
      · rw [h]
      · show toPid e.2 = MAX_PID
        rw [hwn]; exact toPid_MAX_NID
      · show e.1 ≠ MAX_NID
        intro h1
        rw [h1] at hwc
        exact hwc toPid_MAX_NID
  · intro e he _
    exact ⟨⟨toPid e.nId, MAX_PID, e.nId⟩, selfLoop_mem_convert hsym he, rfl, rfl⟩
  · intro t ht t' ht' hx
    refine ⟨⟨toPid t.nId, MAX_PID, t.nId⟩, selfLoop_mem_convert hsym ht, ?_,
      Relation.ReflTransGen.refl⟩
    show toPid t.nId = t'.Pc
    rw [← hx]
    obtain ⟨e, _, h | h⟩ := mem_convertEdgeListforCCL.1 ht' <;> rw [h] <;> exact toPid_toPid _

/-! ### Without doubling -/

/-- After an iteration without doubling, a partition id never names both a stable and an
active tuple of the new active range. -/
theorem activeAfter_false_no_mix {A : List T} (hb : PcBounded A) :
    ∀ t' ∈ activeAfter false A, ∀ u' ∈ activeAfter false A,
      t'.Pc = u'.Pc → t'.Pn = MAX_PID → u'.Pn = MAX_PID := by
  intro t' ht' u' hu' hpc hPn
  rw [activeAfter_false] at ht' hu'
  obtain ⟨t, ht, rfl⟩ := mem_updatePc_iff_img2.1 ht'
  obtain ⟨u, hu, rfl⟩ := mem_updatePc_iff_img2.1 hu'
  have htm : ¬ Migrates A t.Pc := (img2_Pn_eq_MAX_PID_iff_not_migrates hb ht).1 hPn
  rw [img2_Pn_eq_MAX_PID_iff_not_migrates hb hu]
  intro hum
  have := (migrates_img2 hu hum).1
  rw [← hpc, img2_of_not_migrates htm] at this
  exact htm this

/-! ### The loop state -/

/-- One pass through the body of the loop keeps the invariant of the loop state, and after it no
partition id names both a stable and an active tuple of the array. -/
theorem splitInv_iteration (O : opt_level) (D : Bool) (s : LoopState) (hJ : SplitInv D s) :
    SplitInv D (iteration O D s) ∧
    ∀ t ∈ (iteration O D s).tupleVector, ∀ u ∈ (iteration O D s).tupleVector,
      t.Pc = u.Pc → t.Pn = MAX_PID → u.Pn = MAX_PID := by
  have hmix : ∀ t' ∈ activeAfter D (activeOf s), ∀ u' ∈ activeAfter D (activeOf s),
      t'.Pc = u'.Pc → t'.Pn = MAX_PID → u'.Pn = MAX_PID := by
    cases D with
    | false => exact activeAfter_false_no_mix hJ.bounded
    | true => exact activeAfter_true_no_mix (hJ.doubling rfl)
  have hsub : ∀ t ∈ activeAfter D (activeOf s), ∃ u ∈ activeOf s, u.Pc = t.Pc :=
    fun t ht => Pc_activeAfter_mem D ht
  have hdis : ∀ t ∈ stableOf s, ∀ u ∈ activeAfter D (activeOf s), t.Pc ≠ u.Pc := by
    intro t ht u hu heq
    obtain ⟨u0, hu0, hu0c⟩ := hsub u hu
    exact hJ.disjoint t ht u0 hu0 (by rw [hu0c, heq])
  have hbd : PcBounded (activeAfter D (activeOf s)) := by
    intro t ht
    obtain ⟨u0, hu0, hu0c⟩ := hsub t ht
    rw [← hu0c]
    exact hJ.bounded u0 hu0
  constructor
  · by_cases hc : convergedOn D (activeOf s) = true ∨ O = opt_level.naive
    · obtain ⟨h1, h2, _⟩ := iteration_parts_kept O D s hc
      refine ⟨?_, ?_, ?_, ?_⟩
      · rw [h1]; exact hJ.stablePn
      · rw [h1, h2]; exact hdis
      · rw [h2]; exact hbd
      · intro hD
        subst hD
        rw [h2]
        exact doublingInv_activeAfter (hJ.doubling rfl)
    · have hc1 : convergedOn D (activeOf s) = false := by
        cases h : convergedOn D (activeOf s)
        · rfl
        · exact absurd (Or.inl h) hc
      have hO : O ≠ opt_level.naive := fun h => hc (Or.inr h)
      obtain ⟨h1, h2, _⟩ := iteration_parts_moved O D s hc1 hO
      refine ⟨?_, ?_, ?_, ?_⟩
      · rw [h1]
        intro t ht
        rcases List.mem_append.1 ht with h | h
        · exact hJ.stablePn t h
        · simpa using (List.mem_filter.1 h).2
      · rw [h1, h2]
        intro t ht u hu
        have hu1 := (List.mem_filter.1 hu).1
        have hu2 : u.Pn ≠ MAX_PID := by simpa using (List.mem_filter.1 hu).2
        rcases List.mem_append.1 ht with h | h
        · exact hdis t h u hu1
        · intro heq
          have ht2 : t.Pn = MAX_PID := by simpa using (List.mem_filter.1 h).2
          exact hu2 (hmix t (List.mem_filter.1 h).1 u hu1 heq ht2)
      · rw [h2]
        intro t ht
        exact hbd t (List.mem_filter.1 ht).1
      · intro hD
        subst hD
        rw [h2]
        exact doublingInv_activeKept (hJ.doubling rfl)
  · intro t ht u hu heq hPn
    rcases mem_tupleVector_iteration.1 hu with h | h
    · exact hJ.stablePn u h
    · rcases mem_tupleVector_iteration.1 ht with h' | h'
      · exact absurd heq (hdis t h' u h)
      · exact hmix t h' u h heq hPn

/-- The loop state in which the loop is entered on the array built from an edge list with both
directions of every edge satisfies the invariant of the loop state. -/
theorem splitInv_initial {edgeList : List (Nat × Nat)} (hsym : symmetricEdges edgeList)
    (D : Bool) : SplitInv D (initialState (convertEdgeListforCCL edgeList)) := by
  refine ⟨?_, ?_, ?_, ?_⟩
  · intro t ht
    rw [stableOf_initialState] at ht
    simp at ht
  · intro t ht
    rw [stableOf_initialState] at ht
    simp at ht
  · rw [activeOf_initialState]
    exact (doublingInv_convert hsym).bounded
  · intro _
    rw [activeOf_initialState]
    exact doublingInv_convert hsym

theorem splitInv_iterate {edgeList : List (Nat × Nat)} (hsym : symmetricEdges edgeList)
    (O : opt_level) (D : Bool) (k : Nat) :
    SplitInv D ((iteration O D)^[k] (initialState (convertEdgeListforCCL edgeList))) := by
  induction k with
  | zero => exact splitInv_initial hsym D
  | succ k ih =>
    rw [Function.iterate_succ_apply']
    exact (splitInv_iteration O D _ ih).1

/-- After every iteration from the array built from an edge list with both directions of every
edge, whatever its vertex ids, a partition with a stable tuple has only stable tuples. -/
theorem no_mix_iterate {edgeList : List (Nat × Nat)} (hsym : symmetricEdges edgeList)
    (O : opt_level) (D : Bool) (k : Nat) :
    ∀ t ∈ ((iteration O D)^[k + 1]
        (initialState (convertEdgeListforCCL edgeList))).tupleVector,
    ∀ u ∈ ((iteration O D)^[k + 1]
        (initialState (convertEdgeListforCCL edgeList))).tupleVector,
      t.Pc = u.Pc → t.Pn = MAX_PID → u.Pn = MAX_PID := by
  rw [Function.iterate_succ_apply']
  exact (splitInv_iteration O D _ (splitInv_iterate hsym O D k)).2

end conn.coloring

namespace conn.coloring

/-! ## The claims -/

/-- C3: from the array built from any edge list, at every optimization level and with doubling
on or off, the loop `while(!converged)` of `runConnectedComponentLabeling` ends after finitely
many iterations, with `updatePc` reporting convergence. -/
theorem runConnectedComponentLabeling_terminates (OPTIMIZATION : opt_level) (DOUBLING : Bool)
    (edgeList : List (Nat × Nat)) :
    ∃ fuel s, runConnectedComponentLabeling OPTIMIZATION DOUBLING fuel
        (convertEdgeListforCCL edgeList) = some s ∧ s.converged = true := by
  obtain ⟨fuel, s, hs⟩ := whileNotConverged_terminates OPTIMIZATION DOUBLING _ _
    { tupleVector := convertEdgeListforCCL edgeList, distance_begin_mid := 0,
      converged := false, iterCount := 0 } rfl rfl
  obtain ⟨_, _, _, hc, _⟩ := whileNotConverged_some OPTIMIZATION DOUBLING fuel _ s hs
  exact ⟨fuel, s, hs, hc⟩

/-- C7: the number of distinct `Pc` values of the whole array after one iteration of the main
loop (`updatePn`, `updatePc`, optional doubling, optional stabilization) is at most the number
before that iteration. -/
theorem distinctPcCount_iteration_le (OPTIMIZATION : opt_level) (DOUBLING : Bool)
    (s : LoopState) :
    distinctPcCount (iteration OPTIMIZATION DOUBLING s).tupleVector
      ≤ distinctPcCount s.tupleVector :=
  distinctPcCount_le_of_subset (fun _ ht => Pc_iteration_mem OPTIMIZATION DOUBLING s ht)

/-- C9: applying `updatePn` to its own result (no `updatePc` in between) gives the same array,
element for element, as applying it once. -/
theorem updatePn_idempotent (rank size : Nat) (prevMinPc nextMaxPc : T) (range : List T) :
    updatePn rank size prevMinPc nextMaxPc (updatePn rank size prevMinPc nextMaxPc range)
      = updatePn rank size prevMinPc nextMaxPc range :=
  updatePn_updatePn rank size prevMinPc nextMaxPc range

/-- C10: `computeComponentCount` sets the component count to the number of distinct `Pc`
values of the array, whatever the order of the array on entry, and a second run changes
neither the count nor the array. -/
theorem computeComponentCount_distinct_idempotent (c : ccl) :
    (computeComponentCount c).componentCount = distinctPcCount c.tupleVector ∧
    computeComponentCount (computeComponentCount c) = computeComponentCount c :=
  ⟨computeComponentCount_count c, computeComponentCount_twice c⟩

end conn.coloring

namespace conn.coloring

/-! ## The labels of the components -/

/-- C1, as stated, fails: `wideEdge` holds one edge in both directions between the vertices
`2 ^ 32` and `2 ^ 32 + 1`, ids that avoid the three sentinels, also once narrowed to a
partition id; `compute` labels the triples of vertex `2 ^ 32` with `Pc = 0`, and `0` is not a
vertex of the component of `2 ^ 32`. -/
theorem compute_wideEdge_label_not_component_min :
    wideEdge ≠ [] ∧ symmetricEdges wideEdge ∧ avoidsSentinels wideEdge ∧
    ∃ c, compute opt_level.naive true 2 (ccl.new wideEdge) = Except.ok c ∧
      ∃ t ∈ c.tupleVector, ¬ IsCompMin wideEdge t.nId t.Pc := by
  refine ⟨by decide, by decide, by decide,
    { tupleVector := [⟨0, 4294967295, 4294967296⟩, ⟨0, 4294967295, 4294967296⟩,
        ⟨0, 4294967295, 4294967297⟩, ⟨0, 4294967295, 4294967297⟩],
      componentCount := 1 }, rfl, ⟨0, 4294967295, 4294967296⟩, by simp, ?_⟩
  intro h
  rcases connected_eq_or_isVertex h.1 with h0 | ⟨e, he, h0⟩
  · exact absurd h0 (by decide)
  · simp only [wideEdge, List.mem_cons, List.mem_singleton, List.not_mem_nil, or_false] at he
    rcases he with rfl | rfl <;> simp at h0

/-- C1, amended: for every non-empty edge list that holds both directions of every edge and
whose vertex ids are at most `MAX_PID - 2`, at every optimization level and with doubling on
or off, `compute` returns, and the array it leaves holds the node ids of the ingest, every
triple with `Pc` equal to the least vertex id of the connected component of its `nId`. -/
theorem compute_labels_component_min (OPTIMIZATION : opt_level) (DOUBLING : Bool)
    (edgeList : List (Nat × Nat)) (hne : edgeList ≠ []) (hsym : symmetricEdges edgeList)
    (hbd : boundedIds edgeList) :
    (∃ fuel c, compute OPTIMIZATION DOUBLING fuel (ccl.new edgeList) = Except.ok c) ∧
    ∀ fuel c, compute OPTIMIZATION DOUBLING fuel (ccl.new edgeList) = Except.ok c →
      (c.tupleVector.map T.nId).Perm ((convertEdgeListforCCL edgeList).map T.nId) ∧
      ∀ t ∈ c.tupleVector, IsCompMin edgeList t.nId t.Pc := by
  refine ⟨compute_terminates OPTIMIZATION DOUBLING ?_, ?_⟩
  · rw [ccl_new_tupleVector]; exact convertEdgeListforCCL_ne_nil hne
  · intro fuel c h
    obtain ⟨h1, h2, _⟩ := compute_isCompMin hne hsym hbd h
    exact ⟨h2, h1⟩

/-- The amended C1 on the edges `(1,2)` and `(3,4)`, both directions: the labels are `1` for
the vertices `1` and `2`, and `3` for the vertices `3` and `4`. -/
theorem compute_labels_component_min_witness :
    (twoIsolatedEdges ≠ [] ∧ symmetricEdges twoIsolatedEdges ∧ boundedIds twoIsolatedEdges) ∧
    compute opt_level.loadbalanced true 3 (ccl.new twoIsolatedEdges) = Except.ok
      { tupleVector := [⟨1, 4294967295, 1⟩, ⟨1, 4294967295, 1⟩, ⟨1, 4294967295, 2⟩,
          ⟨1, 4294967295, 2⟩, ⟨3, 4294967295, 3⟩, ⟨3, 4294967295, 3⟩, ⟨3, 4294967295, 4⟩,
          ⟨3, 4294967295, 4⟩],
        componentCount := 2 } ∧
    ((∃ fuel c, compute opt_level.loadbalanced true fuel (ccl.new twoIsolatedEdges)
        = Except.ok c) ∧
      ∀ fuel c, compute opt_level.loadbalanced true fuel (ccl.new twoIsolatedEdges)
          = Except.ok c →
        (c.tupleVector.map T.nId).Perm ((convertEdgeListforCCL twoIsolatedEdges).map T.nId) ∧
        ∀ t ∈ c.tupleVector, IsCompMin twoIsolatedEdges t.nId t.Pc) :=
  ⟨⟨by decide, by decide, by decide⟩, rfl,
    compute_labels_component_min opt_level.loadbalanced true twoIsolatedEdges (by decide)
      (by decide) (by decide)⟩

/-! ## The number of components -/

/-- C2, as stated, fails: `collidingEdges` holds the edge `0 - 1` and the edge
`2 ^ 32 - (2 ^ 32 + 1)`, both directions; the graph has two components and `compute` stores
the component count `1`. -/
theorem compute_collidingEdges_count_one :
    collidingEdges ≠ [] ∧ symmetricEdges collidingEdges ∧
    ∃ c, compute opt_level.naive true 2 (ccl.new collidingEdges) = Except.ok c ∧
      getComponentCount c = 1 ∧ ¬ HasComponentCount collidingEdges (getComponentCount c) := by
  refine ⟨by decide, by decide,
    { tupleVector := [⟨0, 4294967295, 0⟩, ⟨0, 4294967295, 0⟩, ⟨0, 4294967295, 1⟩,
        ⟨0, 4294967295, 1⟩, ⟨0, 4294967295, 4294967296⟩, ⟨0, 4294967295, 4294967296⟩,
        ⟨0, 4294967295, 4294967297⟩, ⟨0, 4294967295, 4294967297⟩],
      componentCount := 1 }, rfl, rfl, ?_⟩
  show ¬ HasComponentCount collidingEdges 1
  refine not_hasComponentCount_one (a := 0) (b := 4294967296) ⟨(0, 1), by decide, Or.inl rfl⟩
    ⟨(4294967296, 4294967297), by decide, Or.inl rfl⟩ ?_
  intro h
  exact absurd ((collidingEdges_connected h).1 (by decide)) (by decide)

/-- C2, amended: for every non-empty edge list that holds both directions of every edge and
whose vertex ids are at most `MAX_PID - 2`, at every optimization level and with doubling on
or off, `compute` returns, and the component count it stores, which `getComponentCount`
returns, is the number of connected components of the graph of the edge list. -/
theorem compute_componentCount (OPTIMIZATION : opt_level) (DOUBLING : Bool)
    (edgeList : List (Nat × Nat)) (hne : edgeList ≠ []) (hsym : symmetricEdges edgeList)
    (hbd : boundedIds edgeList) :
    (∃ fuel c, compute OPTIMIZATION DOUBLING fuel (ccl.new edgeList) = Except.ok c) ∧
    ∀ fuel c, compute OPTIMIZATION DOUBLING fuel (ccl.new edgeList) = Except.ok c →
      HasComponentCount edgeList (getComponentCount c) := by
  refine ⟨compute_terminates OPTIMIZATION DOUBLING ?_, ?_⟩
  · rw [ccl_new_tupleVector]; exact convertEdgeListforCCL_ne_nil hne
  · intro fuel c h
    obtain ⟨h1, h2, h3⟩ := compute_isCompMin hne hsym hbd h
    show HasComponentCount edgeList c.componentCount
    rw [h3]
    exact hasComponentCount_of_labels h1 h2

/-- The amended C2 on two disconnected triangles: the component count is `2`; on the single
self-loop edge `(7, 7)` it is `1`. -/
theorem compute_componentCount_witness :
    (twoTriangles ≠ [] ∧ symmetricEdges twoTriangles ∧ boundedIds twoTriangles) ∧
    (selfLoop ≠ [] ∧ symmetricEdges selfLoop ∧ boundedIds selfLoop ∧
      ∃ c, compute opt_level.loadbalanced true 1 (ccl.new selfLoop) = Except.ok c ∧
        getComponentCount c = 1) ∧
    (∃ c, compute opt_level.loadbalanced true 3 (ccl.new twoTriangles) = Except.ok c ∧
      getComponentCount c = 2) ∧
    ((∃ fuel c, compute opt_level.loadbalanced true fuel (ccl.new twoTriangles)
        = Except.ok c) ∧
      ∀ fuel c, compute opt_level.loadbalanced true fuel (ccl.new twoTriangles)
          = Except.ok c →
        HasComponentCount twoTriangles (getComponentCount c)) :=
  ⟨⟨by decide, by decide, by decide⟩,
    ⟨by decide, by decide, by decide,
      ⟨{ tupleVector := [⟨7, 4294967295, 7⟩, ⟨7, 4294967295, 7⟩],
         componentCount := 1 }, rfl, rfl⟩⟩,
    ⟨{ tupleVector := [⟨1, 4294967295, 1⟩, ⟨1, 4294967295, 1⟩, ⟨1, 4294967295, 1⟩,
        ⟨1, 4294967295, 2⟩, ⟨1, 4294967295, 2⟩, ⟨1, 4294967295, 2⟩, ⟨1, 4294967295, 3⟩,
        ⟨1, 4294967295, 3⟩, ⟨1, 4294967295, 3⟩, ⟨10, 4294967295, 10⟩, ⟨10, 4294967295, 10⟩,
        ⟨10, 4294967295, 10⟩, ⟨10, 4294967295, 11⟩, ⟨10, 4294967295, 11⟩,
        ⟨10, 4294967295, 11⟩, ⟨10, 4294967295, 12⟩, ⟨10, 4294967295, 12⟩,
        ⟨10, 4294967295, 12⟩],
       componentCount := 2 }, rfl, rfl⟩,
    compute_componentCount opt_level.loadbalanced true twoTriangles (by decide) (by decide)
      (by decide)⟩

/-! ## The six configurations and the sequential union-find -/

/-- C4, as stated, fails: on `collidingEdges` the array `compute` leaves puts the vertices `0`
and `2 ^ 32` in one partition, and the sequential union-find on the same edges keeps them
apart. -/
theorem compute_collidingEdges_differs_from_unionFind :
    collidingEdges ≠ [] ∧ symmetricEdges collidingEdges ∧
    ∃ c, compute opt_level.naive true 2 (ccl.new collidingEdges) = Except.ok c ∧
      ∃ t ∈ c.tupleVector, ∃ u ∈ c.tupleVector,
        t.Pc = u.Pc ∧ unionFind collidingEdges t.nId ≠ unionFind collidingEdges u.nId := by
  refine ⟨by decide, by decide,
    { tupleVector := [⟨0, 4294967295, 0⟩, ⟨0, 4294967295, 0⟩, ⟨0, 4294967295, 1⟩,
        ⟨0, 4294967295, 1⟩, ⟨0, 4294967295, 4294967296⟩, ⟨0, 4294967295, 4294967296⟩,
        ⟨0, 4294967295, 4294967297⟩, ⟨0, 4294967295, 4294967297⟩],
      componentCount := 1 }, rfl, ⟨0, 4294967295, 0⟩, by simp, ⟨0, 4294967295, 4294967296⟩,
    by simp, rfl, by decide⟩

/-- C4, amended: for every non-empty edge list that holds both directions of every edge and
whose vertex ids are at most `MAX_PID - 2`, `compute` returns in each of the six
configurations, the arrays of any two configurations hold the same `(Pc, nId)` pairs with the
same multiplicities, and in each of them the vertices are those of the edge list and two
triples have the same `Pc` exactly when the sequential union-find gives their vertices the same
representative. -/
theorem compute_configurations_agree (edgeList : List (Nat × Nat)) (hne : edgeList ≠ [])
    (hsym : symmetricEdges edgeList) (hbd : boundedIds edgeList) :
    (∀ (O : opt_level) (D : Bool), ∃ fuel c,
      compute O D fuel (ccl.new edgeList) = Except.ok c) ∧
    (∀ (O1 O2 : opt_level) (D1 D2 : Bool) (fuel1 fuel2 : Nat) (c1 c2 : ccl),
      compute O1 D1 fuel1 (ccl.new edgeList) = Except.ok c1 →
      compute O2 D2 fuel2 (ccl.new edgeList) = Except.ok c2 →
      (c1.tupleVector.map (fun t => (t.Pc, t.nId))).Perm
        (c2.tupleVector.map (fun t => (t.Pc, t.nId)))) ∧
    (∀ (O : opt_level) (D : Bool) (fuel : Nat) (c : ccl),
      compute O D fuel (ccl.new edgeList) = Except.ok c →
      (∀ v, IsVertex edgeList v ↔ ∃ t ∈ c.tupleVector, t.nId = v) ∧
      ∀ t ∈ c.tupleVector, ∀ u ∈ c.tupleVector,
        (t.Pc = u.Pc ↔ unionFind edgeList t.nId = unionFind edgeList u.nId)) := by
  refine ⟨?_, ?_, ?_⟩
  · intro O D
    refine compute_terminates O D ?_
    rw [ccl_new_tupleVector]; exact convertEdgeListforCCL_ne_nil hne
  · intro O1 O2 D1 D2 fuel1 fuel2 c1 c2 h1 h2
    obtain ⟨m1, p1, _⟩ := compute_isCompMin hne hsym hbd h1
    obtain ⟨m2, p2, _⟩ := compute_isCompMin hne hsym hbd h2
    exact pairs_perm_of_functional (P := IsCompMin edgeList)
      (fun v p p' h h' => IsCompMin_unique h h' Relation.ReflTransGen.refl) m1 m2
      (p1.trans p2.symm)
  · intro O D fuel c h
    obtain ⟨m, p, _⟩ := compute_isCompMin hne hsym hbd h
    refine ⟨isVertex_iff_mem_nId p, ?_⟩
    intro t ht u hu
    rw [unionFind_spec]
    constructor
    · intro hpc
      have h1 := (m t ht).1
      have h2 := (m u hu).1
      rw [hpc] at h1
      exact Connected_trans h1 (Connected_symm h2)
    · intro hc
      exact IsCompMin_unique (m t ht) (m u hu) hc

/-- The amended C4 on two disconnected triangles. -/
theorem compute_configurations_agree_witness :
    (twoTriangles ≠ [] ∧ symmetricEdges twoTriangles ∧ boundedIds twoTriangles) ∧
    ((∀ (O : opt_level) (D : Bool), ∃ fuel c,
      compute O D fuel (ccl.new twoTriangles) = Except.ok c) ∧
    (∀ (O1 O2 : opt_level) (D1 D2 : Bool) (fuel1 fuel2 : Nat) (c1 c2 : ccl),
      compute O1 D1 fuel1 (ccl.new twoTriangles) = Except.ok c1 →
      compute O2 D2 fuel2 (ccl.new twoTriangles) = Except.ok c2 →
      (c1.tupleVector.map (fun t => (t.Pc, t.nId))).Perm
        (c2.tupleVector.map (fun t => (t.Pc, t.nId)))) ∧
    (∀ (O : opt_level) (D : Bool) (fuel : Nat) (c : ccl),
      compute O D fuel (ccl.new twoTriangles) = Except.ok c →
      (∀ v, IsVertex twoTriangles v ↔ ∃ t ∈ c.tupleVector, t.nId = v) ∧
      ∀ t ∈ c.tupleVector, ∀ u ∈ c.tupleVector,
        (t.Pc = u.Pc ↔ unionFind twoTriangles t.nId = unionFind twoTriangles u.nId))) :=
  ⟨⟨by decide, by decide, by decide⟩,
    compute_configurations_agree twoTriangles (by decide) (by decide) (by decide)⟩

/-! ## The invariants of the main loop -/

/-- C5, as stated, fails. Before the first iteration every triple of the array built from the
edge `1 - 2`, both directions, has `Pn = MAX_PID`, the initial value of `Pn`, and the triple
`(2, MAX_PID, 2)` does not carry the least vertex id of its component. After an iteration the
same happens on the edge list `[(2, 1)]`, which lacks the reverse edge, and after the second
iteration on `wideEdge`, whose vertex ids do not fit a partition id. -/
theorem stable_triple_not_component_min :
    (∃ t ∈ (initialState (convertEdgeListforCCL oneEdge)).tupleVector,
      t.Pn = MAX_PID ∧ ¬ IsCompMin oneEdge t.nId t.Pc) ∧
    (∃ t ∈ (iteration opt_level.naive true
        (initialState (convertEdgeListforCCL oneDirectedEdge))).tupleVector,
      t.Pn = MAX_PID ∧ ¬ IsCompMin oneDirectedEdge t.nId t.Pc) ∧
    (∃ t ∈ ((iteration opt_level.naive true)^[2]
        (initialState (convertEdgeListforCCL wideEdge))).tupleVector,
      t.Pn = MAX_PID ∧ ¬ IsCompMin wideEdge t.nId t.Pc) := by
  refine ⟨⟨⟨2, 4294967295, 2⟩, ?_, rfl, ?_⟩, ⟨⟨2, 4294967295, 1⟩, ?_, rfl, ?_⟩,
    ⟨⟨0, 4294967295, 4294967296⟩, ?_, rfl, ?_⟩⟩
  · have h : (initialState (convertEdgeListforCCL oneEdge)).tupleVector =
        [⟨1, 4294967295, 1⟩, ⟨1, 4294967295, 2⟩, ⟨2, 4294967295, 2⟩, ⟨2, 4294967295, 1⟩] := rfl
    rw [h]; simp
  · intro h
    have h21 : Connected oneEdge 2 1 := Relation.ReflTransGen.single (Or.inl (by decide))
    exact absurd (h.2 1 h21) (by decide)
  · have h : (iteration opt_level.naive true
        (initialState (convertEdgeListforCCL oneDirectedEdge))).tupleVector =
        [⟨2, 4294967295, 1⟩, ⟨2, 4294967295, 2⟩] := rfl
    rw [h]; simp
  · intro h
    exact absurd (h.2 1 Relation.ReflTransGen.refl) (by decide)
  · have h : ((iteration opt_level.naive true)^[2]
        (initialState (convertEdgeListforCCL wideEdge))).tupleVector =
        [⟨0, 4294967295, 4294967296⟩, ⟨0, 4294967295, 4294967296⟩,
          ⟨0, 4294967295, 4294967297⟩, ⟨0, 4294967295, 4294967297⟩] := rfl
    rw [h]; simp
  · intro h
    rcases connected_eq_or_isVertex h.1 with h0 | ⟨e, he, h0⟩
    · exact absurd h0 (by decide)
    · simp only [wideEdge, List.mem_cons, List.mem_singleton, List.not_mem_nil, or_false] at he
      rcases he with rfl | rfl <;> simp at h0

/-- C5, amended: for every edge list that holds both directions of every edge and whose vertex
ids are at most `MAX_PID - 2`, after each iteration of the main loop, at every optimization
level and with doubling on or off, every triple with `Pn = MAX_PID` has `Pc` equal to the least
vertex id of the connected component of its `nId`. -/
theorem stable_triple_component_min (OPTIMIZATION : opt_level) (DOUBLING : Bool)
    (edgeList : List (Nat × Nat)) (hsym : symmetricEdges edgeList) (hbd : boundedIds edgeList)
    (k : Nat) :
    ∀ t ∈ ((iteration OPTIMIZATION DOUBLING)^[k + 1]
        (initialState (convertEdgeListforCCL edgeList))).tupleVector,
      t.Pn = MAX_PID → IsCompMin edgeList t.nId t.Pc :=
  (iterate_succ_spec hsym hbd OPTIMIZATION DOUBLING k).2

/-- The amended C5 on the self-loop edge `(7, 7)` next to the path `1-2-3-4`, after the first
iteration: the two triples of the component of `7` are stable and carry the least vertex id `7`
of their component, while the triples of the path are still active. -/
theorem stable_triple_component_min_witness :
    (symmetricEdges loopAndPath4 ∧ boundedIds loopAndPath4) ∧
    (∃ t ∈ ((iteration opt_level.stable_partition_removed true)^[0 + 1]
        (initialState (convertEdgeListforCCL loopAndPath4))).tupleVector,
      t.Pn = MAX_PID ∧ t.nId = 7 ∧ t.Pc = 7) ∧
    (∃ t ∈ ((iteration opt_level.stable_partition_removed true)^[0 + 1]
        (initialState (convertEdgeListforCCL loopAndPath4))).tupleVector, t.Pn ≠ MAX_PID) ∧
    ∀ t ∈ ((iteration opt_level.stable_partition_removed true)^[0 + 1]
        (initialState (convertEdgeListforCCL loopAndPath4))).tupleVector,
      t.Pn = MAX_PID → IsCompMin loopAndPath4 t.nId t.Pc := by
  have h : ((iteration opt_level.stable_partition_removed true)^[0 + 1]
      (initialState (convertEdgeListforCCL loopAndPath4))).tupleVector =
      [⟨7, 4294967295, 7⟩, ⟨7, 4294967295, 7⟩, ⟨1, 1, 1⟩, ⟨1, 1, 1⟩, ⟨1, 1, 2⟩, ⟨1, 1, 2⟩,
        ⟨1, 1, 2⟩, ⟨1, 2, 3⟩, ⟨1, 2, 3⟩, ⟨1, 3, 4⟩, ⟨1, 2, 3⟩, ⟨1, 3, 4⟩] := rfl
  refine ⟨⟨by decide, by decide⟩, ⟨⟨7, 4294967295, 7⟩, ?_, rfl, rfl, rfl⟩,
    ⟨⟨1, 1, 1⟩, ?_, by decide⟩,
    stable_triple_component_min opt_level.stable_partition_removed true loopAndPath4
      (by decide) (by decide) 0⟩
  · rw [h]; simp
  · rw [h]; simp

/-- C6: for every edge list that holds both directions of every edge, whatever its vertex ids,
after each iteration of the main loop, at every optimization level and with doubling on or off,
the triples of the whole array with `Pc = p` are either all stable (`Pn = MAX_PID`) or all
active (`Pn ≠ MAX_PID`), for every partition id `p`. -/
theorem partition_stable_or_active (OPTIMIZATION : opt_level) (DOUBLING : Bool)
    (edgeList : List (Nat × Nat)) (hsym : symmetricEdges edgeList) (k p : Nat) :
    (∀ t ∈ ((iteration OPTIMIZATION DOUBLING)^[k + 1]
        (initialState (convertEdgeListforCCL edgeList))).tupleVector,
      t.Pc = p → t.Pn = MAX_PID) ∨
    (∀ t ∈ ((iteration OPTIMIZATION DOUBLING)^[k + 1]
        (initialState (convertEdgeListforCCL edgeList))).tupleVector,
      t.Pc = p → t.Pn ≠ MAX_PID) := by
  have hc := no_mix_iterate hsym OPTIMIZATION DOUBLING k
  by_cases h : ∃ t ∈ ((iteration OPTIMIZATION DOUBLING)^[k + 1]
      (initialState (convertEdgeListforCCL edgeList))).tupleVector, t.Pc = p ∧ t.Pn = MAX_PID
  · obtain ⟨t, ht, htp, hst⟩ := h
    left
    intro u hu hup
    exact hc t ht u hu (by rw [htp, hup]) hst
  · right
    intro u hu hup hst
    exact h ⟨u, hu, hup, hst⟩

/-- The claim C6 on `sentinelEdges`, whose vertex ids include `MAX_PID2` and `MAX_PID`, for the
partition `MAX_PID2` after the first iteration: the array then holds stable triples of the
partition `MAX_PID2` and active triples of the partition `3`. -/
theorem partition_stable_or_active_witness :
    symmetricEdges sentinelEdges ∧
    (∃ t ∈ ((iteration opt_level.loadbalanced true)^[0 + 1]
        (initialState (convertEdgeListforCCL sentinelEdges))).tupleVector,
      t.Pc = 4294967294 ∧ t.Pn = MAX_PID) ∧
    (∃ t ∈ ((iteration opt_level.loadbalanced true)^[0 + 1]
        (initialState (convertEdgeListforCCL sentinelEdges))).tupleVector,
      t.Pc = 3 ∧ t.Pn ≠ MAX_PID) ∧
    ((∀ t ∈ ((iteration opt_level.loadbalanced true)^[0 + 1]
        (initialState (convertEdgeListforCCL sentinelEdges))).tupleVector,
      t.Pc = 4294967294 → t.Pn = MAX_PID) ∨
    (∀ t ∈ ((iteration opt_level.loadbalanced true)^[0 + 1]
        (initialState (convertEdgeListforCCL sentinelEdges))).tupleVector,
      t.Pc = 4294967294 → t.Pn ≠ MAX_PID)) := by
  have h : ((iteration opt_level.loadbalanced true)^[0 + 1]
      (initialState (convertEdgeListforCCL sentinelEdges))).tupleVector =
      [⟨4294967294, 4294967295, 4294967294⟩, ⟨4294967294, 4294967295, 4294967295⟩,
        ⟨3, 3, 3⟩, ⟨3, 3, 3⟩, ⟨3, 3, 8589934591⟩, ⟨3, 3, 8589934591⟩,
        ⟨3, 4294967294, 4294967294⟩, ⟨3, 4294967294, 4294967295⟩] := rfl
  refine ⟨by decide, ⟨⟨4294967294, 4294967295, 4294967294⟩, ?_, rfl, rfl⟩,
    ⟨⟨3, 3, 3⟩, ?_, rfl, by decide⟩,
    partition_stable_or_active opt_level.loadbalanced true sentinelEdges (by decide) 0
      4294967294⟩
  · rw [h]; simp
  · rw [h]; simp

/-! ## Running the loop again -/

/-- C8, as stated, fails: two of the vertex ids of `sentinelEdges` are `MAX_PID2` and
`MAX_PID`; the loop converges on the array built from it, and a second run on the array it
leaves does not report convergence in its first iteration. -/
theorem rerun_sentinelEdges_not_converged :
    ∃ s, runConnectedComponentLabeling opt_level.stable_partition_removed false 2
        (convertEdgeListforCCL sentinelEdges) = some s ∧ s.converged = true ∧
      (iteration opt_level.stable_partition_removed false
        (initialState s.tupleVector)).converged = false ∧
      runConnectedComponentLabeling opt_level.stable_partition_removed false 1 s.tupleVector
        = none :=
  ⟨_, rfl, rfl, rfl, rfl⟩

/-- C8, amended: for every edge list whose vertex ids avoid the sentinels, at every
optimization level and with doubling on or off, the loop converges, and a second run on the
array it leaves reports convergence in its first iteration and returns the same triples with
the same multiplicities. -/
theorem rerun_is_fixpoint (OPTIMIZATION : opt_level) (DOUBLING : Bool)
    (edgeList : List (Nat × Nat)) (hav : avoidsSentinels edgeList) :
    (∃ fuel s, runConnectedComponentLabeling OPTIMIZATION DOUBLING fuel
      (convertEdgeListforCCL edgeList) = some s) ∧
    ∀ fuel s, runConnectedComponentLabeling OPTIMIZATION DOUBLING fuel
        (convertEdgeListforCCL edgeList) = some s →
      ∃ s', runConnectedComponentLabeling OPTIMIZATION DOUBLING 1 s.tupleVector = some s' ∧
        s'.iterCount = 1 ∧ s'.converged = true ∧ s'.tupleVector.Perm s.tupleVector :=
  ⟨run_terminates OPTIMIZATION DOUBLING _,
    fun _ _ h => rerun_fixpoint (noSentinel_convert hav) h⟩

/-- The amended C8 on two disconnected triangles. -/
theorem rerun_is_fixpoint_witness :
    avoidsSentinels twoTriangles ∧
    ((∃ fuel s, runConnectedComponentLabeling opt_level.stable_partition_removed true fuel
      (convertEdgeListforCCL twoTriangles) = some s) ∧
    ∀ fuel s, runConnectedComponentLabeling opt_level.stable_partition_removed true fuel
        (convertEdgeListforCCL twoTriangles) = some s →
      ∃ s', runConnectedComponentLabeling opt_level.stable_partition_removed true 1
          s.tupleVector = some s' ∧
        s'.iterCount = 1 ∧ s'.converged = true ∧ s'.tupleVector.Perm s.tupleVector) :=
  ⟨by decide,
    rerun_is_fixpoint opt_level.stable_partition_removed true twoTriangles (by decide)⟩

end conn.coloring

namespace conn.coloring

/-! ## The ingest -/

/-- C11, as stated, fails: `collidingEdges` has four distinct vertex ids, none of them
`MAX_NID`, and the ingest gives the triples emitted for the source `0` and the triples emitted
for the source `2 ^ 32` the same initial `Pc`, `0`. -/
theorem ingest_collidingEdges_shares_Pc :
    (vertexIds collidingEdges).length < 2 ^ 32 - 2 ∧
    (∀ v ∈ vertexIds collidingEdges, v ≠ MAX_NID) ∧
    convertEdgeListforCCL collidingEdges
      = (sources collidingEdges).flatMap
          (fun u => (convertBucket true true (runOf collidingEdges u)).1) ∧
    ∃ u ∈ sources collidingEdges, ∃ v ∈ sources collidingEdges,
      ∃ t ∈ (convertBucket true true (runOf collidingEdges u)).1,
      ∃ t' ∈ (convertBucket true true (runOf collidingEdges v)).1,
        t.Pc = t'.Pc ∧ u ≠ v :=
  ⟨by decide, by decide, convertEdgeListforCCL_eq_flatMap collidingEdges,
    0, by decide, 4294967296, by decide, ⟨0, 4294967295, 0⟩, by decide,
    ⟨0, 4294967295, 4294967296⟩, by decide, rfl, by decide⟩

/-- C11, amended: the ingest emits its triples source by source, and for every edge list whose
source vertex ids are below `2 ^ 32`, so that they fit the partition id type, two triples
have the same initial `Pc` only if they were emitted for the same source vertex. -/
theorem ingest_Pc_determines_source (edgeList : List (Nat × Nat))
    (h : ∀ e ∈ edgeList, e.1 < 2 ^ pIdBits) :
    convertEdgeListforCCL edgeList
      = (sources edgeList).flatMap
          (fun u => (convertBucket true true (runOf edgeList u)).1) ∧
    ∀ u ∈ sources edgeList, ∀ v ∈ sources edgeList,
      ∀ t ∈ (convertBucket true true (runOf edgeList u)).1,
      ∀ t' ∈ (convertBucket true true (runOf edgeList v)).1, t.Pc = t'.Pc → u = v := by
  refine ⟨convertEdgeListforCCL_eq_flatMap edgeList, ?_⟩
  intro u hu v hv t ht t' ht' hpc
  have hPc : ∀ w ∈ sources edgeList, ∀ x ∈ (convertBucket true true (runOf edgeList w)).1,
      x.Pc = w := by
    intro w hw x hx
    rw [convertBucket_runOf hw] at hx
    obtain ⟨e, he, rfl⟩ := mem_sources.1 hw
    have hfit : toPid e.1 = e.1 := Nat.mod_eq_of_lt (h e he)
    unfold emitRun at hx
    rcases List.mem_cons.1 hx with hx | hx
    · rw [hx]; exact hfit
    · obtain ⟨e', _, rfl⟩ := List.mem_map.1 hx
      exact hfit
  rw [← hPc u hu t ht, ← hPc v hv t' ht', hpc]

/-- The amended C11 on two disconnected triangles. -/
theorem ingest_Pc_determines_source_witness :
    (∀ e ∈ twoTriangles, e.1 < 2 ^ pIdBits) ∧
    (convertEdgeListforCCL twoTriangles
      = (sources twoTriangles).flatMap
          (fun u => (convertBucket true true (runOf twoTriangles u)).1) ∧
    ∀ u ∈ sources twoTriangles, ∀ v ∈ sources twoTriangles,
      ∀ t ∈ (convertBucket true true (runOf twoTriangles u)).1,
      ∀ t' ∈ (convertBucket true true (runOf twoTriangles v)).1, t.Pc = t'.Pc → u = v) :=
  ⟨by decide, ingest_Pc_determines_source twoTriangles (by decide)⟩

/-- C12: on an engine built from an empty edge list the triple array is empty and `compute`
fails its assertion, whatever the optimization level, the doubling setting and the bound on
the iterations: it returns neither an array nor a component count. -/
theorem compute_empty_aborts (OPTIMIZATION : opt_level) (DOUBLING : Bool) (fuel : Nat) :
    (ccl.new []).tupleVector = [] ∧
    compute OPTIMIZATION DOUBLING fuel (ccl.new []) = Except.error Failure.assertionFailed :=
  ⟨rfl, rfl⟩

set_option maxRecDepth 1000000 in
/-- C13: on the path `1-2-3-4-5-6-7-8`, both directions, at every optimization level, the
main loop converges in 3 iterations with doubling on and in 5 iterations with doubling off,
whatever bound on the iterations lets it converge, and in both settings every triple ends with
`Pc = 1`. -/
theorem path8_iterations (OPTIMIZATION : opt_level) :
    ∃ s s',
      runConnectedComponentLabeling OPTIMIZATION true 3 (convertEdgeListforCCL path8) = some s ∧
      runConnectedComponentLabeling OPTIMIZATION false 5 (convertEdgeListforCCL path8)
        = some s' ∧
      (∀ fuel a, runConnectedComponentLabeling OPTIMIZATION true fuel
        (convertEdgeListforCCL path8) = some a → a = s) ∧
      (∀ fuel b, runConnectedComponentLabeling OPTIMIZATION false fuel
        (convertEdgeListforCCL path8) = some b → b = s') ∧
      (s.iterCount = 3 ∨ s.iterCount = 4) ∧ s.iterCount < s'.iterCount ∧
      s.iterCount = 3 ∧ s'.iterCount = 5 ∧
      (∀ t ∈ s.tupleVector, t.Pc = 1) ∧ (∀ t ∈ s'.tupleVector, t.Pc = 1) := by
  cases OPTIMIZATION
  · exact ⟨_, _, rfl, rfl, fun _ _ h => @run_fuel _ _ _ 3 _ _ _ h rfl,
      fun _ _ h => @run_fuel _ _ _ 5 _ _ _ h rfl,
      Or.inl rfl, by decide, rfl, rfl, by decide, by decide⟩
  · exact ⟨_, _, rfl, rfl, fun _ _ h => @run_fuel _ _ _ 3 _ _ _ h rfl,
      fun _ _ h => @run_fuel _ _ _ 5 _ _ _ h rfl,
      Or.inl rfl, by decide, rfl, rfl, by decide, by decide⟩
  · exact ⟨_, _, rfl, rfl, fun _ _ h => @run_fuel _ _ _ 3 _ _ _ h rfl,
      fun _ _ h => @run_fuel _ _ _ 5 _ _ _ h rfl,
      Or.inl rfl, by decide, rfl, rfl, by decide, by decide⟩

/-- C14, as stated, fails: for the edge `2 ^ 32 - (2 ^ 32 + 1)`, both directions, the ingest
emits the self-loop triple `(0, MAX_PID, 2 ^ 32)`, whose `Pc` is the source narrowed to 32
bits, and not `(2 ^ 32, MAX_PID, 2 ^ 32)`. -/
theorem ingest_wideEdge_narrows_source :
    ∃ t ∈ convertEdgeListforCCL wideEdge, t ∉ ingestByRuns id wideEdge :=
  ⟨⟨0, 4294967295, 4294967296⟩, by decide, by decide⟩

/-- C14, amended: the ingest sorts the edge list by source vertex and emits, for every source
`u` in ascending order, that is, for every maximal run of edges with the same source, the
self-loop triple `(u mod 2 ^ 32, MAX_PID, u)` once, followed by `(u mod 2 ^ 32, MAX_PID, v)`
for every edge `(u, v)` of the run in order; the length of the output is the number of edges
plus the number of runs, and when the sources are below `2 ^ 32` the `Pc` field holds `u`
itself. -/
theorem convertEdgeListforCCL_by_runs (edgeList : List (Nat × Nat)) :
    (sortedBySrc edgeList).Perm edgeList ∧
    (sortedBySrc edgeList).Pairwise (fun a b => a.1 ≤ b.1) ∧
    (sources edgeList).Nodup ∧
    (sources edgeList).flatMap (runOf edgeList) = sortedBySrc edgeList ∧
    (∀ u, ∀ e ∈ runOf edgeList u, e.1 = u) ∧
    convertEdgeListforCCL edgeList = ingestByRuns toPid edgeList ∧
    (convertEdgeListforCCL edgeList).length = edgeList.length + (sources edgeList).length ∧
    ((∀ e ∈ edgeList, e.1 < 2 ^ pIdBits) →
      convertEdgeListforCCL edgeList = ingestByRuns id edgeList) := by
  refine ⟨sortedBySrc_perm _, sortedBySrc_sorted _, sources_nodup _, flatMap_runOf _,
    fun u e he => (mem_runOf.1 he).2, convertEdgeListforCCL_eq_ingestByRuns _, ?_, ?_⟩
  · rw [convertEdgeListforCCL_eq_ingestByRuns, ingestByRuns_length]
  · intro h
    rw [convertEdgeListforCCL_eq_ingestByRuns]
    exact ingestByRuns_congr (fun e he => Nat.mod_eq_of_lt (h e he))

/-! ## The partition ids -/

/-- C15, as stated, fails. Before the first iteration the partition `2` of the array built
from the edge `1 - 2`, both directions, has the member `1`. After the first iteration on the
path `1-2-3-4-5-6-7-8` with doubling on, and on the path `1-2-3-4` with doubling off, the
partition `2` has only members above `2`. -/
theorem partition_id_not_least_member :
    (∃ t ∈ (initialState (convertEdgeListforCCL oneEdge)).tupleVector,
      ∃ u ∈ (initialState (convertEdgeListforCCL oneEdge)).tupleVector,
        u.Pc = t.Pc ∧ u.nId < t.Pc) ∧
    (∃ t ∈ (iteration opt_level.loadbalanced true
        (initialState (convertEdgeListforCCL path8))).tupleVector,
      ∀ u ∈ (iteration opt_level.loadbalanced true
        (initialState (convertEdgeListforCCL path8))).tupleVector,
        u.Pc = t.Pc → t.Pc < u.nId) ∧
    (∃ t ∈ (iteration opt_level.loadbalanced false
        (initialState (convertEdgeListforCCL path4))).tupleVector,
      ∀ u ∈ (iteration opt_level.loadbalanced false
        (initialState (convertEdgeListforCCL path4))).tupleVector,
        u.Pc = t.Pc → t.Pc < u.nId) :=
  ⟨⟨⟨2, 4294967295, 2⟩, by decide, ⟨2, 4294967295, 1⟩, by decide, rfl, by decide⟩,
    ⟨⟨2, 5, 6⟩, by decide, by decide⟩, ⟨⟨2, 2, 3⟩, by decide, by decide⟩⟩

/-- C15, amended: for every edge list that holds both directions of every edge and whose
vertex ids are at most `MAX_PID - 2`, at every optimization level and with doubling on or off,
the main loop converges, and in the array it leaves every partition id present is the least
vertex id among the members of its partition: some triple of the partition has it as `nId`
and no triple of the partition has a smaller `nId`. -/
theorem converged_partition_id_least_member (OPTIMIZATION : opt_level) (DOUBLING : Bool)
    (edgeList : List (Nat × Nat)) (hsym : symmetricEdges edgeList)
    (hbd : boundedIds edgeList) :
    (∃ fuel s, runConnectedComponentLabeling OPTIMIZATION DOUBLING fuel
      (convertEdgeListforCCL edgeList) = some s) ∧
    ∀ fuel s, runConnectedComponentLabeling OPTIMIZATION DOUBLING fuel
        (convertEdgeListforCCL edgeList) = some s →
      ∀ t ∈ s.tupleVector,
        (∃ u ∈ s.tupleVector, u.Pc = t.Pc ∧ u.nId = t.Pc) ∧
        ∀ u ∈ s.tupleVector, u.Pc = t.Pc → t.Pc ≤ u.nId := by
  refine ⟨run_terminates OPTIMIZATION DOUBLING _, ?_⟩
  intro fuel s h t ht
  obtain ⟨hmin, hperm⟩ := run_isCompMin hsym hbd h
  exact label_least_member hmin hperm ht

/-- The amended C15 on the path `1-2-3-4-5-6-7-8`. -/
theorem converged_partition_id_least_member_witness :
    (symmetricEdges path8 ∧ boundedIds path8) ∧
    ((∃ fuel s, runConnectedComponentLabeling opt_level.loadbalanced true fuel
      (convertEdgeListforCCL path8) = some s) ∧
    ∀ fuel s, runConnectedComponentLabeling opt_level.loadbalanced true fuel
        (convertEdgeListforCCL path8) = some s →
      ∀ t ∈ s.tupleVector,
        (∃ u ∈ s.tupleVector, u.Pc = t.Pc ∧ u.nId = t.Pc) ∧
        ∀ u ∈ s.tupleVector, u.Pc = t.Pc → t.Pc ≤ u.nId) :=
  ⟨⟨by decide, by decide⟩,
    converged_partition_id_least_member opt_level.loadbalanced true path8 (by decide)
      (by decide)⟩

/-- C16: when every vertex id of the edge list is at most `MAX_PID - 2`, every triple of the
array has `Pc` at most `MAX_PID - 2` after the ingest (`k = 0`) and after every iteration of
the main loop, at every optimization level and with doubling on or off. -/
theorem Pc_stays_in_range (OPTIMIZATION : opt_level) (DOUBLING : Bool)
    (edgeList : List (Nat × Nat)) (hbd : boundedIds edgeList) (k : Nat) :
    ∀ t ∈ ((iteration OPTIMIZATION DOUBLING)^[k]
        (initialState (convertEdgeListforCCL edgeList))).tupleVector,
      t.Pc ≤ MAX_PID - 2 := by
  intro t ht
  have h := (noSentinel_iterate OPTIMIZATION DOUBLING
    (noSentinel_convert (avoidsSentinels_of_boundedIds hbd)) k t ht).1
  have h2 : MAX_PID2 = MAX_PID - 2 + 1 := by decide
  omega

/-- The claim C16 on the path `1-2-3-4-5-6-7-8`, after two iterations with doubling on. -/
theorem Pc_stays_in_range_witness :
    boundedIds path8 ∧
    ∀ t ∈ ((iteration opt_level.loadbalanced true)^[2]
        (initialState (convertEdgeListforCCL path8))).tupleVector,
      t.Pc ≤ MAX_PID - 2 :=
  ⟨by decide, Pc_stays_in_range opt_level.loadbalanced true path8 (by decide) 2⟩

/-! ## The two updates -/

/-- C17: on one rank `updatePn` returns the range sorted by `(nId, Pc)`, with the `Pc` and
`nId` of every triple as the sort leaves them, and the `Pn` of a triple of node `v` is the
least `Pc` of the triples of `v` when two triples of `v` differ in `Pc`, and `MAX_PID2` when
all triples of `v` have the same `Pc`. -/
theorem updatePn_contract (prevMinPc nextMaxPc : T) (range : List T) :
    (updatePn 0 1 prevMinPc nextMaxPc range).Sorted
      (fun a b => ¬ TpleComp2Layers cclTupleIds.nId cclTupleIds.Pc b a) ∧
    (updatePn 0 1 prevMinPc nextMaxPc range).map (fun t => (t.Pc, t.nId))
      = (sort (TpleComp2Layers cclTupleIds.nId cclTupleIds.Pc) range).map
          (fun t => (t.Pc, t.nId)) ∧
    ((updatePn 0 1 prevMinPc nextMaxPc range).map (fun t => (t.Pc, t.nId))).Perm
      (range.map (fun t => (t.Pc, t.nId))) ∧
    ∀ t ∈ updatePn 0 1 prevMinPc nextMaxPc range,
      ((∃ u ∈ range, ∃ u' ∈ range, u.nId = t.nId ∧ u'.nId = t.nId ∧ u.Pc ≠ u'.Pc) →
        (∃ u ∈ range, u.nId = t.nId ∧ u.Pc = t.Pn) ∧
        ∀ u ∈ range, u.nId = t.nId → t.Pn ≤ u.Pc) ∧
      ((∀ u ∈ range, ∀ u' ∈ range, u.nId = t.nId → u'.nId = t.nId → u.Pc = u'.Pc) →
        t.Pn = MAX_PID2) := by
  refine ⟨updatePn_sorted _ _ _, updatePn_map_Pc_nId _ _ _, ?_, ?_⟩
  · rw [updatePn_map_Pc_nId]
    exact (sort_perm _ range).map _
  · intro t ht
    obtain ⟨t0, ht0, rfl⟩ := mem_updatePn.1 ht
    rw [setPn_nId]
    constructor
    · rintro ⟨u, hu, u', hu', hn, hn', hne⟩
      have hna : ¬ NodeAgrees range t0.nId := fun hag => hne (hag u hu u' hu' hn hn')
      rw [setPn_Pn_of_not_agrees ht0 hna]
      obtain ⟨w, hw, hwn, hwp⟩ := minPc_mem ht0
      refine ⟨⟨w, hw, hwn, hwp⟩, ?_⟩
      intro x hx hxn
      have := minPc_le hx
      rw [hxn] at this
      exact this
    · intro hag
      exact setPn_Pn_of_agrees ht0 hag

/-- C18: on one rank `updatePc` returns the range sorted by `(Pc, Pn)` and rewritten triple
by triple: with `n(p)` the least `Pn` of the triples with `Pc = p`, a triple of partition `p`
gets `Pc := n(p)` and keeps its `Pn` when `n(p) < MAX_PID2`, and keeps its `Pc` and gets
`Pn := MAX_PID` otherwise; its `nId` is unchanged. -/
theorem updatePc_contract (DOUBLING : Bool) (prevMinPn : T) (range : List T) :
    (updatePc DOUBLING 0 prevMinPn range).range
      = (sort (TpleComp2Layers cclTupleIds.Pc cclTupleIds.Pn) range).map (setPc range) ∧
    (updatePc DOUBLING 0 prevMinPn range).range.Perm (range.map (setPc range)) ∧
    ∀ t ∈ range,
      ((∃ u ∈ range, u.Pc = t.Pc ∧ u.Pn = minPn range t.Pc) ∧
        ∀ u ∈ range, u.Pc = t.Pc → minPn range t.Pc ≤ u.Pn) ∧
      (setPc range t).nId = t.nId ∧
      (minPn range t.Pc < MAX_PID2 →
        (setPc range t).Pc = minPn range t.Pc ∧ (setPc range t).Pn = t.Pn) ∧
      (¬ minPn range t.Pc < MAX_PID2 →
        (setPc range t).Pc = t.Pc ∧ (setPc range t).Pn = MAX_PID) := by
  refine ⟨updatePc_range _ _ _, updatePc_perm _ _ _, ?_⟩
  intro t ht
  refine ⟨⟨minPn_mem ht, ?_⟩, setPc_nId _ _, ?_, ?_⟩
  · intro u hu hup
    have := minPn_le hu
    rw [hup] at this
    exact this
  · intro h
    unfold setPc
    rw [if_pos h]
    exact ⟨rfl, rfl⟩
  · intro h
    unfold setPc
    rw [if_neg h]
    exact ⟨rfl, rfl⟩

/-- C19: on one rank `updatePc` returns `true` exactly when every partition of the range has
least `Pn` at least `MAX_PID2`, that is, when no bucket migrates; in that case the range comes
back sorted by `(Pc, Pn)` with no `Pc` changed and every `Pn` set to `MAX_PID`. -/
theorem updatePc_converged_contract (DOUBLING : Bool) (prevMinPn : T) (range : List T) :
    ((updatePc DOUBLING 0 prevMinPn range).converged = true
      ↔ ∀ t ∈ range, MAX_PID2 ≤ minPn range t.Pc) ∧
    ((updatePc DOUBLING 0 prevMinPn range).converged = true →
      (updatePc DOUBLING 0 prevMinPn range).range
        = (sort (TpleComp2Layers cclTupleIds.Pc cclTupleIds.Pn) range).map
            (fun t => { t with Pn := MAX_PID }) ∧
      (updatePc DOUBLING 0 prevMinPn range).parentRequestTupleVector = []) := by
  have hiff : (updatePc DOUBLING 0 prevMinPn range).converged = true
      ↔ ∀ t ∈ range, MAX_PID2 ≤ minPn range t.Pc := by
    rw [updatePc_converged]
    constructor
    · intro h t ht; exact Nat.le_of_not_lt (h t ht)
    · intro h t ht; exact Nat.not_lt.2 (h t ht)
  refine ⟨hiff, ?_⟩
  intro hc
  have hall := hiff.1 hc
  constructor
  · rw [updatePc_range]
    apply List.map_congr_left
    intro t ht
    have htr : t ∈ range := (sort_perm _ range).subset ht
    unfold setPc
    rw [if_neg (Nat.not_lt.2 (hall t htr))]
  · apply List.eq_nil_iff_forall_not_mem.2
    intro r hr
    obtain ⟨_, t, ht, hlt, _⟩ := (mem_updatePc_requests DOUBLING prevMinPn range r).1 hr
    exact absurd hlt (Nat.not_lt.2 (hall t ht))

/-- C20: on one rank, with doubling on, the request vector `updatePc` leaves holds one triple
`(MAX_PID, MAX_PID, n(p))` for every partition id `p` of the range whose bucket migrates
(`n(p) < MAX_PID2`), in ascending order of `p`, and nothing else; with doubling off the
request vector stays empty, and the array after the iteration is the stable part followed by
what `updatePc` left, `doPointerDoubling` not being run. -/
theorem updatePc_requests_contract (prevMinPn : T) (range : List T) :
    (partitionIds range).Nodup ∧
    (∀ p, p ∈ partitionIds range ↔ ∃ t ∈ range, t.Pc = p) ∧
    (updatePc true 0 prevMinPn range).parentRequestTupleVector
      = ((partitionIds range).filter (fun p => decide (minPn range p < MAX_PID2))).map
          (fun p => ⟨MAX_PID, MAX_PID, minPn range p⟩) ∧
    (updatePc false 0 prevMinPn range).parentRequestTupleVector = [] ∧
    (∀ (s : LoopState), (iteration opt_level.naive false s).tupleVector
      = stableOf s ++
        (updatePc false 0 default (updatePn 0 1 default default (activeOf s))).range) ∧
    (∀ (O : opt_level) (s : LoopState) (t : T), t ∈ (iteration O false s).tupleVector
      ↔ t ∈ stableOf s ∨
        t ∈ (updatePc false 0 default (updatePn 0 1 default default (activeOf s))).range) := by
  refine ⟨List.nodup_dedup _, ?_, updatePc_requests_eq _ _, updatePc_requests_off _ _, ?_, ?_⟩
  · intro p
    unfold partitionIds
    rw [List.mem_dedup, List.mem_map]
    constructor
    · rintro ⟨t, ht, h⟩
      exact ⟨t, (sort_perm _ range).subset ht, h⟩
    · rintro ⟨t, ht, h⟩
      exact ⟨t, (sort_perm _ range).symm.subset ht, h⟩
  · intro s
    rw [(iteration_parts_kept opt_level.naive false s (Or.inr rfl)).2.2, activeAfter_false]
  · intro O s t
    rw [mem_tupleVector_iteration, activeAfter_false]

end conn.coloring

namespace conn.coloring

/-! ## The doubling -/

/-- C21: on one rank the first pass of `doPointerDoubling` sorts the enlarged active range by
`(nId, Pc)` and rewrites its triples one by one: a request triple `(MAX_PID, MAX_PID, newPc)`
becomes `(newPc, g, MAX_NID)`, with `g` the least `Pc` among the triples of the range whose
`nId` is `newPc`, and every ordinary triple (`Pc ≠ MAX_PID`) stays as it is.  The function
`doPointerDoubling` is this pass, the second pass and the erasure of the flipped triples. -/
theorem first_pass_flips_requests (prevMinPc : T) (range : List T) :
    doublingFirstPass 0 prevMinPc range
      = (sort (TpleComp2Layers cclTupleIds.nId cclTupleIds.Pc) range).map
          (flipRequest range) ∧
    (∀ e ∈ range, e.Pc = MAX_PID → e.nId < 2 ^ pIdBits →
      flipRequest range e = ⟨e.nId, minPc range e.nId, MAX_NID⟩) ∧
    (∀ e ∈ range, (∃ u ∈ range, u.nId = e.nId ∧ u.Pc = minPc range e.nId) ∧
      ∀ u ∈ range, u.nId = e.nId → minPc range e.nId ≤ u.Pc) ∧
    (∀ e ∈ range, e.Pc ≠ MAX_PID → flipRequest range e = e) ∧
    (∀ (prevMinPn : T) (beginOffset : Nat) (requests tupleVector : List T),
      doPointerDoubling 0 prevMinPc prevMinPn beginOffset requests tupleVector
        = (tupleVector ++ requests).take beginOffset ++
          (partitionStableTuples cclTupleIds.nId (fun a b => decide (a ≠ b)) MAX_NID
            (doublingSecondPass 0 prevMinPn
              (doublingFirstPass 0 prevMinPc
                ((tupleVector ++ requests).drop beginOffset)))).1) := by
  refine ⟨doublingFirstPass_eq _ _, ?_, ?_, ?_, ?_⟩
  · intro e _ hPc hlt
    rw [flipRequest_of_request _ hPc, toPid_of_lt_pow hlt]
  · intro e he
    refine ⟨minPc_mem he, ?_⟩
    intro u hu hn
    have := minPc_le hu
    rw [hn] at this
    exact this
  · intro e _ hPc
    exact flipRequest_of_ordinary _ hPc
  · intro prevMinPn beginOffset requests tupleVector
    exact doPointerDoubling_passes 0 prevMinPc prevMinPn beginOffset requests tupleVector

/-- C22, as stated, fails: on `staleParentRange` the partitions `5` and `8` share node `7` and
migrate to `newPc = 5`; the only triple of node `5` holds `Pc = 9`, so the grandparent is
`g(5) = 9`, and the doubling leaves the migrated triples with `Pc = 5`, not `9`.  The same
happens in the first iteration on the edges `(2 ^ 32 + 5, 7)`, `(8, 7)`, `(9, 5)`. -/
theorem doubling_keeps_newPc_below_grandparent :
    (updatePc true 0 default (updatePn 0 1 default default staleParentRange)).range
      = [⟨5, 5, 7⟩, ⟨5, 5, 7⟩, ⟨9, 4294967295, 5⟩] ∧
    minPc (updatePc true 0 default (updatePn 0 1 default default staleParentRange)).range 5
      = 9 ∧
    doPointerDoubling 0 default default 0
      (updatePc true 0 default
        (updatePn 0 1 default default staleParentRange)).parentRequestTupleVector
      (updatePc true 0 default (updatePn 0 1 default default staleParentRange)).range
      = [⟨5, 5, 7⟩, ⟨5, 5, 7⟩, ⟨9, 4294967295, 5⟩] ∧
    (updatePc true 0 default
      (updatePn 0 1 default default (convertEdgeListforCCL narrowedParentEdges))).range
      = [⟨5, 5, 7⟩, ⟨5, 4294967294, 4294967301⟩, ⟨5, 5, 7⟩, ⟨5, 4294967294, 8⟩,
         ⟨9, 4294967295, 5⟩, ⟨9, 4294967295, 9⟩] ∧
    minPc (updatePc true 0 default
      (updatePn 0 1 default default (convertEdgeListforCCL narrowedParentEdges))).range 5
      = 9 ∧
    doPointerDoubling 0 default default 0
      (updatePc true 0 default (updatePn 0 1 default default
        (convertEdgeListforCCL narrowedParentEdges))).parentRequestTupleVector
      (updatePc true 0 default (updatePn 0 1 default default
        (convertEdgeListforCCL narrowedParentEdges))).range
      = [⟨5, 5, 7⟩, ⟨5, 5, 7⟩, ⟨5, 4294967294, 8⟩, ⟨5, 4294967294, 4294967301⟩,
         ⟨9, 4294967295, 5⟩, ⟨9, 4294967295, 9⟩] :=
  ⟨rfl, rfl, rfl, rfl, rfl, rfl⟩

/-- C22, amended: when `doPointerDoubling` is run on the result of `updatePn` followed by
`updatePc` of an active range without sentinels, the triples of the range come back, up to
their order, with `Pn` and `nId` unchanged; a triple that `updatePc` marked stable keeps its
`Pc`, and a triple of a partition that migrated to `newPc` ends with the smaller of `newPc`
and `g(newPc)`, where `g(newPc)` is the least `Pc` held after `updatePc` by the triples with
`nId = newPc`.  When no triple has `nId = newPc` the `Pc` stays `newPc`. -/
theorem doubling_promotes_to_smaller_of_parent (A : List T) (hb : NoSentinel A) :
    (doPointerDoubling 0 default default 0
        (updatePc true 0 default (updatePn 0 1 default default A)).parentRequestTupleVector
        (updatePc true 0 default (updatePn 0 1 default default A)).range).Perm
      ((updatePc true 0 default (updatePn 0 1 default default A)).range.map
        (fun w => if w.Pn = MAX_PID then w
          else { w with Pc := min w.Pc (minPc (doublingRange A) w.Pc) })) ∧
    (∀ c, (∃ u ∈ (updatePc true 0 default (updatePn 0 1 default default A)).range,
          u.nId = c) →
      minPc (doublingRange A) c
        = minPc (updatePc true 0 default (updatePn 0 1 default default A)).range c) ∧
    (∀ w ∈ (updatePc true 0 default (updatePn 0 1 default default A)).range,
      w.Pn ≠ MAX_PID →
      (∀ u ∈ (updatePc true 0 default (updatePn 0 1 default default A)).range,
        u.nId ≠ w.Pc) →
      min w.Pc (minPc (doublingRange A) w.Pc) = w.Pc) := by
  refine ⟨doPointerDoubling_perm_range hb, ?_, ?_⟩
  · intro c hc
    exact minPc_doublingRange_of_node hb hc
  · intro w hw hPn hno
    obtain ⟨t, ht, rfl⟩ := mem_updatePc_iff_img2.1 hw
    have hns : ¬ BucketStable A t.Pc := fun hs => hPn ((img2_Pn_eq_MAX_PID_iff hb ht).2 hs)
    have hq : ∃ q ∈ (updatePc true 0 default
        (updatePn 0 1 default default A)).parentRequestTupleVector, q.nId = (img2 A t).Pc :=
      ⟨_, (mem_requests_iff hb).2 ⟨t, ht, hns, rfl⟩, rfl⟩
    rw [minPc_doublingRange_of_no_node hno hq]
    have hlt := img2_Pc_lt_MAX_PID2 hb ht
    have h2 := MAX_PID2_lt_MAX_PID
    exact Nat.min_eq_left (by omega)

/-- The amended C22 on `staleParentRange`, where the migrated triples end with
`min 5 9 = 5`. -/
theorem doubling_promotes_to_smaller_of_parent_witness :
    NoSentinel staleParentRange ∧
    ((doPointerDoubling 0 default default 0
        (updatePc true 0 default
          (updatePn 0 1 default default staleParentRange)).parentRequestTupleVector
        (updatePc true 0 default (updatePn 0 1 default default staleParentRange)).range).Perm
      ((updatePc true 0 default (updatePn 0 1 default default staleParentRange)).range.map
        (fun w => if w.Pn = MAX_PID then w
          else { w with Pc := min w.Pc (minPc (doublingRange staleParentRange) w.Pc) })) ∧
    (∀ c, (∃ u ∈ (updatePc true 0 default
          (updatePn 0 1 default default staleParentRange)).range, u.nId = c) →
      minPc (doublingRange staleParentRange) c
        = minPc (updatePc true 0 default
            (updatePn 0 1 default default staleParentRange)).range c) ∧
    (∀ w ∈ (updatePc true 0 default (updatePn 0 1 default default staleParentRange)).range,
      w.Pn ≠ MAX_PID →
      (∀ u ∈ (updatePc true 0 default (updatePn 0 1 default default staleParentRange)).range,
        u.nId ≠ w.Pc) →
      min w.Pc (minPc (doublingRange staleParentRange) w.Pc) = w.Pc)) :=
  ⟨by unfold NoSentinel; decide,
    doubling_promotes_to_smaller_of_parent staleParentRange (by unfold NoSentinel; decide)⟩

/-- C23, as stated, fails: in `mixedBucket` the two triples of partition `7` have `Pn = 3` and
`Pn = MAX_PID`; the second pass looks at the first triple of the sorted bucket only, finds
`Pn = 3`, and rewrites the `Pc` of both triples to `3`.  In the engine this happens in the
first iteration on `sentinelDirectedEdges`: the triple `(MAX_PID, MAX_PID, 0)` of the ingest
is flipped by the first pass to `(0, MAX_PID2, MAX_NID)`, and the second pass rewrites the
bucket of partition `0`, whose two other triples have `Pn = MAX_PID`, to `Pc = MAX_PID2`. -/
theorem second_pass_rewrites_mixed_bucket :
    (∃ t ∈ mixedBucket, t.Pc = 7 ∧ t.Pn = MAX_PID) ∧
    (∀ t ∈ mixedBucket, t.Pc = 7) ∧
    doublingSecondPass 0 default mixedBucket = [⟨3, 3, 1⟩, ⟨3, 4294967295, 2⟩] ∧
    doublingFirstPass 0 default
        (doublingRange (convertEdgeListforCCL sentinelDirectedEdges))
      = [⟨4294967294, 4294967295, 0⟩, ⟨0, 4294967294, 18446744073709551615⟩,
         ⟨0, 4294967295, 4294967296⟩, ⟨0, 4294967295, 4294967297⟩,
         ⟨4294967294, 4294967295, 8589934590⟩,
         ⟨4294967295, 4294967295, 18446744073709551615⟩] ∧
    doublingSecondPass 0 default (doublingFirstPass 0 default
        (doublingRange (convertEdgeListforCCL sentinelDirectedEdges)))
      = [⟨4294967294, 4294967294, 18446744073709551615⟩,
         ⟨4294967294, 4294967295, 4294967296⟩, ⟨4294967294, 4294967295, 4294967297⟩,
         ⟨4294967294, 4294967295, 0⟩, ⟨4294967294, 4294967295, 8589934590⟩,
         ⟨4294967295, 4294967295, 18446744073709551615⟩] ∧
    (iteration opt_level.naive true
        (initialState (convertEdgeListforCCL sentinelDirectedEdges))).tupleVector
      = [⟨4294967294, 4294967295, 4294967296⟩, ⟨4294967294, 4294967295, 4294967297⟩,
         ⟨4294967294, 4294967295, 0⟩, ⟨4294967294, 4294967295, 8589934590⟩] :=
  ⟨by decide, by decide, rfl, rfl, rfl, rfl⟩

/-- C23, amended: on one rank the second pass of `doPointerDoubling` sorts the range by
`(Pc, Pn)` and rewrites its triples one by one; a triple of a partition bucket in which every
triple has `Pn = MAX_PID` is left as it is, and a triple of a bucket that holds a triple with
`Pn` below `MAX_PID` receives the least `Pn` of the bucket as its `Pc`, whatever its own `Pn`.
In an iteration on an active range without sentinels, on the range that the first pass leaves,
a bucket in which some triple has `Pn = MAX_PID` keeps all its triples as they are. -/
theorem second_pass_leaves_stable_buckets (prevMinPn : T) (range : List T) :
    doublingSecondPass 0 prevMinPn range
      = (sort (TpleComp2Layers cclTupleIds.Pc cclTupleIds.Pn) range).map
          (setGrandParent range) ∧
    (∀ e ∈ range, (∀ u ∈ range, u.Pc = e.Pc → u.Pn = MAX_PID) → setGrandParent range e = e) ∧
    (∀ e ∈ range, (∃ u ∈ range, u.Pc = e.Pc ∧ u.Pn < MAX_PID) →
      setGrandParent range e = { e with Pc := minPn range e.Pc } ∧
      (∃ u ∈ range, u.Pc = e.Pc ∧ u.Pn = minPn range e.Pc) ∧
      ∀ u ∈ range, u.Pc = e.Pc → minPn range e.Pc ≤ u.Pn) ∧
    (∀ A : List T, NoSentinel A →
      doublingFirstPass 0 default (doublingRange A)
        = (sort (TpleComp2Layers cclTupleIds.nId cclTupleIds.Pc) (doublingRange A)).map
            (flipRequest (doublingRange A)) ∧
      (doublingFirstPass 0 default (doublingRange A)).Perm (flipped A) ∧
      ∀ e ∈ flipped A, (∃ u ∈ flipped A, u.Pc = e.Pc ∧ u.Pn = MAX_PID) →
        setGrandParent (flipped A) e = e) := by
  refine ⟨doublingSecondPass_eq _ _, ?_, ?_, ?_⟩
  · intro e he h
    exact setGrandParent_of_all_stable he h
  · intro e he h
    refine ⟨setGrandParent_of_some_active h, minPn_mem he, ?_⟩
    intro u hu hc
    have := minPn_le hu
    rw [hc] at this
    exact this
  · intro A hb
    refine ⟨doublingFirstPass_eq _ _, ?_, ?_⟩
    · rw [doublingFirstPass_eq, flipped_eq]
      exact (sort_perm _ _).map _
    · rintro e _ ⟨u, hu, huc, hun⟩
      exact setGrandParent_flipped_of_stable_mark hb hu huc hun

/-- C24: `doPointerDoubling` removes exactly the request triples it appended.  When the offset
lies inside the array, the appended triples are requests (`Pc = MAX_PID`) and no triple of the
array has `nId = MAX_NID` or `Pc = MAX_PID`, the array after the call has the length and the
multiset of `nId` values of the array before the requests were appended, no triple with
`nId = MAX_NID`, and the prefix `[0, beginOffset)` of the array before the call. -/
theorem doubling_removes_requests (prevMinPc prevMinPn : T) (beginOffset : Nat)
    (requests tupleVector : List T) (hoff : beginOffset ≤ tupleVector.length)
    (hreq : ∀ q ∈ requests, q.Pc = MAX_PID)
    (hord : ∀ t ∈ tupleVector, t.nId ≠ MAX_NID ∧ t.Pc ≠ MAX_PID) :
    (doPointerDoubling 0 prevMinPc prevMinPn beginOffset requests tupleVector).length
      = tupleVector.length ∧
    ((doPointerDoubling 0 prevMinPc prevMinPn beginOffset requests tupleVector).map
      T.nId).Perm (tupleVector.map T.nId) ∧
    (∀ t ∈ doPointerDoubling 0 prevMinPc prevMinPn beginOffset requests tupleVector,
      t.nId ≠ MAX_NID) ∧
    (doPointerDoubling 0 prevMinPc prevMinPn beginOffset requests tupleVector).take
      beginOffset = tupleVector.take beginOffset := by
  obtain ⟨rest, h1, h2⟩ := doPointerDoubling_generic prevMinPc prevMinPn hoff hreq
    (fun t ht => hord t (List.mem_of_mem_drop ht))
  have hlen : (tupleVector.take beginOffset).length = beginOffset := by
    rw [List.length_take]; omega
  have hnId : (rest.map T.nId).Perm ((tupleVector.drop beginOffset).map T.nId) := by
    refine (h2.map T.nId).trans ?_
    rw [List.map_map]
    apply List.Perm.of_eq
    apply List.map_congr_left
    intro t _
    simp only [Function.comp, setGrandParent_nId]
  rw [h1]
  refine ⟨?_, ?_, ?_, List.take_left' hlen⟩
  · have := h2.length_eq
    rw [List.length_map, List.length_drop] at this
    rw [List.length_append, hlen, this]
    omega
  · rw [List.map_append]
    refine (List.Perm.append_left _ hnId).trans ?_
    rw [← List.map_append, List.take_append_drop]
  · intro t ht
    rcases List.mem_append.1 ht with h | h
    · exact (hord t (List.mem_of_mem_take h)).1
    · have : t.nId ∈ rest.map T.nId := List.mem_map.2 ⟨t, h, rfl⟩
      obtain ⟨u, hu, hun⟩ := List.mem_map.1 (hnId.subset this)
      rw [← hun]
      exact (hord u (List.mem_of_mem_drop hu)).1

/-- The claim C24 on an array of one stable and two active triples, with the request for the
partition id `5` appended. -/
theorem doubling_removes_requests_witness :
    (1 ≤ [(⟨1, 4294967295, 1⟩ : T), ⟨5, 5, 7⟩, ⟨9, 4294967295, 5⟩].length ∧
      (∀ q ∈ [(⟨4294967295, 4294967295, 5⟩ : T)], q.Pc = MAX_PID) ∧
      ∀ t ∈ [(⟨1, 4294967295, 1⟩ : T), ⟨5, 5, 7⟩, ⟨9, 4294967295, 5⟩],
        t.nId ≠ MAX_NID ∧ t.Pc ≠ MAX_PID) ∧
    doPointerDoubling 0 default default 1 [⟨4294967295, 4294967295, 5⟩]
      [⟨1, 4294967295, 1⟩, ⟨5, 5, 7⟩, ⟨9, 4294967295, 5⟩]
      = [⟨1, 4294967295, 1⟩, ⟨5, 5, 7⟩, ⟨9, 4294967295, 5⟩] ∧
    ((doPointerDoubling 0 default default 1 [⟨4294967295, 4294967295, 5⟩]
        [⟨1, 4294967295, 1⟩, ⟨5, 5, 7⟩, ⟨9, 4294967295, 5⟩]).length
      = [(⟨1, 4294967295, 1⟩ : T), ⟨5, 5, 7⟩, ⟨9, 4294967295, 5⟩].length ∧
    ((doPointerDoubling 0 default default 1 [⟨4294967295, 4294967295, 5⟩]
        [⟨1, 4294967295, 1⟩, ⟨5, 5, 7⟩, ⟨9, 4294967295, 5⟩]).map T.nId).Perm
      ([(⟨1, 4294967295, 1⟩ : T), ⟨5, 5, 7⟩, ⟨9, 4294967295, 5⟩].map T.nId) ∧
    (∀ t ∈ doPointerDoubling 0 default default 1 [⟨4294967295, 4294967295, 5⟩]
        [⟨1, 4294967295, 1⟩, ⟨5, 5, 7⟩, ⟨9, 4294967295, 5⟩], t.nId ≠ MAX_NID) ∧
    (doPointerDoubling 0 default default 1 [⟨4294967295, 4294967295, 5⟩]
        [⟨1, 4294967295, 1⟩, ⟨5, 5, 7⟩, ⟨9, 4294967295, 5⟩]).take 1
      = [(⟨1, 4294967295, 1⟩ : T), ⟨5, 5, 7⟩, ⟨9, 4294967295, 5⟩].take 1) :=
  ⟨⟨by decide, by decide, by decide⟩, rfl,
    doubling_removes_requests default default 1 [⟨4294967295, 4294967295, 5⟩]
      [⟨1, 4294967295, 1⟩, ⟨5, 5, 7⟩, ⟨9, 4294967295, 5⟩] (by decide) (by decide)
      (by decide)⟩

/-! ## The stable prefix -/

/-- C25: at the level `stable_partition_removed`, in the run on any array and for every `k`:
when iteration `k + 1` did not converge, afterwards every triple of `[begin, mid)` has
`Pn = MAX_PID` and every triple of `[mid, end)` has `Pn ≠ MAX_PID`; `mid` does not decrease;
the prefix `[begin, mid)` after `k` iterations is still there, element for element, after any
number `j` of further iterations; and what an iteration leaves right of `mid`, and whether it
converged, depends on the triples right of `mid` only. -/
theorem stable_part_frozen (DOUBLING : Bool) (tupleVector : List T) (k : Nat) :
    (((iteration opt_level.stable_partition_removed DOUBLING)^[k + 1]
        (initialState tupleVector)).converged = false →
      (∀ t ∈ stableOf ((iteration opt_level.stable_partition_removed DOUBLING)^[k + 1]
          (initialState tupleVector)), t.Pn = MAX_PID) ∧
      (∀ t ∈ activeOf ((iteration opt_level.stable_partition_removed DOUBLING)^[k + 1]
          (initialState tupleVector)), t.Pn ≠ MAX_PID)) ∧
    ((iteration opt_level.stable_partition_removed DOUBLING)^[k]
        (initialState tupleVector)).distance_begin_mid
      ≤ ((iteration opt_level.stable_partition_removed DOUBLING)^[k + 1]
        (initialState tupleVector)).distance_begin_mid ∧
    (∀ j, ((iteration opt_level.stable_partition_removed DOUBLING)^[j]
        ((iteration opt_level.stable_partition_removed DOUBLING)^[k]
          (initialState tupleVector))).tupleVector.take
        ((iteration opt_level.stable_partition_removed DOUBLING)^[k]
          (initialState tupleVector)).distance_begin_mid
      = ((iteration opt_level.stable_partition_removed DOUBLING)^[k]
          (initialState tupleVector)).tupleVector.take
        ((iteration opt_level.stable_partition_removed DOUBLING)^[k]
          (initialState tupleVector)).distance_begin_mid) ∧
    (∀ s : LoopState,
      activeOf s = activeOf ((iteration opt_level.stable_partition_removed DOUBLING)^[k]
        (initialState tupleVector)) →
      activeOf (iteration opt_level.stable_partition_removed DOUBLING s)
        = activeOf ((iteration opt_level.stable_partition_removed DOUBLING)^[k + 1]
          (initialState tupleVector)) ∧
      (iteration opt_level.stable_partition_removed DOUBLING s).converged
        = ((iteration opt_level.stable_partition_removed DOUBLING)^[k + 1]
          (initialState tupleVector)).converged) := by
  refine ⟨?_, ?_, ?_, ?_⟩
  · intro hc
    refine ⟨stablePart_iterate _ _ _ _, ?_⟩
    rw [Function.iterate_succ_apply'] at hc ⊢
    exact active_after_moved _ _ _ (by decide) hc
  · rw [Function.iterate_succ_apply']
    exact iteration_mid_ge _ _ _
  · intro j
    exact iterate_take_mid _ _ j _
  · intro s hs
    rw [Function.iterate_succ_apply']
    exact iteration_active_congr _ _ hs

/-! ## The walk of `updatePn` on several ranks -/

/-- C26: for every range sorted by `(nId, Pc)` and every split of it into non-empty
contiguous blocks, one for each rank, the walk of `updatePn` on every rank, with the left
carry and the right carry that `mxx::exscan` hands to it, writes into every triple of its
block the `Pn` that the walk on one rank writes over the whole range: the least `Pc` of the
node when it is below the greatest, and `MAX_PID2` otherwise. -/
theorem updatePn_ranks_refine_one_rank (blocks : List (List T))
    (hne : ∀ b ∈ blocks, b ≠ [])
    (hs : blocks.flatten.Sorted
      (fun a b => ¬ TpleComp2Layers cclTupleIds.nId cclTupleIds.Pc b a)) :
    (updatePnRanks blocks).flatten = updatePn 0 1 default default blocks.flatten ∧
    updatePnRanks blocks = blocks.map (fun b => b.map (setPn blocks.flatten)) ∧
    updatePn 0 1 default default blocks.flatten
      = blocks.flatten.map (setPn blocks.flatten) ∧
    (∀ e, setPn blocks.flatten e
      = if minPc blocks.flatten e.nId < maxPc blocks.flatten e.nId
        then { e with Pn := minPc blocks.flatten e.nId }
        else { e with Pn := MAX_PID2 }) := by
  refine ⟨updatePnRanks_flatten hne hs, updatePnRanks_eq hne hs, ?_, fun e => rfl⟩
  rw [updatePn_eq, sort_eq_self _ hs]

/-- The claim C26 on `threeBlocks`, where node `2` spans the three ranks. -/
theorem updatePn_ranks_refine_one_rank_witness :
    ((∀ b ∈ threeBlocks, b ≠ []) ∧
      threeBlocks.flatten.Sorted
        (fun a b => ¬ TpleComp2Layers cclTupleIds.nId cclTupleIds.Pc b a)) ∧
    updatePnRanks threeBlocks
      = [[⟨4, 4, 1⟩, ⟨6, 4, 1⟩, ⟨2, 2, 2⟩], [⟨3, 2, 2⟩, ⟨5, 2, 2⟩],
         [⟨7, 2, 2⟩, ⟨9, 4294967294, 3⟩]] ∧
    ((updatePnRanks threeBlocks).flatten
        = updatePn 0 1 default default threeBlocks.flatten ∧
      updatePnRanks threeBlocks
        = threeBlocks.map (fun b => b.map (setPn threeBlocks.flatten)) ∧
      updatePn 0 1 default default threeBlocks.flatten
        = threeBlocks.flatten.map (setPn threeBlocks.flatten) ∧
      (∀ e, setPn threeBlocks.flatten e
        = if minPc threeBlocks.flatten e.nId < maxPc threeBlocks.flatten e.nId
          then { e with Pn := minPc threeBlocks.flatten e.nId }
          else { e with Pn := MAX_PID2 })) :=
  ⟨⟨by decide, by decide⟩, rfl,
    updatePn_ranks_refine_one_rank threeBlocks (by decide) (by decide)⟩

/-- C27, as stated, fails: on `threeNodeBlocks` the first buckets of the ranks `1` and `2`
give `(nId 2, Pc 5)` and `(nId 3, Pc 9)`; the right carry of rank `0` is `(nId 2, Pc 5)`, the
pair with the smaller `nId`, where a reducer that keeps the larger `nId` gives
`(nId 3, Pc 9)`. -/
theorem right_carry_keeps_smaller_nId :
    threeNodeBlocks.map maxPcOfFirstBucket = [⟨6, 0, 1⟩, ⟨5, 0, 2⟩, ⟨9, 0, 3⟩] ∧
    nextMaxPcOf threeNodeBlocks 0 = ⟨5, 0, 2⟩ ∧
    TpleReduce2Layers cclTupleIds.nId cclTupleIds.Pc less greater ⟨9, 0, 3⟩ ⟨5, 0, 2⟩
      = ⟨5, 0, 2⟩ ∧
    mirrorReducerOfSpec ⟨9, 0, 3⟩ ⟨5, 0, 2⟩ = ⟨9, 0, 3⟩ ∧
    exscanReverse mirrorReducerOfSpec default (threeNodeBlocks.map maxPcOfFirstBucket) 0
      = ⟨9, 0, 3⟩ :=
  ⟨rfl, rfl, rfl, rfl, rfl⟩

/-- C27, amended: the right carry of `updatePn` is the reverse exscan of the values
`maxPcOfFirstBucket` of the ranks, with the reducer that keeps, of two triples, the one with
the smaller `nId` and, on equal `nId`, one with the larger `Pc`.  The value of a rank is a
triple of its block with the least `nId` and, among those, the greatest `Pc`: the
`(nId, max Pc)` of its first bucket; and the carry of a rank other than the last is a triple
of the following ranks with the least `nId` and, among those, the greatest `Pc`. -/
theorem right_carry_contract (blocks : List (List T)) :
    (∀ i, nextMaxPcOf blocks i
      = exscanReverse (TpleReduce2Layers cclTupleIds.nId cclTupleIds.Pc less greater) default
          (blocks.map (fun block =>
            local_reduce (TpleReduce2Layers cclTupleIds.nId cclTupleIds.Pc less greater)
              default block)) i) ∧
    (∀ a b : T,
      (a.nId < b.nId →
        TpleReduce2Layers cclTupleIds.nId cclTupleIds.Pc less greater a b = a) ∧
      (b.nId < a.nId →
        TpleReduce2Layers cclTupleIds.nId cclTupleIds.Pc less greater a b = b) ∧
      (a.nId = b.nId →
        (TpleReduce2Layers cclTupleIds.nId cclTupleIds.Pc less greater a b = a ∨
          TpleReduce2Layers cclTupleIds.nId cclTupleIds.Pc less greater a b = b) ∧
        (TpleReduce2Layers cclTupleIds.nId cclTupleIds.Pc less greater a b).Pc
          = max a.Pc b.Pc)) ∧
    (∀ block ∈ blocks, block ≠ [] → IsMinNodeMaxPc (maxPcOfFirstBucket block) block) ∧
    ((∀ b ∈ blocks, b ≠ []) → ∀ i, i + 1 < blocks.length →
      IsMinNodeMaxPc (nextMaxPcOf blocks i) (blocks.drop (i + 1)).flatten) := by
  refine ⟨fun i => rfl, ?_, ?_, ?_⟩
  · intro a b
    obtain ⟨hch, ha, hb⟩ := reduceRight_spec a b
    refine ⟨?_, ?_, ?_⟩
    · intro h
      rcases hch with h1 | h1
      · exact h1
      · rw [h1] at ha; omega
    · intro h
      rcases hch with h1 | h1
      · rw [h1] at hb; omega
      · exact h1
    · intro h
      refine ⟨hch, ?_⟩
      rcases hch with h1 | h1
      · rw [h1] at hb ⊢
        have : b.Pc ≤ a.Pc := by omega
        exact (Nat.max_eq_left this).symm
      · rw [h1] at ha ⊢
        have : a.Pc ≤ b.Pc := by omega
        exact (Nat.max_eq_right this).symm
  · intro block _ hne
    exact maxPcOfFirstBucket_spec hne
  · intro hne i hi
    exact nextMaxPcOf_spec hne hi

/-- C28: the reducers of the carries are associative: the reducer of the left carry of
`updatePn` (larger `nId`, then smaller `Pc`), the reducer of its right carry (smaller `nId`,
then larger `Pc`), the mirror reducer in the words of the specification (larger `nId`, then
larger `Pc`), and the reducer of the carry of `updatePc` (larger `Pc`, then smaller `Pn`). -/
theorem carry_reducers_associative (a b c : T) :
    TpleReduce2Layers cclTupleIds.nId cclTupleIds.Pc greater less
        (TpleReduce2Layers cclTupleIds.nId cclTupleIds.Pc greater less a b) c
      = TpleReduce2Layers cclTupleIds.nId cclTupleIds.Pc greater less a
        (TpleReduce2Layers cclTupleIds.nId cclTupleIds.Pc greater less b c) ∧
    TpleReduce2Layers cclTupleIds.nId cclTupleIds.Pc less greater
        (TpleReduce2Layers cclTupleIds.nId cclTupleIds.Pc less greater a b) c
      = TpleReduce2Layers cclTupleIds.nId cclTupleIds.Pc less greater a
        (TpleReduce2Layers cclTupleIds.nId cclTupleIds.Pc less greater b c) ∧
    mirrorReducerOfSpec (mirrorReducerOfSpec a b) c
      = mirrorReducerOfSpec a (mirrorReducerOfSpec b c) ∧
    TpleReduce2Layers cclTupleIds.Pc cclTupleIds.Pn greater less
        (TpleReduce2Layers cclTupleIds.Pc cclTupleIds.Pn greater less a b) c
      = TpleReduce2Layers cclTupleIds.Pc cclTupleIds.Pn greater less a
        (TpleReduce2Layers cclTupleIds.Pc cclTupleIds.Pn greater less b c) :=
  ⟨TpleReduce2Layers_assoc _ _ _ _ (Or.inr rfl) (Or.inl rfl) a b c,
    TpleReduce2Layers_assoc _ _ _ _ (Or.inl rfl) (Or.inr rfl) a b c,
    mirrorReducerOfSpec_assoc a b c,
    TpleReduce2Layers_assoc _ _ _ _ (Or.inr rfl) (Or.inl rfl) a b c⟩

/-! ## Labels and components -/

/-- C29, as stated, fails: `wideEdge` holds both directions of the edge between `2 ^ 32` and
`2 ^ 32 + 1`; after the ingest the triple of node `2 ^ 32` has `Pc = 0`, which is not a
vertex of the graph and is not connected to `2 ^ 32`. -/
theorem ingest_wideEdge_label_not_vertex :
    symmetricEdges wideEdge ∧
    ∃ t ∈ convertEdgeListforCCL wideEdge,
      t = ⟨0, 4294967295, 4294967296⟩ ∧ ¬ IsVertex wideEdge t.Pc ∧
        ¬ Connected wideEdge t.nId t.Pc := by
  have hv : ¬ IsVertex wideEdge 0 := by unfold IsVertex; decide
  refine ⟨by decide, ⟨0, 4294967295, 4294967296⟩, by decide, rfl, hv, ?_⟩
  intro h
  rcases connected_eq_or_isVertex h with h1 | h1
  · exact absurd h1 (by decide)
  · exact hv h1

/-- C29, amended: for every edge list that holds both directions of every edge and whose
vertex ids are at most `MAX_PID - 2`, after the ingest (`k = 0`) and after every iteration of
the main loop, at every optimization level and with doubling on or off, the `nId` of each
triple is a vertex, and its `Pc` is the id of a vertex that lies in the same connected
component. -/
theorem labels_stay_in_component (OPTIMIZATION : opt_level) (DOUBLING : Bool)
    (edgeList : List (Nat × Nat)) (hsym : symmetricEdges edgeList) (hbd : boundedIds edgeList)
    (k : Nat) :
    ∀ t ∈ ((iteration OPTIMIZATION DOUBLING)^[k]
        (initialState (convertEdgeListforCCL edgeList))).tupleVector,
      IsVertex edgeList t.nId ∧ IsVertex edgeList t.Pc ∧ Connected edgeList t.nId t.Pc :=
  label_in_component hsym hbd OPTIMIZATION DOUBLING k

/-- The amended C29 on two disconnected triangles, after two iterations with doubling on. -/
theorem labels_stay_in_component_witness :
    (symmetricEdges twoTriangles ∧ boundedIds twoTriangles) ∧
    ∀ t ∈ ((iteration opt_level.naive true)^[2]
        (initialState (convertEdgeListforCCL twoTriangles))).tupleVector,
      IsVertex twoTriangles t.nId ∧ IsVertex twoTriangles t.Pc ∧
        Connected twoTriangles t.nId t.Pc :=
  ⟨⟨by decide, by decide⟩,
    labels_stay_in_component opt_level.naive true twoTriangles (by decide) (by decide) 2⟩

end conn.coloring
